import Mathlib

/-!
# falcON oct-tree construction (`usr/dehnen/falcON/src/public/tree.cc`)

A shallow embedding of the tree builder of `tree.cc` and proofs about it.

Conventions of the embedding

* A `real` is an exact rational or NaN: arithmetic is exact (no rounding, no
  infinities), NaN propagates through arithmetic and every comparison with NaN
  is false.
* The pointer structure of the box-dot tree (`node* OCT[Nsub]`, where a `node`
  is the common base of `dot` and `box` and a pointer may be null) is the
  inductive type `node`.  The bit `TYPE & (1<<i)` of a box, which in the source
  tells whether `OCT[i]` points to a box or to a dot, is the constructor tag of
  slot `i`; `mark_as_box(i)` is performed by storing a `node.box` in slot `i`.
* A linked list of dots (`dot::NEXT`, list head `box::DOTS`) is a `List dot`
  whose head is the list head; the null pointer is the empty list.
* The `uint8` field `box::LEVEL` is a `Nat` that is reduced modulo `2^8` where
  the source increments it.
* Loops that walk down or rebuild the tree take a step budget (`fuel`); the
  outcome `Res.fuel` says that the loop did not finish within the budget.
* `error(...)` of the source ends the program; it is the outcome `Res.error`.
* Stores into the cell and leaf arrays of the tree are recorded as lists of
  `(index, value)` pairs, the most recent store first.
* Code under `#ifdef falcON_MPI` and `#ifdef falcON_track_bug` is not part of
  the embedding, nor is the argument `nl` of the insertion routines, which
  only sizes the next block of the box allocator.
* Helpers of headers that are not under src (`is_set`, `isnan`, `up_min_max`,
  the values of `enum state` and `enum usage`) are modelled from the
  specification; their doc comments say so.
* Counters (`NUMBER`, `NLEAFS`, `NCELLS`, array indices) are natural numbers:
  their machine width plays no part below.

The file has the embedding first, then the quantities in which the layout of
the cell-leaf tree is described, then the lemmas, then the claims `C1`, `C2`, ...
-/

namespace falcON

/-! ## Outcomes -/

/-- The fatal errors raised through `error(...)` in `tree.cc`, and the memory
fault of dereferencing a null or mistyped pointer. -/
inductive Fatal where
  | max_depth
  | nan_position
  | config_depth
  | fault
deriving DecidableEq, Repr

/-- Outcome of a routine: a value, a fatal error, or an exhausted step budget. -/
inductive Res (α : Type) where
  | ok (a : α)
  | error (e : Fatal)
  | fuel
deriving DecidableEq, Repr

/-- Whether the outcome is a value. -/
def Res.isOk {α : Type} : Res α → Bool
  | Res.ok _ => true
  | _ => false

/-! ## Numbers -/

/-- The type `real` of the source: NaN or an exact rational. -/
inductive real where
  | nan : real
  | val (q : ℚ) : real
deriving DecidableEq

/-- Sum of two `real`s. -/
def real.add : real → real → real
  | real.val a, real.val b => real.val (a + b)
  | _, _ => real.nan

/-- Difference of two `real`s. -/
def real.sub : real → real → real
  | real.val a, real.val b => real.val (a - b)
  | _, _ => real.nan

/-- Product of two `real`s. -/
def real.mul : real → real → real
  | real.val a, real.val b => real.val (a * b)
  | _, _ => real.nan

/-- Quotient of two `real`s; `0/0` is NaN, and so is `x/0`, an infinity in the
source. -/
def real.div : real → real → real
  | real.val a, real.val b => if b = 0 then real.nan else real.val (a / b)
  | _, _ => real.nan

/-- The function `abs(x)`. -/
def real.abs : real → real
  | real.val a => real.val |a|
  | real.nan => real.nan

/-- The comparison `a > b`. -/
def real.gt : real → real → Bool
  | real.val a, real.val b => decide (a > b)
  | _, _ => false

/-- The comparison `a < b`. -/
def real.lt : real → real → Bool
  | real.val a, real.val b => decide (a < b)
  | _, _ => false

/-- The comparison `a <= b`. -/
def real.le : real → real → Bool
  | real.val a, real.val b => decide (a ≤ b)
  | _, _ => false

/-- The test `isnan(x)`. -/
def real.isnan : real → Bool
  | real.nan => true
  | real.val _ => false

/-- The function `max(a,b)`: `a<b ? b : a`. -/
def real.max (a b : real) : real := if real.lt a b then b else a

/-- The conversion `int(x)` of a `real`: the fractional part is dropped.  The
conversion of NaN, undefined in the source, is NaN. -/
def real.trunc : real → real
  | real.val q => real.val (if q ≥ 0 then (q.floor : ℚ) else (-((-q).floor) : ℚ))
  | real.nan => real.nan

/-- The number `real(DN-D0)`. -/
def real_of_nat (n : Nat) : real := real.val n

/-- The constant `half`. -/
def half : real := real.val (1 / 2)

/-- The constant `zero`. -/
def zero : real := real.val 0

/-! ## Positions, dots and boxes -/

/-- A position `vect` with its three components `[0]`, `[1]`, `[2]`. -/
structure vect where
  x0 : real
  x1 : real
  x2 : real
deriving DecidableEq

/-- The sum `a += b` of positions. -/
def vect.add (a b : vect) : vect :=
  ⟨real.add a.x0 b.x0, real.add a.x1 b.x1, real.add a.x2 b.x2⟩

/-- The quotient `a /= r` of a position by a number. -/
def vect.div (a : vect) (r : real) : vect := ⟨real.div a.x0 r, real.div a.x1 r, real.div a.x2 r⟩

/-- The position `zero`. -/
def vect.zero : vect := ⟨falcON.zero, falcON.zero, falcON.zero⟩

/-- What a position that is read outside the body array holds. -/
def vect.garbage : vect := ⟨real.nan, real.nan, real.nan⟩

/-- The `struct dot`: a position and the link to its body. -/
structure dot where
  POS : vect
  LINK : Nat
deriving DecidableEq

/-- What an octant pointer `node*` of a box can refer to: nothing, a dot, or a
box with its fields `LEVEL`, centre (`pos()`), `NUMBER`, `DOTS` and `OCT`. -/
inductive node where
  | null : node
  | dot (D : dot) : node
  | box (LEVEL : Nat) (center : vect) (NUMBER : Nat) (DOTS : List dot)
      (OCT : Fin 8 → node) : node

/-- The slot holds a box (`*N && P->marked_as_box(i)`). -/
def node.isBox : node → Bool
  | node.box _ _ _ _ _ => true
  | _ => false

/-- The test `box::is_twig()`, lines 480-482: `DOTS != 0`. -/
def node.is_twig : node → Bool
  | node.box _ _ _ DOTS _ => !DOTS.isEmpty
  | _ => false

/-- The function `octant(cen,pos)`, lines 234-239. -/
def octant (cen pos : vect) : Nat :=
  let oct := if real.gt pos.x0 cen.x0 then 1 else 0
  let oct := if real.gt pos.x1 cen.x1 then oct ||| 2 else oct
  let oct := if real.gt pos.x2 cen.x2 then oct ||| 4 else oct
  oct

/-- The octant as an index into `OCT[Nsub]`. -/
def octantF (cen pos : vect) : Fin 8 :=
  ⟨octant cen pos, by unfold octant; split_ifs <;> decide⟩

/-- The function `contains(cen,rad,pos)`, lines 243-250. -/
def contains (cen : vect) (rad : real) (pos : vect) : Bool :=
  real.le (real.abs (real.sub cen.x0 pos.x0)) rad
    && real.le (real.abs (real.sub cen.x1 pos.x1)) rad
    && real.le (real.abs (real.sub cen.x2 pos.x2)) rad

/-- The method `box::reset()` applied to a fresh box: no dots, no octants.
Level and centre are set by the caller. -/
def box_reset (LEVEL : Nat) (center : vect) : node :=
  node.box LEVEL center 0 [] (fun _ => node.null)

/-! ## The box-dot tree -/

/-- The method `shrink_to_octant(B,i)`, lines 597-607, on the level and centre
of `B`.  `++(B->LEVEL)` increments a `uint8`. -/
def shrink_to_octant (DMAX : Nat) (RA : List real) (LEVEL : Nat) (center : vect)
    (i : Nat) : Res (Nat × vect) :=
  let l := (LEVEL + 1) % 256
  if l > DMAX then Res.error Fatal.max_depth
  else
    let rad := RA.getD l real.nan
    Res.ok (l,
      { x0 := if i &&& 1 ≠ 0 then real.add center.x0 rad else real.sub center.x0 rad
        x1 := if i &&& 2 ≠ 0 then real.add center.x1 rad else real.sub center.x1 rad
        x2 := if i &&& 4 ≠ 0 then real.add center.x2 rad else real.sub center.x2 rad })

/-- The method `make_subbox(B,i,nl)`, lines 614-628: a new empty box in octant
`i` of the box with the given level and centre.  `BM` counts the boxes handed
out by the allocator (`BM->N_used()`). -/
def make_subbox (DMAX : Nat) (RA : List real) (LEVEL : Nat) (center : vect)
    (i : Fin 8) (BM : Nat) : Res (node × Nat) :=
  match shrink_to_octant DMAX RA LEVEL center i.val with
  | Res.ok (l, c) => Res.ok (box_reset l c, BM + 1)
  | Res.error e => Res.error e
  | Res.fuel => Res.fuel

/-- The method `box::adddot_to_octs(L)`, lines 508-512. -/
def adddot_to_octs : node → dot → node
  | node.box L c N DOTS OCT, D =>
      node.box L c (N + 1) DOTS (Function.update OCT (octantF c D.POS) (node.dot D))
  | P, _ => P

/-- The method `box::adddot_to_list(L)`, lines 504-506. -/
def adddot_to_list : node → dot → node
  | node.box L c N DOTS OCT, D => node.box L c (N + 1) (D :: DOTS) OCT
  | P, _ => P

/-- The method `make_subbox_1(B,i,L,nl)`, lines 632-641. -/
def make_subbox_1 (DMAX : Nat) (RA : List real) (LEVEL : Nat) (center : vect)
    (i : Fin 8) (L : dot) (BM : Nat) : Res (node × Nat) :=
  match make_subbox DMAX RA LEVEL center i BM with
  | Res.ok (P, BM1) => Res.ok (adddot_to_octs P L, BM1)
  | Res.error e => Res.error e
  | Res.fuel => Res.fuel

/-- The method `make_subbox_N(B,i,L,nl)`, lines 645-654. -/
def make_subbox_N (DMAX : Nat) (RA : List real) (LEVEL : Nat) (center : vect)
    (i : Fin 8) (L : dot) (BM : Nat) : Res (node × Nat) :=
  match make_subbox DMAX RA LEVEL center i BM with
  | Res.ok (P, BM1) => Res.ok (adddot_to_list P L, BM1)
  | Res.error e => Res.error e
  | Res.fuel => Res.fuel

/-- The method `adddot_1(base,Di,nl)`, lines 692-712.  One unfolding is one
pass through the body of `for(box*P=base;;)`; the box returned is `P` after the
stores made through it and below it. -/
def adddot_1 (DMAX : Nat) (RA : List real) : Nat → node → dot → Nat → Res (node × Nat)
  | 0, _, _, _ => Res.fuel
  | fuel + 1, node.box L c N DOTS OCT, Di, BM =>
      let b := octantF c Di.POS
      match OCT b with
      | node.null => Res.ok (node.box L c (N + 1) DOTS (Function.update OCT b (node.dot Di)), BM)
      | node.dot Do =>
          match make_subbox_1 DMAX RA L c b Do BM with
          | Res.ok (P, BM1) =>
              match adddot_1 DMAX RA fuel P Di BM1 with
              | Res.ok (P1, BM2) =>
                  Res.ok (node.box L c (N + 1) DOTS (Function.update OCT b P1), BM2)
              | Res.error e => Res.error e
              | Res.fuel => Res.fuel
          | Res.error e => Res.error e
          | Res.fuel => Res.fuel
      | node.box L1 c1 N1 D1 O1 =>
          match adddot_1 DMAX RA fuel (node.box L1 c1 N1 D1 O1) Di BM with
          | Res.ok (P1, BM2) =>
              Res.ok (node.box L c (N + 1) DOTS (Function.update OCT b P1), BM2)
          | Res.error e => Res.error e
          | Res.fuel => Res.fuel
  | _ + 1, _, _, _ => Res.error Fatal.fault

/-- First loop of `split_box`, lines 671-675: every dot of the list is put in
front of the list of its octant (`Di->add_to_list(P->OCT[b],NUM[b])`).  A twig
has no octants, so every list starts from the null pointer. -/
def sort_dots (center : vect) (DOTS : List dot) : Fin 8 → List dot :=
  DOTS.foldl
    (fun LST Di =>
      Function.update LST (octantF center Di.POS) (Di :: LST (octantF center Di.POS)))
    (fun _ => [])

/-- The two stores `sub->DOTS = ...; sub->NUMBER = NUM[b]` of `split_box`. -/
def set_dots : node → List dot → node
  | node.box L c _ _ OCT, DOTS => node.box L c DOTS.length DOTS OCT
  | P, _ => P

/-- Variables of the second loop of `split_box`: the octants of `P`, the counter
`ne`, the octant in which the sub-box `sub` was made during this pass (if any)
and the allocator count. -/
structure split_state where
  OCT : Fin 8 → node
  ne : Nat
  sub : Option (Fin 8)
  BM : Nat

/-- Body of the second loop of `split_box`, lines 677-686, for octant `b`. -/
def split_step (DMAX : Nat) (RA : List real) (LEVEL : Nat) (center : vect)
    (LST : Fin 8 → List dot) (s : split_state) (b : Fin 8) : Res split_state :=
  match LST b with
  | [] => Res.ok s
  | [D] => Res.ok { s with OCT := Function.update s.OCT b (node.dot D), ne := s.ne + 1 }
  | D :: D1 :: rest =>
      match make_subbox DMAX RA LEVEL center b s.BM with
      | Res.ok (sub, BM1) =>
          Res.ok { OCT := Function.update s.OCT b (set_dots sub (D :: D1 :: rest))
                   ne := s.ne + 1
                   sub := some b
                   BM := BM1 }
      | Res.error e => Res.error e
      | Res.fuel => Res.fuel

/-- The second loop of `split_box` over the octants `bs`. -/
def split_loop (DMAX : Nat) (RA : List real) (LEVEL : Nat) (center : vect)
    (LST : Fin 8 → List dot) : List (Fin 8) → split_state → Res split_state
  | [], s => Res.ok s
  | b :: bs, s =>
      match split_step DMAX RA LEVEL center LST s b with
      | Res.ok s1 => split_loop DMAX RA LEVEL center LST bs s1
      | Res.error e => Res.error e
      | Res.fuel => Res.fuel

/-- The method `split_box(P,nl)`, lines 662-689.  One unfolding is one pass
through the body of the `do ... while(ne==1)` loop.  `first` tells that this is
the first pass, in which the variable `sub` is still the null pointer; in a
later pass it still points to the box of this pass, whose list is then empty. -/
def split_box (DMAX : Nat) (RA : List real) : Nat → Bool → node → Nat → Res (node × Nat)
  | 0, _, _, _ => Res.fuel
  | fuel + 1, first, node.box L c N DOTS OCT, BM =>
      match split_loop DMAX RA L c (sort_dots c DOTS) (List.finRange 8)
          { OCT := OCT, ne := 0, sub := none, BM := BM } with
      | Res.ok s =>
          if s.ne = 1 then
            match s.sub with
            | some b =>
                match split_box DMAX RA fuel false (s.OCT b) s.BM with
                | Res.ok (Q, BM2) => Res.ok (node.box L c N [] (Function.update s.OCT b Q), BM2)
                | Res.error e => Res.error e
                | Res.fuel => Res.fuel
            | none =>
                if first then Res.error Fatal.fault
                else Res.ok (node.box L c N [] s.OCT, s.BM)
          else Res.ok (node.box L c N [] s.OCT, s.BM)
      | Res.error e => Res.error e
      | Res.fuel => Res.fuel
  | _ + 1, _, _, _ => Res.error Fatal.fault

/-- The method `adddot_N(base,Di,nl)`, lines 715-741.  One unfolding is one pass
through the body of `for(box*P=base;;)`. -/
def adddot_N (NCRIT DMAX : Nat) (RA : List real) : Nat → node → dot → Nat → Res (node × Nat)
  | 0, _, _, _ => Res.fuel
  | fuel + 1, node.box L c N DOTS OCT, Di, BM =>
      if (node.box L c N DOTS OCT).is_twig then
        if N + 1 > NCRIT then
          split_box DMAX RA fuel true (node.box L c (N + 1) (Di :: DOTS) OCT) BM
        else Res.ok (node.box L c (N + 1) (Di :: DOTS) OCT, BM)
      else
        let b := octantF c Di.POS
        match OCT b with
        | node.null =>
            Res.ok (node.box L c (N + 1) DOTS (Function.update OCT b (node.dot Di)), BM)
        | node.dot Do =>
            match make_subbox_N DMAX RA L c b Do BM with
            | Res.ok (P, BM1) =>
                match adddot_N NCRIT DMAX RA fuel P Di BM1 with
                | Res.ok (P1, BM2) =>
                    Res.ok (node.box L c (N + 1) DOTS (Function.update OCT b P1), BM2)
                | Res.error e => Res.error e
                | Res.fuel => Res.fuel
            | Res.error e => Res.error e
            | Res.fuel => Res.fuel
        | node.box L1 c1 N1 D1 O1 =>
            match adddot_N NCRIT DMAX RA fuel (node.box L1 c1 N1 D1 O1) Di BM with
            | Res.ok (P1, BM2) =>
                Res.ok (node.box L c (N + 1) DOTS (Function.update OCT b P1), BM2)
            | Res.error e => Res.error e
            | Res.fuel => Res.fuel
  | _ + 1, _, _, _ => Res.error Fatal.fault

/-- The data of `class box_dot_tree`, lines 566-573.  `BM` is the number of
boxes handed out by the block allocator (`N_boxes()`), `P0` the root box. -/
structure box_dot_tree where
  NCRIT : Nat
  DMAX : Nat
  DEPTH : Nat
  NDOTS : Nat
  BM : Nat
  RA : List real
  P0 : node

/-- The method `box_dot_tree::reset(t,nc,dm,nl,x0,sz)`, lines 785-809: the
table `RA[0..DMAX]` of radii and the empty root box. -/
def box_dot_tree.reset (nc dm nl : Nat) (x0 : vect) (sz : real) : box_dot_tree :=
  { NCRIT := nc
    DMAX := dm
    DEPTH := 0
    NDOTS := nl
    BM := 1
    RA := List.iterate (fun r => real.mul half r) sz (dm + 1)
    P0 := box_reset 0 x0 }

/-- The methods `N_levels()` and `root_rad()` of the builder, lines 828-830. -/
def box_dot_tree.N_levels (TB : box_dot_tree) : Nat :=
  match TB.P0 with
  | node.box L _ _ _ _ => TB.DMAX - L
  | _ => TB.DMAX

/-- The method `root_rad()` of the builder, line 830. -/
def box_dot_tree.root_rad (TB : box_dot_tree) : real :=
  match TB.P0 with
  | node.box L _ _ _ _ => TB.RA.getD L real.nan
  | _ => real.nan

/-- The loop `for(Di=D0; Di!=DN; ++Di,++nl) adddot(P0,Di,nl)` of
`tree_builder::build`. -/
def adddots (add : node → dot → Nat → Res (node × Nat)) :
    List dot → node → Nat → Res (node × Nat)
  | [], P, BM => Res.ok (P, BM)
  | Di :: rest, P, BM =>
      match add P Di BM with
      | Res.ok (P1, BM1) => adddots add rest P1 BM1
      | Res.error e => Res.error e
      | Res.fuel => Res.fuel

/-- The method `tree_builder::build()`, lines 1119-1130, on the dots
`D0..DN`.  Every insertion has the step budget `fuel`. -/
def tree_builder.build (fuel : Nat) (TB : box_dot_tree) (dots : List dot) :
    Res box_dot_tree :=
  let add :=
    if TB.NCRIT > 1 then adddot_N TB.NCRIT TB.DMAX TB.RA fuel
    else adddot_1 TB.DMAX TB.RA fuel
  match adddots add dots TB.P0 TB.BM with
  | Res.ok (P, BM) => Res.ok { TB with P0 := P, BM := BM }
  | Res.error e => Res.error e
  | Res.fuel => Res.fuel

/-! ## Linking to the cell-leaf tree -/

/-- The tree-specific data of a `BasicCell` written by the linker (through
`level_`, `octant_`, `center_`, `number_`, `fcleaf_`, `nleafs_`, `fccell_`,
`ncells_`, lines 118-129). -/
structure BasicCell where
  LEVEL : Nat
  OCTANT : Nat
  CENTER : vect
  NUMBER : Nat
  FCLEAF : Nat
  NLEAFS : Nat
  FCCELL : Int
  NCELLS : Nat
deriving DecidableEq

/-- The data of a `BasicLeaf` written by `set_link_and_pos`. -/
structure BasicLeaf where
  POS : vect
  LINK : Nat
deriving DecidableEq

/-- The method `dot::set_leaf(L)`, lines 380-382: the leaf written for a dot. -/
def set_leaf (D : dot) : BasicLeaf := { POS := D.POS, LINK := D.LINK }

/-- The cell and leaf arrays under construction: the stores made so far (most
recent first) and the indices `Cf`, `Lf` of the next free cell and leaf. -/
structure link_state where
  CELLS : List (Nat × BasicCell)
  LEAFS : List (Nat × BasicLeaf)
  Cf : Nat
  Lf : Nat

/-- The loop `for(; Di; Di=Di->NEXT) Di->set_leaf(Lf++)` of `link_cells_N`,
lines 970-979. -/
def link_dot_list : List dot → List (Nat × BasicLeaf) → Nat → List (Nat × BasicLeaf) × Nat
  | [], LEAFS, Lf => (LEAFS, Lf)
  | Di :: rest, LEAFS, Lf => link_dot_list rest ((Lf, set_leaf Di) :: LEAFS) (Lf + 1)

/-- Variables of the first loop over the octants in `link_cells_1` and
`link_cells_N`: the counter `nsub`, the field `nleafs_(C)`, the leaf stores
and `Lf`. -/
structure kids_state where
  nsub : Nat
  nleafs : Nat
  LEAFS : List (Nat × BasicLeaf)
  Lf : Nat

/-- The first loop over the octants, lines 896-907 and 984-995: sub-boxes are
counted, sub-dots are written to the next free leaves. -/
def link_leaf_kids (OCT : Fin 8 → node) : List (Fin 8) → kids_state → kids_state
  | [], s => s
  | i :: rest, s =>
      match OCT i with
      | node.null => link_leaf_kids OCT rest s
      | node.box _ _ _ _ _ => link_leaf_kids OCT rest { s with nsub := s.nsub + 1 }
      | node.dot D =>
          link_leaf_kids OCT rest
            { s with nleafs := s.nleafs + 1, LEAFS := (s.Lf, set_leaf D) :: s.LEAFS, Lf := s.Lf + 1 }

/-- Variables of the second loop over the octants: the cell `Ci` of the next
sub-box, the depth `dep` and the arrays. -/
structure cells_state where
  Ci : Nat
  dep : Nat
  st : link_state

/-- The second loop over the octants, lines 913-923 and 1001-1011: every
sub-box is linked to the cell `Ci++` by the recursive call `rec`. -/
def link_cell_kids (isBox : Fin 8 → Bool) (rec : Fin 8 → Nat → link_state → Nat × link_state) :
    List (Fin 8) → cells_state → cells_state
  | [], s => s
  | i :: rest, s =>
      if isBox i then
        let r := rec i s.Ci s.st
        link_cell_kids isBox rec rest
          { Ci := s.Ci + 1, dep := if r.1 > s.dep then r.1 else s.dep, st := r.2 }
      else link_cell_kids isBox rec rest s

/-- The method `link_cells_1(P,o,k,C,Cf,Lf)`, lines 863-930.  The stores into
the fields of cell `C` are recorded as one store of the finished cell. -/
def link_cells_1 : node → Nat → Nat → link_state → Nat × link_state
  | node.box L c N _ OCT, o, C, st =>
      let k := link_leaf_kids OCT (List.finRange 8)
        { nsub := 0, nleafs := 0, LEAFS := st.LEAFS, Lf := st.Lf }
      if k.nsub ≠ 0 then
        let cell : BasicCell :=
          { LEVEL := L, OCTANT := o, CENTER := c, NUMBER := N, FCLEAF := st.Lf,
            NLEAFS := k.nleafs, FCCELL := st.Cf, NCELLS := k.nsub }
        let s := link_cell_kids (fun i => (OCT i).isBox)
          (fun i Ci st1 => link_cells_1 (OCT i) i.val Ci st1) (List.finRange 8)
          { Ci := st.Cf, dep := 0,
            st := { CELLS := (C, cell) :: st.CELLS, LEAFS := k.LEAFS,
                    Cf := st.Cf + k.nsub, Lf := k.Lf } }
        (s.dep + 1, s.st)
      else
        let cell : BasicCell :=
          { LEVEL := L, OCTANT := o, CENTER := c, NUMBER := N, FCLEAF := st.Lf,
            NLEAFS := k.nleafs, FCCELL := -1, NCELLS := 0 }
        (1, { CELLS := (C, cell) :: st.CELLS, LEAFS := k.LEAFS, Cf := st.Cf, Lf := k.Lf })
  | _, _, _, st => (0, st)

/-- The method `link_cells_N(P,o,k,C,Cf,Lf)`, lines 936-1019.  The stores into
the fields of cell `C` are recorded as one store of the finished cell. -/
def link_cells_N : node → Nat → Nat → link_state → Nat × link_state
  | node.box L c N DOTS OCT, o, C, st =>
      if (node.box L c N DOTS OCT).is_twig then
        let cell : BasicCell :=
          { LEVEL := L, OCTANT := o, CENTER := c, NUMBER := N, FCLEAF := st.Lf,
            NLEAFS := N, FCCELL := -1, NCELLS := 0 }
        let r := link_dot_list DOTS st.LEAFS st.Lf
        (1, { CELLS := (C, cell) :: st.CELLS, LEAFS := r.1, Cf := st.Cf, Lf := r.2 })
      else
        let k := link_leaf_kids OCT (List.finRange 8)
          { nsub := 0, nleafs := 0, LEAFS := st.LEAFS, Lf := st.Lf }
        if k.nsub ≠ 0 then
          let cell : BasicCell :=
            { LEVEL := L, OCTANT := o, CENTER := c, NUMBER := N, FCLEAF := st.Lf,
              NLEAFS := k.nleafs, FCCELL := st.Cf, NCELLS := k.nsub }
          let s := link_cell_kids (fun i => (OCT i).isBox)
            (fun i Ci st1 => link_cells_N (OCT i) i.val Ci st1) (List.finRange 8)
            { Ci := st.Cf, dep := 0,
              st := { CELLS := (C, cell) :: st.CELLS, LEAFS := k.LEAFS,
                      Cf := st.Cf + k.nsub, Lf := k.Lf } }
          (s.dep + 1, s.st)
        else
          let cell : BasicCell :=
            { LEVEL := L, OCTANT := o, CENTER := c, NUMBER := N, FCLEAF := st.Lf,
              NLEAFS := k.nleafs, FCCELL := -1, NCELLS := 0 }
          (1, { CELLS := (C, cell) :: st.CELLS, LEAFS := k.LEAFS, Cf := st.Cf, Lf := k.Lf })
  | _, _, _, st => (0, st)

/-- The method `box_dot_tree::link()`, lines 839-860: the root box is linked to
cell `C0 = 0`, with `Cf = C0+1` and `Lf` the first leaf.  Returns the builder
with `DEPTH` set, and the stores made. -/
def box_dot_tree.link (TB : box_dot_tree) : box_dot_tree × link_state :=
  let r :=
    if TB.NCRIT > 1 then link_cells_N TB.P0 0 0 { CELLS := [], LEAFS := [], Cf := 1, Lf := 0 }
    else link_cells_1 TB.P0 0 0 { CELLS := [], LEAFS := [], Cf := 1, Lf := 0 }
  ({ TB with DEPTH := r.1 }, r.2)

/-! ## Bodies and the set-up of the dots -/

/-- A body of the body source: its position and its flag word. -/
structure body where
  POS : vect
  FLG : Nat

/-- The body source `bodies`: whether the bodies carry flags (`have_flg()`), and
the bodies in the order of `begin_all_bodies()`, `++b`.  A `bodies::index` is
the position of the body in this order. -/
structure bodies where
  have_flg : Bool
  B : List body

/-- Modelled from the spec: `is_set(flg(b),SP)` of the flag header, which is not
under src: the body carries (one of) the bits of the selection flag `SP`. -/
def is_set (F SP : Nat) : Bool := F &&& SP ≠ 0

/-- Modelled from the spec: `isnan(vect)` of the tupel header, which is not under
src: the position has a NaN component. -/
def isnan (x : vect) : Bool := x.x0.isnan || x.x1.isnan || x.x2.isnan

/-- Modelled from the spec: `update_min(a,x)` of the header, not under src:
`if(x<a) a=x`. -/
def update_min (a x : real) : real := if real.lt x a then x else a

/-- Modelled from the spec: `update_max(a,x)` of the header, not under src:
`if(x>a) a=x`. -/
def update_max (a x : real) : real := if real.gt x a then x else a

/-- Modelled from the spec: `x.up_min_max(XMIN,XMAX)` of the tupel header, not
under src: the coordinate-wise minimum and maximum are updated with `x`. -/
def up_min_max (x XMIN XMAX : vect) : vect × vect :=
  (⟨update_min XMIN.x0 x.x0, update_min XMIN.x1 x.x1, update_min XMIN.x2 x.x2⟩,
   ⟨update_max XMAX.x0 x.x0, update_max XMAX.x1 x.x1, update_max XMAX.x2 x.x2⟩)

/-- The data set up by `setup_from_scratch` and `setup_leaf_order`: the dots
`D0..DN` and the members `XAVE`, `XMIN`, `XMAX` of the tree builder. -/
structure dot_setup where
  D : List dot
  XAVE : vect
  XMIN : vect
  XMAX : vect

/-- Whether `setup_from_scratch(BB,SP)` uses the body: all bodies are used
unless a flag is given and the bodies carry flags (`if(SP && BB->have_flg())`). -/
def selected (BB : bodies) (SP : Nat) (b : body) : Bool :=
  if SP ≠ 0 ∧ BB.have_flg = true then is_set b.FLG SP else true

/-- The loops over the bodies of `setup_from_scratch`, lines 1141-1160 and
1177-1192, from body number `i` on.  `minmax` tells whether the loop updates
`XMIN` and `XMAX` (the first variant) or not (the variant with given extents). -/
def scratch_loop (BB : bodies) (SP : Nat) (minmax : Bool) :
    List body → Nat → dot_setup → Res dot_setup
  | [], _, s => Res.ok s
  | b :: rest, i, s =>
      if selected BB SP b then
        if isnan b.POS then Res.error Fatal.nan_position
        else
          let mm := if minmax then up_min_max b.POS s.XMIN s.XMAX else (s.XMIN, s.XMAX)
          scratch_loop BB SP minmax rest (i + 1)
            { D := s.D ++ [{ POS := b.POS, LINK := i }]
              XAVE := vect.add s.XAVE b.POS
              XMIN := mm.1
              XMAX := mm.2 }
      else scratch_loop BB SP minmax rest (i + 1) s

/-- The method `setup_from_scratch(BB,SP)`, lines 1132-1164. -/
def setup_from_scratch (BB : bodies) (SP : Nat) : Res dot_setup :=
  let x := match BB.B with
    | [] => vect.garbage
    | b :: _ => b.POS
  match scratch_loop BB SP true BB.B 0 { D := [], XAVE := vect.zero, XMIN := x, XMAX := x } with
  | Res.ok s => Res.ok { s with XAVE := vect.div s.XAVE (real_of_nat s.D.length) }
  | Res.error e => Res.error e
  | Res.fuel => Res.fuel

/-- The method `setup_from_scratch(BB,xmin,xmax,SP)`, lines 1166-1196. -/
def setup_from_scratch_x (BB : bodies) (xmin xmax : vect) (SP : Nat) : Res dot_setup :=
  match scratch_loop BB SP false BB.B 0
      { D := [], XAVE := vect.zero, XMIN := xmin, XMAX := xmax } with
  | Res.ok s => Res.ok { s with XAVE := vect.div s.XAVE (real_of_nat s.D.length) }
  | Res.error e => Res.error e
  | Res.fuel => Res.fuel

/-- The position `BB->pos(i)` of body `i`. -/
def bodies.pos (BB : bodies) (i : Nat) : vect :=
  match BB.B[i]? with
  | some b => b.POS
  | none => vect.garbage

/-- The loop over the leaves of `setup_leaf_order`, lines 1204-1209. -/
def leaf_order_loop (BB : bodies) : List BasicLeaf → dot_setup → dot_setup
  | [], s => s
  | Li :: rest, s =>
      let x := BB.pos Li.LINK
      let mm := up_min_max x s.XMIN s.XMAX
      leaf_order_loop BB rest
        { D := s.D ++ [{ POS := x, LINK := Li.LINK }]
          XAVE := vect.add s.XAVE x
          XMIN := mm.1
          XMAX := mm.2 }

/-- The method `setup_leaf_order(BB)`, lines 1198-1212, on the leaves of the
old tree. -/
def setup_leaf_order (BB : bodies) (LEAFS : List BasicLeaf) : dot_setup :=
  let x := match LEAFS with
    | [] => vect.garbage
    | L0 :: _ => BB.pos L0.LINK
  let s := leaf_order_loop BB LEAFS { D := [], XAVE := vect.zero, XMIN := x, XMAX := x }
  { s with XAVE := vect.div s.XAVE (real_of_nat s.D.length) }

/-! ## The root box -/

/-- The function `Integer(x)`, lines 226-230. -/
def Integer (x : vect) : vect :=
  ⟨real.trunc (real.add x.x0 half), real.trunc (real.add x.x1 half),
   real.trunc (real.add x.x2 half)⟩

/-- The method `root_center()`, lines 1038-1040. -/
def root_center (ROOTCENTER : Option vect) (XAVE : vect) : vect :=
  match ROOTCENTER with
  | some x => x
  | none => Integer XAVE

/-- The number `int(one+log(D)/M_LN2)` for a rational `D > 0`, in exact
arithmetic: `1 + floor(log2 D)` when `D >= 1/2`, else `1 + ceil(log2 D)`. -/
def int_one_plus_log2 (q : ℚ) : ℤ :=
  if q ≥ 1 then 1 + (Nat.log2 q.floor.toNat : ℤ)
  else if q ≥ 1 / 2 then 0
  else 1 - (Nat.log2 (1 / q).floor.toNat : ℤ)

/-- The number `pow(two,int(one+log(D)/M_LN2))` in exact arithmetic.  For
`D <= 0` and NaN, where the conversion to `int` is undefined, it is NaN. -/
def pow_two_log (D : real) : real :=
  match D with
  | real.val q => if q > 0 then real.val ((2 : ℚ) ^ int_one_plus_log2 q) else real.nan
  | real.nan => real.nan

/-- The method `root_radius(X)`, lines 1044-1051. -/
def root_radius (XMIN XMAX X : vect) : real :=
  let D := zero
  let D := update_max D (real.max (real.abs (real.sub XMAX.x0 X.x0))
    (real.abs (real.sub XMIN.x0 X.x0)))
  let D := update_max D (real.max (real.abs (real.sub XMAX.x1 X.x1))
    (real.abs (real.sub XMIN.x1 X.x1)))
  let D := update_max D (real.max (real.abs (real.sub XMAX.x2 X.x2))
    (real.abs (real.sub XMIN.x2 X.x2)))
  pow_two_log D

/-- The constructors of `tree_builder`, lines 1215-1258, after the set-up of the
dots: the root centre, the root radius and `box_dot_tree::reset`. -/
def tree_builder.init (x0 : Option vect) (nc dm : Nat) (s : dot_setup) : box_dot_tree :=
  let X0 := root_center x0 s.XAVE
  box_dot_tree.reset nc dm s.D.length X0 (root_radius s.XMIN s.XMAX X0)

/-! ## The persistent tree: `class OctTree` -/

/-- Modelled from the spec: the value `fresh` of `enum state` of the tree header,
which is not under src (a tree that has been built for the first time). -/
def state_fresh : Nat := 0

/-- Modelled from the spec: the value `re_grown` of `enum state` (a tree that has
been rebuilt). -/
def state_re_grown : Nat := 1

/-- Modelled from the spec: the value `re_used` of `enum state` (a tree whose
leaves have been refreshed). -/
def state_re_used : Nat := 2

/-- Modelled from the spec: the value `sub_tree` of `enum state`. -/
def state_sub_tree : Nat := 4

/-- Modelled from the spec: the mask `origins` of `enum state`. -/
def state_origins : Nat := 4

/-- Modelled from the spec: the value `un_used` of `enum usage`. -/
def usage_un_used : Nat := 0

/-- The content of a leaf slot that has not been written. -/
def no_leaf : BasicLeaf := { POS := ⟨real.nan, real.nan, real.nan⟩, LINK := 0 }

/-- The content of a cell slot that has not been written. -/
def no_cell : BasicCell :=
  { LEVEL := 0, OCTANT := 0, CENTER := ⟨real.nan, real.nan, real.nan⟩, NUMBER := 0,
    FCLEAF := 0, NLEAFS := 0, FCCELL := 0, NCELLS := 0 }

/-- The array `mem` after the stores `stores` (most recent first); a store
outside the array is not part of the array. -/
def store_all {α : Type} (stores : List (Nat × α)) (mem : List α) : List α :=
  stores.foldr (fun s m => m.set s.1 s.2) mem

/-- The data of `class OctTree`: the body source, the flag, the numbers
`Ns` of leaves and `Nc` of cells, the depth (`DUINT[2]`), the maximum depth
(`DUINT[3]`), the leaf and cell arrays, the table of radii, the root centre
and the state and usage tags. -/
structure OctTree where
  BSRCES : bodies
  SPFLAG : Nat
  Ns : Nat
  Nc : Nat
  DEPTH : Nat
  MAXDEPTH : Nat
  LEAFS : List BasicLeaf
  CELLS : List BasicCell
  RA : List real
  RCENTER : vect
  STATE : Nat
  USAGE : Nat

/-- The method `OctTree::allocate(ns,nc,dm,r0)`, lines 1334-1355.  What the new
arrays hold before they are written is represented by `no_leaf`, `no_cell`. -/
def OctTree.allocate (T : OctTree) (ns nc dm : Nat) (r0 : real) : OctTree :=
  { T with
    Ns := ns
    Nc := nc
    MAXDEPTH := dm
    LEAFS := List.replicate ns no_leaf
    CELLS := List.replicate nc no_cell
    RA := List.iterate (fun r => real.mul half r) r0 (dm + 1) }

/-- The method `OctTree::set_depth(dp)`, lines 1357-1359. -/
def OctTree.set_depth (T : OctTree) (dp : Nat) : OctTree := { T with DEPTH := dp }

/-- The stores of `TB.link()` into the arrays of the tree. -/
def OctTree.store (T : OctTree) (S : link_state) : OctTree :=
  { T with LEAFS := store_all S.LEAFS T.LEAFS, CELLS := store_all S.CELLS T.CELLS }

/-- The statement `RCENTER = center(root())`. -/
def OctTree.set_rcenter (T : OctTree) : OctTree :=
  { T with RCENTER := (T.CELLS.getD 0 no_cell).CENTER }

/-- The warnings that the block common to the three entry points issues through
`warning(..)`. -/
inductive Warning where
  | nobody_in_tree
deriving DecidableEq, Repr

/-- The block common to the three entry points, lines 1374-1386, 1407-1419 and
1459-1471: with dots, build the box-dot tree, allocate, link and set the depth;
without, warn and make the tree empty.  Returns the tree as it is when the
block ends or when the program is ended by `error`, the outcome, and the
warnings issued.  `TB.build()` works on the builder only; the first store into
the tree is `allocate`. -/
def OctTree.grow_log (fuel : Nat) (T : OctTree) (TB : box_dot_tree) (D : List dot) :
    OctTree × Res Unit × List Warning :=
  if TB.NDOTS ≠ 0 then
    match tree_builder.build fuel TB D with
    | Res.ok TB1 =>
        let T1 := T.allocate TB1.NDOTS TB1.BM TB1.N_levels TB1.root_rad
        let l := TB1.link
        let T2 := T1.store l.2
        (T2.set_depth l.1.DEPTH, Res.ok (), [])
    | Res.error e => (T, Res.error e, [])
    | Res.fuel => (T, Res.fuel, [])
  else ((T.allocate 0 0 0 zero).set_depth 0, Res.ok (), [Warning.nobody_in_tree])

/-- The tree and the outcome of the block `OctTree.grow_log`, without the record
of the warnings. -/
def OctTree.grow (fuel : Nat) (T : OctTree) (TB : box_dot_tree) (D : List dot) :
    OctTree × Res Unit :=
  match OctTree.grow_log fuel T TB D with
  | (T1, r, _) => (T1, r)

/-- What a member of the tree holds that has not been set: the mem-initializers
of the constructors set neither `Ns` nor `Nc` nor the depths, which
`allocate` and `set_depth` write first.  The indeterminate content is
represented by a number that is not the value any of the entry points
stores for an empty tree. -/
def unset : Nat := 3735928559

/-- The members set by the mem-initializers of the constructors, lines 1368-1369
and 1399-1400: the body source, the flag, the null pointers `LEAFS` and `CELLS`,
the state and the usage.  The other members are not set and hold `unset` (the
numbers) or `vect.garbage` (the root centre). -/
def OctTree.init (bb : bodies) (sp : Nat) : OctTree :=
  { BSRCES := bb, SPFLAG := sp, Ns := unset, Nc := unset, DEPTH := unset, MAXDEPTH := unset,
    LEAFS := [], CELLS := [], RA := [], RCENTER := vect.garbage, STATE := state_fresh,
    USAGE := usage_un_used }

/-- The constructor `OctTree(bb,nc,x0,dm,sp)`, lines 1363-1388 (construction
from bodies). -/
def OctTree.from_bodies (fuel : Nat) (bb : bodies) (nc : Nat) (x0 : Option vect) (dm sp : Nat) :
    Res OctTree :=
  match setup_from_scratch bb sp with
  | Res.ok s =>
      match OctTree.grow fuel (OctTree.init bb sp) (tree_builder.init x0 nc dm s) s.D with
      | (T, Res.ok _) => Res.ok T.set_rcenter
      | (_, Res.error e) => Res.error e
      | (_, Res.fuel) => Res.fuel
  | Res.error e => Res.error e
  | Res.fuel => Res.fuel

/-- The constructor `OctTree(bb,xi,xa,nc,x0,dm,sp)`, lines 1392-1421
(construction from bodies with known extents). -/
def OctTree.from_bodies_x (fuel : Nat) (bb : bodies) (xi xa : vect) (nc : Nat)
    (x0 : Option vect) (dm sp : Nat) : Res OctTree :=
  if dm ≥ 1 <<< 8 then Res.error Fatal.config_depth
  else
    match setup_from_scratch_x bb xi xa sp with
    | Res.ok s =>
        match OctTree.grow fuel (OctTree.init bb sp) (tree_builder.init x0 nc dm s) s.D with
        | (T, Res.ok _) => Res.ok T.set_rcenter
        | (_, Res.error e) => Res.error e
        | (_, Res.fuel) => Res.fuel
    | Res.error e => Res.error e
    | Res.fuel => Res.fuel

/-- The method `OctTree::build(nc,x0,dm)`, lines 1449-1475 (building in place,
with the dots in the leaf order of the old tree).  Returns the tree as it is
when the method returns or when the program is ended by `error`, and the
outcome. -/
def OctTree.build (fuel : Nat) (T : OctTree) (nc : Nat) (x0 : Option vect) (dm : Nat) :
    OctTree × Res Unit :=
  if dm ≥ 1 <<< 8 then (T, Res.error Fatal.config_depth)
  else
    let s := setup_leaf_order T.BSRCES T.LEAFS
    match OctTree.grow fuel T (tree_builder.init x0 nc dm s) s.D with
    | (T1, Res.ok _) =>
        ({ T1 with STATE := (T1.STATE &&& state_origins) ||| state_re_grown
                   USAGE := usage_un_used }.set_rcenter, Res.ok ())
    | (T1, Res.error e) => (T1, Res.error e)
    | (T1, Res.fuel) => (T1, Res.fuel)

/-- Modelled from the spec: `Li->copy_from_bodies_pos(BSRCES)` of the tree header,
which is not under src: the position of the leaf becomes the current position
of the body that the leaf is linked to. -/
def copy_from_bodies_pos (BB : bodies) (L : BasicLeaf) : BasicLeaf :=
  { L with POS := BB.pos L.LINK }

/-- The method `OctTree::reuse()`, lines 1479-1484.  `BSRCES` is the body source
as it is when the method runs. -/
def OctTree.reuse (T : OctTree) : OctTree :=
  { T with
    LEAFS := T.LEAFS.map (copy_from_bodies_pos T.BSRCES)
    STATE := (T.STATE &&& state_origins) ||| state_re_used
    USAGE := usage_un_used }

/-! ## Quantities and invariants of the box-dot tree -/

/-- All dots stored in a slot or beneath it. -/
def dots_of : node → List dot
  | node.null => []
  | node.dot D => [D]
  | node.box _ _ _ DOTS OCT => DOTS ++ (List.finRange 8).flatMap (fun i => dots_of (OCT i))

/-- The number of boxes in a slot and beneath it. -/
def nboxes : node → Nat
  | node.null => 0
  | node.dot _ => 0
  | node.box _ _ _ _ OCT => 1 + ((List.finRange 8).map (fun i => nboxes (OCT i))).sum

/-- The field `NUMBER` of a box. -/
def node_number : node → Nat
  | node.box _ _ N _ _ => N
  | _ => 0

/-- The counting invariant of the insertion: `NUMBER` of a box is the number of
dots in and beneath it, a box with a dot list has no octant in use, and the same
holds for every sub-box. -/
def WF : node → Prop
  | node.null => True
  | node.dot _ => True
  | node.box L c N DOTS OCT =>
      N = (dots_of (node.box L c N DOTS OCT)).length ∧ (DOTS ≠ [] → ∀ i, OCT i = node.null) ∧
        ∀ i, WF (OCT i)

/-- No box has a dot list. -/
def no_twig : node → Prop
  | node.null => True
  | node.dot _ => True
  | node.box _ _ _ DOTS OCT => DOTS = [] ∧ ∀ i, no_twig (OCT i)

/-- What the second loop of `split_box` leaves in octant `b`: nothing, the one
dot, or a new twig box with the list of the octant. -/
def split_slot (LST : Fin 8 → List dot) (b : Fin 8) (v : node) : Prop :=
  WF v ∧ dots_of v = LST b ∧
    (v.isBox = true → ∃ l c1, v = node.box l c1 (LST b).length (LST b) (fun _ => node.null)) ∧
    (v.isBox = false → nboxes v = 0)

/-- The errors that the insertion of dots can end with. -/
def build_error (e : Fatal) : Prop := e = Fatal.max_depth ∨ e = Fatal.fault

/-- The invariant of the insertion for twig capacity `NCRIT`, maximum depth
`DMAX` and radii `RA`: the level of a box is at most `DMAX`, a dot list holds at
most `NCRIT` dots, every dot in or beneath octant `i` of a box has octant `i`
with respect to the centre of the box, and the level and centre of a sub-box in
octant `i` are those that `shrink_to_octant` makes of the level and centre of
the box. -/
def placed (NCRIT DMAX : Nat) (RA : List real) : node → Prop
  | node.null => True
  | node.dot _ => True
  | node.box L c _ DOTS OCT =>
      L ≤ DMAX ∧ DOTS.length ≤ NCRIT ∧
        ∀ i : Fin 8, (∀ d ∈ dots_of (OCT i), octantF c d.POS = i) ∧
          (∀ L1 c1 N1 D1 O1, OCT i = node.box L1 c1 N1 D1 O1 →
            shrink_to_octant DMAX RA L c i.val = Res.ok (L1, c1)) ∧
          placed NCRIT DMAX RA (OCT i)

/-- The insertion has come to its end: the dot is stored, or the insertion was
aborted with the depth error. -/
def ends_well {α : Type} : Res α → Prop
  | Res.ok _ => True
  | Res.error e => e = Fatal.max_depth
  | Res.fuel => False

/-- The invariant that `tree_builder::build()` keeps from insertion to
insertion: the tree is well formed, it has the invariant `placed`, its root is
a box of level 0, and with `Ncrit <= 1` no box has a dot list. -/
def build_invariant (nc dm : Nat) (RA : List real) (P : node) : Prop :=
  WF P ∧ placed nc dm RA P ∧ (¬ nc > 1 → no_twig P) ∧ ∃ c N D O, P = node.box 0 c N D O

/-- The slot holds a dot (`*N && !P->marked_as_box(i)`). -/
def node.isDot : node → Bool
  | node.dot _ => true
  | _ => false

/-- The octants of a box. -/
def node.octs : node → Fin 8 → node
  | node.box _ _ _ _ OCT => OCT
  | _ => fun _ => node.null

/-- The octants of a box that are in use, by a dot or by a box. -/
def occupied (P : node) : List (Fin 8) :=
  (List.finRange 8).filter (fun i => (P.octs i).isDot || (P.octs i).isBox)

/-- The octants of a box that hold a dot. -/
def with_dot (P : node) : List (Fin 8) :=
  (List.finRange 8).filter (fun i => (P.octs i).isDot)

/-- The slot reached from a slot by going down through the octants of the path:
`P.sub [] = P`, and `P.sub (i :: rest)` is `(P->OCT[i]).sub rest` for a box `P`.
Below a slot that holds no box there is nothing. -/
def node.sub : node → List (Fin 8) → node
  | P, [] => P
  | node.box _ _ _ _ OCT, i :: rest => (OCT i).sub rest
  | _, _ :: _ => node.null

/-! ## The layout written by the linker -/

/-- The dots held directly in the octants `l` of a box, in octant order. -/
def dot_kids (OCT : Fin 8 → node) : List (Fin 8) → List dot
  | [] => []
  | i :: rest =>
      match OCT i with
      | node.dot D => D :: dot_kids OCT rest
      | _ => dot_kids OCT rest

/-- The octants among `l` that hold a sub-box, in octant order. -/
def box_kids (OCT : Fin 8 → node) (l : List (Fin 8)) : List (Fin 8) :=
  l.filter (fun i => (OCT i).isBox)

/-- The stores that write the dots `ds` to the leaves `lf, lf+1, ...`, in the
order in which they are made. -/
def leaf_run : Nat → List dot → List (Nat × BasicLeaf)
  | _, [] => []
  | lf, D :: rest => (lf, set_leaf D) :: leaf_run (lf + 1) rest

/-- The dots beneath a box in the order in which the linker writes them to the
leaf array: the dot list of a twig; else the dots in the octants, then the dots
of the sub-boxes in octant order. -/
def link_order : node → List dot
  | node.box L c N DOTS OCT =>
      if (node.box L c N DOTS OCT).is_twig then DOTS
      else dot_kids OCT (List.finRange 8) ++
        (box_kids OCT (List.finRange 8)).flatMap (fun k => link_order (OCT k))
  | _ => []

/-- The number of cells the linker reserves below the cell of a box. -/
def sub_cells : node → Nat
  | node.box L c N DOTS OCT =>
      if (node.box L c N DOTS OCT).is_twig then 0
      else ((box_kids OCT (List.finRange 8)).map (fun k => 1 + sub_cells (OCT k))).sum
  | _ => 0

/-- The cell written for a box that is linked as octant `o` when the next free
cell is `cf` and the next free leaf is `lf`. -/
def root_cell : node → Nat → Nat → Nat → BasicCell
  | node.box L c N DOTS OCT, o, cf, lf =>
      if (node.box L c N DOTS OCT).is_twig then
        { LEVEL := L, OCTANT := o, CENTER := c, NUMBER := N, FCLEAF := lf,
          NLEAFS := N, FCCELL := -1, NCELLS := 0 }
      else
        { LEVEL := L, OCTANT := o, CENTER := c, NUMBER := N, FCLEAF := lf,
          NLEAFS := (dot_kids OCT (List.finRange 8)).length,
          FCCELL := if (box_kids OCT (List.finRange 8)).length ≠ 0 then (cf : Int) else -1,
          NCELLS := (box_kids OCT (List.finRange 8)).length }
  | _, o, _, lf =>
      { LEVEL := 0, OCTANT := o, CENTER := ⟨zero, zero, zero⟩, NUMBER := 0, FCLEAF := lf,
        NLEAFS := 0, FCCELL := -1, NCELLS := 0 }

/-- The cell stores of the sub-boxes `ks`: sub-box `k` gets cell `c`, its
descendants the cells from `cf` on and its dots the leaves from `lf` on; the
next sub-box continues behind them. -/
def kids_cells (rec : Fin 8 → Nat → Nat → Nat → List (Nat × BasicCell)) (nb nd : Fin 8 → Nat) :
    List (Fin 8) → Nat → Nat → Nat → List (Nat × BasicCell)
  | [], _, _, _ => []
  | k :: ks, c, cf, lf =>
      rec k c cf lf ++ kids_cells rec nb nd ks (c + 1) (cf + nb k) (lf + nd k)

/-- The cell stores made when a box is linked as octant `o` to cell `C` with
next free cell `cf` and next free leaf `lf`, in the order in which they are
made. -/
def cells_of : node → Nat → Nat → Nat → Nat → List (Nat × BasicCell)
  | node.box L c N DOTS OCT, o, C, cf, lf =>
      (C, root_cell (node.box L c N DOTS OCT) o cf lf) ::
        (if (node.box L c N DOTS OCT).is_twig then []
         else
          kids_cells (fun k c1 cf1 lf1 => cells_of (OCT k) k.val c1 cf1 lf1)
            (fun k => sub_cells (OCT k)) (fun k => (link_order (OCT k)).length)
            (box_kids OCT (List.finRange 8)) cf
            (cf + (box_kids OCT (List.finRange 8)).length)
            (lf + (dot_kids OCT (List.finRange 8)).length))
  | _, _, _, _, _ => []

/-- The arrays after the stores of linking box `P` as octant `o` to cell `C`. -/
def link_ext (P : node) (o C : Nat) (st : link_state) : link_state :=
  { CELLS := (cells_of P o C st.Cf st.Lf).reverse ++ st.CELLS
    LEAFS := (leaf_run st.Lf (link_order P)).reverse ++ st.LEAFS
    Cf := st.Cf + sub_cells P
    Lf := st.Lf + (link_order P).length }

/-- The first free cell for the descendants of the `j`-th sub-box of a box
that is linked with next free cell `cf`. -/
def kid_cf (OCT : Fin 8 → node) (cf j : Nat) : Nat :=
  cf + (box_kids OCT (List.finRange 8)).length
    + (((box_kids OCT (List.finRange 8)).take j).map (fun k => sub_cells (OCT k))).sum

/-- The first free leaf for the `j`-th sub-box of a box that is linked with
next free leaf `lf`. -/
def kid_lf (OCT : Fin 8 → node) (lf j : Nat) : Nat :=
  lf + (dot_kids OCT (List.finRange 8)).length
    + (((box_kids OCT (List.finRange 8)).take j).map (fun k => (link_order (OCT k)).length)).sum

/-- The relation `in_layout P o C cf lf Q o1 C1 cf1 lf1`: when box `P` is linked
as octant `o` to cell `C` with next free cell `cf` and next free leaf `lf`, the
box `Q` in or beneath `P` is linked as octant `o1` to cell `C1` with next free
cell `cf1` and next free leaf `lf1`. -/
inductive in_layout : node → Nat → Nat → Nat → Nat → node → Nat → Nat → Nat → Nat → Prop
  | self (P : node) (o C cf lf : Nat) (h : P.isBox = true) : in_layout P o C cf lf P o C cf lf
  | kid (L : Nat) (c : vect) (N : Nat) (DOTS : List dot) (OCT : Fin 8 → node) (o C cf lf : Nat)
      (j : Nat) (k : Fin 8) (Q : node) (o1 C1 cf1 lf1 : Nat)
      (htw : (node.box L c N DOTS OCT).is_twig = false)
      (hk : (box_kids OCT (List.finRange 8))[j]? = some k)
      (h : in_layout (OCT k) k.val (cf + j) (kid_cf OCT cf j) (kid_lf OCT lf j) Q o1 C1 cf1 lf1) :
      in_layout (node.box L c N DOTS OCT) o C cf lf Q o1 C1 cf1 lf1

/-- The cell array of the tree after `allocate(N_dots,N_boxes,..)` and `link()`. -/
def cell_array (TB : box_dot_tree) : List BasicCell :=
  store_all TB.link.2.CELLS (List.replicate TB.BM no_cell)

/-- The leaf array of the tree after `allocate(N_dots,N_boxes,..)` and `link()`. -/
def leaf_array (TB : box_dot_tree) : List BasicLeaf :=
  store_all TB.link.2.LEAFS (List.replicate TB.NDOTS no_leaf)

/-- The cell array `CELLS` holds the layout of the well-formed tree with root
box `P0`: the cells of the array are exactly the cells written for the boxes of
the tree. -/
def is_linked (P0 : node) (CELLS : List BasicCell) : Prop :=
  WF P0 ∧ P0.isBox = true ∧ (∀ x ∈ cells_of P0 0 0 1 0, CELLS[x.1]? = some x.2) ∧
    (∀ c cell, CELLS[c]? = some cell → (c, cell) ∈ cells_of P0 0 0 1 0) ∧
    CELLS.length = 1 + sub_cells P0

/-- The relation `leaf_of_cell CELLS c i`: leaf `i` belongs to cell `c` directly (it is one of its
`nleafs` leaves from `fcleaf` on) or through a chain of child cells (the
`ncells` cells from `fccell` on). -/
inductive leaf_of_cell (CELLS : List BasicCell) : Nat → Nat → Prop
  | direct (c i : Nat) (cell : BasicCell) (h : CELLS[c]? = some cell)
      (h1 : cell.FCLEAF ≤ i) (h2 : i < cell.FCLEAF + cell.NLEAFS) : leaf_of_cell CELLS c i
  | child (c k i : Nat) (cell : BasicCell) (h : CELLS[c]? = some cell)
      (h1 : cell.FCCELL ≤ (k : Int)) (h2 : (k : Int) < cell.FCCELL + (cell.NCELLS : Int))
      (h3 : leaf_of_cell CELLS k i) : leaf_of_cell CELLS c i

/-- The indices of the child cells of a cell: `fccell .. fccell+ncells-1`. -/
def child_range (cell : BasicCell) : List Nat :=
  List.range' cell.FCCELL.toNat cell.NCELLS

/-! ## Sub-trees -/

/-- The bit `SUBTREECELL`, line 201: the cell is a cell of the sub-tree. -/
def SUBTREECELL : Nat := 1 <<< 8

/-- Modelled from the spec: the bit `SUBTREE` of the flag header, which is not
under src (the node belongs to the sub-tree); a single bit other than
`SUBTREECELL`. -/
def SUBTREE : Nat := 1 <<< 7

/-- The bits `SUBTREE_FLAGS`, line 202. -/
def SUBTREE_FLAGS : Nat := SUBTREE ||| SUBTREECELL

/-- Modelled from the spec: `F->add(b)` of the flag header, not under src: the
bits `b` are set. -/
def flag_add (F b : Nat) : Nat := F ||| b

/-- Modelled from the spec: `F->un_set(b)` of the flag header, not under src: the
bits `b` are cleared. -/
def flag_un_set (F b : Nat) : Nat := F ^^^ (F &&& b)

/-- The function `flag_as_subtreecell(F)`, lines 208-210. -/
def flag_as_subtreecell (F : Nat) : Nat := flag_add F SUBTREECELL

/-- The function `unflag_subtree_flags(F)`, lines 211-213. -/
def unflag_subtree_flags (F : Nat) : Nat := flag_un_set F SUBTREE_FLAGS

/-- The function `in_subtree(F)`, lines 214-216 and 220-222. -/
def in_subtree (F : Nat) : Bool := is_set F SUBTREE

/-- The function `is_subtreecell(F)`, lines 217-219. -/
def is_subtreecell (F : Nat) : Bool := is_set F SUBTREECELL

/-- Modelled from the spec: `flag_for_subtree(N)` of the tree header, not under
src: the bit `SUBTREE` of the leaf or cell is set. -/
def flag_for_subtree (F : Nat) : Nat := flag_add F SUBTREE

/-- The flags of the leaves and the cells of a tree: `LEAF i` and `CELL i` are
the flag words of leaf and cell number `i`. -/
structure tree_flags where
  LEAF : Nat → Nat
  CELL : Nat → Nat

/-- Modelled from the spec: the leaves `fcleaf(C) .. ecleaf(C)-1` of the loops
`LoopLeafKids`, with `ecleaf = fcleaf + nleafs` of the tree header, not under
src: the leaves that are children of the cell. -/
def leaf_kids (cell : BasicCell) : List Nat := List.range' cell.FCLEAF cell.NLEAFS

/-- Modelled from the spec: the leaves `fcleaf(C) .. ncleaf(C)-1` of the loop
`__LoopAllLeafs`, with `ncleaf = fcleaf + number` of the tree header, not under
src: all leaves in and beneath the cell. -/
def all_leafs (cell : BasicCell) : List Nat := List.range' cell.FCLEAF cell.NUMBER

/-- The loop over the leaf kids in `mark_sub` and in `mark_for_subtree`, lines
1278-1282 and 1309-1313: the leaves with flag `F` are flagged for the sub-tree
and counted. -/
def mark_leaf_kids (F : Nat) : List Nat → Nat → (Nat → Nat) → Nat × (Nat → Nat)
  | [], ns, LEAF => (ns, LEAF)
  | Li :: rest, ns, LEAF =>
      if is_set (LEAF Li) F then
        mark_leaf_kids F rest (ns + 1) (Function.update LEAF Li (flag_for_subtree (LEAF Li)))
      else mark_leaf_kids F rest ns LEAF

/-- Variables of `mark_sub`: the flags and the counter `nc` of sub-tree cells. -/
structure mark_state where
  FLG : tree_flags
  nc : Nat

/-- The loop over the cell kids in `mark_sub`, lines 1283-1284. -/
def mark_cell_kids (rec : Nat → mark_state → Res (Nat × mark_state)) :
    List Nat → Nat → mark_state → Res (Nat × mark_state)
  | [], ns, s => Res.ok (ns, s)
  | Ci :: rest, ns, s =>
      match rec Ci s with
      | Res.ok (n, s1) => mark_cell_kids rec rest (ns + n) s1
      | Res.error e => Res.error e
      | Res.fuel => Res.fuel

/-- The method `OctTree::mark_sub(F,Ncr,C,nc)`, lines 1266-1293, on the cell
array `CELLS` of the tree.  One unfolding is one call. -/
def mark_sub (F : Nat) (Ncr : Int) (CELLS : List BasicCell) : Nat → Nat → mark_state →
    Res (Nat × mark_state)
  | 0, _, _ => Res.fuel
  | fuel + 1, C, s =>
      let cell := CELLS.getD C no_cell
      let CF := Function.update s.FLG.CELL C (unflag_subtree_flags (s.FLG.CELL C))
      let r := mark_leaf_kids F (leaf_kids cell) 0 s.FLG.LEAF
      match mark_cell_kids (mark_sub F Ncr CELLS fuel) (child_range cell) r.1
          { FLG := { LEAF := r.2, CELL := CF }, nc := s.nc } with
      | Res.ok (ns, s1) =>
          if ns ≠ 0 then
            let f := flag_for_subtree (s1.FLG.CELL C)
            if (ns : Int) ≥ Ncr then
              Res.ok (ns, { FLG := { s1.FLG with
                                     CELL := Function.update s1.FLG.CELL C (flag_as_subtreecell f) }
                            nc := s1.nc + 1 })
            else
              Res.ok (ns, { s1 with FLG := { s1.FLG with
                                             CELL := Function.update s1.FLG.CELL C f } })
          else Res.ok (ns, s1)
      | Res.error e => Res.error e
      | Res.fuel => Res.fuel

/-- The loop over the child cells in the second branch of `mark_for_subtree`,
lines 1320-1325: whether a child cell is in the sub-tree. -/
def any_kid_in_subtree (CELL : Nat → Nat) : List Nat → Bool
  | [] => false
  | c :: rest => if in_subtree (CELL c) then true else any_kid_in_subtree CELL rest

/-- Variables of the second branch of `mark_for_subtree`: the counters `subs`
and `subc` and the flags. -/
structure up_state where
  subs : Nat
  subc : Nat
  FLG : tree_flags

/-- The loop `LoopCellsUp` of `mark_for_subtree`, lines 1306-1326, over the cells
`cs` (the cells of the tree, the last one first). -/
def mark_up (F : Nat) (CELLS : List BasicCell) : List Nat → up_state → up_state
  | [], s => s
  | Ci :: rest, s =>
      let cell := CELLS.getD Ci no_cell
      let CF := Function.update s.FLG.CELL Ci (unflag_subtree_flags (s.FLG.CELL Ci))
      let r := mark_leaf_kids F (leaf_kids cell) 0 s.FLG.LEAF
      if r.1 ≠ 0 then
        mark_up F CELLS rest
          { subs := s.subs + r.1
            subc := s.subc + 1
            FLG := { LEAF := r.2
                     CELL := Function.update CF Ci
                       (flag_as_subtreecell (flag_for_subtree (CF Ci))) } }
      else if any_kid_in_subtree CF (child_range cell) then
        mark_up F CELLS rest
          { s with FLG := { LEAF := r.2
                            CELL := Function.update CF Ci
                              (flag_as_subtreecell (flag_for_subtree (CF Ci))) } }
      else mark_up F CELLS rest { s with FLG := { LEAF := r.2, CELL := CF } }

/-- The method `OctTree::mark_for_subtree(F,Ncr,Nsubc,Nsubs)`, lines 1295-1330, on
a tree with the cell array `CELLS` of `Nc` cells: returns `Nsubc`, `Nsubs` and
the flags.  `root()` is cell 0. -/
def mark_for_subtree (fuel F : Nat) (Ncr : Int) (CELLS : List BasicCell) (Nc : Nat)
    (FLG : tree_flags) :
    Res (Nat × Nat × tree_flags) :=
  if Ncr > 1 then
    match mark_sub F Ncr CELLS fuel 0 { FLG := FLG, nc := 0 } with
    | Res.ok (ns, s) => Res.ok (s.nc, ns, s.FLG)
    | Res.error e => Res.error e
    | Res.fuel => Res.fuel
  else
    let s := mark_up F CELLS (List.range Nc).reverse { subs := 0, subc := 0, FLG := FLG }
    Res.ok (s.subc, s.subs, s.FLG)

/-- The cells and leaves of the daughter tree under construction: the stores
made so far (most recent first), the calls `link(PT,P,T,C,Cf,Lf)` made so far as
pairs `(P,C)`, and the indices `Cf`, `Lf` of the next free cell and leaf. -/
structure sub_state where
  CELLS : List (Nat × BasicCell)
  LEAFS : List (Nat × BasicLeaf)
  CALLS : List (Nat × Nat)
  Cf : Nat
  Lf : Nat

/-- Whether every store made so far falls inside arrays of `Nc` cells and `Ns`
leaves. -/
def sub_state.fits (st : sub_state) (Nc Ns : Nat) : Bool :=
  st.CELLS.all (fun x => decide (x.1 < Nc)) && st.LEAFS.all (fun x => decide (x.1 < Ns))

/-- The loops `if(in_subtree(pl)) { (Lf++)->copy(pl); nleafs_(C)++; }` of
`sub_tree_builder::link`, lines 292-296 and 301-305, over the leaves `pls` of the
parent tree.  Modelled from the spec: `copy(pl)` of the tree header, not under
src, copies the leaf. -/
def sub_copy (PL : List BasicLeaf) (LEAF : Nat → Nat) :
    List Nat → Nat → List (Nat × BasicLeaf) → Nat → Nat × List (Nat × BasicLeaf) × Nat
  | [], n, LEAFS, Lf => (n, LEAFS, Lf)
  | pl :: rest, n, LEAFS, Lf =>
      if in_subtree (LEAF pl) then
        sub_copy PL LEAF rest (n + 1) ((Lf, PL.getD pl no_leaf) :: LEAFS) (Lf + 1)
      else sub_copy PL LEAF rest n LEAFS Lf

/-- Variables of the first loop over the cell kids in `sub_tree_builder::link`:
`ncells_(C)`, `nleafs_(C)`, the leaf stores and `Lf`. -/
structure scan_state where
  ncells : Nat
  nleafs : Nat
  LEAFS : List (Nat × BasicLeaf)
  Lf : Nat

/-- The first loop over the cell kids in `sub_tree_builder::link`, lines
297-305: cells of the sub-tree are counted, the sub-tree leaves of the other
cells in the sub-tree are copied. -/
def sub_scan (PC : List BasicCell) (PL : List BasicLeaf) (FLG : tree_flags) :
    List Nat → scan_state → scan_state
  | [], s => s
  | pc :: rest, s =>
      if is_subtreecell (FLG.CELL pc) then
        sub_scan PC PL FLG rest { s with ncells := s.ncells + 1 }
      else if in_subtree (FLG.CELL pc) then
        let r := sub_copy PL FLG.LEAF (all_leafs (PC.getD pc no_cell)) s.nleafs s.LEAFS s.Lf
        sub_scan PC PL FLG rest { s with nleafs := r.1, LEAFS := r.2.1, Lf := r.2.2 }
      else sub_scan PC PL FLG rest s

/-- Variables of the second loop over the cell kids: the next cell `Ci`, the
depth `dep`, the field `number_(C)` and the arrays. -/
structure sub_kids_state where
  Ci : Nat
  dep : Nat
  number : Nat
  st : sub_state

/-- The second loop over the cell kids in `sub_tree_builder::link`, lines
312-317.  The call `rec` returns the depth and `number_(Ci)`. -/
def sub_kids (FLG : tree_flags) (rec : Nat → Nat → sub_state → Res (Nat × Nat × sub_state)) :
    List Nat → sub_kids_state → Res sub_kids_state
  | [], s => Res.ok s
  | pc :: rest, s =>
      if is_subtreecell (FLG.CELL pc) then
        match rec pc s.Ci s.st with
        | Res.ok (de, num, st1) =>
            sub_kids FLG rec rest
              { Ci := s.Ci + 1, dep := if de > s.dep then de else s.dep,
                number := s.number + num, st := st1 }
        | Res.error e => Res.error e
        | Res.fuel => Res.fuel
      else sub_kids FLG rec rest s

/-- The method `sub_tree_builder::link(PT,P,T,C,Cf,Lf)`, lines 278-321, on the
cells `PC`, leaves `PL` and flags `FLG` of the parent tree: returns the depth,
the field `number_(C)` and the arrays.  The stores into the fields of cell `C`
are recorded as one store of the finished cell.  Modelled from the spec:
`copy_sub(C,P)` of the cell header, not under src, copies level, octant and
centre. -/
def sub_link (PC : List BasicCell) (PL : List BasicLeaf) (FLG : tree_flags) :
    Nat → Nat → Nat → sub_state → Res (Nat × Nat × sub_state)
  | 0, _, _, _ => Res.fuel
  | fuel + 1, P, C, st =>
      let p := PC.getD P no_cell
      let r1 := sub_copy PL FLG.LEAF (leaf_kids p) 0 st.LEAFS st.Lf
      let r2 := sub_scan PC PL FLG (child_range p)
        { ncells := 0, nleafs := r1.1, LEAFS := r1.2.1, Lf := r1.2.2 }
      if r2.ncells ≠ 0 then
        match sub_kids FLG (sub_link PC PL FLG fuel) (child_range p)
            { Ci := st.Cf, dep := 0, number := r2.nleafs,
              st := { CELLS := st.CELLS, LEAFS := r2.LEAFS, CALLS := (P, C) :: st.CALLS,
                      Cf := st.Cf + r2.ncells, Lf := r2.Lf } } with
        | Res.ok s =>
            Res.ok (s.dep + 1, s.number,
              { s.st with
                CELLS := (C, { LEVEL := p.LEVEL, OCTANT := p.OCTANT, CENTER := p.CENTER,
                               NUMBER := s.number, FCLEAF := st.Lf, NLEAFS := r2.nleafs,
                               FCCELL := st.Cf, NCELLS := r2.ncells }) :: s.st.CELLS })
        | Res.error e => Res.error e
        | Res.fuel => Res.fuel
      else
        Res.ok (1, r2.nleafs,
          { CELLS := (C, { LEVEL := p.LEVEL, OCTANT := p.OCTANT, CENTER := p.CENTER,
                           NUMBER := r2.nleafs, FCLEAF := st.Lf, NLEAFS := r2.nleafs,
                           FCCELL := -1, NCELLS := 0 }) :: st.CELLS
            LEAFS := r2.LEAFS
            CALLS := (P, C) :: st.CALLS
            Cf := st.Cf
            Lf := r2.Lf })

/-- The method `sub_tree_builder::link(PT,DT)`, lines 268-275: the root cell of
the parent tree is linked to cell 0 of the daughter tree, with `Cf` the cell 1
and `Lf` the first leaf. -/
def sub_tree_builder.link (PC : List BasicCell) (PL : List BasicLeaf) (FLG : tree_flags)
    (fuel : Nat) : Res (Nat × Nat × sub_state) :=
  sub_link PC PL FLG fuel 0 0 { CELLS := [], LEAFS := [], CALLS := [], Cf := 1, Lf := 0 }

/-- Modelled from the spec: `root_rad()` of the tree header, not under src: the
radius of the root cell, the first entry of the table of radii. -/
def OctTree.root_rad (T : OctTree) : real := T.RA.getD 0 real.nan

/-- The constructor `OctTree(par,F,Ncrit)`, lines 1425-1445 (construction as
sub-tree from another tree), for a parent tree with the flags `FLG`.  Returns
the sub-tree, the stores and calls of the linker, and the flags of the parent
tree after the marking.  The linker does not test its stores against the
numbers `Ns` and `Nc` of the allocation: the arrays of the sub-tree returned
here hold the stores that fall inside them, every store is in the record `st`,
and what a store outside the arrays overwrites in the code (`allocate` places
the cells behind the leaves, lines 1347-1350) is not represented.  The arrays
are those of the code when `st.fits` holds of the allocation. -/
def OctTree.sub_tree (fuel : Nat) (par : OctTree) (FLG : tree_flags) (F : Nat) (Ncrit : Int) :
    Res (OctTree × sub_state × tree_flags) :=
  let T0 : OctTree :=
    { BSRCES := par.BSRCES, SPFLAG := par.SPFLAG, Ns := unset, Nc := unset, DEPTH := unset,
      MAXDEPTH := unset, LEAFS := [], CELLS := [], RA := [], RCENTER := vect.garbage,
      STATE := par.STATE ||| state_sub_tree, USAGE := usage_un_used }
  match mark_for_subtree fuel F Ncrit par.CELLS par.Nc FLG with
  | Res.ok (Nc, Ns, FLG1) =>
      if Ns = 0 ∨ Nc = 0 then
        Res.ok (((T0.allocate 0 0 0 zero).set_depth 0).set_rcenter,
          { CELLS := [], LEAFS := [], CALLS := [], Cf := 1, Lf := 0 }, FLG1)
      else
        let T1 := T0.allocate Ns Nc par.DEPTH par.root_rad
        match sub_tree_builder.link par.CELLS par.LEAFS FLG1 fuel with
        | Res.ok (dep, _, st) =>
            Res.ok ((({ T1 with LEAFS := store_all st.LEAFS T1.LEAFS
                                CELLS := store_all st.CELLS T1.CELLS }).set_depth dep).set_rcenter,
              st, FLG1)
        | Res.error e => Res.error e
        | Res.fuel => Res.fuel
  | Res.error e => Res.error e
  | Res.fuel => Res.fuel

/-! ## Quantities of the set-up of the dots -/

/-- The dots that `setup_from_scratch` makes of the bodies `l`, the first of
which is body number `i`: one dot for every body that is used, in the order of
the bodies, with the position of the body and its number as link. -/
def used_dots (BB : bodies) (SP : Nat) : Nat → List body → List dot
  | _, [] => []
  | i, b :: rest =>
      if selected BB SP b then { POS := b.POS, LINK := i } :: used_dots BB SP (i + 1) rest
      else used_dots BB SP (i + 1) rest

/-- The sum of `x` and the positions of the dots, added one after the other. -/
def pos_sum (x : vect) (ds : List dot) : vect := ds.foldl (fun a d => vect.add a d.POS) x

/-- The pair (`XMIN`, `XMAX`) after `up_min_max` with the position of every dot. -/
def extents (mm : vect × vect) (ds : List dot) : vect × vect :=
  ds.foldl (fun m d => up_min_max d.POS m.1 m.2) mm

/-- Component `k` of a position. -/
def vect.get (v : vect) : Fin 3 → real
  | 0 => v.x0
  | 1 => v.x1
  | 2 => v.x2

/-- The distance `D` that `root_radius(X)` computes, lines 1045-1049: the largest
distance in a coordinate from `X` to `XMIN` and `XMAX`. -/
def root_D (XMIN XMAX X : vect) : real :=
  let D := zero
  let D := update_max D (real.max (real.abs (real.sub XMAX.x0 X.x0))
    (real.abs (real.sub XMIN.x0 X.x0)))
  let D := update_max D (real.max (real.abs (real.sub XMAX.x1 X.x1))
    (real.abs (real.sub XMIN.x1 X.x1)))
  let D := update_max D (real.max (real.abs (real.sub XMAX.x2 X.x2))
    (real.abs (real.sub XMIN.x2 X.x2)))
  D

/-- The root cell of a tree with one leaf: level 0, octant 0, one leaf (the first
of the leaf array) and no cell below it. -/
def single_cell (x0 : vect) : BasicCell :=
  { LEVEL := 0, OCTANT := 0, CENTER := x0, NUMBER := 1, FCLEAF := 0, NLEAFS := 1,
    FCCELL := -1, NCELLS := 0 }

/-! ## Quantities of the sub-tree extraction -/

/-- The number of leaves among `a, .., a+n-1` that carry the flag `F`. -/
def sel_count (LEAF : Nat → Nat) (F a n : Nat) : Nat :=
  (List.range' a n).countP (fun i => is_set (LEAF i) F)

/-- The flags of the leaves after the leaves among `a, .., a+n-1` that carry the
flag `F` have been flagged for the sub-tree. -/
def leaf_mark (F a n : Nat) (LEAF : Nat → Nat) : Nat → Nat :=
  fun i => if a ≤ i ∧ i < a + n ∧ is_set (LEAF i) F = true then flag_for_subtree (LEAF i)
    else LEAF i

/-- The flag that `mark_sub` leaves on a cell with the flag `f` that has `n`
leaves with the flag `F` in or beneath it. -/
def cell_mark (Ncr : Int) (n f : Nat) : Nat :=
  if n ≠ 0 then
    if (n : Int) ≥ Ncr then flag_as_subtreecell (flag_for_subtree (unflag_subtree_flags f))
    else flag_for_subtree (unflag_subtree_flags f)
  else unflag_subtree_flags f

/-- Whether the cell is one that `mark_sub` counts: it has at least `Ncr` leaves
with the flag `F` in or beneath it, and at least one. -/
def sel_cell (LEAF : Nat → Nat) (F : Nat) (Ncr : Int) (x : BasicCell) : Bool :=
  decide (sel_count LEAF F x.FCLEAF x.NUMBER ≠ 0 ∧
    (sel_count LEAF F x.FCLEAF x.NUMBER : Int) ≥ Ncr)

/-- What `mark_sub` has done when it has gone from the state `s` and the count
`ns0` to the result `r` over the cells `cs` with the leaves
`lf, .., lf+len-1`: the leaves with the flag `F` are counted and flagged, every
cell has the flag given by `cell_mark`, the cells counted are those of
`sel_cell`, and nothing else is changed. -/
def marked (F : Nat) (Ncr : Int) (cs : List (Nat × BasicCell)) (lf len : Nat) (s : mark_state)
    (ns0 : Nat) (r : Nat × mark_state) : Prop :=
  r.1 = ns0 + sel_count s.FLG.LEAF F lf len ∧
  r.2.FLG.LEAF = leaf_mark F lf len s.FLG.LEAF ∧
  (∀ x ∈ cs, r.2.FLG.CELL x.1
    = cell_mark Ncr (sel_count s.FLG.LEAF F x.2.FCLEAF x.2.NUMBER) (s.FLG.CELL x.1)) ∧
  (∀ c, (∀ x ∈ cs, x.1 ≠ c) → r.2.FLG.CELL c = s.FLG.CELL c) ∧
  r.2.nc = s.nc + cs.countP (fun x => sel_cell s.FLG.LEAF F Ncr x.2)

/-- The tree `par` holds the arrays, the numbers of cells and leaves and the
depth that `allocate`, `link` and `set_depth` make of the box-dot tree `TB`. -/
def OctTree.made_of (par : OctTree) (TB : box_dot_tree) : Prop :=
  par.CELLS = cell_array TB ∧ par.LEAFS = leaf_array TB ∧ par.Nc = TB.BM ∧
    par.Ns = TB.NDOTS ∧ par.DEPTH = TB.link.1.DEPTH

/-- The depth that the linker returns for a box: 1 for a box without sub-boxes,
else 1 more than the largest depth of a sub-box. -/
def link_depth : node → Nat
  | node.box L c N DOTS OCT =>
      if (node.box L c N DOTS OCT).is_twig then 1
      else 1 + ((box_kids OCT (List.finRange 8)).map (fun k => link_depth (OCT k))).foldl max 0
  | _ => 0

/-- The stores that copy the leaves among `l` that are in the sub-tree to the
leaves `Lf, Lf+1, ...` of the daughter tree, in the order in which they are
made. -/
def leaf_copies (PL : List BasicLeaf) (LEAF : Nat → Nat) : List Nat → Nat → List (Nat × BasicLeaf)
  | [], _ => []
  | pl :: rest, Lf =>
      if in_subtree (LEAF pl) then (Lf, PL.getD pl no_leaf) :: leaf_copies PL LEAF rest (Lf + 1)
      else leaf_copies PL LEAF rest Lf

/-- The leaf stores of the first loop over the cell kids `cs` in
`sub_tree_builder::link`, in the order in which they are made: for every cell
kid that is in the sub-tree without being a cell of it, the copies of its leaves
that are in the sub-tree. -/
def scan_copies (PC : List BasicCell) (PL : List BasicLeaf) (FLG : tree_flags) :
    List Nat → Nat → List (Nat × BasicLeaf)
  | [], _ => []
  | pc :: rest, Lf =>
      if is_subtreecell (FLG.CELL pc) then scan_copies PC PL FLG rest Lf
      else if in_subtree (FLG.CELL pc) then
        leaf_copies PL FLG.LEAF (all_leafs (PC.getD pc no_cell)) Lf ++
          scan_copies PC PL FLG rest
            (Lf + (leaf_copies PL FLG.LEAF (all_leafs (PC.getD pc no_cell)) Lf).length)
      else scan_copies PC PL FLG rest Lf

/-- The call `link(PT,P,T,C,Cf,Lf)` has made cell `C` of the daughter tree a copy
of cell `P` of the parent tree: among the cell stores `K` there is a store to
cell `C` with level, octant and centre of `P`, and every leaf in the sub-tree
that is a leaf kid of `P`, or a leaf in or beneath a cell kid of `P` that is in
the sub-tree without being a cell of it, has its copy among the leaf stores `L`
at one of the `nleafs` leaves from `fcleaf` of the stored cell. -/
def sub_frame (PC : List BasicCell) (PL : List BasicLeaf) (FLG : tree_flags) (P C : Nat)
    (K : List (Nat × BasicCell)) (L : List (Nat × BasicLeaf)) : Prop :=
  ∃ cell, (C, cell) ∈ K ∧ cell.LEVEL = (PC.getD P no_cell).LEVEL ∧
    cell.OCTANT = (PC.getD P no_cell).OCTANT ∧ cell.CENTER = (PC.getD P no_cell).CENTER ∧
    ∀ i, in_subtree (FLG.LEAF i) = true →
      (i ∈ leaf_kids (PC.getD P no_cell) ∨
        ∃ pc ∈ child_range (PC.getD P no_cell), is_subtreecell (FLG.CELL pc) = false ∧
          in_subtree (FLG.CELL pc) = true ∧ i ∈ all_leafs (PC.getD pc no_cell)) →
      ∃ m, cell.FCLEAF ≤ m ∧ m < cell.FCLEAF + cell.NLEAFS ∧ (m, PL.getD i no_leaf) ∈ L

/-- What the call `link(PT,P,T,C,Cf,Lf)` has done when it has gone from the arrays
`st` to the arrays `st1`, where `cs` are the cells of the parent tree beneath
`P` and `sel` tells which of them are cells of the sub-tree: the calls made are
those for `P` and for the cells of `cs` that are cells of the sub-tree, they
have written the cell `C` and as many cells from `Cf` on, the leaves written are
the next free ones, and every call has made its cell a copy in the sense of
`sub_frame`. -/
def sub_linked (PC : List BasicCell) (PL : List BasicLeaf) (FLG : tree_flags)
    (sel : Nat × BasicCell → Bool) (cs : List (Nat × BasicCell)) (P C : Nat)
    (st st1 : sub_state) : Prop :=
  ∃ (newC : List (Nat × Nat)) (newK : List (Nat × BasicCell)) (newL : List (Nat × BasicLeaf)),
    st1.CALLS = newC ++ st.CALLS ∧ st1.CELLS = newK ++ st.CELLS ∧
    st1.LEAFS = newL ++ st.LEAFS ∧
    st1.Cf = st.Cf + cs.countP sel ∧ st1.Lf = st.Lf + newL.length ∧
    List.Perm (newL.map Prod.fst) (List.range' st.Lf newL.length) ∧
    List.Perm (newC.map Prod.snd) (C :: List.range' st.Cf (cs.countP sel)) ∧
    List.Perm (newK.map Prod.fst) (C :: List.range' st.Cf (cs.countP sel)) ∧
    List.Perm (newC.map Prod.fst) (P :: (cs.filter sel).map Prod.fst) ∧
    ∀ pC ∈ newC, sub_frame PC PL FLG pC.1 pC.2 newK newL

/-- The number of leaves that are in the sub-tree among the leaves of those of
the sub-boxes `ks` whose cells (the cells `c, c+1, ..` of the parent tree) are
cells of the sub-tree (`b = true`) or are not (`b = false`); the leaves of the
first sub-box begin at `lf`. -/
def kid_insub (FLG : tree_flags) (b : Bool) (OCT : Fin 8 → node) :
    List (Fin 8) → Nat → Nat → Nat
  | [], _, _ => 0
  | k :: ks, c, lf =>
      (if is_subtreecell (FLG.CELL c) = b then
          sel_count FLG.LEAF SUBTREE lf (link_order (OCT k)).length
        else 0)
      + kid_insub FLG b OCT ks (c + 1) (lf + (link_order (OCT k)).length)

/-- The relation `cell_beneath CELLS c q`: cell `q` is cell `c` or is reached from
it through a chain of child cells. -/
inductive cell_beneath (CELLS : List BasicCell) : Nat → Nat → Prop
  | self (c : Nat) : cell_beneath CELLS c c
  | child (c k q : Nat) (cell : BasicCell) (h : CELLS[c]? = some cell)
      (hk : k ∈ child_range cell) (h3 : cell_beneath CELLS k q) : cell_beneath CELLS c q

/-! ## Quantities of the order of insertion -/

/-- The invariant of the insertion that fixes the shape of the tree: a box in an
octant of a box holds at least two dots, and more than `NCRIT` dots when it has
no dot list. -/
def shaped (NCRIT : Nat) : node → Prop
  | node.box _ _ _ _ OCT => ∀ i : Fin 8,
      (∀ L1 c1 N1 D1 O1, OCT i = node.box L1 c1 N1 D1 O1 → 2 ≤ N1 ∧ (D1 = [] → NCRIT < N1)) ∧
      shaped NCRIT (OCT i)
  | _ => True

/-- The boxes in and beneath the slot are nested at most `n` deep. -/
def shallow : node → Nat → Prop
  | node.box _ _ _ _ OCT, n => 1 ≤ n ∧ ∀ i : Fin 8, shallow (OCT i) (n - 1)
  | _, _ => True

/-- The relation `same_shape P Q`: the two slots hold nothing, or the same dot,
or boxes with the same level, centre and number, dot lists that are
permutations of each other, and octants of the same shape. -/
inductive same_shape : node → node → Prop
  | null : same_shape node.null node.null
  | dot (D : dot) : same_shape (node.dot D) (node.dot D)
  | box (L : Nat) (c : vect) (N : Nat) (DOTS D1 : List dot) (OCT O1 : Fin 8 → node)
      (hp : List.Perm DOTS D1) (h : ∀ i, same_shape (OCT i) (O1 i)) :
      same_shape (node.box L c N DOTS OCT) (node.box L c N D1 O1)

/-- The leaves `a, .., a+n-1` of a leaf array, or the dots written to them. -/
def leaf_slice {α : Type} (l : List α) (a n : Nat) : List α := (l.drop a).take n

/-- The state of the root box between two insertions of `tree_builder::build()`
with root centre `x0`: the invariant of the build, every sub-box holds at least
two dots and every sub-box without a dot list more than `Ncrit`, and the root
box has level 0, centre `x0` and no dot list. -/
def grown (nc dm : Nat) (RA : List real) (x0 : vect) (P : node) : Prop :=
  build_invariant nc dm RA P ∧ shaped nc P ∧ ∃ N O, P = node.box 0 x0 N [] O

/-- The relation `stays P Q` between the states of a slot before and after
insertions: a box of `P` is in `Q` a box at the same place with the same level
and centre, and if it has no dot list in `P` it has none in `Q`. -/
def stays : node → node → Prop
  | node.box L c _ D O, Q =>
      ∃ N1 D1 O1, Q = node.box L c N1 D1 O1 ∧ (D = [] → D1 = []) ∧ ∀ i : Fin 8, stays (O i) (O1 i)
  | _, _ => True

/-! ## Inputs at which the theorems are instantiated -/

/-- The origin. -/
def origin : vect := ⟨real.val 0, real.val 0, real.val 0⟩

/-- Some dots used to instantiate the theorems. -/
def sample_dots : List dot :=
  [⟨⟨real.val (-1), real.val (-1), real.val (-1)⟩, 0⟩,
   ⟨⟨real.val 1, real.val (-1), real.val (-1)⟩, 1⟩,
   ⟨⟨real.val (-1), real.val 1, real.val (-1)⟩, 2⟩,
   ⟨⟨real.val 1, real.val 1, real.val 1⟩, 3⟩,
   ⟨⟨real.val (1 / 2), real.val (1 / 2), real.val 1⟩, 4⟩]

/-- Two bodies without flags at the positions `(1/4,1/4,1/4)` and `(3,1,-2)`. -/
def sample_bodies : bodies :=
  { have_flg := false
    B := [{ POS := ⟨real.val (1 / 4), real.val (1 / 4), real.val (1 / 4)⟩, FLG := 0 },
          { POS := ⟨real.val 3, real.val 1, real.val (-2)⟩, FLG := 0 }] }

/-- Two bodies at the same position `(1/4,1/4,1/4)`. -/
def coincident_bodies : bodies :=
  { have_flg := false
    B := [{ POS := ⟨real.val (1 / 4), real.val (1 / 4), real.val (1 / 4)⟩, FLG := 0 },
          { POS := ⟨real.val (1 / 4), real.val (1 / 4), real.val (1 / 4)⟩, FLG := 0 }] }

/-- A tree with two leaves and one cell whose bodies have come to lie at the
same position. -/
def sample_tree : OctTree :=
  { BSRCES := coincident_bodies, SPFLAG := 0, Ns := 2, Nc := 1, DEPTH := 1, MAXDEPTH := 3,
    LEAFS := [{ POS := ⟨real.val (1 / 4), real.val (1 / 4), real.val (1 / 4)⟩, LINK := 0 },
              { POS := ⟨real.val 1, real.val 1, real.val 1⟩, LINK := 1 }],
    CELLS := [{ LEVEL := 0, OCTANT := 0, CENTER := ⟨real.val 0, real.val 0, real.val 0⟩,
                NUMBER := 2, FCLEAF := 0, NLEAFS := 2, FCCELL := -1, NCELLS := 0 }],
    RA := [real.val 2, real.val 1, real.val (1 / 2), real.val (1 / 4)],
    RCENTER := ⟨real.val 0, real.val 0, real.val 0⟩, STATE := state_fresh,
    USAGE := usage_un_used }

/-- Two bodies with flags: the first, at `(100,0,0)`, does not carry flag 1, the
second, at the origin, does. -/
def flagged_bodies : bodies :=
  { have_flg := true
    B := [{ POS := ⟨real.val 100, real.val 0, real.val 0⟩, FLG := 0 },
          { POS := origin, FLG := 1 }] }

/-- Two bodies with flags: the first, at `(NaN,0,5)`, does not carry flag 1, the
second, at `(100,0,0)`, does. -/
def nan_first_bodies : bodies :=
  { have_flg := true
    B := [{ POS := ⟨real.nan, real.val 0, real.val 5⟩, FLG := 0 },
          { POS := ⟨real.val 100, real.val 0, real.val 0⟩, FLG := 1 }] }

/-- The corner `(-r,-r,-r)` or `(r,r,r)` of the cube of half-size `|r|` about the
origin. -/
def corner (r : ℚ) : vect := ⟨real.val r, real.val r, real.val r⟩

/-- One body without flag at `(1/4,1/4,1/4)`. -/
def single_body : bodies :=
  { have_flg := false
    B := [{ POS := ⟨real.val (1 / 4), real.val (1 / 4), real.val (1 / 4)⟩, FLG := 0 }] }

/-- Four bodies at `(1,1,1)`, `(3,3,3)`, `(-1,-1,-1)` and `(-3,-3,-3)`.  With
`Ncrit = 1` their tree has three cells: the root, which has no leaf kid, and two
cell kids with two leaves each (the leaves 0, 1 and the leaves 2, 3). -/
def four_bodies : bodies :=
  { have_flg := false
    B := [{ POS := corner 1, FLG := 1 }, { POS := corner 3, FLG := 1 },
          { POS := corner (-1), FLG := 1 }, { POS := corner (-3), FLG := 1 }] }

/-- Flags of a tree in which every leaf carries flag 1 and nothing else, and the
cells carry no flag. -/
def all_flagged : tree_flags := { LEAF := fun _ => 1, CELL := fun _ => 0 }

/-- Flags of a tree in which the leaves 0, 1 and 2 carry flag 1 and nothing
else, and the other leaves and the cells carry no flag. -/
def three_flagged : tree_flags := { LEAF := fun i => if i < 3 then 1 else 0, CELL := fun _ => 0 }

/-- Four dots, three of them in octant 7 of a root box about the origin: with
`Ncrit = 2` the box of that octant is split. -/
def crowded_dots : List dot :=
  [⟨corner 1, 0⟩, ⟨corner 3, 1⟩, ⟨⟨real.val 1, real.val 3, real.val 1⟩, 2⟩, ⟨corner (-1), 3⟩]

/-- The four dots of the bodies at `(-1,-1,-1)`, `(1,-1,-1)`, `(-1,1,-1)` and
`(1,1,1)`, in the order of the source. -/
def scenario_dots : List dot :=
  [⟨corner (-1), 0⟩, ⟨⟨real.val 1, real.val (-1), real.val (-1)⟩, 1⟩,
   ⟨⟨real.val (-1), real.val 1, real.val (-1)⟩, 2⟩, ⟨corner 1, 3⟩]

/-- Four bodies without flags at `(-1,-1,-1)`, `(1,-1,-1)`, `(-1,1,-1)` and
`(1,1,1)`. -/
def scenario_bodies : bodies :=
  { have_flg := false
    B := [{ POS := corner (-1), FLG := 0 },
          { POS := ⟨real.val 1, real.val (-1), real.val (-1)⟩, FLG := 0 },
          { POS := ⟨real.val (-1), real.val 1, real.val (-1)⟩, FLG := 0 },
          { POS := corner 1, FLG := 0 }] }

/-- One body without flag at `(-7/5,0,0)`. -/
def low_body : bodies :=
  { have_flg := false
    B := [{ POS := ⟨real.val (-(7 / 5)), real.val 0, real.val 0⟩, FLG := 0 }] }

/-- The octants of the root box after the insertion of `scenario_dots` about the
origin: the dots are in the octants 0, 1, 2 and 7. -/
def scenario_octs : Fin 8 → node :=
  Function.update (Function.update (Function.update (Function.update (fun _ => node.null)
    0 (node.dot ⟨corner (-1), 0⟩))
    1 (node.dot ⟨⟨real.val 1, real.val (-1), real.val (-1)⟩, 1⟩))
    2 (node.dot ⟨⟨real.val (-1), real.val 1, real.val (-1)⟩, 2⟩))
    7 (node.dot ⟨corner 1, 3⟩)

/-- Three bodies with flags: the first, at `(NaN,3/5,0)`, does not carry flag 1,
the others, at `(3/2,0,0)` and `(5,0,0)`, do.  With flag 1 and the origin as root
centre the root radius is 1 (from the second coordinate of the first body), and
the two dots are outside the root cube. -/
def wrap_bodies : bodies :=
  { have_flg := true
    B := [{ POS := ⟨real.nan, real.val (3 / 5), real.val 0⟩, FLG := 0 },
          { POS := ⟨real.val (3 / 2), real.val 0, real.val 0⟩, FLG := 1 },
          { POS := ⟨real.val 5, real.val 0, real.val 0⟩, FLG := 1 }] }

/-- Flags of a tree in which leaf 1 carries the flag `SUBTREE` left by an earlier
extraction and not flag 1, the other leaves carry flag 1 and nothing else, and
the cells carry no flag. -/
def stale_flagged : tree_flags :=
  { LEAF := fun i => if i = 1 then SUBTREE else 1, CELL := fun _ => 0 }

/-! ## Lemmas -/

theorem grow_eq (fuel : Nat) (T : OctTree) (TB : box_dot_tree) (D : List dot) :
    OctTree.grow fuel T TB D =
      if TB.NDOTS ≠ 0 then
        match tree_builder.build fuel TB D with
        | Res.ok TB1 =>
            (((T.allocate TB1.NDOTS TB1.BM TB1.N_levels TB1.root_rad).store TB1.link.2).set_depth
              TB1.link.1.DEPTH, Res.ok ())
        | Res.error e => (T, Res.error e)
        | Res.fuel => (T, Res.fuel)
      else ((T.allocate 0 0 0 zero).set_depth 0, Res.ok ()) := by
  unfold OctTree.grow OctTree.grow_log
  by_cases h : TB.NDOTS ≠ 0
  · rw [if_pos h, if_pos h]
    cases tree_builder.build fuel TB D <;> rfl
  · rw [if_neg h, if_neg h]

theorem octant_lt (cen pos : vect) : octant cen pos < 8 := by
  unfold octant
  split_ifs <;> decide

theorem flatMap_update_of_not_mem {α β : Type} (F : α → List β) (OCT : Fin 8 → α) (b : Fin 8)
    (v : α) (l : List (Fin 8)) (hb : b ∉ l) :
    l.flatMap (fun i => F (Function.update OCT b v i)) = l.flatMap (fun i => F (OCT i)) := by
  induction l with
  | nil => rfl
  | cons a l ih =>
    have hab : a ≠ b := fun h => hb (by simp [h])
    have hbl : b ∉ l := fun h => hb (by simp [h])
    simp [List.flatMap_cons, Function.update_noteq hab, ih hbl]

theorem flatMap_update_perm {α β : Type} (F : α → List β) (OCT : Fin 8 → α) (b : Fin 8)
    (v : α) (xs : List β) (l : List (Fin 8)) (hl : l.Nodup) (hb : b ∈ l)
    (h : List.Perm (F v) (xs ++ F (OCT b))) :
    List.Perm (l.flatMap (fun i => F (Function.update OCT b v i)))
      (xs ++ l.flatMap (fun i => F (OCT i))) := by
  induction l with
  | nil => simp at hb
  | cons a l ih =>
    rw [List.nodup_cons] at hl
    by_cases hab : a = b
    · subst hab
      simp only [List.flatMap_cons, Function.update_same]
      rw [flatMap_update_of_not_mem F OCT a v l hl.1]
      have h1 := h.append_right (l.flatMap (fun i => F (OCT i)))
      rw [List.append_assoc] at h1
      exact h1
    · have hbl : b ∈ l := by
        rcases List.mem_cons.1 hb with h1 | h1
        · exact absurd h1.symm hab
        · exact h1
      simp only [List.flatMap_cons, Function.update_noteq hab]
      refine ((ih hl.2 hbl).append_left (F (OCT a))).trans ?_
      rw [← List.append_assoc, ← List.append_assoc]
      exact List.perm_append_comm.append_right _

theorem sum_update_of_not_mem {α : Type} (G : α → Nat) (OCT : Fin 8 → α) (b : Fin 8)
    (v : α) (l : List (Fin 8)) (hb : b ∉ l) :
    (l.map (fun i => G (Function.update OCT b v i))).sum = (l.map (fun i => G (OCT i))).sum := by
  induction l with
  | nil => rfl
  | cons a l ih =>
    have hab : a ≠ b := fun h => hb (by simp [h])
    have hbl : b ∉ l := fun h => hb (by simp [h])
    simp [Function.update_noteq hab, ih hbl]

theorem sum_update {α : Type} (G : α → Nat) (OCT : Fin 8 → α) (b : Fin 8)
    (v : α) (l : List (Fin 8)) (hl : l.Nodup) (hb : b ∈ l) :
    (l.map (fun i => G (Function.update OCT b v i))).sum + G (OCT b)
      = (l.map (fun i => G (OCT i))).sum + G v := by
  induction l with
  | nil => simp at hb
  | cons a l ih =>
    rw [List.nodup_cons] at hl
    by_cases hab : a = b
    · subst hab
      simp only [List.map_cons, List.sum_cons, Function.update_same]
      rw [sum_update_of_not_mem G OCT a v l hl.1]
      omega
    · have hbl : b ∈ l := by
        rcases List.mem_cons.1 hb with h1 | h1
        · exact absurd h1.symm hab
        · exact h1
      simp only [List.map_cons, List.sum_cons, Function.update_noteq hab]
      have := ih hl.2 hbl
      omega

theorem flatMap_const_nil {α β : Type} (l : List α) :
    l.flatMap (fun _ => ([] : List β)) = [] := by
  induction l with
  | nil => rfl
  | cons a l ih => simp [List.flatMap_cons, ih]

theorem make_subbox_ok {DMAX : Nat} {RA : List real} {L : Nat} {c : vect} {i : Fin 8} {BM : Nat}
    {P : node} {BM1 : Nat} (h : make_subbox DMAX RA L c i BM = Res.ok (P, BM1)) :
    ∃ c1, P = box_reset ((L + 1) % 256) c1 ∧ BM1 = BM + 1 ∧ (L + 1) % 256 ≤ DMAX := by
  unfold make_subbox shrink_to_octant at h
  by_cases hl : (L + 1) % 256 > DMAX
  · simp [hl] at h
  · simp only [hl, if_false] at h
    injection h with h
    injection h with h1 h2
    exact ⟨_, h1.symm, h2.symm, Nat.le_of_not_gt hl⟩

theorem dots_of_box_reset (l : Nat) (c : vect) : dots_of (box_reset l c) = [] := by
  simp [box_reset, dots_of, flatMap_const_nil]

theorem nboxes_box_reset (l : Nat) (c : vect) : nboxes (box_reset l c) = 1 := by
  simp [box_reset, nboxes]

theorem dots_of_single (l : Nat) (c : vect) (N : Nat) (b : Fin 8) (D : dot) :
    List.Perm (dots_of (node.box l c N [] (Function.update (fun _ => node.null) b (node.dot D))))
      [D] := by
  have h := flatMap_update_perm dots_of (fun _ => node.null) b (node.dot D) [D] (List.finRange 8)
    (List.nodup_finRange 8) (List.mem_finRange b) (by simp [dots_of])
  simpa [dots_of, flatMap_const_nil] using h

theorem nboxes_single (l : Nat) (c : vect) (N : Nat) (DOTS : List dot) (b : Fin 8) (D : dot) :
    nboxes (node.box l c N DOTS (Function.update (fun _ => node.null) b (node.dot D))) = 1 := by
  have h := sum_update nboxes (fun _ => node.null) b (node.dot D) (List.finRange 8)
    (List.nodup_finRange 8) (List.mem_finRange b)
  simp [nboxes] at h ⊢
  exact h

theorem WF_update_null (OCT : Fin 8 → node) (b : Fin 8) (v : node) (hv : WF v)
    (h : ∀ i, WF (OCT i)) : ∀ i, WF (Function.update OCT b v i) := by
  intro i
  by_cases hi : i = b
  · subst hi; simpa using hv
  · simpa [Function.update_noteq hi] using h i

theorem no_twig_update (OCT : Fin 8 → node) (b : Fin 8) (v : node) (hv : no_twig v)
    (h : ∀ i, no_twig (OCT i)) : ∀ i, no_twig (Function.update OCT b v i) := by
  intro i
  by_cases hi : i = b
  · subst hi; simpa using hv
  · simpa [Function.update_noteq hi] using h i

theorem make_subbox_1_ok {DMAX : Nat} {RA : List real} {L : Nat} {c : vect} {i : Fin 8} {Do : dot}
    {BM : Nat} {P : node} {BM1 : Nat}
    (h : make_subbox_1 DMAX RA L c i Do BM = Res.ok (P, BM1)) :
    ∃ c1, P = node.box ((L + 1) % 256) c1 1 []
        (Function.update (fun _ => node.null) (octantF c1 Do.POS) (node.dot Do)) ∧
      BM1 = BM + 1 ∧ (L + 1) % 256 ≤ DMAX := by
  unfold make_subbox_1 at h
  split at h
  · rename_i P0 BM0 h0
    obtain ⟨c1, hP, hB, hl⟩ := make_subbox_ok h0
    injection h with h
    injection h with h1 h2
    subst hP
    refine ⟨c1, ?_, by omega, hl⟩
    rw [← h1]
    simp [box_reset, adddot_to_octs]
  · cases h
  · cases h

/-- Insertion with `adddot_1` keeps the tree well formed and without dot lists,
adds exactly the new dot, and hands out one box per box added to the tree. -/
theorem adddot_1_inv (DMAX : Nat) (RA : List real) :
    ∀ (fuel : Nat) (P : node) (Di : dot) (BM : Nat) (P1 : node) (BM1 : Nat),
      adddot_1 DMAX RA fuel P Di BM = Res.ok (P1, BM1) → WF P → no_twig P →
        WF P1 ∧ no_twig P1 ∧ List.Perm (dots_of P1) (Di :: dots_of P) ∧
          BM1 + nboxes P = BM + nboxes P1 ∧ P1.isBox = true := by
  intro fuel
  induction fuel with
  | zero => intro P Di BM P1 BM1 h; simp [adddot_1] at h
  | succ fuel ih =>
    intro P Di BM P1 BM1 h hWF hNT
    cases P with
    | null => simp [adddot_1] at h
    | dot D => simp [adddot_1] at h
    | box L c N DOTS OCT =>
      simp only [adddot_1] at h
      obtain ⟨hN, hTw, hK⟩ := hWF
      obtain ⟨hD, hKT⟩ := hNT
      subst hD
      have key : ∀ (v : node), WF v → no_twig v →
          List.Perm (dots_of v) (Di :: dots_of (OCT (octantF c Di.POS))) →
          ∀ BM2, BM2 + nboxes (OCT (octantF c Di.POS)) = BM + nboxes v →
          WF (node.box L c (N + 1) [] (Function.update OCT (octantF c Di.POS) v)) ∧
          no_twig (node.box L c (N + 1) [] (Function.update OCT (octantF c Di.POS) v)) ∧
          List.Perm (dots_of (node.box L c (N + 1) [] (Function.update OCT (octantF c Di.POS) v)))
            (Di :: dots_of (node.box L c N [] OCT)) ∧
          BM2 + nboxes (node.box L c N [] OCT)
            = BM + nboxes (node.box L c (N + 1) [] (Function.update OCT (octantF c Di.POS) v)) ∧
          (node.box L c (N + 1) [] (Function.update OCT (octantF c Di.POS) v)).isBox = true := by
        intro v hv hvt hp BM2 hb
        have hperm := flatMap_update_perm dots_of OCT (octantF c Di.POS) v [Di] (List.finRange 8)
          (List.nodup_finRange 8) (List.mem_finRange _) (by simpa using hp)
        have hsum := sum_update nboxes OCT (octantF c Di.POS) v (List.finRange 8)
          (List.nodup_finRange 8) (List.mem_finRange _)
        have hperm2 : List.Perm
            (dots_of (node.box L c (N + 1) [] (Function.update OCT (octantF c Di.POS) v)))
            (Di :: dots_of (node.box L c N [] OCT)) := by
          simpa [dots_of] using hperm
        refine ⟨⟨?_, by simp, WF_update_null OCT _ v hv hK⟩, ⟨rfl, no_twig_update OCT _ v hvt hKT⟩,
          hperm2, ?_, rfl⟩
        · rw [hperm2.length_eq]; simp; exact hN
        · simp only [nboxes]; omega
      split at h
      · rename_i hb
        injection h with h
        injection h with h1 h2
        subst h1 h2
        exact key (node.dot Di) trivial trivial (by simp [hb, dots_of]) BM (by simp [hb, nboxes])
      · rename_i Do hb
        split at h
        · rename_i P BMa hsub
          split at h
          · rename_i P2 BM2 hrec
            injection h with h
            injection h with h1 h2
            subst h1 h2
            obtain ⟨c1, hP, hBa, _⟩ := make_subbox_1_ok hsub
            have hPW : WF P := by
              subst hP
              refine ⟨?_, by simp, ?_⟩
              · rw [(dots_of_single _ _ _ _ _).length_eq]; rfl
              · exact WF_update_null _ _ _ trivial (fun _ => trivial)
            have hPT : no_twig P := by
              subst hP
              exact ⟨rfl, no_twig_update _ _ _ trivial (fun _ => trivial)⟩
            obtain ⟨h1, h2, h3, h4, _⟩ := ih P Di BMa P2 BM2 hrec hPW hPT
            have hPd : List.Perm (dots_of P) [Do] := by subst hP; exact dots_of_single _ _ _ _ _
            have hPn : nboxes P = 1 := by subst hP; exact nboxes_single _ _ _ _ _ _
            refine key P2 h1 h2 ?_ BM2 ?_
            · rw [hb]; exact h3.trans (List.Perm.cons _ (by simpa [dots_of] using hPd))
            · rw [hb]; simp only [nboxes]; omega
          · cases h
          · cases h
        · cases h
        · cases h
      · rename_i L1 c1 N1 D1 O1 hb
        split at h
        · rename_i P2 BM2 hrec
          injection h with h
          injection h with h1 h2
          subst h1 h2
          obtain ⟨h1, h2, h3, h4, _⟩ := ih _ Di BM P2 BM2 hrec (hb ▸ hK _) (hb ▸ hKT _)
          refine key P2 h1 h2 ?_ BM2 ?_
          · rw [hb]; exact h3
          · rw [hb]; omega
        · cases h
        · cases h

theorem dots_of_twig (L : Nat) (c : vect) (N : Nat) (DOTS : List dot) :
    dots_of (node.box L c N DOTS (fun _ => node.null)) = DOTS := by
  simp [dots_of, flatMap_const_nil]

theorem nboxes_twig (L : Nat) (c : vect) (N : Nat) (DOTS : List dot) :
    nboxes (node.box L c N DOTS (fun _ => node.null)) = 1 := by
  simp [nboxes]

theorem WF_twig (L : Nat) (c : vect) (DOTS : List dot) :
    WF (node.box L c DOTS.length DOTS (fun _ => node.null)) := by
  refine ⟨?_, fun _ _ => rfl, fun _ => trivial⟩
  rw [dots_of_twig]

/-- The lists made by the first loop of `split_box` hold the dots of the box. -/
theorem sort_dots_perm (c : vect) (DOTS : List dot) :
    List.Perm ((List.finRange 8).flatMap (sort_dots c DOTS)) DOTS := by
  unfold sort_dots
  suffices h : ∀ (acc : Fin 8 → List dot),
      List.Perm ((List.finRange 8).flatMap (DOTS.foldl
        (fun LST Di =>
          Function.update LST (octantF c Di.POS) (Di :: LST (octantF c Di.POS))) acc))
        (DOTS ++ (List.finRange 8).flatMap acc) by
    have h1 := h (fun _ => [])
    rw [flatMap_const_nil, List.append_nil] at h1
    exact h1
  induction DOTS with
  | nil => intro acc; simp
  | cons d ds ih =>
    intro acc
    simp only [List.foldl_cons]
    refine (ih _).trans ?_
    have h := flatMap_update_perm (fun x => x) acc (octantF c d.POS) (d :: acc (octantF c d.POS)) [d]
      (List.finRange 8) (List.nodup_finRange 8) (List.mem_finRange _) (by simp)
    refine (h.append_left ds).trans ?_
    simp only [List.cons_append, List.nil_append]
    exact List.perm_middle

theorem split_step_inv {DMAX : Nat} {RA : List real} {L : Nat} {c : vect} {LST : Fin 8 → List dot}
    {s s1 : split_state} {b : Fin 8}
    (h : split_step DMAX RA L c LST s b = Res.ok s1) (hb : s.OCT b = node.null) :
    ∃ v, s1.OCT = Function.update s.OCT b v ∧ split_slot LST b v ∧
      s1.BM = s.BM + nboxes v ∧
      (s1.sub = s.sub ∨ (s1.sub = some b ∧ v.isBox = true)) := by
  unfold split_step at h
  split at h
  · rename_i h0
    injection h with h
    subst h
    refine ⟨node.null, by rw [← hb]; simp, ⟨trivial, by simp [dots_of, h0], by simp [node.isBox],
      fun _ => rfl⟩, by simp [nboxes], Or.inl rfl⟩
  · rename_i D h0
    injection h with h
    subst h
    refine ⟨node.dot D, rfl, ⟨trivial, by simp [dots_of, h0], by simp [node.isBox],
      fun _ => rfl⟩, by simp [nboxes], Or.inl rfl⟩
  · rename_i D D1 rest h0
    split at h
    · rename_i sub BMa hsub
      obtain ⟨c1, hP, hBa, _⟩ := make_subbox_ok hsub
      injection h with h
      subst h
      subst hP
      refine ⟨node.box ((L + 1) % 256) c1 (LST b).length (LST b) (fun _ => node.null), ?_,
        ⟨WF_twig _ _ _, dots_of_twig _ _ _ _, fun _ => ⟨_, _, rfl⟩, by simp [node.isBox]⟩, ?_,
        Or.inr ⟨rfl, rfl⟩⟩
      · simp [box_reset, set_dots, h0]
      · simp [nboxes_twig, hBa]
    · cases h
    · cases h

theorem split_loop_inv {DMAX : Nat} {RA : List real} {L : Nat} {c : vect} {LST : Fin 8 → List dot} :
    ∀ (bs : List (Fin 8)) (s s1 : split_state),
      split_loop DMAX RA L c LST bs s = Res.ok s1 → bs.Nodup → (∀ b ∈ bs, s.OCT b = node.null) →
        (∀ b, b ∉ bs → s1.OCT b = s.OCT b) ∧ (∀ b ∈ bs, split_slot LST b (s1.OCT b)) ∧
          s1.BM = s.BM + (bs.map (fun b => nboxes (s1.OCT b))).sum ∧
          (s1.sub = s.sub ∨ ∃ b, s1.sub = some b ∧ b ∈ bs ∧ (s1.OCT b).isBox = true) := by
  intro bs
  induction bs with
  | nil =>
    intro s s1 h _ _
    simp only [split_loop] at h
    injection h with h
    subst h
    simp
  | cons a bs ih =>
    intro s s1 h hnd hnull
    rw [List.nodup_cons] at hnd
    simp only [split_loop] at h
    split at h
    · rename_i s2 hstep
      obtain ⟨v, hO, hslot, hBM, hsub⟩ := split_step_inv hstep (hnull a (by simp))
      have hnull2 : ∀ b ∈ bs, s2.OCT b = node.null := by
        intro b hb
        have hne : b ≠ a := fun e => hnd.1 (e ▸ hb)
        rw [hO, Function.update_noteq hne]
        exact hnull b (by simp [hb])
      obtain ⟨h1, h2, h3, h4⟩ := ih s2 s1 h hnd.2 hnull2
      have ha : s1.OCT a = v := by
        rw [h1 a hnd.1, hO, Function.update_same]
      refine ⟨?_, ?_, ?_, ?_⟩
      · intro b hb
        have hba : b ≠ a := fun e => hb (by simp [e])
        have hbs : b ∉ bs := fun e => hb (by simp [e])
        rw [h1 b hbs, hO, Function.update_noteq hba]
      · intro b hb
        rcases List.mem_cons.1 hb with e | e
        · subst e; rw [ha]; exact hslot
        · exact h2 b e
      · simp only [List.map_cons, List.sum_cons, ha]
        omega
      · rcases h4 with h4 | ⟨b, hb1, hb2, hb3⟩
        · rcases hsub with hsub | ⟨hsub, hv⟩
          · left; rw [h4, hsub]
          · right; exact ⟨a, by rw [h4, hsub], by simp, by rw [ha]; exact hv⟩
        · right; exact ⟨b, hb1, by simp [hb2], hb3⟩
    · cases h
    · cases h

/-- Splitting a twig box keeps the tree well formed, keeps its dots, and hands
out one box per box added to the tree. -/
theorem split_box_inv (DMAX : Nat) (RA : List real) :
    ∀ (fuel : Nat) (first : Bool) (L : Nat) (c : vect) (DOTS : List dot) (BM : Nat) (P1 : node)
      (BM1 : Nat),
      split_box DMAX RA fuel first (node.box L c DOTS.length DOTS (fun _ => node.null)) BM
          = Res.ok (P1, BM1) →
        WF P1 ∧ List.Perm (dots_of P1) DOTS ∧ BM1 + 1 = BM + nboxes P1 ∧
          ∃ OCT1, P1 = node.box L c DOTS.length [] OCT1 := by
  intro fuel
  induction fuel with
  | zero => intro first L c DOTS BM P1 BM1 h; simp [split_box] at h
  | succ fuel ih =>
    intro first L c DOTS BM P1 BM1 h
    simp only [split_box] at h
    split at h
    · rename_i s hloop
      obtain ⟨h1, h2, h3, h4⟩ := split_loop_inv (List.finRange 8) _ s hloop
        (List.nodup_finRange 8) (fun _ _ => rfl)
      simp only at h3 h4
      have hslot : ∀ b, split_slot (sort_dots c DOTS) b (s.OCT b) :=
        fun b => h2 b (List.mem_finRange b)
      have hd : (List.finRange 8).flatMap (fun b => dots_of (s.OCT b))
          = (List.finRange 8).flatMap (sort_dots c DOTS) := by
        congr 1
        funext b
        exact (hslot b).2.1
      have base : WF (node.box L c DOTS.length [] s.OCT) ∧
          List.Perm (dots_of (node.box L c DOTS.length [] s.OCT)) DOTS ∧
          s.BM + 1 = BM + nboxes (node.box L c DOTS.length [] s.OCT) := by
        have hp : List.Perm (dots_of (node.box L c DOTS.length [] s.OCT)) DOTS := by
          simp only [dots_of, List.nil_append]
          rw [hd]
          exact sort_dots_perm c DOTS
        refine ⟨⟨hp.length_eq.symm, by simp, fun b => (hslot b).1⟩, hp, ?_⟩
        simp only [nboxes]
        omega
      split at h
      · split at h
        · rename_i b hsb
          have hbox : (s.OCT b).isBox = true := by
            rcases h4 with h4 | ⟨b1, e1, _, e3⟩
            · rw [hsb] at h4; cases h4
            · rw [hsb] at e1; injection e1 with e1; subst e1; exact e3
          obtain ⟨l, c1, hv⟩ := (hslot b).2.2.1 hbox
          split at h
          · rename_i Q BM2 hrec
            injection h with h
            injection h with e1 e2
            subst e1 e2
            rw [hv] at hrec
            obtain ⟨q1, q2, q3, _⟩ := ih false l c1 _ s.BM Q BM2 hrec
            have hperm := flatMap_update_perm dots_of s.OCT b Q [] (List.finRange 8)
              (List.nodup_finRange 8) (List.mem_finRange _)
              (by rw [(hslot b).2.1]; simpa using q2)
            have hsum := sum_update nboxes s.OCT b Q (List.finRange 8)
              (List.nodup_finRange 8) (List.mem_finRange _)
            have hnb : nboxes (s.OCT b) = 1 := by rw [hv]; exact nboxes_twig _ _ _ _
            have hp : List.Perm (dots_of (node.box L c DOTS.length []
                (Function.update s.OCT b Q))) DOTS := by
              simp only [dots_of, List.nil_append]
              refine (hperm.trans ?_)
              simp only [List.nil_append]
              rw [hd]
              exact sort_dots_perm c DOTS
            refine ⟨⟨hp.length_eq.symm, by simp, WF_update_null _ _ _ q1 (fun b => (hslot b).1)⟩,
              hp, ?_, _, rfl⟩
            simp only [nboxes]
            omega
          · cases h
          · cases h
        · split at h
          · cases h
          · injection h with h
            injection h with e1 e2
            subst e1 e2
            exact ⟨base.1, base.2.1, base.2.2, _, rfl⟩
      · injection h with h
        injection h with e1 e2
        subst e1 e2
        exact ⟨base.1, base.2.1, base.2.2, _, rfl⟩
    · cases h
    · cases h

theorem make_subbox_N_ok {DMAX : Nat} {RA : List real} {L : Nat} {c : vect} {i : Fin 8} {Do : dot}
    {BM : Nat} {P : node} {BM1 : Nat}
    (h : make_subbox_N DMAX RA L c i Do BM = Res.ok (P, BM1)) :
    ∃ c1, P = node.box ((L + 1) % 256) c1 1 [Do] (fun _ => node.null) ∧
      BM1 = BM + 1 ∧ (L + 1) % 256 ≤ DMAX := by
  unfold make_subbox_N at h
  split at h
  · rename_i P0 BM0 h0
    obtain ⟨c1, hP, hB, hl⟩ := make_subbox_ok h0
    injection h with h
    injection h with h1 h2
    subst hP
    refine ⟨c1, ?_, by omega, hl⟩
    rw [← h1]
    simp [box_reset, adddot_to_list]
  · cases h
  · cases h

/-- Insertion with `adddot_N` keeps the tree well formed, adds exactly the new
dot, and hands out one box per box added to the tree. -/
theorem adddot_N_inv (NCRIT DMAX : Nat) (RA : List real) :
    ∀ (fuel : Nat) (P : node) (Di : dot) (BM : Nat) (P1 : node) (BM1 : Nat),
      adddot_N NCRIT DMAX RA fuel P Di BM = Res.ok (P1, BM1) → WF P →
        WF P1 ∧ List.Perm (dots_of P1) (Di :: dots_of P) ∧
          BM1 + nboxes P = BM + nboxes P1 ∧ P1.isBox = true := by
  intro fuel
  induction fuel with
  | zero => intro P Di BM P1 BM1 h; simp [adddot_N] at h
  | succ fuel ih =>
    intro P Di BM P1 BM1 h hWF
    cases P with
    | null => simp [adddot_N] at h
    | dot D => simp [adddot_N] at h
    | box L c N DOTS OCT =>
      simp only [adddot_N] at h
      obtain ⟨hN, hTw, hK⟩ := hWF
      split at h
      · rename_i htw
        have hne : DOTS ≠ [] := by
          intro e
          simp [node.is_twig, e] at htw
        have hO : OCT = fun _ => node.null := funext (hTw hne)
        subst hO
        rw [dots_of_twig] at hN
        subst hN
        split at h
        · have hrec : split_box DMAX RA fuel true
              (node.box L c (Di :: DOTS).length (Di :: DOTS) (fun _ => node.null)) BM
              = Res.ok (P1, BM1) := h
          obtain ⟨q1, q2, q3, OCT1, q4⟩ := split_box_inv DMAX RA fuel true L c _ BM P1 BM1 hrec
          refine ⟨q1, by rw [dots_of_twig]; exact q2, by rw [nboxes_twig]; omega, ?_⟩
          rw [q4]; rfl
        · injection h with h
          injection h with e1 e2
          subst e1 e2
          refine ⟨WF_twig L c (Di :: DOTS), by rw [dots_of_twig, dots_of_twig],
            by rw [nboxes_twig, nboxes_twig], rfl⟩
      · rename_i htw
        have hD : DOTS = [] := by
          cases DOTS with
          | nil => rfl
          | cons d ds => simp [node.is_twig] at htw
        subst hD
        have key : ∀ (v : node), WF v →
            List.Perm (dots_of v) (Di :: dots_of (OCT (octantF c Di.POS))) →
            ∀ BM2, BM2 + nboxes (OCT (octantF c Di.POS)) = BM + nboxes v →
            WF (node.box L c (N + 1) [] (Function.update OCT (octantF c Di.POS) v)) ∧
            List.Perm
              (dots_of (node.box L c (N + 1) [] (Function.update OCT (octantF c Di.POS) v)))
              (Di :: dots_of (node.box L c N [] OCT)) ∧
            BM2 + nboxes (node.box L c N [] OCT)
              = BM + nboxes (node.box L c (N + 1) []
                  (Function.update OCT (octantF c Di.POS) v)) ∧
            (node.box L c (N + 1) [] (Function.update OCT (octantF c Di.POS) v)).isBox
              = true := by
          intro v hv hp BM2 hb
          have hperm := flatMap_update_perm dots_of OCT (octantF c Di.POS) v [Di]
            (List.finRange 8) (List.nodup_finRange 8) (List.mem_finRange _) (by simpa using hp)
          have hsum := sum_update nboxes OCT (octantF c Di.POS) v (List.finRange 8)
            (List.nodup_finRange 8) (List.mem_finRange _)
          have hperm2 : List.Perm
              (dots_of (node.box L c (N + 1) [] (Function.update OCT (octantF c Di.POS) v)))
              (Di :: dots_of (node.box L c N [] OCT)) := by
            simpa [dots_of] using hperm
          refine ⟨⟨?_, by simp, WF_update_null OCT _ v hv hK⟩, hperm2, ?_, rfl⟩
          · rw [hperm2.length_eq]; simp; exact hN
          · simp only [nboxes]; omega
        split at h
        · rename_i hb
          injection h with h
          injection h with h1 h2
          subst h1 h2
          exact key (node.dot Di) trivial (by simp [hb, dots_of]) BM (by simp [hb, nboxes])
        · rename_i Do hb
          split at h
          · rename_i P BMa hsub
            split at h
            · rename_i P2 BM2 hrec
              injection h with h
              injection h with h1 h2
              subst h1 h2
              obtain ⟨c1, hP, hBa, _⟩ := make_subbox_N_ok hsub
              subst hP
              obtain ⟨h1, h3, h4, _⟩ := ih _ Di BMa P2 BM2 hrec (WF_twig _ c1 [Do])
              refine key P2 h1 ?_ BM2 ?_
              · rw [hb]; rw [dots_of_twig] at h3; simpa [dots_of] using h3
              · rw [hb]; rw [nboxes_twig] at h4; simp only [nboxes]; omega
            · cases h
            · cases h
          · cases h
          · cases h
        · rename_i L1 c1 N1 D1 O1 hb
          split at h
          · rename_i P2 BM2 hrec
            injection h with h
            injection h with h1 h2
            subst h1 h2
            obtain ⟨h1, h3, h4, _⟩ := ih _ Di BM P2 BM2 hrec (hb ▸ hK _)
            refine key P2 h1 ?_ BM2 ?_
            · rw [hb]; exact h3
            · rw [hb]; omega
          · cases h
          · cases h

/-- The insertion loop keeps an invariant `I` of the tree that every single
insertion keeps, adds exactly the dots of the sequence, and hands out one box
per box added. -/
theorem adddots_inv (add : node → dot → Nat → Res (node × Nat)) (I : node → Prop)
    (hadd : ∀ P Di BM P1 BM1, add P Di BM = Res.ok (P1, BM1) → I P →
      I P1 ∧ List.Perm (dots_of P1) (Di :: dots_of P) ∧ BM1 + nboxes P = BM + nboxes P1) :
    ∀ (dots : List dot) (P : node) (BM : Nat) (P1 : node) (BM1 : Nat),
      adddots add dots P BM = Res.ok (P1, BM1) → I P →
        I P1 ∧ List.Perm (dots_of P1) (dots ++ dots_of P) ∧
          BM1 + nboxes P = BM + nboxes P1 := by
  intro dots
  induction dots with
  | nil =>
    intro P BM P1 BM1 h hI
    simp only [adddots] at h
    injection h with h
    injection h with h1 h2
    subst h1 h2
    exact ⟨hI, List.Perm.refl _, rfl⟩
  | cons d ds ih =>
    intro P BM P1 BM1 h hI
    simp only [adddots] at h
    split at h
    · rename_i P2 BM2 hstep
      obtain ⟨a1, a2, a3⟩ := hadd P d BM P2 BM2 hstep hI
      obtain ⟨b1, b2, b3⟩ := ih P2 BM2 P1 BM1 h a1
      refine ⟨b1, ?_, by omega⟩
      refine b2.trans ?_
      refine (a2.append_left ds).trans ?_
      simp only [List.cons_append]
      exact List.perm_middle
    · cases h
    · cases h

/-- A successful `tree_builder::build()` on a freshly reset builder: the tree is
well formed, it holds exactly the inserted dots, the allocator count is the
number of boxes of the tree, and with `Ncrit <= 1` no box has a dot list. -/
theorem build_inv (fuel nc dm nl : Nat) (x0 : vect) (sz : real) (dots : List dot)
    (TB : box_dot_tree)
    (h : tree_builder.build fuel (box_dot_tree.reset nc dm nl x0 sz) dots = Res.ok TB) :
    WF TB.P0 ∧ List.Perm (dots_of TB.P0) dots ∧ TB.BM = nboxes TB.P0 ∧
      (¬ nc > 1 → no_twig TB.P0) ∧ TB.NCRIT = nc ∧ TB.NDOTS = nl ∧
      ∃ L c N DOTS OCT, TB.P0 = node.box L c N DOTS OCT := by
  unfold tree_builder.build at h
  simp only [box_dot_tree.reset] at h
  have hW0 : WF (box_reset 0 x0) := by
    refine ⟨?_, by simp, fun _ => trivial⟩
    simp [dots_of, flatMap_const_nil]
  have hT0 : no_twig (box_reset 0 x0) := ⟨rfl, fun _ => trivial⟩
  have hB0 : (box_reset 0 x0).isBox = true := rfl
  have isBox_elim : ∀ P : node, P.isBox = true → ∃ L c N DOTS OCT, P = node.box L c N DOTS OCT := by
    intro P hP
    cases P with
    | null => cases hP
    | dot D => cases hP
    | box L c N DOTS OCT => exact ⟨L, c, N, DOTS, OCT, rfl⟩
  split at h
  · rename_i P BM hrun
    injection h with h
    subst h
    simp only
    by_cases hnc : nc > 1
    · simp only [hnc, if_true] at hrun
      have := adddots_inv _ (fun P => WF P ∧ P.isBox = true)
        (fun P Di BM P1 BM1 hh hI => by
          obtain ⟨a, b, c, d⟩ := adddot_N_inv nc dm _ fuel P Di BM P1 BM1 hh hI.1
          exact ⟨⟨a, d⟩, b, c⟩) dots _ _ P BM hrun ⟨hW0, hB0⟩
      obtain ⟨⟨a, d⟩, b, c⟩ := this
      rw [dots_of_box_reset, List.append_nil] at b
      rw [nboxes_box_reset] at c
      exact ⟨a, b, by omega, fun hh => absurd hnc hh, trivial, trivial, isBox_elim P d⟩
    · simp only [hnc, if_false] at hrun
      have := adddots_inv _ (fun P => (WF P ∧ no_twig P) ∧ P.isBox = true)
        (fun P Di BM P1 BM1 hh hI => by
          obtain ⟨a, a2, b, c, d⟩ := adddot_1_inv dm _ fuel P Di BM P1 BM1 hh hI.1.1 hI.1.2
          exact ⟨⟨⟨a, a2⟩, d⟩, b, c⟩) dots _ _ P BM hrun ⟨⟨hW0, hT0⟩, hB0⟩
      obtain ⟨⟨⟨a, a2⟩, d⟩, b, c⟩ := this
      rw [dots_of_box_reset, List.append_nil] at b
      rw [nboxes_box_reset] at c
      exact ⟨a, b, by omega, fun _ => a2, trivial, trivial, isBox_elim P d⟩
  · cases h
  · cases h

theorem leaf_run_append (lf : Nat) (a b : List dot) :
    leaf_run lf (a ++ b) = leaf_run lf a ++ leaf_run (lf + a.length) b := by
  induction a generalizing lf with
  | nil => simp [leaf_run]
  | cons d a ih =>
    have h : lf + 1 + a.length = lf + (a.length + 1) := by omega
    simp [leaf_run, ih, h]

theorem box_kids_cons_box (OCT : Fin 8 → node) (i : Fin 8) (l : List (Fin 8))
    (h : (OCT i).isBox = true) : box_kids OCT (i :: l) = i :: box_kids OCT l := by
  simp [box_kids, h]

theorem box_kids_cons_not (OCT : Fin 8 → node) (i : Fin 8) (l : List (Fin 8))
    (h : ¬ (OCT i).isBox = true) : box_kids OCT (i :: l) = box_kids OCT l := by
  simp [box_kids, h]

theorem link_dot_list_eq (DOTS : List dot) (LEAFS : List (Nat × BasicLeaf)) (Lf : Nat) :
    link_dot_list DOTS LEAFS Lf = ((leaf_run Lf DOTS).reverse ++ LEAFS, Lf + DOTS.length) := by
  induction DOTS generalizing LEAFS Lf with
  | nil => simp [link_dot_list, leaf_run]
  | cons d ds ih =>
    simp only [link_dot_list, ih, leaf_run, List.reverse_cons, List.append_assoc,
      List.singleton_append, List.length_cons]
    rw [Nat.add_assoc, Nat.add_comm 1]

theorem link_leaf_kids_eq (OCT : Fin 8 → node) (l : List (Fin 8)) (s : kids_state) :
    link_leaf_kids OCT l s =
      { nsub := s.nsub + (box_kids OCT l).length
        nleafs := s.nleafs + (dot_kids OCT l).length
        LEAFS := (leaf_run s.Lf (dot_kids OCT l)).reverse ++ s.LEAFS
        Lf := s.Lf + (dot_kids OCT l).length } := by
  induction l generalizing s with
  | nil => simp [link_leaf_kids, box_kids, dot_kids, leaf_run]
  | cons i l ih =>
    simp only [link_leaf_kids, dot_kids]
    cases h : OCT i with
    | null =>
      rw [box_kids_cons_not OCT i l (by simp [h, node.isBox])]
      simp only [ih]
    | dot D =>
      rw [box_kids_cons_not OCT i l (by simp [h, node.isBox])]
      simp only [ih, leaf_run, List.reverse_cons, List.append_assoc,
        List.singleton_append, List.length_cons]
      simp only [Nat.add_assoc, Nat.add_comm 1]
    | box L c N D O =>
      rw [box_kids_cons_box OCT i l (by simp [h, node.isBox])]
      simp only [ih, List.length_cons]
      simp only [Nat.add_assoc, Nat.add_comm 1]

theorem link_cell_kids_eq (OCT : Fin 8 → node)
    (rec : Fin 8 → Nat → link_state → Nat × link_state)
    (hrec : ∀ i Ci st, (rec i Ci st).2 = link_ext (OCT i) i.val Ci st)
    (l : List (Fin 8)) (s : cells_state) :
    (link_cell_kids (fun i => (OCT i).isBox) rec l s).st =
      { CELLS := (kids_cells (fun k c1 cf1 lf1 => cells_of (OCT k) k.val c1 cf1 lf1)
            (fun k => sub_cells (OCT k)) (fun k => (link_order (OCT k)).length)
            (box_kids OCT l) s.Ci s.st.Cf s.st.Lf).reverse ++ s.st.CELLS
        LEAFS := (leaf_run s.st.Lf
            ((box_kids OCT l).flatMap (fun k => link_order (OCT k)))).reverse ++ s.st.LEAFS
        Cf := s.st.Cf + ((box_kids OCT l).map (fun k => sub_cells (OCT k))).sum
        Lf := s.st.Lf + ((box_kids OCT l).flatMap (fun k => link_order (OCT k))).length } := by
  induction l generalizing s with
  | nil => simp [link_cell_kids, box_kids, kids_cells, leaf_run]
  | cons i l ih =>
    simp only [link_cell_kids]
    by_cases hb : (OCT i).isBox = true
    · rw [box_kids_cons_box OCT i l hb]
      simp only [hb, if_true, ih, hrec, link_ext]
      simp only [kids_cells, List.flatMap_cons, leaf_run_append, List.reverse_append,
        List.append_assoc, List.map_cons, List.sum_cons, List.length_append]
      simp only [Nat.add_assoc]
    · rw [box_kids_cons_not OCT i l hb]
      simp [hb, ih]

/-- The stores made by `link_cells_N` are those of the layout `cells_of`,
`link_order`. -/
theorem link_cells_N_eq (P : node) : ∀ (o C : Nat) (st : link_state),
    (link_cells_N P o C st).2 = link_ext P o C st := by
  induction P with
  | null => intro o C st; simp [link_cells_N, link_ext, cells_of, link_order, sub_cells, leaf_run]
  | dot D => intro o C st; simp [link_cells_N, link_ext, cells_of, link_order, sub_cells, leaf_run]
  | box L c N DOTS OCT ih =>
    intro o C st
    by_cases htw : (node.box L c N DOTS OCT).is_twig = true
    · simp [link_cells_N, link_ext, cells_of, link_order, sub_cells, htw, link_dot_list_eq,
        root_cell]
    · simp only [link_cells_N, htw, link_leaf_kids_eq]
      by_cases hk : (box_kids OCT (List.finRange 8)).length = 0
      · have hk2 : box_kids OCT (List.finRange 8) = [] := List.length_eq_zero.1 hk
        simp [link_ext, cells_of, link_order, sub_cells, htw, root_cell, hk2, kids_cells]
      · have hk2 : box_kids OCT (List.finRange 8) ≠ [] := fun e => hk (by rw [e]; rfl)
        simp only [Nat.zero_add, ne_eq, hk, not_false_eq_true, if_true]
        rw [link_cell_kids_eq OCT _ (fun i Ci st1 => ih i i.val Ci st1)]
        simp only [link_ext, cells_of, link_order, sub_cells, htw, root_cell, hk]
        simp [leaf_run_append, List.sum_map_add, Nat.add_assoc, hk2]

theorem link_cell_kids_congr (isBox : Fin 8 → Bool)
    (r1 r2 : Fin 8 → Nat → link_state → Nat × link_state)
    (l : List (Fin 8)) (h : ∀ i ∈ l, isBox i = true → ∀ Ci st, r1 i Ci st = r2 i Ci st)
    (s : cells_state) : link_cell_kids isBox r1 l s = link_cell_kids isBox r2 l s := by
  induction l generalizing s with
  | nil => rfl
  | cons i l ih =>
    simp only [link_cell_kids]
    by_cases hb : isBox i = true
    · simp only [hb, if_true, h i (by simp) hb]
      exact ih (fun j hj => h j (by simp [hj])) _
    · simp only [hb]
      exact ih (fun j hj => h j (by simp [hj])) _

/-- On a tree in which no box has a dot list, `link_cells_1` and `link_cells_N`
do the same. -/
theorem link_cells_1_eq_N (P : node) : no_twig P → ∀ (o C : Nat) (st : link_state),
    link_cells_1 P o C st = link_cells_N P o C st := by
  induction P with
  | null => intro _ o C st; rfl
  | dot D => intro _ o C st; rfl
  | box L c N DOTS OCT ih =>
    intro hnt o C st
    obtain ⟨hD, hK⟩ := hnt
    subst hD
    have htw : (node.box L c N [] OCT).is_twig = false := rfl
    simp only [link_cells_1, link_cells_N, htw]
    rw [link_cell_kids_congr (fun i => (OCT i).isBox)
      (fun i Ci st1 => link_cells_1 (OCT i) i.val Ci st1)
      (fun i Ci st1 => link_cells_N (OCT i) i.val Ci st1) (List.finRange 8)
      (fun i _ _ Ci st1 => ih i (hK i) i.val Ci st1)]
    rfl

theorem box_kids_isBox (OCT : Fin 8 → node) (l : List (Fin 8)) :
    ∀ k ∈ box_kids OCT l, (OCT k).isBox = true := by
  intro k hk
  simpa using (List.mem_filter.1 hk).2

theorem box_kids_sublist (OCT : Fin 8 → node) (l : List (Fin 8)) :
    List.Sublist (box_kids OCT l) l := List.filter_sublist l

/-- Sums over the octants only see the sub-boxes when the other slots count
zero. -/
theorem sum_box_kids (OCT : Fin 8 → node) (G H : node → Nat)
    (h0 : ∀ v, v.isBox = false → G v = 0) (l : List (Fin 8))
    (h1 : ∀ i ∈ l, (OCT i).isBox = true → G (OCT i) = H (OCT i)) :
    (l.map (fun i => G (OCT i))).sum = ((box_kids OCT l).map (fun k => H (OCT k))).sum := by
  induction l with
  | nil => rfl
  | cons i l ih =>
    have ih2 := ih (fun j hj => h1 j (by simp [hj]))
    by_cases hb : (OCT i).isBox = true
    · rw [box_kids_cons_box OCT i l hb]
      simp only [List.map_cons, List.sum_cons, ih2, h1 i (by simp) hb]
    · rw [box_kids_cons_not OCT i l hb]
      simp only [List.map_cons, List.sum_cons, ih2, h0 (OCT i) (by simpa using hb)]
      omega

theorem nboxes_not_box (v : node) (h : v.isBox = false) : nboxes v = 0 := by
  cases v with
  | null => rfl
  | dot D => rfl
  | box L c N D O => cases h

/-- In a well-formed tree the cells reserved below a box are the boxes below it. -/
theorem sub_cells_nboxes (P : node) : WF P → P.isBox = true → nboxes P = 1 + sub_cells P := by
  induction P with
  | null => intro _ h; cases h
  | dot D => intro _ h; cases h
  | box L c N DOTS OCT ih =>
    intro hWF _
    obtain ⟨hN, hTw, hK⟩ := hWF
    by_cases htw : (node.box L c N DOTS OCT).is_twig = true
    · have hne : DOTS ≠ [] := by
        intro e
        simp [node.is_twig, e] at htw
      have hO : OCT = fun _ => node.null := funext (hTw hne)
      subst hO
      simp [nboxes, sub_cells, htw]
    · simp only [nboxes, sub_cells, htw]
      rw [sum_box_kids OCT nboxes (fun v => 1 + sub_cells v) nboxes_not_box (List.finRange 8)
        (fun i _ hb => ih i (hK i) hb)]
      rfl

theorem flatMap_box_kids (OCT : Fin 8 → node) (l : List (Fin 8))
    (h1 : ∀ i ∈ l, (OCT i).isBox = true → List.Perm (link_order (OCT i)) (dots_of (OCT i))) :
    List.Perm (dot_kids OCT l ++ (box_kids OCT l).flatMap (fun k => link_order (OCT k)))
      (l.flatMap (fun i => dots_of (OCT i))) := by
  induction l with
  | nil => simp [dot_kids, box_kids]
  | cons i l ih =>
    have ih2 := ih (fun j hj => h1 j (by simp [hj]))
    cases h : OCT i with
    | null =>
      rw [box_kids_cons_not OCT i l (by simp [h, node.isBox])]
      simpa [dot_kids, h, dots_of] using ih2
    | dot D =>
      rw [box_kids_cons_not OCT i l (by simp [h, node.isBox])]
      simpa [dot_kids, h, dots_of] using ih2
    | box L c N D O =>
      have hb : (OCT i).isBox = true := by simp [h, node.isBox]
      rw [box_kids_cons_box OCT i l hb]
      have hp := h1 i (by simp) hb
      simp only [dot_kids, h, List.flatMap_cons]
      rw [h] at hp
      refine List.Perm.trans ?_ (List.Perm.append hp ih2)
      rw [← List.append_assoc, ← List.append_assoc]
      exact List.perm_append_comm.append_right _

/-- In a well-formed tree the linker writes exactly the dots of the tree. -/
theorem link_order_perm (P : node) : WF P → P.isBox = true →
    List.Perm (link_order P) (dots_of P) := by
  induction P with
  | null => intro _ h; cases h
  | dot D => intro _ h; cases h
  | box L c N DOTS OCT ih =>
    intro hWF _
    obtain ⟨hN, hTw, hK⟩ := hWF
    by_cases htw : (node.box L c N DOTS OCT).is_twig = true
    · have hne : DOTS ≠ [] := by
        intro e
        simp [node.is_twig, e] at htw
      have hO : OCT = fun _ => node.null := funext (hTw hne)
      subst hO
      simp [link_order, htw, dots_of_twig]
    · have hD : DOTS = [] := by
        cases DOTS with
        | nil => rfl
        | cons d ds => simp [node.is_twig] at htw
      subst hD
      simp only [link_order, htw, dots_of, List.nil_append]
      exact flatMap_box_kids OCT (List.finRange 8) (fun i _ hb => ih i (hK i) hb)

theorem length_store_all {α : Type} (stores : List (Nat × α)) (mem : List α) :
    (store_all stores mem).length = mem.length := by
  induction stores with
  | nil => rfl
  | cons s rest ih => simp [store_all] at ih ⊢; exact ih

theorem store_all_get {α : Type} (stores : List (Nat × α)) (mem : List α)
    (hnd : (stores.map Prod.fst).Nodup) (i : Nat) (v : α) (hm : (i, v) ∈ stores)
    (hi : i < mem.length) : (store_all stores mem)[i]? = some v := by
  induction stores with
  | nil => simp at hm
  | cons s rest ih =>
    simp only [List.map_cons, List.nodup_cons] at hnd
    have hlen := length_store_all rest mem
    simp only [store_all, List.foldr_cons] at ih hlen ⊢
    rcases List.mem_cons.1 hm with e | e
    · subst e
      rw [List.getElem?_set_self (by rw [hlen]; exact hi)]
    · have hne : s.1 ≠ i := by
        intro e2
        apply hnd.1
        rw [e2]
        exact List.mem_map.2 ⟨(i, v), e, rfl⟩
      rw [List.getElem?_set_ne hne]
      exact ih hnd.2 e

theorem leaf_run_keys (lf : Nat) (ds : List dot) :
    (leaf_run lf ds).map Prod.fst = List.range' lf ds.length := by
  induction ds generalizing lf with
  | nil => rfl
  | cons d ds ih => simp [leaf_run, ih, List.range'_succ]

theorem mem_leaf_run (lf : Nat) (ds : List dot) (k : Nat) (hk : k < ds.length) :
    (lf + k, set_leaf (ds.get ⟨k, hk⟩)) ∈ leaf_run lf ds := by
  induction ds generalizing lf k with
  | nil => simp at hk
  | cons d ds ih =>
    cases k with
    | zero => simp [leaf_run]
    | succ k =>
      simp only [leaf_run, List.mem_cons]
      right
      have := ih (lf + 1) k (by simpa using hk)
      rw [show lf + (k + 1) = lf + 1 + k by omega]
      simpa using this

/-- Writing the dots `ds` to the leaves `0, 1, ...` of an array of that many
leaves gives the leaves of the dots, in that order. -/
theorem store_leaf_run (ds : List dot) (mem : List BasicLeaf) (hlen : mem.length = ds.length) :
    store_all (leaf_run 0 ds).reverse mem = ds.map set_leaf := by
  apply List.ext_getElem?
  intro i
  by_cases hi : i < ds.length
  · have hnd : (((leaf_run 0 ds).reverse).map Prod.fst).Nodup := by
      rw [List.map_reverse, List.nodup_reverse, leaf_run_keys]
      exact List.nodup_range' _ _
    have hm := mem_leaf_run 0 ds i hi
    rw [Nat.zero_add] at hm
    rw [store_all_get _ mem hnd i _ (List.mem_reverse.2 hm) (by omega)]
    simp [List.getElem?_eq_getElem, hi]
  · have h1 : (store_all (leaf_run 0 ds).reverse mem).length ≤ i := by
      rw [length_store_all]; omega
    have h2 : (ds.map set_leaf).length ≤ i := by simp; omega
    rw [List.getElem?_eq_none h1, List.getElem?_eq_none h2]

theorem range'_split (s m n : Nat) :
    List.range' s (m + n) = List.range' s m ++ List.range' (s + m) n := by
  rw [List.range'_append_1, Nat.add_comm]

theorem kids_cells_keys
    (rec : Fin 8 → Nat → Nat → Nat → List (Nat × BasicCell)) (nb nd : Fin 8 → Nat)
    (ks : List (Fin 8))
    (h : ∀ k ∈ ks, ∀ c cf lf, List.Perm ((rec k c cf lf).map Prod.fst)
      (c :: List.range' cf (nb k))) :
    ∀ c cf lf, List.Perm ((kids_cells rec nb nd ks c cf lf).map Prod.fst)
      (List.range' c ks.length ++ List.range' cf ((ks.map nb).sum)) := by
  induction ks with
  | nil => intro c cf lf; simp [kids_cells]
  | cons k ks ih =>
    intro c cf lf
    have ih2 := ih (fun j hj => h j (by simp [hj])) (c + 1) (cf + nb k) (lf + nd k)
    have h1 := h k (by simp) c cf lf
    simp only [kids_cells, List.map_append, List.length_cons, List.map_cons, List.sum_cons]
    refine (List.Perm.append h1 ih2).trans ?_
    rw [List.range'_succ, range'_split cf (nb k) ((ks.map nb).sum)]
    simp only [List.cons_append, List.append_assoc]
    refine List.Perm.cons _ ?_
    rw [← List.append_assoc, ← List.append_assoc]
    exact List.perm_append_comm.append_right _

/-- The cells written when a box is linked are its own cell and the cells
reserved below it, each once. -/
theorem cells_of_keys (P : node) : P.isBox = true → ∀ o C cf lf,
    List.Perm ((cells_of P o C cf lf).map Prod.fst) (C :: List.range' cf (sub_cells P)) := by
  induction P with
  | null => intro h; cases h
  | dot D => intro h; cases h
  | box L c N DOTS OCT ih =>
    intro _ o C cf lf
    by_cases htw : (node.box L c N DOTS OCT).is_twig = true
    · simp [cells_of, sub_cells, htw]
    · simp only [cells_of, sub_cells, htw, List.map_cons]
      refine List.Perm.cons _ ?_
      have hk := kids_cells_keys (fun k c1 cf1 lf1 => cells_of (OCT k) k.val c1 cf1 lf1)
        (fun k => sub_cells (OCT k)) (fun k => (link_order (OCT k)).length)
        (box_kids OCT (List.finRange 8))
        (fun k hk c1 cf1 lf1 => ih k (box_kids_isBox OCT _ k hk) k.val c1 cf1 lf1)
        cf (cf + (box_kids OCT (List.finRange 8)).length)
        (lf + (dot_kids OCT (List.finRange 8)).length)
      refine hk.trans ?_
      have hs : ((box_kids OCT (List.finRange 8)).map (fun k => 1 + sub_cells (OCT k))).sum
          = (box_kids OCT (List.finRange 8)).length
            + ((box_kids OCT (List.finRange 8)).map (fun k => sub_cells (OCT k))).sum := by
        generalize box_kids OCT (List.finRange 8) = ks
        induction ks with
        | nil => rfl
        | cons k ks ih2 => simp only [List.map_cons, List.sum_cons, List.length_cons, ih2]; omega
      simp only [Bool.false_eq_true, if_false]
      rw [hs, range'_split]

theorem Res.isOk_elim {α : Type} {r : Res α} (h : r.isOk = true) : ∃ a, r = Res.ok a := by
  cases r with
  | ok a => exact ⟨a, rfl⟩
  | error e => cases h
  | fuel => cases h

/-- After a successful build, `link()` makes the stores of the layout of the
root box, whichever of `link_cells_1` and `link_cells_N` it calls. -/
theorem link_after_build (fuel nc dm nl : Nat) (x0 : vect) (sz : real) (dots : List dot)
    (TB : box_dot_tree)
    (h : tree_builder.build fuel (box_dot_tree.reset nc dm nl x0 sz) dots = Res.ok TB) :
    TB.link.2 = link_ext TB.P0 0 0 { CELLS := [], LEAFS := [], Cf := 1, Lf := 0 } := by
  obtain ⟨_, _, _, hnt, hnc, _, _⟩ := build_inv fuel nc dm nl x0 sz dots TB h
  unfold box_dot_tree.link
  by_cases hc : TB.NCRIT > 1
  · simp only [hc, if_true]
    exact link_cells_N_eq _ _ _ _
  · simp only [hc, if_false]
    rw [link_cells_1_eq_N _ (hnt (by rw [← hnc]; exact hc))]
    exact link_cells_N_eq _ _ _ _

theorem kids_cells_mem (rec : Fin 8 → Nat → Nat → Nat → List (Nat × BasicCell))
    (nb nd : Fin 8 → Nat) (x : Nat × BasicCell) (ks : List (Fin 8)) :
    ∀ c cf lf, x ∈ kids_cells rec nb nd ks c cf lf ↔
      ∃ j k, ks[j]? = some k ∧
        x ∈ rec k (c + j) (cf + ((ks.take j).map nb).sum) (lf + ((ks.take j).map nd).sum) := by
  induction ks with
  | nil => intro c cf lf; simp [kids_cells]
  | cons k0 ks ih =>
    intro c cf lf
    simp only [kids_cells, List.mem_append, ih]
    constructor
    · rintro (h | ⟨j, k, hk, h⟩)
      · exact ⟨0, k0, by simp, by simpa using h⟩
      · refine ⟨j + 1, k, by simpa using hk, ?_⟩
        simp only [List.take_succ_cons, List.map_cons, List.sum_cons]
        rw [show c + (j + 1) = c + 1 + j by omega, ← Nat.add_assoc, ← Nat.add_assoc]
        exact h
    · rintro ⟨j, k, hk, h⟩
      cases j with
      | zero =>
        left
        simp at hk
        subst hk
        simpa using h
      | succ j =>
        right
        refine ⟨j, k, by simpa using hk, ?_⟩
        simp only [List.take_succ_cons, List.map_cons, List.sum_cons] at h
        rw [show c + (j + 1) = c + 1 + j by omega, ← Nat.add_assoc, ← Nat.add_assoc] at h
        exact h

theorem getElem?_box_kids_isBox (OCT : Fin 8 → node) (l : List (Fin 8)) (j : Nat) (k : Fin 8)
    (h : (box_kids OCT l)[j]? = some k) : (OCT k).isBox = true :=
  box_kids_isBox OCT l k (List.getElem?_mem h)

/-- Every store of the layout of `P` writes the cell of a box in or beneath
`P`, and every such box has its store. -/
theorem cells_of_mem (P : node) : ∀ (o C cf lf : Nat) (x : Nat × BasicCell),
    x ∈ cells_of P o C cf lf ↔
      ∃ Q o1 cf1 lf1, in_layout P o C cf lf Q o1 x.1 cf1 lf1 ∧ x.2 = root_cell Q o1 cf1 lf1 := by
  induction P with
  | null =>
    intro o C cf lf x
    simp only [cells_of, List.not_mem_nil, false_iff]
    rintro ⟨Q, o1, cf1, lf1, h, _⟩
    cases h with
    | self _ _ _ _ _ h => cases h
  | dot D =>
    intro o C cf lf x
    simp only [cells_of, List.not_mem_nil, false_iff]
    rintro ⟨Q, o1, cf1, lf1, h, _⟩
    cases h with
    | self _ _ _ _ _ h => cases h
  | box L c N DOTS OCT ih =>
    intro o C cf lf x
    constructor
    · intro hx
      simp only [cells_of, List.mem_cons] at hx
      rcases hx with hx | hx
      · subst hx
        exact ⟨_, o, cf, lf, in_layout.self _ _ _ _ _ rfl, rfl⟩
      · by_cases htw : (node.box L c N DOTS OCT).is_twig = true
        · simp [htw] at hx
        · simp only [htw] at hx
          rw [if_neg (by simp)] at hx
          obtain ⟨j, k, hk, hx⟩ := (kids_cells_mem _ _ _ x _ _ _ _).1 hx
          obtain ⟨Q, o1, cf1, lf1, hl, hx2⟩ := (ih k _ _ _ _ x).1 hx
          refine ⟨Q, o1, cf1, lf1, in_layout.kid L c N DOTS OCT o C cf lf j k Q _ _ _ _
            (by simpa using htw) hk ?_, hx2⟩
          simpa [kid_cf, kid_lf, Nat.add_assoc] using hl
    · rintro ⟨Q, o1, cf1, lf1, hl, hx2⟩
      cases hl with
      | self _ _ _ _ _ h =>
        simp only [cells_of, List.mem_cons]
        left
        exact Prod.ext rfl hx2
      | kid _ _ _ _ _ _ _ _ _ j k _ _ _ _ _ htw hk hl =>
        simp only [cells_of, List.mem_cons, htw]
        right
        rw [if_neg (by simp)]
        refine (kids_cells_mem _ _ _ x _ _ _ _).2 ⟨j, k, hk, ?_⟩
        refine (ih k _ _ _ _ x).2 ⟨Q, o1, cf1, lf1, ?_, hx2⟩
        simpa [kid_cf, kid_lf, Nat.add_assoc] using hl

theorem in_layout_isBox {P : node} {o C cf lf : Nat} {Q : node} {o1 C1 cf1 lf1 : Nat}
    (h : in_layout P o C cf lf Q o1 C1 cf1 lf1) : Q.isBox = true := by
  induction h with
  | self _ _ _ _ _ h => exact h
  | kid _ _ _ _ _ _ _ _ _ _ _ _ _ _ _ _ _ _ _ ih => exact ih

theorem in_layout_trans {P : node} {o C cf lf : Nat} {Q : node} {o1 C1 cf1 lf1 : Nat}
    (h : in_layout P o C cf lf Q o1 C1 cf1 lf1) {R : node} {o2 C2 cf2 lf2 : Nat}
    (h2 : in_layout Q o1 C1 cf1 lf1 R o2 C2 cf2 lf2) :
    in_layout P o C cf lf R o2 C2 cf2 lf2 := by
  induction h with
  | self _ _ _ _ _ h => exact h2
  | kid L c N DOTS OCT o C cf lf j k Q o1 C1 cf1 lf1 htw hk _ ih =>
    exact in_layout.kid L c N DOTS OCT o C cf lf j k R _ _ _ _ htw hk (ih h2)

theorem in_layout_WF {P : node} {o C cf lf : Nat} {Q : node} {o1 C1 cf1 lf1 : Nat}
    (h : in_layout P o C cf lf Q o1 C1 cf1 lf1) (hP : WF P) : WF Q := by
  induction h with
  | self _ _ _ _ _ h => exact hP
  | kid L c N DOTS OCT o C cf lf j k Q o1 C1 cf1 lf1 htw hk _ ih => exact ih (hP.2.2 k)

/-- After a successful build and `link()`, the cells of the cell array are
exactly the cells of the layout of the root box. -/
theorem cell_array_spec (fuel nc dm : Nat) (x0 : vect) (sz : real) (dots : List dot)
    (TB : box_dot_tree)
    (h : tree_builder.build fuel (box_dot_tree.reset nc dm dots.length x0 sz) dots
      = Res.ok TB) :
    (cell_array TB).length = TB.BM ∧
      (∀ x ∈ cells_of TB.P0 0 0 1 0, (cell_array TB)[x.1]? = some x.2) ∧
      (∀ c cell, (cell_array TB)[c]? = some cell → (c, cell) ∈ cells_of TB.P0 0 0 1 0) := by
  obtain ⟨hWF, hperm, hBM, _, _, hnd, L, c, N, DOTS, OCT, hP⟩ :=
    build_inv fuel nc dm dots.length x0 sz dots TB h
  have hlink := link_after_build fuel nc dm dots.length x0 sz dots TB h
  have hbox : TB.P0.isBox = true := by rw [hP]; rfl
  have hnb := sub_cells_nboxes TB.P0 hWF hbox
  have hC : TB.link.2.CELLS = (cells_of TB.P0 0 0 1 0).reverse := by
    rw [hlink]; simp [link_ext]
  have hkeys : List.Perm ((cells_of TB.P0 0 0 1 0).map Prod.fst) (List.range TB.BM) := by
    refine (cells_of_keys TB.P0 hbox 0 0 1 0).trans ?_
    rw [hBM, hnb, List.range_eq_range', range'_split 0 1 (sub_cells TB.P0)]
    simp [List.range']
  have hnodup : ((cells_of TB.P0 0 0 1 0).reverse.map Prod.fst).Nodup := by
    rw [List.map_reverse, List.nodup_reverse]
    exact hkeys.nodup_iff.2 (List.nodup_range _)
  have hlen : (cell_array TB).length = TB.BM := by
    unfold cell_array
    rw [length_store_all]
    simp
  have hget : ∀ x ∈ cells_of TB.P0 0 0 1 0, (cell_array TB)[x.1]? = some x.2 := by
    intro x hx
    unfold cell_array
    rw [hC]
    refine store_all_get _ _ hnodup x.1 x.2 (List.mem_reverse.2 hx) ?_
    have : x.1 ∈ List.range TB.BM := hkeys.subset (List.mem_map.2 ⟨x, hx, rfl⟩)
    simpa using this
  refine ⟨hlen, hget, ?_⟩
  intro c cell hc
  have hc1 : c < TB.BM := by
    rw [← hlen]
    exact (List.getElem?_eq_some.1 hc).1
  have : c ∈ (cells_of TB.P0 0 0 1 0).map Prod.fst := hkeys.symm.subset (by simpa using hc1)
  obtain ⟨x, hx, hx1⟩ := List.mem_map.1 this
  have h2 := hget x hx
  rw [hx1, hc] at h2
  injection h2 with h2
  rw [h2, ← hx1]
  exact hx

theorem root_cell_NUMBER (Q : node) (o cf lf : Nat) (h : Q.isBox = true) :
    (root_cell Q o cf lf).NUMBER = node_number Q := by
  cases Q with
  | null => cases h
  | dot D => cases h
  | box L c N DOTS OCT =>
    by_cases htw : (node.box L c N DOTS OCT).is_twig = true
    · simp [root_cell, htw, node_number]
    · simp [root_cell, htw, node_number]

theorem root_cell_FCLEAF (Q : node) (o cf lf : Nat) : (root_cell Q o cf lf).FCLEAF = lf := by
  cases Q with
  | null => rfl
  | dot D => rfl
  | box L c N DOTS OCT =>
    by_cases htw : (node.box L c N DOTS OCT).is_twig = true
    · simp [root_cell, htw]
    · simp [root_cell, htw]

theorem root_cell_OCTANT (Q : node) (o cf lf : Nat) : (root_cell Q o cf lf).OCTANT = o := by
  cases Q with
  | null => rfl
  | dot D => rfl
  | box L c N DOTS OCT =>
    by_cases htw : (node.box L c N DOTS OCT).is_twig = true
    · simp [root_cell, htw]
    · simp [root_cell, htw]

/-- In a well-formed tree the field `NUMBER` of a box counts the dots written
for it by the linker. -/
theorem WF_number (Q : node) (hW : WF Q) (hb : Q.isBox = true) :
    node_number Q = (link_order Q).length := by
  have hp := (link_order_perm Q hW hb).length_eq
  cases Q with
  | null => cases hb
  | dot D => cases hb
  | box L c N DOTS OCT =>
    rw [hp]
    exact hW.1

theorem sum_range_eq_sum_map {α : Type} (ks : List α) (G : α → Nat) (H : Nat → Nat)
    (h : ∀ j k, ks[j]? = some k → H j = G k) :
    ((List.range ks.length).map H).sum = (ks.map G).sum := by
  induction ks generalizing H with
  | nil => rfl
  | cons k ks ih =>
    rw [List.length_cons, List.range_succ_eq_map]
    simp only [List.map_cons, List.sum_cons, List.map_map]
    rw [h 0 k (by simp)]
    congr 1
    exact ih (H ∘ Nat.succ) (fun j k1 hk => h (j + 1) k1 (by simpa using hk))

/-- In a well-formed branch box `NUMBER` is the number of dots in its octants
plus the `NUMBER`s of its sub-boxes. -/
theorem WF_branch_number (L : Nat) (c : vect) (N : Nat) (DOTS : List dot) (OCT : Fin 8 → node)
    (hW : WF (node.box L c N DOTS OCT)) (htw : (node.box L c N DOTS OCT).is_twig = false) :
    N = (dot_kids OCT (List.finRange 8)).length
      + ((box_kids OCT (List.finRange 8)).map (fun k => node_number (OCT k))).sum := by
  have h1 : N = (link_order (node.box L c N DOTS OCT)).length := WF_number _ hW rfl
  have h2 : link_order (node.box L c N DOTS OCT) = dot_kids OCT (List.finRange 8) ++
      (box_kids OCT (List.finRange 8)).flatMap (fun k => link_order (OCT k)) := by
    simp [link_order, htw]
  rw [h2, List.length_append, List.length_flatMap] at h1
  rw [h1]
  congr 1
  congr 1
  apply List.map_congr_left
  intro k hk
  exact (WF_number (OCT k) (hW.2.2 k) (box_kids_isBox OCT _ k hk)).symm

theorem is_linked_after_build (fuel nc dm : Nat) (x0 : vect) (sz : real) (dots : List dot)
    (TB : box_dot_tree)
    (h : tree_builder.build fuel (box_dot_tree.reset nc dm dots.length x0 sz) dots
      = Res.ok TB) : is_linked TB.P0 (cell_array TB) := by
  obtain ⟨hWF, _, hBM, _, _, _, L, c, N, DOTS, OCT, hP⟩ :=
    build_inv fuel nc dm dots.length x0 sz dots TB h
  obtain ⟨h1, h2, h3⟩ := cell_array_spec fuel nc dm x0 sz dots TB h
  have hbox : TB.P0.isBox = true := by rw [hP]; rfl
  exact ⟨hWF, hbox, h2, h3, by rw [h1, hBM]; exact sub_cells_nboxes TB.P0 hWF hbox⟩

theorem is_linked_cell_at {P0 : node} {CELLS : List BasicCell} (hl : is_linked P0 CELLS)
    {Q : node} {o C cf lf : Nat} (h : in_layout P0 0 0 1 0 Q o C cf lf) :
    CELLS[C]? = some (root_cell Q o cf lf) :=
  hl.2.2.1 (C, root_cell Q o cf lf) ((cells_of_mem P0 0 0 1 0 _).2 ⟨Q, o, cf, lf, h, rfl⟩)

theorem is_linked_cell {P0 : node} {CELLS : List BasicCell} (hl : is_linked P0 CELLS)
    {c : Nat} {cell : BasicCell} (h : CELLS[c]? = some cell) :
    ∃ Q o cf lf, in_layout P0 0 0 1 0 Q o c cf lf ∧ cell = root_cell Q o cf lf ∧ WF Q ∧
      Q.isBox = true := by
  obtain ⟨Q, o, cf, lf, h1, h2⟩ := (cells_of_mem P0 0 0 1 0 _).1 (hl.2.2.2.1 c cell h)
  exact ⟨Q, o, cf, lf, h1, h2, in_layout_WF h1 hl.1, in_layout_isBox h1⟩

theorem in_layout_kid {P0 : node} {o0 C0 cf0 lf0 : Nat} {L : Nat} {c : vect} {N : Nat}
    {DOTS : List dot} {OCT : Fin 8 → node} {o C cf lf : Nat}
    (h : in_layout P0 o0 C0 cf0 lf0 (node.box L c N DOTS OCT) o C cf lf)
    (htw : (node.box L c N DOTS OCT).is_twig = false) {j : Nat} {k : Fin 8}
    (hk : (box_kids OCT (List.finRange 8))[j]? = some k) :
    in_layout P0 o0 C0 cf0 lf0 (OCT k) k.val (cf + j) (kid_cf OCT cf j) (kid_lf OCT lf j) :=
  in_layout_trans h (in_layout.kid L c N DOTS OCT o C cf lf j k _ _ _ _ _ htw hk
    (in_layout.self _ _ _ _ _ (getElem?_box_kids_isBox OCT _ j k hk)))

theorem number_is_sum_core {P0 : node} {CELLS : List BasicCell} (hl : is_linked P0 CELLS)
    (c : Nat) (cell : BasicCell) (h : CELLS[c]? = some cell) :
    cell.NUMBER = cell.NLEAFS + ((List.range cell.NCELLS).map
      (fun j => (CELLS.getD (cell.FCCELL.toNat + j) no_cell).NUMBER)).sum := by
  obtain ⟨Q, o, cf, lf, hin, hcell, hW, hb⟩ := is_linked_cell hl h
  cases Q with
  | null => cases hb
  | dot D => cases hb
  | box L ctr N DOTS OCT =>
    by_cases htw : (node.box L ctr N DOTS OCT).is_twig = true
    · subst hcell
      simp [root_cell, htw]
    · have htw2 : (node.box L ctr N DOTS OCT).is_twig = false := by simpa using htw
      have hN := WF_branch_number L ctr N DOTS OCT hW htw2
      have hsum : ((List.range (box_kids OCT (List.finRange 8)).length).map
          (fun j => (CELLS.getD (cf + j) no_cell).NUMBER)).sum
          = ((box_kids OCT (List.finRange 8)).map (fun k => node_number (OCT k))).sum := by
        apply sum_range_eq_sum_map
        intro j k hk
        have := is_linked_cell_at hl (in_layout_kid hin htw2 hk)
        rw [List.getD_eq_getElem?_getD, this]
        simp only [Option.getD_some]
        exact root_cell_NUMBER _ _ _ _ (getElem?_box_kids_isBox OCT _ j k hk)
      subst hcell
      simp only [root_cell, htw2]
      rw [if_neg (by simp)]
      simp only
      by_cases hks : (box_kids OCT (List.finRange 8)).length = 0
      · rw [hN, hks]
        have : box_kids OCT (List.finRange 8) = [] := List.length_eq_zero.1 hks
        simp [this]
      · simp only [ne_eq, hks, not_false_eq_true, if_true, Int.toNat_ofNat]
        rw [hsum]
        exact hN

theorem prefix_sum_le {α : Type} (ks : List α) (g : α → Nat) :
    ∀ (j : Nat) (k : α), ks[j]? = some k →
      ((ks.take j).map g).sum + g k ≤ (ks.map g).sum := by
  induction ks with
  | nil => intro j k h; simp at h
  | cons a ks ih =>
    intro j k h
    cases j with
    | zero =>
      simp at h
      subst h
      simp
    | succ j =>
      have := ih j k (by simpa using h)
      simp only [List.take_succ_cons, List.map_cons, List.sum_cons]
      omega

theorem prefix_sum_partition {α : Type} (ks : List α) (g : α → Nat) :
    ∀ (n : Nat), n < (ks.map g).sum →
      ∃ j k, ks[j]? = some k ∧ ((ks.take j).map g).sum ≤ n ∧
        n < ((ks.take j).map g).sum + g k := by
  induction ks with
  | nil => intro n h; simp at h
  | cons a ks ih =>
    intro n h
    simp only [List.map_cons, List.sum_cons] at h
    by_cases hn : n < g a
    · exact ⟨0, a, by simp, by simp, by simpa using hn⟩
    · obtain ⟨j, k, hk, h1, h2⟩ := ih (n - g a) (by omega)
      refine ⟨j + 1, k, by simpa using hk, ?_, ?_⟩
      · simp only [List.take_succ_cons, List.map_cons, List.sum_cons]; omega
      · simp only [List.take_succ_cons, List.map_cons, List.sum_cons]; omega

theorem WF_branch_number_lo (L : Nat) (c : vect) (N : Nat) (DOTS : List dot)
    (OCT : Fin 8 → node) (hW : WF (node.box L c N DOTS OCT))
    (htw : (node.box L c N DOTS OCT).is_twig = false) :
    N = (dot_kids OCT (List.finRange 8)).length
      + ((box_kids OCT (List.finRange 8)).map (fun k => (link_order (OCT k)).length)).sum := by
  have h1 : N = (link_order (node.box L c N DOTS OCT)).length := WF_number _ hW rfl
  have h2 : link_order (node.box L c N DOTS OCT) = dot_kids OCT (List.finRange 8) ++
      (box_kids OCT (List.finRange 8)).flatMap (fun k => link_order (OCT k)) := by
    simp [link_order, htw]
  rw [h2, List.length_append, List.length_flatMap] at h1
  exact h1

theorem leaf_of_cell_range {P0 : node} {CELLS : List BasicCell} (hl : is_linked P0 CELLS)
    {c i : Nat} (h : leaf_of_cell CELLS c i) :
    ∀ Q o cf lf, in_layout P0 0 0 1 0 Q o c cf lf → lf ≤ i ∧ i < lf + node_number Q := by
  induction h with
  | direct c i cell h h1 h2 =>
    intro Q o cf lf hin
    have hW := in_layout_WF hin hl.1
    have hc := is_linked_cell_at hl hin
    rw [h] at hc
    injection hc with hc
    subst hc
    rw [root_cell_FCLEAF] at h1 h2
    refine ⟨h1, ?_⟩
    cases Q with
    | null => exact absurd (in_layout_isBox hin) (by simp [node.isBox])
    | dot D => exact absurd (in_layout_isBox hin) (by simp [node.isBox])
    | box L ctr N DOTS OCT =>
      by_cases htw : (node.box L ctr N DOTS OCT).is_twig = true
      · simpa [root_cell, htw, node_number] using h2
      · have htw2 : (node.box L ctr N DOTS OCT).is_twig = false := by simpa using htw
        have hN := WF_branch_number_lo L ctr N DOTS OCT hW htw2
        simp only [root_cell, htw2] at h2
        rw [if_neg (by simp)] at h2
        simp only [node_number]
        simp only at h2
        omega
  | child c k i cell h h1 h2 _ ih =>
    intro Q o cf lf hin
    have hW := in_layout_WF hin hl.1
    have hc := is_linked_cell_at hl hin
    rw [h] at hc
    injection hc with hc
    subst hc
    cases Q with
    | null => exact absurd (in_layout_isBox hin) (by simp [node.isBox])
    | dot D => exact absurd (in_layout_isBox hin) (by simp [node.isBox])
    | box L ctr N DOTS OCT =>
      by_cases htw : (node.box L ctr N DOTS OCT).is_twig = true
      · simp only [root_cell, htw, if_true] at h1 h2
        omega
      · have htw2 : (node.box L ctr N DOTS OCT).is_twig = false := by simpa using htw
        have hN := WF_branch_number_lo L ctr N DOTS OCT hW htw2
        simp only [root_cell, htw2] at h1 h2
        rw [if_neg (by simp)] at h1 h2
        simp only at h1 h2
        by_cases hks : (box_kids OCT (List.finRange 8)).length = 0
        · simp only [hks, ne_eq, not_true_eq_false, if_false] at h1 h2
          omega
        · simp only [ne_eq, hks, not_false_eq_true, if_true] at h1 h2
          have hj : k - cf < (box_kids OCT (List.finRange 8)).length := by omega
          obtain ⟨kk, hkk⟩ : ∃ kk, (box_kids OCT (List.finRange 8))[k - cf]? = some kk :=
            ⟨_, List.getElem?_eq_getElem hj⟩
          have hin2 := in_layout_kid hin htw2 hkk
          rw [show cf + (k - cf) = k by omega] at hin2
          obtain ⟨a1, a2⟩ := ih _ _ _ _ hin2
          have hW2 := in_layout_WF hin2 hl.1
          have hnum := WF_number (OCT kk) hW2 (in_layout_isBox hin2)
          have hpre := prefix_sum_le (box_kids OCT (List.finRange 8))
            (fun k => (link_order (OCT k)).length) (k - cf) kk hkk
          simp only [kid_lf] at a1 a2
          simp only [node_number]
          simp only at hpre
          omega

theorem range_leaf_of_cell {P0 : node} {CELLS : List BasicCell} (hl : is_linked P0 CELLS)
    (Q : node) : ∀ o c cf lf, in_layout P0 0 0 1 0 Q o c cf lf →
      ∀ i, lf ≤ i → i < lf + node_number Q → leaf_of_cell CELLS c i := by
  induction Q with
  | null => intro o c cf lf hin; exact absurd (in_layout_isBox hin) (by simp [node.isBox])
  | dot D => intro o c cf lf hin; exact absurd (in_layout_isBox hin) (by simp [node.isBox])
  | box L ctr N DOTS OCT ih =>
    intro o c cf lf hin i h1 h2
    have hW := in_layout_WF hin hl.1
    have hc := is_linked_cell_at hl hin
    simp only [node_number] at h2
    by_cases htw : (node.box L ctr N DOTS OCT).is_twig = true
    · refine leaf_of_cell.direct c i _ hc ?_ ?_
      · rw [root_cell_FCLEAF]; exact h1
      · rw [root_cell_FCLEAF]; simpa [root_cell, htw] using h2
    · have htw2 : (node.box L ctr N DOTS OCT).is_twig = false := by simpa using htw
      have hN := WF_branch_number_lo L ctr N DOTS OCT hW htw2
      by_cases hd : i < lf + (dot_kids OCT (List.finRange 8)).length
      · refine leaf_of_cell.direct c i _ hc ?_ ?_
        · rw [root_cell_FCLEAF]; exact h1
        · rw [root_cell_FCLEAF]; simpa [root_cell, htw2] using hd
      · obtain ⟨j, k, hk, p1, p2⟩ := prefix_sum_partition (box_kids OCT (List.finRange 8))
          (fun k => (link_order (OCT k)).length)
          (i - (lf + (dot_kids OCT (List.finRange 8)).length)) (by omega)
        have hin2 := in_layout_kid hin htw2 hk
        have hW2 := in_layout_WF hin2 hl.1
        have hnum := WF_number (OCT k) hW2 (in_layout_isBox hin2)
        have hj : j < (box_kids OCT (List.finRange 8)).length := (List.getElem?_eq_some.1 hk).1
        have hrec := ih k _ _ _ _ hin2 i (by simp only [kid_lf]; omega)
          (by simp only [kid_lf]; omega)
        refine leaf_of_cell.child c (cf + j) i _ hc ?_ ?_ hrec
        · simp only [root_cell, htw2]
          rw [if_neg (by simp)]
          simp only
          rw [if_pos (by omega)]
          omega
        · simp only [root_cell, htw2]
          rw [if_neg (by simp)]
          simp only
          rw [if_pos (by omega)]
          omega

theorem child_range_root_cell (Q : node) (o cf lf : Nat) (hb : Q.isBox = true) :
    child_range (root_cell Q o cf lf) =
      List.range' cf (match Q with
        | node.box L c N DOTS OCT =>
            if (node.box L c N DOTS OCT).is_twig then 0
            else (box_kids OCT (List.finRange 8)).length
        | _ => 0) := by
  cases Q with
  | null => cases hb
  | dot D => cases hb
  | box L c N DOTS OCT =>
    by_cases htw : (node.box L c N DOTS OCT).is_twig = true
    · simp [child_range, root_cell, htw]
    · by_cases hks : (box_kids OCT (List.finRange 8)).length = 0
      · simp [child_range, root_cell, htw, hks]
      · simp [child_range, root_cell, htw, hks]

theorem sum_one_add {α : Type} (ks : List α) (g : α → Nat) :
    (ks.map (fun k => 1 + g k)).sum = ks.length + (ks.map g).sum := by
  induction ks with
  | nil => rfl
  | cons k ks ih => simp only [List.map_cons, List.sum_cons, List.length_cons, ih]; omega

theorem kids_cells_flatMap (g : Nat × BasicCell → List Nat)
    (rec : Fin 8 → Nat → Nat → Nat → List (Nat × BasicCell)) (nb nd : Fin 8 → Nat)
    (ks : List (Fin 8))
    (h : ∀ k ∈ ks, ∀ c cf lf, List.Perm ((rec k c cf lf).flatMap g) (List.range' cf (nb k))) :
    ∀ c cf lf, List.Perm ((kids_cells rec nb nd ks c cf lf).flatMap g)
      (List.range' cf ((ks.map nb).sum)) := by
  induction ks with
  | nil => intro c cf lf; simp [kids_cells]
  | cons k ks ih =>
    intro c cf lf
    have ih2 := ih (fun j hj => h j (by simp [hj])) (c + 1) (cf + nb k) (lf + nd k)
    have h1 := h k (by simp) c cf lf
    simp only [kids_cells, List.flatMap_append, List.map_cons, List.sum_cons]
    rw [range'_split cf (nb k) ((ks.map nb).sum)]
    exact List.Perm.append h1 ih2

/-- The child ranges of the cells written for a box and the boxes beneath it
are, together, the cells reserved below the box, each cell once. -/
theorem cells_of_child_ranges (P : node) : P.isBox = true → ∀ o C cf lf,
    List.Perm ((cells_of P o C cf lf).flatMap (fun x => child_range x.2))
      (List.range' cf (sub_cells P)) := by
  induction P with
  | null => intro h; cases h
  | dot D => intro h; cases h
  | box L c N DOTS OCT ih =>
    intro hb o C cf lf
    simp only [cells_of, List.flatMap_cons]
    rw [child_range_root_cell _ _ _ _ hb]
    by_cases htw : (node.box L c N DOTS OCT).is_twig = true
    · simp [sub_cells, htw]
    · simp only [htw, sub_cells]
      rw [if_neg (by simp), if_neg (by simp), if_neg (by simp), sum_one_add, range'_split]
      refine List.Perm.append_left _ ?_
      exact kids_cells_flatMap _ _ _ _ _
        (fun k hk c1 cf1 lf1 => ih k (box_kids_isBox OCT _ k hk) k.val c1 cf1 lf1) _ _ _

theorem box_kids_lt (OCT : Fin 8 → node) (j1 j2 : Nat) (k1 k2 : Fin 8) (h : j1 < j2)
    (h1 : (box_kids OCT (List.finRange 8))[j1]? = some k1)
    (h2 : (box_kids OCT (List.finRange 8))[j2]? = some k2) : k1.val < k2.val := by
  have hp : List.Pairwise (· < ·) (box_kids OCT (List.finRange 8)) :=
    List.Pairwise.sublist (box_kids_sublist OCT _) (List.pairwise_lt_finRange 8)
  obtain ⟨a1, a2⟩ := List.getElem?_eq_some.1 h1
  obtain ⟨b1, b2⟩ := List.getElem?_eq_some.1 h2
  have := List.pairwise_iff_getElem.1 hp j1 j2 a1 b1 h
  rw [a2, b2] at this
  exact this

theorem WF_twig_no_kids (L : Nat) (c : vect) (N : Nat) (DOTS : List dot) (OCT : Fin 8 → node)
    (hW : WF (node.box L c N DOTS OCT)) (htw : (node.box L c N DOTS OCT).is_twig = true) :
    box_kids OCT (List.finRange 8) = [] := by
  have hne : DOTS ≠ [] := by
    intro e
    simp [node.is_twig, e] at htw
  have hO : OCT = fun _ => node.null := funext (hW.2.1 hne)
  subst hO
  simp [box_kids, node.isBox]

/-- The facts of claim C3 for a cell array that holds the layout of a tree. -/
theorem child_cells_core {P0 : node} {CELLS : List BasicCell} (hl : is_linked P0 CELLS) :
    (∀ (c : Nat) (cell : BasicCell), CELLS[c]? = some cell →
      ∃ L ctr N DOTS OCT o cf lf,
        in_layout P0 0 0 1 0 (node.box L ctr N DOTS OCT) o c cf lf ∧
        cell.NCELLS = (box_kids OCT (List.finRange 8)).length ∧
        ∀ j k, (box_kids OCT (List.finRange 8))[j]? = some k →
          in_layout P0 0 0 1 0 (OCT k) k.val (cell.FCCELL.toNat + j)
            (kid_cf OCT cf j) (kid_lf OCT lf j) ∧
          ∃ kc, CELLS[cell.FCCELL.toNat + j]? = some kc ∧ kc.OCTANT = k.val) ∧
    (∀ (c : Nat) (cell : BasicCell), CELLS[c]? = some cell →
      ∀ (j1 j2 : Nat) (c1 c2 : BasicCell), j1 < j2 → j2 < cell.NCELLS →
      CELLS[cell.FCCELL.toNat + j1]? = some c1 → CELLS[cell.FCCELL.toNat + j2]? = some c2 →
        c1.OCTANT < c2.OCTANT) ∧
    (∀ (c : Nat) (cell : BasicCell), CELLS[c]? = some cell →
      ∀ k ∈ child_range cell, 1 ≤ k ∧ k < CELLS.length) ∧
    (∀ (c c1 : Nat) (cell cell1 : BasicCell), CELLS[c]? = some cell →
      CELLS[c1]? = some cell1 → c ≠ c1 →
      ∀ k ∈ child_range cell, k ∉ child_range cell1) ∧
    (∀ k, 1 ≤ k → k < CELLS.length →
      ∃ (c : Nat) (cell : BasicCell), CELLS[c]? = some cell ∧ k ∈ child_range cell) := by
  have hperm := cells_of_child_ranges P0 hl.2.1 0 0 1 0
  have hA : ∀ (c : Nat) (cell : BasicCell), CELLS[c]? = some cell →
      ∃ L ctr N DOTS OCT o cf lf,
        in_layout P0 0 0 1 0 (node.box L ctr N DOTS OCT) o c cf lf ∧
        cell.NCELLS = (box_kids OCT (List.finRange 8)).length ∧
        ∀ j k, (box_kids OCT (List.finRange 8))[j]? = some k →
          in_layout P0 0 0 1 0 (OCT k) k.val (cell.FCCELL.toNat + j)
            (kid_cf OCT cf j) (kid_lf OCT lf j) ∧
          ∃ kc, CELLS[cell.FCCELL.toNat + j]? = some kc ∧ kc.OCTANT = k.val := by
    intro c cell hc
    obtain ⟨Q, o, cf, lf, hin, hcell, hW, hb⟩ := is_linked_cell hl hc
    cases Q with
    | null => cases hb
    | dot D => cases hb
    | box L ctr N DOTS OCT =>
      refine ⟨L, ctr, N, DOTS, OCT, o, cf, lf, hin, ?_, ?_⟩
      · subst hcell
        by_cases htw : (node.box L ctr N DOTS OCT).is_twig = true
        · rw [WF_twig_no_kids L ctr N DOTS OCT hW htw]
          simp [root_cell, htw]
        · simp [root_cell, htw]
      · intro j k hk
        have hj : j < (box_kids OCT (List.finRange 8)).length := (List.getElem?_eq_some.1 hk).1
        have htw : (node.box L ctr N DOTS OCT).is_twig = false := by
          by_cases htw : (node.box L ctr N DOTS OCT).is_twig = true
          · rw [WF_twig_no_kids L ctr N DOTS OCT hW htw] at hj
            simp at hj
          · simpa using htw
        have hfc : cell.FCCELL.toNat = cf := by
          subst hcell
          simp only [root_cell, htw]
          rw [if_neg (by simp)]
          simp only
          rw [if_pos (by omega)]
          simp
        have hin2 := in_layout_kid hin htw hk
        rw [hfc]
        exact ⟨hin2, _, is_linked_cell_at hl hin2, root_cell_OCTANT _ _ _ _⟩
  refine ⟨hA, ?_, ?_, ?_, ?_⟩
  · intro c cell hc j1 j2 c1 c2 hj hj2 h1 h2
    obtain ⟨L, ctr, N, DOTS, OCT, o, cf, lf, hin, hn, hkids⟩ := hA c cell hc
    rw [hn] at hj2
    obtain ⟨k2, hk2⟩ : ∃ k2, (box_kids OCT (List.finRange 8))[j2]? = some k2 :=
      ⟨_, List.getElem?_eq_getElem hj2⟩
    obtain ⟨k1, hk1⟩ : ∃ k1, (box_kids OCT (List.finRange 8))[j1]? = some k1 :=
      ⟨_, List.getElem?_eq_getElem (by omega)⟩
    obtain ⟨_, kc1, e1, o1⟩ := hkids j1 k1 hk1
    obtain ⟨_, kc2, e2, o2⟩ := hkids j2 k2 hk2
    rw [h1] at e1
    rw [h2] at e2
    injection e1 with e1
    injection e2 with e2
    rw [e1, e2, o1, o2]
    exact box_kids_lt OCT j1 j2 k1 k2 hj hk1 hk2
  · intro c cell hc k hk
    have hmem : k ∈ (cells_of P0 0 0 1 0).flatMap (fun x => child_range x.2) :=
      List.mem_flatMap.2 ⟨(c, cell), hl.2.2.2.1 c cell hc, hk⟩
    have := hperm.subset hmem
    rw [List.mem_range'_1] at this
    rw [hl.2.2.2.2]
    omega
  · intro c c1 cell cell1 hc hc1 hne k hk hk1
    have hnd : ((cells_of P0 0 0 1 0).flatMap (fun x => child_range x.2)).Nodup :=
      hperm.nodup_iff.2 (List.nodup_range' _ _)
    have hpw := (List.nodup_flatMap.1 hnd).2
    have hsym : Symmetric (Function.onFun List.Disjoint
        (fun x : Nat × BasicCell => child_range x.2)) := by
      intro a b hab
      exact List.Disjoint.symm hab
    have hd := List.Pairwise.forall hsym hpw (hl.2.2.2.1 c cell hc) (hl.2.2.2.1 c1 cell1 hc1)
      (by intro e; injection e with e1 _; exact hne e1)
    exact hd hk hk1
  · intro k h1 h2
    have hk : k ∈ List.range' 1 (sub_cells P0) := by
      rw [List.mem_range'_1]
      rw [hl.2.2.2.2] at h2
      omega
    obtain ⟨x, hx, hkx⟩ := List.mem_flatMap.1 (hperm.symm.subset hk)
    exact ⟨x.1, x.2, hl.2.2.1 x hx, hkx⟩

theorem make_subbox_255 (RA : List real) (L : Nat) (c : vect) (i : Fin 8) (BM : Nat) :
    ∃ c1, make_subbox 255 RA L c i BM = Res.ok (box_reset ((L + 1) % 256) c1, BM + 1) := by
  have h : ¬ (L + 1) % 256 > 255 := by omega
  simp only [make_subbox, shrink_to_octant, h, if_false]
  exact ⟨_, rfl⟩

/-- With `DMAX = 255`, `adddot_1` never finishes on a box that holds one dot when
the new dot has the position of that dot: the level, a `uint8`, never exceeds
`DMAX`. -/
theorem adddot_1_coincident (RA : List real) (Do Di : dot) (hp : Di.POS = Do.POS) :
    ∀ (fuel L : Nat) (c : vect) (N BM : Nat),
      adddot_1 255 RA fuel
        (node.box L c N [] (Function.update (fun _ => node.null) (octantF c Do.POS) (node.dot Do)))
        Di BM = Res.fuel := by
  intro fuel
  induction fuel with
  | zero => intro L c N BM; rfl
  | succ fuel ih =>
    intro L c N BM
    obtain ⟨c1, hc1⟩ := make_subbox_255 RA L c (octantF c Do.POS) BM
    have hq : Function.update (fun _ => node.null) (octantF c Do.POS) (node.dot Do)
        (octantF c Di.POS) = node.dot Do := by rw [hp, Function.update_same]
    rw [adddot_1]
    simp only [hq]
    simp only [hp, make_subbox_1, hc1, box_reset, adddot_to_octs, ih]

theorem build_1_coincident (fuel : Nat) (x0 : vect) (sz : real) (p : vect) (l1 l2 : Nat) :
    tree_builder.build fuel (box_dot_tree.reset 1 255 2 x0 sz) [⟨p, l1⟩, ⟨p, l2⟩] = Res.fuel := by
  cases fuel with
  | zero => rfl
  | succ fuel =>
    have h := adddot_1_coincident
      (List.iterate (fun r => real.mul half r) sz (255 + 1)) ⟨p, l1⟩ ⟨p, l2⟩ rfl (fuel + 1) 0 x0 1 1
    simp only [tree_builder.build, box_dot_tree.reset, adddots, box_reset, adddot_1] at h ⊢
    simp only [Nat.lt_irrefl, if_false, adddot_1, Nat.zero_add]
    rw [h]

theorem sort_dots_coincident (c p : vect) (DOTS : List dot) (h : ∀ d ∈ DOTS, d.POS = p) :
    sort_dots c DOTS = Function.update (fun _ => []) (octantF c p) DOTS.reverse := by
  unfold sort_dots
  suffices hs : ∀ acc0 : List dot,
      DOTS.foldl (fun LST Di =>
        Function.update LST (octantF c Di.POS) (Di :: LST (octantF c Di.POS)))
        (Function.update (fun _ => []) (octantF c p) acc0)
      = Function.update (fun _ => []) (octantF c p) (DOTS.reverse ++ acc0) by
    have := hs []
    rw [Function.update_eq_self, List.append_nil] at this
    exact this
  induction DOTS with
  | nil => intro acc0; rfl
  | cons d ds ih =>
    intro acc0
    have hd : d.POS = p := h d (by simp)
    have e : octantF c d.POS = octantF c p := by rw [hd]
    rw [List.foldl_cons, e, Function.update_same, Function.update_idem,
      ih (fun x hx => h x (by simp [hx]))]
    simp

theorem split_loop_coincident (RA : List real) (L : Nat) (c c1 : vect) (b0 : Fin 8)
    (l : List dot) (d d1 : dot) (rest : List dot) (hl : l = d :: d1 :: rest)
    (hc1 : ∀ BM, make_subbox 255 RA L c b0 BM = Res.ok (box_reset ((L + 1) % 256) c1, BM + 1)) :
    ∀ (bs : List (Fin 8)) (s : split_state), bs.Nodup →
      split_loop 255 RA L c (Function.update (fun _ => []) b0 l) bs s =
        Res.ok (if b0 ∈ bs then
          { OCT := Function.update s.OCT b0
              (node.box ((L + 1) % 256) c1 l.length l (fun _ => node.null))
            ne := s.ne + 1, sub := some b0, BM := s.BM + 1 }
          else s) := by
  intro bs
  induction bs with
  | nil => intro s _; simp [split_loop]
  | cons b bs ih =>
    intro s hnd
    rw [List.nodup_cons] at hnd
    by_cases hb : b = b0
    · subst hb
      have hstep : split_step 255 RA L c (Function.update (fun _ => []) b l) s b =
          Res.ok { OCT := Function.update s.OCT b
                     (node.box ((L + 1) % 256) c1 l.length l (fun _ => node.null))
                   ne := s.ne + 1, sub := some b, BM := s.BM + 1 } := by
        simp only [split_step, Function.update_same, hl, hc1, box_reset, set_dots]
      simp only [split_loop, hstep]
      rw [ih _ hnd.2]
      simp [hnd.1]
    · have hstep : split_step 255 RA L c (Function.update (fun _ => []) b0 l) s b = Res.ok s := by
        simp only [split_step, Function.update_noteq hb]
      simp only [split_loop, hstep]
      rw [ih _ hnd.2]
      have : (b0 ∈ b :: bs) ↔ b0 ∈ bs := by
        simp [List.mem_cons, Ne.symm hb]
      simp only [this]

/-- With `DMAX = 255`, `split_box` never finishes on a twig box with two or more
dots that have a common position. -/
theorem split_box_coincident (RA : List real) (p : vect) :
    ∀ (fuel : Nat) (first : Bool) (L : Nat) (c : vect) (N : Nat) (DOTS : List dot) (BM : Nat),
      2 ≤ DOTS.length → (∀ d ∈ DOTS, d.POS = p) →
        split_box 255 RA fuel first (node.box L c N DOTS (fun _ => node.null)) BM = Res.fuel := by
  intro fuel
  induction fuel with
  | zero => intro first L c N DOTS BM _ _; rfl
  | succ fuel ih =>
    intro first L c N DOTS BM hlen hp
    obtain ⟨d, d1, rest, hl⟩ : ∃ d d1 rest, DOTS.reverse = d :: d1 :: rest := by
      have : 2 ≤ DOTS.reverse.length := by simpa using hlen
      match hr : DOTS.reverse, this with
      | d :: d1 :: rest, _ => exact ⟨d, d1, rest, rfl⟩
    have hc : ∃ c1, ∀ BM, make_subbox 255 RA L c (octantF c p) BM
        = Res.ok (box_reset ((L + 1) % 256) c1, BM + 1) := by
      have h : ¬ (L + 1) % 256 > 255 := by omega
      simp only [make_subbox, shrink_to_octant, h, if_false]
      exact ⟨_, fun _ => rfl⟩
    obtain ⟨c1, hc1⟩ := hc
    have hloop := split_loop_coincident RA L c c1 (octantF c p) DOTS.reverse d d1 rest hl hc1
      (List.finRange 8) { OCT := fun _ => node.null, ne := 0, sub := none, BM := BM }
      (List.nodup_finRange 8)
    simp only [List.mem_finRange, if_true] at hloop
    simp only [split_box, sort_dots_coincident c p DOTS hp, hloop, Nat.zero_add, if_true,
      Function.update_same]
    rw [ih false _ c1 _ DOTS.reverse _ (by simpa using hlen)
      (fun x hx => hp x (List.mem_reverse.1 hx))]

theorem build_N_coincident (fuel : Nat) (x0 : vect) (sz : real) (p : vect) (l1 l2 l3 : Nat) :
    tree_builder.build fuel (box_dot_tree.reset 2 255 3 x0 sz)
      [⟨p, l1⟩, ⟨p, l2⟩, ⟨p, l3⟩] = Res.fuel := by
  have hnc : (2 : Nat) > 1 := by decide
  simp only [tree_builder.build, box_dot_tree.reset, hnc, if_true, box_reset]
  generalize List.iterate (fun r => real.mul half r) sz (255 + 1) = RA
  cases fuel with
  | zero => rfl
  | succ fuel =>
    obtain ⟨c1, hc1⟩ := make_subbox_255 RA 0 x0 (octantF x0 p) 1
    cases fuel with
    | zero =>
      simp [adddots, adddot_N, node.is_twig, make_subbox_N, hc1]
    | succ fuel =>
      have hB := split_box_coincident RA p fuel true ((0 + 1) % 256) c1 3
        [⟨p, l3⟩, ⟨p, l2⟩, ⟨p, l1⟩] 2 (by simp) (by simp)
      simp [adddots, adddot_N, node.is_twig, make_subbox_N, hc1, box_reset, adddot_to_list, hB]

/-- The loop over the bodies ends with the fatal error exactly when one of the
bodies it uses has a NaN in its position; else it returns the set-up. -/
theorem scratch_loop_outcome (BB : bodies) (SP : Nat) (minmax : Bool) :
    ∀ (l : List body) (i : Nat) (s : dot_setup),
      (scratch_loop BB SP minmax l i s = Res.error Fatal.nan_position ∧
          ∃ b ∈ l, selected BB SP b = true ∧ isnan b.POS = true) ∨
        ((∃ s1, scratch_loop BB SP minmax l i s = Res.ok s1) ∧
          ¬ ∃ b ∈ l, selected BB SP b = true ∧ isnan b.POS = true) := by
  intro l
  induction l with
  | nil => intro i s; right; exact ⟨⟨s, rfl⟩, by simp⟩
  | cons b rest ih =>
    intro i s
    by_cases hsel : selected BB SP b = true
    · by_cases hnan : isnan b.POS = true
      · left
        exact ⟨by simp [scratch_loop, hsel, hnan], b, by simp, hsel, hnan⟩
      · simp only [scratch_loop, hsel, hnan, if_true]
        rcases ih (i + 1) _ with ⟨h1, b1, hb1, h2⟩ | ⟨h1, h2⟩
        · left
          exact ⟨by simpa using h1, b1, by simp [hb1], h2⟩
        · right
          refine ⟨by simpa using h1, ?_⟩
          rintro ⟨b1, hb1, h3, h4⟩
          rcases List.mem_cons.1 hb1 with e | e
          · subst e; exact hnan h4
          · exact h2 ⟨b1, e, h3, h4⟩
    · simp only [scratch_loop, hsel]
      rcases ih (i + 1) s with ⟨h1, b1, hb1, h2⟩ | ⟨h1, h2⟩
      · left
        exact ⟨by simpa using h1, b1, by simp [hb1], h2⟩
      · right
        refine ⟨by simpa using h1, ?_⟩
        rintro ⟨b1, hb1, h3, h4⟩
        rcases List.mem_cons.1 hb1 with e | e
        · subst e; exact hsel h3
        · exact h2 ⟨b1, e, h3, h4⟩

/-- The outcome of the two variants of `setup_from_scratch`, which end with the
division of `XAVE` by the number of dots. -/
theorem scratch_result_outcome (BB : bodies) (SP : Nat) (minmax : Bool) (s : dot_setup)
    (r : Res dot_setup)
    (hr : r = (match scratch_loop BB SP minmax BB.B 0 s with
        | Res.ok s => Res.ok { s with XAVE := vect.div s.XAVE (real_of_nat s.D.length) }
        | Res.error e => Res.error e
        | Res.fuel => Res.fuel)) :
    ((∃ e, r = Res.error e) ↔ ∃ b ∈ BB.B, selected BB SP b = true ∧ isnan b.POS = true) ∧
      (∀ e, r = Res.error e → e = Fatal.nan_position) ∧
      ((¬ ∃ b ∈ BB.B, selected BB SP b = true ∧ isnan b.POS = true) → r.isOk = true) := by
  rcases scratch_loop_outcome BB SP minmax BB.B 0 s with ⟨h1, h2⟩ | ⟨⟨s1, h1⟩, h2⟩
  · rw [h1] at hr
    subst hr
    exact ⟨⟨fun _ => h2, fun _ => ⟨_, rfl⟩⟩, fun e he => by injection he with he; exact he.symm,
      fun hn => absurd h2 hn⟩
  · rw [h1] at hr
    subst hr
    refine ⟨⟨?_, fun h => absurd h h2⟩, ?_, fun _ => rfl⟩
    · rintro ⟨e, he⟩
      cases he
    · intro e he
      cases he

theorem setup_from_scratch_error (BB : bodies) (SP : Nat) (e : Fatal)
    (h : setup_from_scratch BB SP = Res.error e) : e = Fatal.nan_position :=
  (scratch_result_outcome BB SP true _ (setup_from_scratch BB SP) rfl).2.1 e h

theorem make_subbox_error {DMAX : Nat} {RA : List real} {L : Nat} {c : vect} {i : Fin 8}
    {BM : Nat} {e : Fatal} (h : make_subbox DMAX RA L c i BM = Res.error e) : build_error e := by
  unfold make_subbox shrink_to_octant at h
  by_cases hl : (L + 1) % 256 > DMAX
  · simp only [hl, if_true] at h
    injection h with h
    exact Or.inl h.symm
  · simp only [hl, if_false] at h
    cases h

theorem adddot_1_error (DMAX : Nat) (RA : List real) :
    ∀ (fuel : Nat) (P : node) (Di : dot) (BM : Nat) (e : Fatal),
      adddot_1 DMAX RA fuel P Di BM = Res.error e → build_error e := by
  intro fuel
  induction fuel with
  | zero => intro P Di BM e h; simp [adddot_1] at h
  | succ fuel ih =>
    intro P Di BM e h
    cases P with
    | null => simp only [adddot_1] at h; injection h with h; exact Or.inr h.symm
    | dot D => simp only [adddot_1] at h; injection h with h; exact Or.inr h.symm
    | box L c N DOTS OCT =>
      simp only [adddot_1] at h
      split at h
      · cases h
      · split at h
        · split at h
          · cases h
          · rename_i hrec
            injection h with h
            subst h
            exact ih _ _ _ _ hrec
          · cases h
        · rename_i hsub
          injection h with h
          subst h
          unfold make_subbox_1 at hsub
          split at hsub
          · cases hsub
          · rename_i h0
            injection hsub with hsub
            subst hsub
            exact make_subbox_error h0
          · cases hsub
        · cases h
      · split at h
        · cases h
        · rename_i hrec
          injection h with h
          subst h
          exact ih _ _ _ _ hrec
        · cases h

theorem split_loop_error {DMAX : Nat} {RA : List real} {L : Nat} {c : vect}
    {LST : Fin 8 → List dot} :
    ∀ (bs : List (Fin 8)) (s : split_state) (e : Fatal),
      split_loop DMAX RA L c LST bs s = Res.error e → build_error e := by
  intro bs
  induction bs with
  | nil => intro s e h; simp [split_loop] at h
  | cons b bs ih =>
    intro s e h
    simp only [split_loop] at h
    split at h
    · exact ih _ _ h
    · rename_i hstep
      injection h with h
      subst h
      unfold split_step at hstep
      split at hstep
      · cases hstep
      · cases hstep
      · split at hstep
        · cases hstep
        · rename_i h0
          injection hstep with hstep
          subst hstep
          exact make_subbox_error h0
        · cases hstep
    · cases h

theorem split_box_error (DMAX : Nat) (RA : List real) :
    ∀ (fuel : Nat) (first : Bool) (P : node) (BM : Nat) (e : Fatal),
      split_box DMAX RA fuel first P BM = Res.error e → build_error e := by
  intro fuel
  induction fuel with
  | zero => intro first P BM e h; simp [split_box] at h
  | succ fuel ih =>
    intro first P BM e h
    cases P with
    | null => simp only [split_box] at h; injection h with h; exact Or.inr h.symm
    | dot D => simp only [split_box] at h; injection h with h; exact Or.inr h.symm
    | box L c N DOTS OCT =>
      simp only [split_box] at h
      split at h
      · split at h
        · split at h
          · split at h
            · cases h
            · rename_i hrec
              injection h with h
              subst h
              exact ih _ _ _ _ hrec
            · cases h
          · split at h
            · injection h with h; exact Or.inr h.symm
            · cases h
        · cases h
      · rename_i hloop
        injection h with h
        subst h
        exact split_loop_error _ _ _ hloop
      · cases h

theorem adddot_N_error (NCRIT DMAX : Nat) (RA : List real) :
    ∀ (fuel : Nat) (P : node) (Di : dot) (BM : Nat) (e : Fatal),
      adddot_N NCRIT DMAX RA fuel P Di BM = Res.error e → build_error e := by
  intro fuel
  induction fuel with
  | zero => intro P Di BM e h; simp [adddot_N] at h
  | succ fuel ih =>
    intro P Di BM e h
    cases P with
    | null => simp only [adddot_N] at h; injection h with h; exact Or.inr h.symm
    | dot D => simp only [adddot_N] at h; injection h with h; exact Or.inr h.symm
    | box L c N DOTS OCT =>
      simp only [adddot_N] at h
      split at h
      · split at h
        · exact split_box_error _ _ _ _ _ _ _ h
        · cases h
      · split at h
        · cases h
        · split at h
          · split at h
            · cases h
            · rename_i hrec
              injection h with h
              subst h
              exact ih _ _ _ _ hrec
            · cases h
          · rename_i hsub
            injection h with h
            subst h
            unfold make_subbox_N at hsub
            split at hsub
            · cases hsub
            · rename_i h0
              injection hsub with hsub
              subst hsub
              exact make_subbox_error h0
            · cases hsub
          · cases h
        · split at h
          · cases h
          · rename_i hrec
            injection h with h
            subst h
            exact ih _ _ _ _ hrec
          · cases h

theorem adddots_error (add : node → dot → Nat → Res (node × Nat))
    (hadd : ∀ P Di BM e, add P Di BM = Res.error e → build_error e) :
    ∀ (dots : List dot) (P : node) (BM : Nat) (e : Fatal),
      adddots add dots P BM = Res.error e → build_error e := by
  intro dots
  induction dots with
  | nil => intro P BM e h; simp [adddots] at h
  | cons d ds ih =>
    intro P BM e h
    simp only [adddots] at h
    split at h
    · exact ih _ _ _ h
    · rename_i hstep
      injection h with h
      subst h
      exact hadd _ _ _ _ hstep
    · cases h

/-- The method `tree_builder::build()` ends with no other error than those of the
insertion of dots. -/
theorem build_error_kind (fuel : Nat) (TB : box_dot_tree) (dots : List dot) (e : Fatal)
    (h : tree_builder.build fuel TB dots = Res.error e) : build_error e := by
  by_cases hc : TB.NCRIT > 1
  · simp only [tree_builder.build, hc, if_true] at h
    split at h
    · cases h
    · rename_i hrun
      injection h with h
      subst h
      exact adddots_error _ (adddot_N_error _ _ _ fuel) _ _ _ _ hrun
    · cases h
  · simp only [tree_builder.build, hc, if_false] at h
    split at h
    · cases h
    · rename_i hrun
      injection h with h
      subst h
      exact adddots_error _ (adddot_1_error _ _ fuel) _ _ _ _ hrun
    · cases h

theorem grow_error (fuel : Nat) (T : OctTree) (TB : box_dot_tree) (D : List dot) (e : Fatal)
    (h : (OctTree.grow fuel T TB D).2 = Res.error e) :
    build_error e ∧ (OctTree.grow fuel T TB D).1 = T := by
  rw [grow_eq] at h ⊢
  by_cases hn : TB.NDOTS ≠ 0
  · rw [if_pos hn] at h ⊢
    cases hb : tree_builder.build fuel TB D with
    | ok TB1 => rw [hb] at h; cases h
    | error e1 =>
      rw [hb] at h
      injection h with h
      subst h
      exact ⟨build_error_kind _ _ _ _ hb, rfl⟩
    | fuel => rw [hb] at h; cases h
  · rw [if_neg hn] at h
    cases h

theorem shrink_ok {DMAX : Nat} {RA : List real} {L : Nat} {c : vect} {i l : Nat} {c1 : vect}
    (h : shrink_to_octant DMAX RA L c i = Res.ok (l, c1)) : l = (L + 1) % 256 ∧ l ≤ DMAX := by
  unfold shrink_to_octant at h
  by_cases hl : (L + 1) % 256 > DMAX
  · simp [hl] at h
  · simp only [hl, if_false] at h
    injection h with h
    injection h with h1 h2
    exact ⟨h1.symm, h1 ▸ Nat.le_of_not_gt hl⟩

theorem make_subbox_shrink {DMAX : Nat} {RA : List real} {L : Nat} {c : vect} {i : Fin 8}
    {BM : Nat} {P : node} {BM1 : Nat} (h : make_subbox DMAX RA L c i BM = Res.ok (P, BM1)) :
    ∃ l c1, shrink_to_octant DMAX RA L c i.val = Res.ok (l, c1) ∧ P = box_reset l c1 ∧
      BM1 = BM + 1 := by
  unfold make_subbox at h
  split at h
  · rename_i l c1 hs
    injection h with h
    injection h with h1 h2
    exact ⟨l, c1, hs, h1.symm, h2.symm⟩
  · cases h
  · cases h

theorem make_subbox_ends (DMAX : Nat) (RA : List real) (L : Nat) (c : vect) (i : Fin 8)
    (BM : Nat) : ends_well (make_subbox DMAX RA L c i BM) := by
  unfold make_subbox shrink_to_octant
  by_cases hl : (L + 1) % 256 > DMAX
  · simp only [hl, if_true]; rfl
  · simp only [hl, if_false]; trivial

theorem update_forall {α : Type} (Q : Fin 8 → α → Prop) (OCT : Fin 8 → α) (b : Fin 8) (v : α)
    (hv : Q b v) (h : ∀ i, i ≠ b → Q i (OCT i)) : ∀ i, Q i (Function.update OCT b v i) := by
  intro i
  by_cases hi : i = b
  · subst hi; simpa using hv
  · simpa [Function.update_noteq hi] using h i hi

theorem placed_single (NCRIT DMAX : Nat) (RA : List real) (l : Nat) (c : vect) (N : Nat)
    (b : Fin 8) (D : dot) (hl : l ≤ DMAX) (hb : octantF c D.POS = b) :
    placed NCRIT DMAX RA
      (node.box l c N [] (Function.update (fun _ => node.null) b (node.dot D))) := by
  refine ⟨hl, Nat.zero_le _, ?_⟩
  refine update_forall (fun i v => (∀ d ∈ dots_of v, octantF c d.POS = i) ∧
      (∀ L1 c1 N1 D1 O1, v = node.box L1 c1 N1 D1 O1 →
        shrink_to_octant DMAX RA l c i.val = Res.ok (L1, c1)) ∧ placed NCRIT DMAX RA v)
    _ b (node.dot D) ?_ ?_
  · refine ⟨?_, fun _ _ _ _ _ h => (by cases h), trivial⟩
    intro d hd
    simp only [dots_of, List.mem_singleton] at hd
    rw [hd]; exact hb
  · intro i _
    exact ⟨fun d hd => by simp [dots_of] at hd, fun _ _ _ _ _ h => (by cases h), trivial⟩

theorem placed_twig (NCRIT DMAX : Nat) (RA : List real) (l : Nat) (c : vect) (N : Nat)
    (DOTS : List dot) (hl : l ≤ DMAX) (hn : DOTS.length ≤ NCRIT) :
    placed NCRIT DMAX RA (node.box l c N DOTS (fun _ => node.null)) :=
  ⟨hl, hn, fun _ => ⟨fun d hd => by simp [dots_of] at hd, fun _ _ _ _ _ h => (by cases h), trivial⟩⟩

/-- Storing `v` in the octant of `Di`, where `v` holds `Di` and what the octant
held before, keeps the invariant. -/
theorem placed_store (NCRIT DMAX : Nat) (RA : List real) (L : Nat) (c : vect) (N N1 : Nat)
    (DOTS : List dot) (OCT : Fin 8 → node) (Di : dot) (v : node)
    (hP : placed NCRIT DMAX RA (node.box L c N DOTS OCT))
    (hv : placed NCRIT DMAX RA v)
    (hd : List.Perm (dots_of v) (Di :: dots_of (OCT (octantF c Di.POS))))
    (hs : ∀ L1 c1 N1 D1 O1, v = node.box L1 c1 N1 D1 O1 →
      shrink_to_octant DMAX RA L c (octantF c Di.POS).val = Res.ok (L1, c1)) :
    placed NCRIT DMAX RA (node.box L c N1 DOTS (Function.update OCT (octantF c Di.POS) v)) := by
  obtain ⟨h1, h2, h3⟩ := hP
  refine ⟨h1, h2, ?_⟩
  refine update_forall (fun i v => (∀ d ∈ dots_of v, octantF c d.POS = i) ∧
      (∀ L1 c1 N1 D1 O1, v = node.box L1 c1 N1 D1 O1 →
        shrink_to_octant DMAX RA L c i.val = Res.ok (L1, c1)) ∧ placed NCRIT DMAX RA v)
    OCT _ v ⟨?_, hs, hv⟩ (fun i _ => h3 i)
  intro d hdv
  rcases List.mem_cons.1 (hd.subset hdv) with e | e
  · rw [e]
  · exact (h3 _).1 d e

/-- Insertion with `adddot_1` keeps the invariant `placed`, and the box keeps its
level and centre. -/
theorem adddot_1_placed (NCRIT DMAX : Nat) (RA : List real) :
    ∀ (fuel : Nat) (L : Nat) (c : vect) (N : Nat) (DOTS : List dot) (OCT : Fin 8 → node)
      (Di : dot) (BM : Nat) (P1 : node) (BM1 : Nat),
      adddot_1 DMAX RA fuel (node.box L c N DOTS OCT) Di BM = Res.ok (P1, BM1) →
      WF (node.box L c N DOTS OCT) → no_twig (node.box L c N DOTS OCT) →
      placed NCRIT DMAX RA (node.box L c N DOTS OCT) →
        placed NCRIT DMAX RA P1 ∧ ∃ N1 D1 O1, P1 = node.box L c N1 D1 O1 := by
  intro fuel
  induction fuel with
  | zero => intro L c N DOTS OCT Di BM P1 BM1 h; simp [adddot_1] at h
  | succ fuel ih =>
    intro L c N DOTS OCT Di BM P1 BM1 h hWF hNT hPl
    simp only [adddot_1] at h
    split at h
    · rename_i hb
      injection h with h
      injection h with h1 h2
      subst h1 h2
      refine ⟨placed_store NCRIT DMAX RA L c N _ DOTS OCT Di _ hPl trivial ?_
        (fun _ _ _ _ _ h => (by cases h)), _, _, _, rfl⟩
      simp [hb, dots_of]
    · rename_i Do hb
      split at h
      · rename_i P BMa hsub
        split at h
        · rename_i P2 BM2 hrec
          injection h with h
          injection h with h1 h2
          subst h1 h2
          unfold make_subbox_1 at hsub
          split at hsub
          · rename_i Pa BMb hmk
            obtain ⟨l, c1, hsh, hPa, _⟩ := make_subbox_shrink hmk
            injection hsub with hsub
            injection hsub with e1 e2
            subst hPa
            simp only [box_reset, adddot_to_octs] at e1
            subst e1
            have hPW : WF (node.box l c1 (0 + 1) []
                (Function.update (fun _ => node.null) (octantF c1 Do.POS) (node.dot Do))) := by
              refine ⟨?_, by simp, WF_update_null _ _ _ trivial (fun _ => trivial)⟩
              rw [(dots_of_single _ _ _ _ _).length_eq]; rfl
            have hPT : no_twig (node.box l c1 (0 + 1) []
                (Function.update (fun _ => node.null) (octantF c1 Do.POS) (node.dot Do))) :=
              ⟨rfl, no_twig_update _ _ _ trivial (fun _ => trivial)⟩
            have hPP := placed_single NCRIT DMAX RA l c1 (0 + 1) _ Do (shrink_ok hsh).2 rfl
            obtain ⟨q1, N1, D1, O1, q2⟩ := ih _ _ _ _ _ Di _ P2 BM2 hrec hPW hPT hPP
            obtain ⟨_, _, q3, _, _⟩ := adddot_1_inv DMAX RA fuel _ Di _ P2 BM2 hrec hPW hPT
            refine ⟨placed_store NCRIT DMAX RA L c N _ DOTS OCT Di _ hPl q1 ?_ ?_, N + 1, DOTS, _, rfl⟩
            · rw [hb]
              exact q3.trans (List.Perm.cons _ (by simpa [dots_of] using dots_of_single l c1 (0 + 1) _ Do))
            · intro L1 c2 N2 D2 O2 e
              rw [q2] at e
              injection e with e1 e2
              subst e1 e2
              exact hsh
          · cases hsub
          · cases hsub
        · cases h
        · cases h
      · cases h
      · cases h
    · rename_i L1 c1 N1 D1 O1 hb
      split at h
      · rename_i P2 BM2 hrec
        injection h with h
        injection h with h1 h2
        subst h1 h2
        have hK : WF (node.box L1 c1 N1 D1 O1) := hb ▸ hWF.2.2 _
        have hKT : no_twig (node.box L1 c1 N1 D1 O1) := hb ▸ hNT.2 _
        have hKP : placed NCRIT DMAX RA (node.box L1 c1 N1 D1 O1) := hb ▸ (hPl.2.2 _).2.2
        obtain ⟨q1, N2, D2, O2, q2⟩ := ih L1 c1 N1 D1 O1 Di _ P2 BM2 hrec hK hKT hKP
        obtain ⟨_, _, q3, _, _⟩ := adddot_1_inv DMAX RA fuel _ Di _ P2 BM2 hrec hK hKT
        refine ⟨placed_store NCRIT DMAX RA L c N _ DOTS OCT Di _ hPl q1 ?_ ?_, _, _, _, rfl⟩
        · rw [hb]; exact q3
        · intro L3 c3 N3 D3 O3 e
          rw [q2] at e
          injection e with e1 e2
          subst e1 e2
          exact (hPl.2.2 _).2.1 _ _ _ _ _ hb
      · cases h
      · cases h

theorem make_subbox_1_ends (DMAX : Nat) (RA : List real) (L : Nat) (c : vect) (i : Fin 8)
    (Do : dot) (BM : Nat) : ends_well (make_subbox_1 DMAX RA L c i Do BM) := by
  have h := make_subbox_ends DMAX RA L c i BM
  unfold make_subbox_1
  cases hr : make_subbox DMAX RA L c i BM with
  | ok x => trivial
  | error e => rw [hr] at h; exact h
  | fuel => rw [hr] at h; exact h

theorem make_subbox_N_ends (DMAX : Nat) (RA : List real) (L : Nat) (c : vect) (i : Fin 8)
    (Do : dot) (BM : Nat) : ends_well (make_subbox_N DMAX RA L c i Do BM) := by
  have h := make_subbox_ends DMAX RA L c i BM
  unfold make_subbox_N
  cases hr : make_subbox DMAX RA L c i BM with
  | ok x => trivial
  | error e => rw [hr] at h; exact h
  | fuel => rw [hr] at h; exact h

theorem ends_well_store {r : Res (node × Nat)} (f : node → node) (h : ends_well r) :
    ends_well (match r with
      | Res.ok (P1, BM2) => Res.ok (f P1, BM2)
      | Res.error e => Res.error e
      | Res.fuel => Res.fuel) := by
  cases r with
  | ok x => trivial
  | error e => exact h
  | fuel => exact h

theorem next_level {DMAX L l : Nat} (hd : DMAX ≤ 254) (hL : L ≤ DMAX) (hl : l = (L + 1) % 256) :
    l = L + 1 := by
  rw [hl]; exact Nat.mod_eq_of_lt (by omega)

/-- With `DMAX <= 254` an insertion with `adddot_1` into a box of level `L` comes
to its end within `DMAX - L + 1` passes through the loop. -/
theorem adddot_1_ends (NCRIT DMAX : Nat) (RA : List real) (hd : DMAX ≤ 254) :
    ∀ (fuel : Nat) (L : Nat) (c : vect) (N : Nat) (DOTS : List dot) (OCT : Fin 8 → node)
      (Di : dot) (BM : Nat),
      placed NCRIT DMAX RA (node.box L c N DOTS OCT) → DMAX - L < fuel →
        ends_well (adddot_1 DMAX RA fuel (node.box L c N DOTS OCT) Di BM) := by
  intro fuel
  induction fuel with
  | zero => intro L c N DOTS OCT Di BM _ hf; omega
  | succ fuel ih =>
    intro L c N DOTS OCT Di BM hPl hf
    have hL : L ≤ DMAX := hPl.1
    rw [adddot_1]
    cases hb : OCT (octantF c Di.POS) with
    | null => trivial
    | dot Do =>
      simp only
      have hm := make_subbox_1_ends DMAX RA L c (octantF c Di.POS) Do BM
      cases hr : make_subbox_1 DMAX RA L c (octantF c Di.POS) Do BM with
      | ok x =>
        obtain ⟨P, BM1⟩ := x
        obtain ⟨c1, hP, _, hl⟩ := make_subbox_1_ok hr
        have e := next_level hd hL (rfl : (L + 1) % 256 = (L + 1) % 256)
        rw [e] at hP hl
        subst hP
        simp only
        exact ends_well_store _ (ih _ _ _ _ _ Di BM1
          (placed_single NCRIT DMAX RA (L + 1) c1 1 _ Do hl rfl) (by omega))
      | error e => rw [hr] at hm; exact hm
      | fuel => rw [hr] at hm; exact hm
    | box L1 c1 N1 D1 O1 =>
      simp only
      have hsh := (hPl.2.2 _).2.1 _ _ _ _ _ hb
      have e := next_level hd hL (shrink_ok hsh).1
      have hK : placed NCRIT DMAX RA (node.box L1 c1 N1 D1 O1) := hb ▸ (hPl.2.2 _).2.2
      subst e
      exact ends_well_store _ (ih _ _ _ _ _ Di BM hK (by have := hK.1; omega))

theorem mem_le_sum {α : Type} (g : α → Nat) (bs : List α) (b : α) (hb : b ∈ bs) :
    g b ≤ (bs.map g).sum := by
  induction bs with
  | nil => simp at hb
  | cons a bs ih =>
    simp only [List.map_cons, List.sum_cons]
    rcases List.mem_cons.1 hb with e | e
    · subst e; omega
    · have := ih e; omega

theorem two_le_sum {α : Type} (g : α → Nat) (bs : List α) (b0 b1 : α) (h0 : b0 ∈ bs)
    (h1 : b1 ∈ bs) (hne : b0 ≠ b1) : g b0 + g b1 ≤ (bs.map g).sum := by
  induction bs with
  | nil => simp at h0
  | cons a bs ih =>
    simp only [List.map_cons, List.sum_cons]
    rcases List.mem_cons.1 h0 with e0 | e0
    · rcases List.mem_cons.1 h1 with e1 | e1
      · exact absurd (e0.trans e1.symm) hne
      · subst e0
        have := mem_le_sum g bs b1 e1; omega
    · rcases List.mem_cons.1 h1 with e1 | e1
      · subst e1
        have := mem_le_sum g bs b0 e0; omega
      · have := ih e0 e1; omega

theorem other_of_countP {α : Type} (p : α → Bool) (bs : List α) (b0 : α) (hnd : bs.Nodup)
    (h0 : b0 ∈ bs) (h2 : 2 ≤ bs.countP p) : ∃ b1 ∈ bs, b1 ≠ b0 ∧ p b1 = true := by
  induction bs with
  | nil => simp at h0
  | cons a bs ih =>
    rw [List.nodup_cons] at hnd
    by_cases hab : a = b0
    · subst hab
      have h1 : 0 < bs.countP p := by
        rw [List.countP_cons] at h2
        split at h2 <;> omega
      obtain ⟨b1, hb1, hp⟩ := List.countP_pos_iff.1 h1
      exact ⟨b1, by simp [hb1], fun e => hnd.1 (e ▸ hb1), hp⟩
    · by_cases hpa : p a = true
      · exact ⟨a, by simp, hab, hpa⟩
      · have h0r : b0 ∈ bs := by
          rcases List.mem_cons.1 h0 with e | e
          · exact absurd e.symm hab
          · exact e
        simp only [List.countP_cons, hpa, if_false, Nat.add_zero] at h2
        obtain ⟨b1, hb1, hn, hp⟩ := ih hnd.2 h0r h2
        exact ⟨b1, by simp [hb1], hn, hp⟩

theorem countP_two {α : Type} (p : α → Bool) (bs : List α) (b0 b1 : α) (h0 : b0 ∈ bs)
    (h1 : b1 ∈ bs) (hne : b0 ≠ b1) (p0 : p b0 = true) (p1 : p b1 = true) :
    2 ≤ bs.countP p := by
  induction bs with
  | nil => simp at h0
  | cons a bs ih =>
    rw [List.countP_cons]
    rcases List.mem_cons.1 h0 with e0 | e0
    · rcases List.mem_cons.1 h1 with e1 | e1
      · exact absurd (e0.trans e1.symm) hne
      · subst e0
        have : 0 < bs.countP p := List.countP_pos_iff.2 ⟨b1, e1, p1⟩
        simp only [p0, if_true]; omega
    · rcases List.mem_cons.1 h1 with e1 | e1
      · subst e1
        have : 0 < bs.countP p := List.countP_pos_iff.2 ⟨b0, e0, p0⟩
        simp only [p1, if_true]; omega
      · have := ih e0 e1; omega

theorem sum_le_countP {α : Type} (g : α → Nat) (bs : List α) (h : ∀ b ∈ bs, g b ≤ 1) :
    (bs.map g).sum ≤ bs.countP (fun b => decide (g b ≠ 0)) := by
  induction bs with
  | nil => simp
  | cons a bs ih =>
    have ha := h a (by simp)
    have := ih (fun b hb => h b (by simp [hb]))
    rw [List.countP_cons]
    simp only [List.map_cons, List.sum_cons]
    by_cases h0 : g a = 0
    · have hd : decide (g a ≠ 0) = false := by simp [h0]
      simp only [hd]
      omega
    · have hd : decide (g a ≠ 0) = true := by simp [h0]
      simp only [hd, if_true]
      omega

theorem sum_le_single {α : Type} (g : α → Nat) (bs : List α) (b0 : α) (hnd : bs.Nodup)
    (h : ∀ b ∈ bs, b ≠ b0 → g b = 0) : (bs.map g).sum ≤ g b0 := by
  induction bs with
  | nil => simp
  | cons a bs ih =>
    rw [List.nodup_cons] at hnd
    simp only [List.map_cons, List.sum_cons]
    have hr := ih hnd.2 (fun b hb => h b (by simp [hb]))
    by_cases hab : a = b0
    · subst hab
      have hz : (bs.map g).sum = 0 := by
        apply List.sum_eq_zero
        intro x hx
        obtain ⟨b, hb, e⟩ := List.mem_map.1 hx
        rw [← e]
        exact h b (by simp [hb]) (fun e2 => hnd.1 (e2 ▸ hb))
      omega
    · have := h a (by simp) hab
      omega

/-- Every dot in the list of octant `b` made by the first loop of `split_box`
has octant `b`. -/
theorem sort_dots_octant (c : vect) (DOTS : List dot) :
    ∀ b, ∀ d ∈ sort_dots c DOTS b, octantF c d.POS = b := by
  unfold sort_dots
  suffices h : ∀ (acc : Fin 8 → List dot), (∀ b, ∀ d ∈ acc b, octantF c d.POS = b) →
      ∀ b, ∀ d ∈ DOTS.foldl
        (fun LST Di =>
          Function.update LST (octantF c Di.POS) (Di :: LST (octantF c Di.POS))) acc b,
        octantF c d.POS = b from h _ (fun b d hd => by simp at hd)
  induction DOTS with
  | nil => intro acc h; exact h
  | cons x xs ih =>
    intro acc h
    simp only [List.foldl_cons]
    apply ih
    intro b d hd
    by_cases hb : b = octantF c x.POS
    · subst hb
      rw [Function.update_same] at hd
      rcases List.mem_cons.1 hd with e | e
      · rw [e]
      · exact h _ d e
    · rw [Function.update_noteq hb] at hd
      exact h b d hd

theorem sort_dots_length (c : vect) (DOTS : List dot) :
    ((List.finRange 8).map (fun b => (sort_dots c DOTS b).length)).sum = DOTS.length := by
  rw [← (sort_dots_perm c DOTS).length_eq, List.length_flatMap]
  rfl

/-- What the second loop of `split_box` does besides filling the octants: the
level and centre of every new box come from `shrink_to_octant`, `ne` counts the
octants with dots, and `sub` is set if and only if some octant has two dots or
more. -/
theorem split_loop_more {DMAX : Nat} {RA : List real} {L : Nat} {c : vect}
    {LST : Fin 8 → List dot} :
    ∀ (bs : List (Fin 8)) (s s1 : split_state),
      split_loop DMAX RA L c LST bs s = Res.ok s1 → bs.Nodup → (∀ b ∈ bs, s.OCT b = node.null) →
        (∀ b ∈ bs, ∀ L1 c1 N1 D1 O1, s1.OCT b = node.box L1 c1 N1 D1 O1 →
          shrink_to_octant DMAX RA L c b.val = Res.ok (L1, c1)) ∧
        s1.ne = s.ne + bs.countP (fun b => decide ((LST b).length ≠ 0)) ∧
        (s1.sub = none → ∀ b ∈ bs, (LST b).length ≤ 1) ∧
        (∀ b, s1.sub = some b → s.sub = some b ∨ (b ∈ bs ∧ 2 ≤ (LST b).length)) := by
  intro bs
  induction bs with
  | nil =>
    intro s s1 h _ _
    simp only [split_loop] at h
    injection h with h
    subst h
    simp
  | cons a bs ih =>
    intro s s1 h hnd hnull
    rw [List.nodup_cons] at hnd
    simp only [split_loop] at h
    split at h
    · rename_i s2 hstep
      have hstep2 := hstep
      obtain ⟨v, hO, hslot, hBM, hsub⟩ := split_step_inv hstep (hnull a (by simp))
      have hnull2 : ∀ b ∈ bs, s2.OCT b = node.null := by
        intro b hb
        have hne : b ≠ a := fun e => hnd.1 (e ▸ hb)
        rw [hO, Function.update_noteq hne]
        exact hnull b (by simp [hb])
      obtain ⟨k1, _, _, k4⟩ := split_loop_inv bs s2 s1 h hnd.2 hnull2
      obtain ⟨h1, h2, h3, h4⟩ := ih s2 s1 h hnd.2 hnull2
      have ha : s1.OCT a = s2.OCT a := k1 a hnd.1
      -- the step at octant a
      have step : (∀ L1 c1 N1 D1 O1, s2.OCT a = node.box L1 c1 N1 D1 O1 →
            shrink_to_octant DMAX RA L c a.val = Res.ok (L1, c1)) ∧
          s2.ne = s.ne + (if (LST a).length ≠ 0 then 1 else 0) ∧
          (s2.sub = none → (LST a).length ≤ 1) ∧
          (∀ b, s2.sub = some b → s.sub = some b ∨ (b = a ∧ 2 ≤ (LST a).length)) := by
        unfold split_step at hstep2
        split at hstep2
        · rename_i h0
          injection hstep2 with e
          subst e
          refine ⟨?_, by simp [h0], by simp [h0], fun b hb => Or.inl hb⟩
          intro L1 c1 N1 D1 O1 e
          rw [hnull a (by simp)] at e
          cases e
        · rename_i D h0
          injection hstep2 with e
          subst e
          refine ⟨?_, by simp [h0], by simp [h0], fun b hb => Or.inl hb⟩
          intro L1 c1 N1 D1 O1 e
          simp only [Function.update_same] at e
          cases e
        · rename_i D D1 rest h0
          split at hstep2
          · rename_i sub BMa hmk
            obtain ⟨l, c1, hsh, hP, _⟩ := make_subbox_shrink hmk
            injection hstep2 with e
            subst e
            subst hP
            refine ⟨?_, by simp [h0], by simp, ?_⟩
            · intro L1 c2 N1 D2 O1 e
              simp only [Function.update_same, box_reset, set_dots] at e
              injection e with e1 e2
              subst e1 e2
              exact hsh
            · intro b hb
              simp only at hb
              injection hb with hb
              exact Or.inr ⟨hb.symm, by simp [h0]⟩
          · cases hstep2
          · cases hstep2
      obtain ⟨t1, t2, t3, t4⟩ := step
      refine ⟨?_, ?_, ?_, ?_⟩
      · intro b hb
        rcases List.mem_cons.1 hb with e | e
        · subst e; rw [ha]; exact t1
        · exact h1 b e
      · rw [h2, t2, List.countP_cons]
        by_cases hz : (LST a).length = 0
        · simp [hz]
        · simp [hz]; omega
      · intro hn b hb
        rcases List.mem_cons.1 hb with e | e
        · subst e
          apply t3
          rcases k4 with e | ⟨b2, e, _⟩
          · rw [← e]; exact hn
          · rw [hn] at e; cases e
        · exact h3 hn b e
      · intro b hb
        rcases h4 b hb with q | ⟨q1, q2⟩
        · rcases t4 b q with r | ⟨r1, r2⟩
          · exact Or.inl r
          · exact Or.inr ⟨by simp [r1], by rw [r1]; exact r2⟩
        · exact Or.inr ⟨by simp [q1], q2⟩
    · cases h
    · cases h

/-- Splitting a twig box of at most `NCRIT + 1` dots gives a tree with the
invariant `placed`. -/
theorem split_box_placed (NCRIT DMAX : Nat) (RA : List real) (hN : 1 ≤ NCRIT) :
    ∀ (fuel : Nat) (first : Bool) (L : Nat) (c : vect) (DOTS : List dot) (BM : Nat) (P1 : node)
      (BM1 : Nat),
      split_box DMAX RA fuel first (node.box L c DOTS.length DOTS (fun _ => node.null)) BM
          = Res.ok (P1, BM1) →
        L ≤ DMAX → DOTS.length ≤ NCRIT + 1 → placed NCRIT DMAX RA P1 := by
  intro fuel
  induction fuel with
  | zero => intro first L c DOTS BM P1 BM1 h; simp [split_box] at h
  | succ fuel ih =>
    intro first L c DOTS BM P1 BM1 h hL hlen
    simp only [split_box] at h
    split at h
    · rename_i s hloop
      obtain ⟨_, h2, _, h4⟩ := split_loop_inv (List.finRange 8) _ s hloop
        (List.nodup_finRange 8) (fun _ _ => rfl)
      obtain ⟨m1, m2, m3, m4⟩ := split_loop_more (List.finRange 8) _ s hloop
        (List.nodup_finRange 8) (fun _ _ => rfl)
      simp only [Nat.zero_add] at h4 m2 m4
      have hslot : ∀ b, split_slot (sort_dots c DOTS) b (s.OCT b) :=
        fun b => h2 b (List.mem_finRange b)
      have hsum := sort_dots_length c DOTS
      have hcnt : s.ne = (List.finRange 8).countP
          (fun b => decide ((sort_dots c DOTS b).length ≠ 0)) := m2
      have slotP : ∀ i, (sort_dots c DOTS i).length ≤ NCRIT →
          (∀ d ∈ dots_of (s.OCT i), octantF c d.POS = i) ∧
          (∀ L1 c1 N1 D1 O1, s.OCT i = node.box L1 c1 N1 D1 O1 →
            shrink_to_octant DMAX RA L c i.val = Res.ok (L1, c1)) ∧
          placed NCRIT DMAX RA (s.OCT i) := by
        intro i hi
        refine ⟨?_, m1 i (List.mem_finRange i), ?_⟩
        · intro d hd
          rw [(hslot i).2.1] at hd
          exact sort_dots_octant c DOTS i d hd
        · cases hv : s.OCT i with
          | null => trivial
          | dot D => trivial
          | box L1 c1 N1 D1 O1 =>
            have hsh := m1 i (List.mem_finRange i) _ _ _ _ _ hv
            obtain ⟨l, c2, e⟩ := (hslot i).2.2.1 (by rw [hv]; rfl)
            rw [hv] at e
            rw [e]
            injection e with e1 e2 e3 e4 e5
            subst e1
            exact placed_twig NCRIT DMAX RA _ _ _ _ (shrink_ok hsh).2 hi
      have fin : (∀ i, (sort_dots c DOTS i).length ≤ NCRIT) →
          placed NCRIT DMAX RA (node.box L c DOTS.length [] s.OCT) :=
        fun hall => ⟨hL, Nat.zero_le _, fun i => slotP i (hall i)⟩
      split at h
      · rename_i hne
        split at h
        · rename_i b hsb
          have hbox : (s.OCT b).isBox = true := by
            rcases h4 with h4 | ⟨b1, e1, _, e3⟩
            · rw [hsb] at h4; cases h4
            · rw [hsb] at e1; injection e1 with e1; subst e1; exact e3
          have hb2 : 2 ≤ (sort_dots c DOTS b).length := by
            rcases m4 b hsb with q | ⟨_, q⟩
            · cases q
            · exact q
          obtain ⟨l, c1, hv⟩ := (hslot b).2.2.1 hbox
          have hsh := m1 b (List.mem_finRange b) _ _ _ _ _ hv
          split at h
          · rename_i Q BM2 hrec
            injection h with h
            injection h with e1 e2
            subst e1 e2
            rw [hv] at hrec
            have hble : (sort_dots c DOTS b).length ≤ NCRIT + 1 := by
              have hm : (sort_dots c DOTS b).length ≤
                  ((List.finRange 8).map (fun b => (sort_dots c DOTS b).length)).sum :=
                mem_le_sum (fun b => (sort_dots c DOTS b).length) (List.finRange 8) b
                  (List.mem_finRange b)
              omega
            have hQ := ih false l c1 _ s.BM Q BM2 hrec (shrink_ok hsh).2 hble
            obtain ⟨_, q2, _, OCT1, q4⟩ := split_box_inv DMAX RA fuel false l c1 _ s.BM Q BM2 hrec
            refine ⟨hL, Nat.zero_le _, ?_⟩
            refine update_forall (fun i v => (∀ d ∈ dots_of v, octantF c d.POS = i) ∧
                (∀ L1 c1 N1 D1 O1, v = node.box L1 c1 N1 D1 O1 →
                  shrink_to_octant DMAX RA L c i.val = Res.ok (L1, c1)) ∧
                placed NCRIT DMAX RA v) s.OCT b Q ⟨?_, ?_, hQ⟩ ?_
            · intro d hd
              exact sort_dots_octant c DOTS b d (q2.subset hd)
            · intro L1 c2 N1 D1 O1 e
              rw [q4] at e
              injection e with e1 e2
              subst e1 e2
              exact hsh
            · intro i hib
              apply slotP i
              by_cases hz : (sort_dots c DOTS i).length = 0
              · omega
              · have := countP_two (fun b => decide ((sort_dots c DOTS b).length ≠ 0))
                  (List.finRange 8) i b (List.mem_finRange i) (List.mem_finRange b) hib
                  (decide_eq_true hz) (decide_eq_true (by omega))
                omega
          · cases h
          · cases h
        · rename_i hsn
          split at h
          · cases h
          · injection h with h
            injection h with e1 e2
            subst e1 e2
            exact fin (fun i => le_trans (m3 hsn i (List.mem_finRange i)) hN)
      · rename_i hne
        injection h with h
        injection h with e1 e2
        subst e1 e2
        apply fin
        intro i
        by_cases hz : (sort_dots c DOTS i).length = 0
        · omega
        · have h1 : 0 < (List.finRange 8).countP
              (fun b => decide ((sort_dots c DOTS b).length ≠ 0)) :=
            List.countP_pos_iff.2 ⟨i, List.mem_finRange i, decide_eq_true hz⟩
          obtain ⟨b1, hb1, hn1, hp1⟩ := other_of_countP
            (fun b => decide ((sort_dots c DOTS b).length ≠ 0)) (List.finRange 8) i
            (List.nodup_finRange 8) (List.mem_finRange i) (by omega)
          have h2 : (sort_dots c DOTS i).length + (sort_dots c DOTS b1).length ≤
              ((List.finRange 8).map (fun b => (sort_dots c DOTS b).length)).sum :=
            two_le_sum (fun b => (sort_dots c DOTS b).length) (List.finRange 8) i b1
              (List.mem_finRange i) hb1 (fun e => hn1 e.symm)
          have h3 : (sort_dots c DOTS b1).length ≠ 0 := of_decide_eq_true hp1
          omega
    · cases h
    · cases h

theorem split_step_ends (DMAX : Nat) (RA : List real) (L : Nat) (c : vect)
    (LST : Fin 8 → List dot) (s : split_state) (b : Fin 8) :
    ends_well (split_step DMAX RA L c LST s b) := by
  unfold split_step
  split
  · trivial
  · trivial
  · have h := make_subbox_ends DMAX RA L c b s.BM
    cases hr : make_subbox DMAX RA L c b s.BM with
    | ok x => trivial
    | error e => rw [hr] at h; exact h
    | fuel => rw [hr] at h; exact h

theorem split_loop_ends (DMAX : Nat) (RA : List real) (L : Nat) (c : vect)
    (LST : Fin 8 → List dot) : ∀ (bs : List (Fin 8)) (s : split_state),
    ends_well (split_loop DMAX RA L c LST bs s) := by
  intro bs
  induction bs with
  | nil => intro s; trivial
  | cons b bs ih =>
    intro s
    rw [split_loop]
    have h := split_step_ends DMAX RA L c LST s b
    cases hr : split_step DMAX RA L c LST s b with
    | ok s1 => exact ih s1
    | error e => rw [hr] at h; exact h
    | fuel => rw [hr] at h; exact h

/-- With `DMAX <= 254`, splitting a twig box of level `L` (of two dots or more,
if this is the first pass) comes to its end within `DMAX - L + 1` passes. -/
theorem split_box_ends (DMAX : Nat) (RA : List real) (hd : DMAX ≤ 254) :
    ∀ (fuel : Nat) (first : Bool) (L : Nat) (c : vect) (DOTS : List dot) (BM : Nat),
      L ≤ DMAX → (first = true → 2 ≤ DOTS.length) → DMAX - L < fuel →
        ends_well (split_box DMAX RA fuel first
          (node.box L c DOTS.length DOTS (fun _ => node.null)) BM) := by
  intro fuel
  induction fuel with
  | zero => intro first L c DOTS BM _ _ hf; omega
  | succ fuel ih =>
    intro first L c DOTS BM hL h2d hf
    rw [split_box]
    have hle := split_loop_ends DMAX RA L c (sort_dots c DOTS) (List.finRange 8)
      { OCT := fun _ => node.null, ne := 0, sub := none, BM := BM }
    cases hloop : split_loop DMAX RA L c (sort_dots c DOTS) (List.finRange 8)
      { OCT := fun _ => node.null, ne := 0, sub := none, BM := BM } with
    | error e => rw [hloop] at hle; exact hle
    | fuel => rw [hloop] at hle; exact hle
    | ok s =>
      obtain ⟨_, h2, _, h4⟩ := split_loop_inv (List.finRange 8) _ s hloop
        (List.nodup_finRange 8) (fun _ _ => rfl)
      obtain ⟨m1, m2, m3, m4⟩ := split_loop_more (List.finRange 8) _ s hloop
        (List.nodup_finRange 8) (fun _ _ => rfl)
      simp only [Nat.zero_add] at h4 m2 m4
      simp only
      by_cases hne : s.ne = 1
      · rw [if_pos hne]
        cases hsb : s.sub with
        | some b =>
          simp only
          have hbox : (s.OCT b).isBox = true := by
            rcases h4 with h4 | ⟨b1, e1, _, e3⟩
            · rw [hsb] at h4; cases h4
            · rw [hsb] at e1; injection e1 with e1; subst e1; exact e3
          obtain ⟨l, c1, hv⟩ := (h2 b (List.mem_finRange b)).2.2.1 hbox
          have hsh := m1 b (List.mem_finRange b) _ _ _ _ _ hv
          have e := next_level hd hL (shrink_ok hsh).1
          have hl := (shrink_ok hsh).2
          subst e
          rw [hv]
          exact ends_well_store _
            (ih false (L + 1) c1 _ s.BM hl (fun h => by cases h) (by omega))
        | none =>
          simp only
          cases first with
          | false => trivial
          | true =>
            exfalso
            have hs := sort_dots_length c DOTS
            have h1 : ((List.finRange 8).map (fun b => (sort_dots c DOTS b).length)).sum ≤
                (List.finRange 8).countP (fun b => decide ((sort_dots c DOTS b).length ≠ 0)) :=
              sum_le_countP (fun b => (sort_dots c DOTS b).length) (List.finRange 8)
                (fun b hb => m3 hsb b hb)
            have hcnt : s.ne = (List.finRange 8).countP
                (fun b => decide ((sort_dots c DOTS b).length ≠ 0)) := m2
            have := h2d rfl
            omega
      · rw [if_neg hne]
        trivial

/-- Insertion with `adddot_N` keeps the invariant `placed`, and the box keeps its
level and centre. -/
theorem adddot_N_placed (NCRIT DMAX : Nat) (RA : List real) (hNc : 1 ≤ NCRIT) :
    ∀ (fuel : Nat) (L : Nat) (c : vect) (N : Nat) (DOTS : List dot) (OCT : Fin 8 → node)
      (Di : dot) (BM : Nat) (P1 : node) (BM1 : Nat),
      adddot_N NCRIT DMAX RA fuel (node.box L c N DOTS OCT) Di BM = Res.ok (P1, BM1) →
      WF (node.box L c N DOTS OCT) → placed NCRIT DMAX RA (node.box L c N DOTS OCT) →
        placed NCRIT DMAX RA P1 ∧ ∃ N1 D1 O1, P1 = node.box L c N1 D1 O1 := by
  intro fuel
  induction fuel with
  | zero => intro L c N DOTS OCT Di BM P1 BM1 h; simp [adddot_N] at h
  | succ fuel ih =>
    intro L c N DOTS OCT Di BM P1 BM1 h hWF hPl
    simp only [adddot_N] at h
    obtain ⟨hN, hTw, hK⟩ := hWF
    split at h
    · rename_i htw
      have hne : DOTS ≠ [] := by
        intro e
        simp [node.is_twig, e] at htw
      have hO : OCT = fun _ => node.null := funext (hTw hne)
      subst hO
      rw [dots_of_twig] at hN
      subst hN
      split at h
      · have hrec : split_box DMAX RA fuel true
            (node.box L c (Di :: DOTS).length (Di :: DOTS) (fun _ => node.null)) BM
            = Res.ok (P1, BM1) := h
        obtain ⟨_, _, _, OCT1, q4⟩ := split_box_inv DMAX RA fuel true L c _ BM P1 BM1 hrec
        refine ⟨split_box_placed NCRIT DMAX RA hNc fuel true L c _ BM P1 BM1 hrec hPl.1 ?_,
          _, _, _, q4⟩
        have := hPl.2.1
        simp only [List.length_cons]
        omega
      · rename_i hnc
        injection h with h
        injection h with e1 e2
        subst e1 e2
        refine ⟨placed_twig NCRIT DMAX RA L c _ _ hPl.1 ?_, _, _, _, rfl⟩
        simp only [List.length_cons]
        omega
    · rename_i htw
      split at h
      · rename_i hb
        injection h with h
        injection h with h1 h2
        subst h1 h2
        refine ⟨placed_store NCRIT DMAX RA L c N _ DOTS OCT Di _ hPl trivial ?_
          (fun _ _ _ _ _ h => (by cases h)), _, _, _, rfl⟩
        simp [hb, dots_of]
      · rename_i Do hb
        split at h
        · rename_i P BMa hsub
          split at h
          · rename_i P2 BM2 hrec
            injection h with h
            injection h with h1 h2
            subst h1 h2
            unfold make_subbox_N at hsub
            split at hsub
            · rename_i Pa BMb hmk
              obtain ⟨l, c1, hsh, hPa, _⟩ := make_subbox_shrink hmk
              injection hsub with hsub
              injection hsub with e1 e2
              subst hPa
              simp only [box_reset, adddot_to_list] at e1
              subst e1
              have hPW : WF (node.box l c1 (0 + 1) [Do] (fun _ => node.null)) :=
                WF_twig l c1 [Do]
              have hPP := placed_twig NCRIT DMAX RA l c1 (0 + 1) [Do] (shrink_ok hsh).2 hNc
              obtain ⟨q1, N1, D1, O1, q2⟩ := ih _ _ _ _ _ Di _ P2 BM2 hrec hPW hPP
              obtain ⟨_, q3, _, _⟩ := adddot_N_inv NCRIT DMAX RA fuel _ Di _ P2 BM2 hrec hPW
              refine ⟨placed_store NCRIT DMAX RA L c N _ DOTS OCT Di _ hPl q1 ?_ ?_,
                N + 1, DOTS, _, rfl⟩
              · rw [hb]
                rw [dots_of_twig] at q3
                simpa [dots_of] using q3
              · intro L1 c2 N2 D2 O2 e
                rw [q2] at e
                injection e with e1 e2
                subst e1 e2
                exact hsh
            · cases hsub
            · cases hsub
          · cases h
          · cases h
        · cases h
        · cases h
      · rename_i L1 c1 N1 D1 O1 hb
        split at h
        · rename_i P2 BM2 hrec
          injection h with h
          injection h with h1 h2
          subst h1 h2
          have hKW : WF (node.box L1 c1 N1 D1 O1) := hb ▸ hK _
          have hKP : placed NCRIT DMAX RA (node.box L1 c1 N1 D1 O1) := hb ▸ (hPl.2.2 _).2.2
          obtain ⟨q1, N2, D2, O2, q2⟩ := ih L1 c1 N1 D1 O1 Di _ P2 BM2 hrec hKW hKP
          obtain ⟨_, q3, _, _⟩ := adddot_N_inv NCRIT DMAX RA fuel _ Di _ P2 BM2 hrec hKW
          refine ⟨placed_store NCRIT DMAX RA L c N _ DOTS OCT Di _ hPl q1 ?_ ?_, _, _, _, rfl⟩
          · rw [hb]; exact q3
          · intro L3 c3 N3 D3 O3 e
            rw [q2] at e
            injection e with e1 e2
            subst e1 e2
            exact (hPl.2.2 _).2.1 _ _ _ _ _ hb
        · cases h
        · cases h

/-- With `DMAX <= 254` an insertion with `adddot_N` into a box of level `L` comes
to its end within `DMAX - L + 2` passes through the loops. -/
theorem adddot_N_ends (NCRIT DMAX : Nat) (RA : List real) (hNc : 1 ≤ NCRIT) (hd : DMAX ≤ 254) :
    ∀ (fuel : Nat) (L : Nat) (c : vect) (N : Nat) (DOTS : List dot) (OCT : Fin 8 → node)
      (Di : dot) (BM : Nat),
      WF (node.box L c N DOTS OCT) → placed NCRIT DMAX RA (node.box L c N DOTS OCT) →
      DMAX - L + 1 < fuel →
        ends_well (adddot_N NCRIT DMAX RA fuel (node.box L c N DOTS OCT) Di BM) := by
  intro fuel
  induction fuel with
  | zero => intro L c N DOTS OCT Di BM _ _ hf; omega
  | succ fuel ih =>
    intro L c N DOTS OCT Di BM hWF hPl hf
    have hL : L ≤ DMAX := hPl.1
    obtain ⟨hN, hTw, hK⟩ := hWF
    rw [adddot_N]
    by_cases htw : (node.box L c N DOTS OCT).is_twig = true
    · rw [if_pos htw]
      have hne : DOTS ≠ [] := by
        intro e
        simp [node.is_twig, e] at htw
      have hO : OCT = fun _ => node.null := funext (hTw hne)
      subst hO
      rw [dots_of_twig] at hN
      subst hN
      by_cases hnc : DOTS.length + 1 > NCRIT
      · rw [if_pos hnc]
        have h2 : 2 ≤ (Di :: DOTS).length := by
          cases DOTS with
          | nil => exact absurd rfl hne
          | cons d ds => simp
        exact split_box_ends DMAX RA hd fuel true L c (Di :: DOTS) BM hL (fun _ => h2)
          (by omega)
      · rw [if_neg hnc]
        trivial
    · rw [if_neg htw]
      simp only
      cases hb : OCT (octantF c Di.POS) with
      | null => trivial
      | dot Do =>
        simp only
        have hm := make_subbox_N_ends DMAX RA L c (octantF c Di.POS) Do BM
        cases hr : make_subbox_N DMAX RA L c (octantF c Di.POS) Do BM with
        | ok x =>
          obtain ⟨P, BM1⟩ := x
          obtain ⟨c1, hP, _, hl⟩ := make_subbox_N_ok hr
          have e := next_level hd hL (rfl : (L + 1) % 256 = (L + 1) % 256)
          rw [e] at hP hl
          subst hP
          simp only
          exact ends_well_store _ (ih _ _ _ _ _ Di BM1 (WF_twig (L + 1) c1 [Do])
            (placed_twig NCRIT DMAX RA (L + 1) c1 1 [Do] hl hNc) (by omega))
        | error e => rw [hr] at hm; exact hm
        | fuel => rw [hr] at hm; exact hm
      | box L1 c1 N1 D1 O1 =>
        simp only
        have hsh := (hPl.2.2 _).2.1 _ _ _ _ _ hb
        have e := next_level hd hL (shrink_ok hsh).1
        have hKW : WF (node.box L1 c1 N1 D1 O1) := hb ▸ hK _
        have hKP : placed NCRIT DMAX RA (node.box L1 c1 N1 D1 O1) := hb ▸ (hPl.2.2 _).2.2
        subst e
        exact ends_well_store _ (ih _ _ _ _ _ Di BM hKW hKP (by have := hKP.1; omega))

/-- The insertion loop comes to its end if every insertion into a tree with the
invariant `I` does and keeps the invariant. -/
theorem adddots_ends (add : node → dot → Nat → Res (node × Nat)) (I : node → Prop)
    (hinv : ∀ P Di BM P1 BM1, add P Di BM = Res.ok (P1, BM1) → I P → I P1)
    (hend : ∀ P Di BM, I P → ends_well (add P Di BM)) :
    ∀ (dots : List dot) (P : node) (BM : Nat), I P → ends_well (adddots add dots P BM) := by
  intro dots
  induction dots with
  | nil => intro P BM _; trivial
  | cons d ds ih =>
    intro P BM hI
    rw [adddots]
    have h := hend P d BM hI
    cases hr : add P d BM with
    | ok x =>
      obtain ⟨P1, BM1⟩ := x
      exact ih P1 BM1 (hinv P d BM P1 BM1 hr hI)
    | error e => rw [hr] at h; exact h
    | fuel => rw [hr] at h; exact h

theorem build_invariant_reset (nc dm : Nat) (RA : List real) (x0 : vect) :
    build_invariant nc dm RA (box_reset 0 x0) := by
  refine ⟨⟨?_, by simp, fun _ => trivial⟩, placed_twig nc dm RA 0 x0 0 [] (Nat.zero_le _)
    (Nat.zero_le _), fun _ => ⟨rfl, fun _ => trivial⟩, _, _, _, _, rfl⟩
  simp [dots_of, flatMap_const_nil]

theorem adddot_N_invariant (nc dm : Nat) (RA : List real) (hnc : nc > 1) (fuel : Nat)
    (P : node) (Di : dot) (BM : Nat) (P1 : node) (BM1 : Nat)
    (h : adddot_N nc dm RA fuel P Di BM = Res.ok (P1, BM1)) (hI : build_invariant nc dm RA P) :
    build_invariant nc dm RA P1 := by
  obtain ⟨hW, hP, _, c, N, D, O, e⟩ := hI
  subst e
  obtain ⟨a, _, _, _⟩ := adddot_N_inv nc dm RA fuel _ Di BM P1 BM1 h hW
  obtain ⟨b, N1, D1, O1, e1⟩ := adddot_N_placed nc dm RA (by omega) fuel _ _ _ _ _ Di BM P1 BM1 h
    hW hP
  exact ⟨a, b, fun hn => absurd hnc hn, _, _, _, _, e1⟩

theorem adddot_1_invariant (nc dm : Nat) (RA : List real) (hnc : ¬ nc > 1) (fuel : Nat)
    (P : node) (Di : dot) (BM : Nat) (P1 : node) (BM1 : Nat)
    (h : adddot_1 dm RA fuel P Di BM = Res.ok (P1, BM1)) (hI : build_invariant nc dm RA P) :
    build_invariant nc dm RA P1 := by
  obtain ⟨hW, hP, hT, c, N, D, O, e⟩ := hI
  subst e
  obtain ⟨a, a2, _, _, _⟩ := adddot_1_inv dm RA fuel _ Di BM P1 BM1 h hW (hT hnc)
  obtain ⟨b, N1, D1, O1, e1⟩ := adddot_1_placed nc dm RA fuel _ _ _ _ _ Di BM P1 BM1 h
    hW (hT hnc) hP
  exact ⟨a, b, fun _ => a2, _, _, _, _, e1⟩

theorem adddots_invariant (add : node → dot → Nat → Res (node × Nat)) (I : node → Prop)
    (hinv : ∀ P Di BM P1 BM1, add P Di BM = Res.ok (P1, BM1) → I P → I P1) :
    ∀ (dots : List dot) (P : node) (BM : Nat) (P1 : node) (BM1 : Nat),
      adddots add dots P BM = Res.ok (P1, BM1) → I P → I P1 := by
  intro dots
  induction dots with
  | nil =>
    intro P BM P1 BM1 h hI
    simp only [adddots] at h
    injection h with h
    injection h with h1 h2
    subst h1
    exact hI
  | cons d ds ih =>
    intro P BM P1 BM1 h hI
    simp only [adddots] at h
    split at h
    · rename_i P2 BM2 hstep
      exact ih P2 BM2 P1 BM1 h (hinv P d BM P2 BM2 hstep hI)
    · cases h
    · cases h

/-- After a successful `tree_builder::build()` on a freshly reset builder the
tree has the invariant of the insertion. -/
theorem build_placed (fuel nc dm nl : Nat) (x0 : vect) (sz : real) (dots : List dot)
    (TB : box_dot_tree)
    (h : tree_builder.build fuel (box_dot_tree.reset nc dm nl x0 sz) dots = Res.ok TB) :
    build_invariant nc dm TB.RA TB.P0 ∧ TB.DMAX = dm ∧
      TB.RA = List.iterate (fun r => real.mul half r) sz (dm + 1) := by
  unfold tree_builder.build at h
  simp only [box_dot_tree.reset] at h
  split at h
  · rename_i P BM hrun
    injection h with h
    subst h
    refine ⟨?_, rfl, rfl⟩
    show build_invariant nc dm (List.iterate (fun r => real.mul half r) sz (dm + 1)) P
    by_cases hnc : nc > 1
    · simp only [hnc, if_true] at hrun
      exact adddots_invariant _ _ (adddot_N_invariant nc dm _ hnc fuel) dots _ _ P BM hrun
        (build_invariant_reset nc dm _ x0)
    · simp only [hnc, if_false] at hrun
      exact adddots_invariant _ _ (adddot_1_invariant nc dm _ hnc fuel) dots _ _ P BM hrun
        (build_invariant_reset nc dm _ x0)
  · cases h
  · cases h

/-- With a maximum depth `dm <= 254`, `tree_builder::build()` on a freshly reset
builder comes to its end: with a budget of `dm + 2` passes for every insertion it
returns the tree or ends with the depth error. -/
theorem build_ends (fuel nc dm nl : Nat) (x0 : vect) (sz : real) (dots : List dot)
    (hd : dm ≤ 254) (hf : dm + 2 ≤ fuel) :
    ends_well (tree_builder.build fuel (box_dot_tree.reset nc dm nl x0 sz) dots) := by
  unfold tree_builder.build
  simp only [box_dot_tree.reset]
  have key : ∀ add : node → dot → Nat → Res (node × Nat),
      ends_well (adddots add dots (box_reset 0 x0) 1) →
      ends_well (match adddots add dots (box_reset 0 x0) 1 with
        | Res.ok (P, BM) => Res.ok
            ({ NCRIT := nc, DMAX := dm, DEPTH := 0, NDOTS := nl, BM := BM,
               RA := List.iterate (fun r => real.mul half r) sz (dm + 1), P0 := P } : box_dot_tree)
        | Res.error e => Res.error e
        | Res.fuel => Res.fuel) := by
    intro add h
    cases hr : adddots add dots (box_reset 0 x0) 1 with
    | ok x => trivial
    | error e => rw [hr] at h; exact h
    | fuel => rw [hr] at h; exact h
  by_cases hnc : nc > 1
  · simp only [hnc, if_true]
    apply key
    refine adddots_ends _ _ (adddot_N_invariant nc dm _ hnc fuel) ?_ dots _ _
      (build_invariant_reset nc dm _ x0)
    intro P Di BM hI
    obtain ⟨hW, hP, _, c, N, D, O, e⟩ := hI
    subst e
    exact adddot_N_ends nc dm _ (by omega) hd fuel 0 c N D O Di BM hW hP (by omega)
  · simp only [hnc, if_false]
    apply key
    refine adddots_ends _ _ (adddot_1_invariant nc dm _ hnc fuel) ?_ dots _ _
      (build_invariant_reset nc dm _ x0)
    intro P Di BM hI
    obtain ⟨hW, hP, _, c, N, D, O, e⟩ := hI
    subst e
    exact adddot_1_ends nc dm _ hd fuel 0 c N D O Di BM hP (by omega)

theorem countP_flatMap_sum {α β : Type} (p : β → Bool) (f : α → List β) (l : List α) :
    (l.flatMap f).countP p = (l.map (fun a => (f a).countP p)).sum := by
  induction l with
  | nil => rfl
  | cons a l ih => simp [List.flatMap_cons, List.countP_append, ih]

/-- In a tree with the invariant `placed` no more than `NCRIT` dots (and no more
than one if `NCRIT = 0`) have the same position. -/
theorem placed_count (NCRIT DMAX : Nat) (RA : List real) (p : vect) (P : node) :
    WF P → placed NCRIT DMAX RA P →
      (dots_of P).countP (fun d => decide (d.POS = p)) ≤ max NCRIT 1 := by
  induction P with
  | null => intro _ _; simp [dots_of]
  | dot D =>
    intro _ _
    have := List.countP_le_length (fun d => decide (d.POS = p)) (l := dots_of (node.dot D))
    simp only [dots_of, List.length_singleton] at this ⊢
    omega
  | box L c N DOTS OCT ih =>
    intro hW hP
    obtain ⟨_, hTw, hK⟩ := hW
    obtain ⟨_, hlen, hS⟩ := hP
    by_cases hD : DOTS = []
    · subst hD
      simp only [dots_of, List.nil_append]
      rw [countP_flatMap_sum]
      have h1 := sum_le_single
        (fun i => (dots_of (OCT i)).countP (fun d => decide (d.POS = p)))
        (List.finRange 8) (octantF c p) (List.nodup_finRange 8) (by
          intro b _ hb
          rw [List.countP_eq_zero]
          intro d hd hp
          have hp : d.POS = p := of_decide_eq_true hp
          have := (hS b).1 d hd
          rw [hp] at this
          exact hb this.symm)
      exact le_trans h1 (ih _ (hK _) (hS _).2.2)
    · have hO : OCT = fun _ => node.null := funext (hTw hD)
      subst hO
      rw [dots_of_twig]
      have := List.countP_le_length (fun d => decide (d.POS = p)) (l := DOTS)
      omega

/-- With `Ncrit >= 1` and a maximum depth `dm <= 254`, `tree_builder::build()`
ends with the depth error if more than `Ncrit` of the dots have the same
position. -/
theorem build_depth_error (fuel nc dm nl : Nat) (x0 : vect) (sz : real) (dots : List dot)
    (p : vect) (hnc : 1 ≤ nc) (hd : dm ≤ 254) (hf : dm + 2 ≤ fuel)
    (hc : nc < dots.countP (fun d => decide (d.POS = p))) :
    tree_builder.build fuel (box_dot_tree.reset nc dm nl x0 sz) dots
      = Res.error Fatal.max_depth := by
  have he := build_ends fuel nc dm nl x0 sz dots hd hf
  cases hr : tree_builder.build fuel (box_dot_tree.reset nc dm nl x0 sz) dots with
  | ok TB =>
    exfalso
    obtain ⟨_, hperm, _⟩ := build_inv fuel nc dm nl x0 sz dots TB hr
    obtain ⟨⟨hW, hP, _⟩, _⟩ := build_placed fuel nc dm nl x0 sz dots TB hr
    have h1 := placed_count nc dm TB.RA p TB.P0 hW hP
    rw [hperm.countP_eq] at h1
    have : max nc 1 = nc := Nat.max_eq_left hnc
    omega
  | error e =>
    rw [hr] at he
    have he : e = Fatal.max_depth := he
    rw [he]
  | fuel => rw [hr] at he; exact he.elim

theorem scratch_loop_ok (BB : bodies) (SP : Nat) (minmax : Bool) :
    ∀ (l : List body) (i : Nat) (s s1 : dot_setup),
      scratch_loop BB SP minmax l i s = Res.ok s1 →
        s1.D = s.D ++ used_dots BB SP i l ∧
        s1.XAVE = pos_sum s.XAVE (used_dots BB SP i l) ∧
        (s1.XMIN, s1.XMAX) =
          (if minmax then extents (s.XMIN, s.XMAX) (used_dots BB SP i l)
           else (s.XMIN, s.XMAX)) ∧
        ∀ d ∈ used_dots BB SP i l, isnan d.POS = false := by
  intro l
  induction l with
  | nil =>
    intro i s s1 h
    simp only [scratch_loop] at h
    injection h with h
    subst h
    cases minmax <;> simp [used_dots, pos_sum, extents]
  | cons b rest ih =>
    intro i s s1 h
    by_cases hsel : selected BB SP b = true
    · by_cases hnan : isnan b.POS = true
      · simp [scratch_loop, hsel, hnan] at h
      · simp only [scratch_loop, hsel, hnan, if_true] at h
        obtain ⟨h1, h2, h3, h4⟩ := ih (i + 1) _ s1 h
        simp only [used_dots, hsel, if_true]
        refine ⟨by rw [h1]; simp, by rw [h2]; rfl, ?_, ?_⟩
        · rw [h3]
          cases minmax <;> simp [extents]
        · intro d hd
          rcases List.mem_cons.1 hd with e | e
          · subst e; simpa using hnan
          · exact h4 d e
    · simp only [scratch_loop, hsel] at h
      obtain ⟨h1, h2, h3, h4⟩ := ih (i + 1) s s1 h
      simp only [used_dots, hsel]
      exact ⟨h1, h2, h3, h4⟩

/-- The dots of `setup_from_scratch` are the bodies that are used: the links are
the numbers of these bodies, in increasing order, and the positions are those
of the bodies. -/
theorem used_dots_spec (BB : bodies) (SP : Nat) :
    ∀ (l : List body) (i : Nat),
      (used_dots BB SP i l).map (fun d => d.POS)
          = (l.filter (fun b => selected BB SP b)).map (fun b => b.POS) ∧
        (used_dots BB SP i l).Pairwise (fun d e => d.LINK < e.LINK) ∧
        (∀ d ∈ used_dots BB SP i l, i ≤ d.LINK ∧
          ∃ b, l[d.LINK - i]? = some b ∧ selected BB SP b = true ∧ d.POS = b.POS) ∧
        (∀ (j : Nat) (b : body), l[j]? = some b → selected BB SP b = true →
          { POS := b.POS, LINK := i + j } ∈ used_dots BB SP i l) := by
  intro l
  induction l with
  | nil => intro i; simp [used_dots]
  | cons b rest ih =>
    intro i
    obtain ⟨h1, h2, h3, h4⟩ := ih (i + 1)
    have key : ∀ d ∈ used_dots BB SP (i + 1) rest, i ≤ d.LINK ∧
        ∃ b1, (b :: rest)[d.LINK - i]? = some b1 ∧ selected BB SP b1 = true ∧ d.POS = b1.POS := by
      intro d hd
      obtain ⟨q1, b1, q2, q3, q4⟩ := h3 d hd
      refine ⟨by omega, b1, ?_, q3, q4⟩
      have e : d.LINK - i = (d.LINK - (i + 1)) + 1 := by omega
      rw [e, List.getElem?_cons_succ]
      exact q2
    have key4 : ∀ (j : Nat) (b1 : body), rest[j]? = some b1 → selected BB SP b1 = true →
        ({ POS := b1.POS, LINK := i + (j + 1) } : dot) ∈ used_dots BB SP (i + 1) rest := by
      intro j b1 hj hs
      have := h4 j b1 hj hs
      have e : i + 1 + j = i + (j + 1) := by omega
      rw [e] at this
      exact this
    by_cases hsel : selected BB SP b = true
    · simp only [used_dots, hsel, if_true, List.filter_cons_of_pos, List.map_cons]
      refine ⟨by rw [h1], ?_, ?_, ?_⟩
      · rw [List.pairwise_cons]
        refine ⟨?_, h2⟩
        intro d hd
        have := (h3 d hd).1
        show i < d.LINK
        omega
      · intro d hd
        rcases List.mem_cons.1 hd with e | e
        · subst e
          exact ⟨le_refl _, b, by simp, hsel, rfl⟩
        · exact key d e
      · intro j b1 hj hs
        cases j with
        | zero =>
          simp only [List.getElem?_cons_zero] at hj
          injection hj with hj
          subst hj
          simp
        | succ j =>
          rw [List.getElem?_cons_succ] at hj
          exact List.mem_cons_of_mem _ (key4 j b1 hj hs)
    · simp only [used_dots, hsel, Bool.false_eq_true, if_false]
      rw [List.filter_cons_of_neg (by simpa using hsel)]
      refine ⟨h1, h2, key, ?_⟩
      intro j b1 hj hs
      cases j with
      | zero =>
        simp only [List.getElem?_cons_zero] at hj
        injection hj with hj
        subst hj
        exact absurd hs hsel
      | succ j =>
        rw [List.getElem?_cons_succ] at hj
        exact key4 j b1 hj hs

theorem isnan_get {v : vect} (h : isnan v = false) (k : Fin 3) : ∃ q, v.get k = real.val q := by
  obtain ⟨x0, x1, x2⟩ := v
  simp only [isnan, Bool.or_eq_false_iff] at h
  obtain ⟨⟨h0, h1⟩, h2⟩ := h
  fin_cases k
  · cases x0 with
    | nan => cases h0
    | val q => exact ⟨q, rfl⟩
  · cases x1 with
    | nan => cases h1
    | val q => exact ⟨q, rfl⟩
  · cases x2 with
    | nan => cases h2
    | val q => exact ⟨q, rfl⟩

theorem up_min_max_get (x mn mx : vect) (k : Fin 3) :
    (up_min_max x mn mx).1.get k = update_min (mn.get k) (x.get k) ∧
      (up_min_max x mn mx).2.get k = update_max (mx.get k) (x.get k) := by
  fin_cases k <;> exact ⟨rfl, rfl⟩

theorem vect_add_get (a b : vect) (k : Fin 3) :
    (vect.add a b).get k = real.add (a.get k) (b.get k) := by
  fin_cases k <;> rfl

theorem vect_div_get (a : vect) (r : real) (k : Fin 3) :
    (vect.div a r).get k = real.div (a.get k) r := by
  fin_cases k <;> rfl

theorem update_min_val (a x : ℚ) :
    update_min (real.val a) (real.val x) = real.val (min a x) := by
  unfold update_min real.lt
  by_cases h : x < a
  · simp [h, min_eq_right (le_of_lt h)]
  · simp [h, min_eq_left (not_lt.1 h)]

theorem update_max_val (a x : ℚ) :
    update_max (real.val a) (real.val x) = real.val (max a x) := by
  unfold update_max real.gt
  by_cases h : x > a
  · simp [h, max_eq_right (le_of_lt h)]
  · simp [h, max_eq_left (not_lt.1 h)]

/-- The extents of dots without NaN, from extents without NaN in component `k`:
the minimum and the maximum of the start values and the components `k` of the
positions. -/
theorem extents_get (k : Fin 3) : ∀ (ds : List dot) (mm : vect × vect) (a b : ℚ),
    (∀ d ∈ ds, isnan d.POS = false) → mm.1.get k = real.val a → mm.2.get k = real.val b →
      ∃ a1 b1, (extents mm ds).1.get k = real.val a1 ∧ (extents mm ds).2.get k = real.val b1 ∧
        a1 ≤ a ∧ b ≤ b1 ∧
        (∀ d ∈ ds, ∃ q, d.POS.get k = real.val q ∧ a1 ≤ q ∧ q ≤ b1) ∧
        (a1 = a ∨ ∃ d ∈ ds, d.POS.get k = real.val a1) ∧
        (b1 = b ∨ ∃ d ∈ ds, d.POS.get k = real.val b1) := by
  intro ds
  induction ds with
  | nil =>
    intro mm a b _ ha hb
    exact ⟨a, b, ha, hb, le_refl _, le_refl _, fun d hd => by simp at hd, Or.inl rfl, Or.inl rfl⟩
  | cons d ds ih =>
    intro mm a b hn ha hb
    obtain ⟨q, hq⟩ := isnan_get (hn d (by simp)) k
    have hstep := up_min_max_get d.POS mm.1 mm.2 k
    rw [ha, hb, hq, update_min_val, update_max_val] at hstep
    obtain ⟨a1, b1, e1, e2, l1, l2, hall, hmin, hmax⟩ :=
      ih (up_min_max d.POS mm.1 mm.2) (min a q) (max b q)
        (fun x hx => hn x (by simp [hx])) hstep.1 hstep.2
    refine ⟨a1, b1, e1, e2, le_trans l1 (min_le_left _ _), le_trans (le_max_left _ _) l2,
      ?_, ?_, ?_⟩
    · intro x hx
      rcases List.mem_cons.1 hx with e | e
      · subst e
        exact ⟨q, hq, le_trans l1 (min_le_right _ _), le_trans (le_max_right _ _) l2⟩
      · exact hall x e
    · rcases hmin with e | ⟨x, hx, e⟩
      · rcases min_choice a q with c | c
        · left; rw [e, c]
        · right; exact ⟨d, by simp, by rw [hq, e, c]⟩
      · right; exact ⟨x, by simp [hx], e⟩
    · rcases hmax with e | ⟨x, hx, e⟩
      · rcases max_choice b q with c | c
        · left; rw [e, c]
        · right; exact ⟨d, by simp, by rw [hq, e, c]⟩
      · right; exact ⟨x, by simp [hx], e⟩

/-- The sum of positions without NaN, in component `k`. -/
theorem pos_sum_get (k : Fin 3) : ∀ (ds : List dot) (x : vect) (a : ℚ),
    (∀ d ∈ ds, isnan d.POS = false) → x.get k = real.val a →
      ∃ qs : List ℚ, ds.map (fun d => d.POS.get k) = qs.map real.val ∧
        (pos_sum x ds).get k = real.val (a + qs.sum) := by
  intro ds
  induction ds with
  | nil => intro x a _ ha; exact ⟨[], rfl, by simpa [pos_sum] using ha⟩
  | cons d ds ih =>
    intro x a hn ha
    obtain ⟨q, hq⟩ := isnan_get (hn d (by simp)) k
    have hstep : (vect.add x d.POS).get k = real.val (a + q) := by
      rw [vect_add_get, ha, hq]; rfl
    obtain ⟨qs, e1, e2⟩ := ih (vect.add x d.POS) (a + q) (fun y hy => hn y (by simp [hy])) hstep
    refine ⟨q :: qs, by simp [hq, e1], ?_⟩
    have : pos_sum x (d :: ds) = pos_sum (vect.add x d.POS) ds := rfl
    rw [this, e2]
    simp [add_assoc]

/-- What `setup_from_scratch(BB,SP)` returns when it returns: the dots of the
bodies that are used, the sum of their positions divided by their number, and
the extents of the first body and these dots. -/
theorem setup_from_scratch_ok (BB : bodies) (SP : Nat) (s : dot_setup)
    (h : setup_from_scratch BB SP = Res.ok s) :
    s.D = used_dots BB SP 0 BB.B ∧
      s.XAVE = vect.div (pos_sum vect.zero s.D) (real_of_nat s.D.length) ∧
      (s.XMIN, s.XMAX) = extents
        (match BB.B with
          | [] => (vect.garbage, vect.garbage)
          | b :: _ => (b.POS, b.POS)) s.D ∧
      ∀ d ∈ s.D, isnan d.POS = false := by
  unfold setup_from_scratch at h
  simp only at h
  split at h
  · rename_i s1 hl
    obtain ⟨h1, h2, h3, h4⟩ := scratch_loop_ok BB SP true BB.B 0 _ s1 hl
    injection h with h
    subst h
    simp only [List.nil_append, if_true] at h1 h2 h3
    refine ⟨h1, by simp only [h2, h1], ?_, by rw [h1]; exact h4⟩
    simp only [h3, h1]
    cases BB.B <;> rfl
  · cases h
  · cases h

theorem get_zero (k : Fin 3) : vect.zero.get k = real.val 0 := by
  fin_cases k <;> rfl

theorem real_le_val (a b : ℚ) (h : a ≤ b) : real.le (real.val a) (real.val b) = true := by
  simp [real.le, h]

theorem log2_bounds (n : ℕ) (hn : n ≠ 0) :
    ((2 : ℚ) ^ n.log2 ≤ n) ∧ ((n : ℚ) + 1 ≤ 2 * (2 : ℚ) ^ n.log2) := by
  have h1 : 2 ^ n.log2 ≤ n := Nat.log2_self_le hn
  have h2 : n < 2 ^ (n.log2 + 1) := Nat.lt_log2_self
  constructor
  · exact_mod_cast h1
  · have h3 : n + 1 ≤ 2 * 2 ^ n.log2 := by
      rw [pow_succ] at h2
      omega
    exact_mod_cast h3

theorem floor_toNat_bounds (x : ℚ) (hx : 1 ≤ x) :
    x.floor.toNat ≠ 0 ∧ ((x.floor.toNat : ℕ) : ℚ) ≤ x ∧ x < ((x.floor.toNat : ℕ) : ℚ) + 1 := by
  have e : x.floor = ⌊x⌋ := rfl
  have h1 : (1 : ℤ) ≤ ⌊x⌋ := Int.le_floor.2 (by exact_mod_cast hx)
  have h2 : ((⌊x⌋.toNat : ℕ) : ℤ) = ⌊x⌋ := Int.toNat_of_nonneg (by omega)
  have h3 : ((⌊x⌋.toNat : ℕ) : ℚ) = ((⌊x⌋ : ℤ) : ℚ) := by exact_mod_cast h2
  rw [e]
  refine ⟨?_, ?_, ?_⟩
  · intro h0
    rw [h0] at h2
    simp at h2
    omega
  · rw [h3]; exact Int.floor_le x
  · rw [h3]; exact Int.lt_floor_add_one x

/-- The value of `pow(two,int(one+log(D)/M_LN2))` for `D > 0`: a power of two
that is greater than `D`; at most `2 D` when `D >= 1/2`, and between `2 D` and
`4 D` when `D < 1/2`, where the conversion to `int` rounds up. -/
theorem pow_two_log_bounds (q : ℚ) (hq : 0 < q) :
    ∃ k : ℤ, pow_two_log (real.val q) = real.val ((2 : ℚ) ^ k) ∧ q < (2 : ℚ) ^ k ∧
      (1 / 2 ≤ q → (2 : ℚ) ^ k ≤ 2 * q) ∧
      (q < 1 / 2 → 2 * q ≤ (2 : ℚ) ^ k ∧ (2 : ℚ) ^ k < 4 * q) := by
  refine ⟨int_one_plus_log2 q, by simp [pow_two_log, hq], ?_⟩
  unfold int_one_plus_log2
  by_cases h1 : q ≥ 1
  · rw [if_pos h1]
    obtain ⟨n0, n1, n2⟩ := floor_toNat_bounds q h1
    obtain ⟨l1, l2⟩ := log2_bounds _ n0
    have e : (2 : ℚ) ^ (1 + (q.floor.toNat.log2 : ℤ)) = 2 * (2 : ℚ) ^ q.floor.toNat.log2 := by
      rw [zpow_add₀ (by norm_num), zpow_one, zpow_natCast]
    rw [e]
    refine ⟨by linarith, fun _ => by linarith, fun h => by linarith⟩
  · rw [if_neg h1]
    by_cases h2 : q ≥ 1 / 2
    · rw [if_pos h2]
      simp only [zpow_zero]
      push_neg at h1
      exact ⟨h1, fun _ => by linarith, fun h => by linarith⟩
    · rw [if_neg h2]
      push_neg at h2
      have hinv : 1 ≤ 1 / q := by
        rw [le_div_iff₀ hq]; linarith
      obtain ⟨n0, n1, n2⟩ := floor_toNat_bounds (1 / q) hinv
      obtain ⟨l1, l2⟩ := log2_bounds _ n0
      set p : ℚ := (2 : ℚ) ^ (1 / q).floor.toNat.log2 with hp
      have hp0 : 0 < p := by positivity
      have e : (2 : ℚ) ^ (1 - ((1 / q).floor.toNat.log2 : ℤ)) = 2 / p := by
        rw [zpow_sub₀ (by norm_num), zpow_one, zpow_natCast]
      rw [e]
      have a1 : p * q ≤ 1 := by
        have : p ≤ 1 / q := le_trans l1 n1
        calc p * q ≤ (1 / q) * q := by
              exact mul_le_mul_of_nonneg_right this (le_of_lt hq)
          _ = 1 := by field_simp
      have a2 : 1 < 2 * p * q := by
        have : 1 / q < 2 * p := by linarith
        calc 1 = (1 / q) * q := by field_simp
          _ < (2 * p) * q := mul_lt_mul_of_pos_right this hq
      have b1 : 2 * q ≤ 2 / p := by
        rw [le_div_iff₀ hp0]; nlinarith
      have b2 : 2 / p < 4 * q := by
        rw [div_lt_iff₀ hp0]; nlinarith
      exact ⟨by linarith, fun h => by linarith, fun _ => ⟨b1, b2⟩⟩

theorem root_radius_eq (XMIN XMAX X : vect) :
    root_radius XMIN XMAX X = pow_two_log (root_D XMIN XMAX X) := rfl

theorem update_max_ge (d : ℚ) (r : real) :
    ∃ d1, update_max (real.val d) r = real.val d1 ∧ d ≤ d1 ∧ ∀ r1, r = real.val r1 → r1 ≤ d1 := by
  cases r with
  | nan => exact ⟨d, rfl, le_refl _, fun r1 h => by cases h⟩
  | val x =>
    refine ⟨max d x, update_max_val d x, le_max_left _ _, ?_⟩
    intro r1 h
    injection h with h
    rw [← h]
    exact le_max_right _ _

theorem dist_val (b a x : ℚ) :
    real.max (real.abs (real.sub (real.val b) (real.val x)))
      (real.abs (real.sub (real.val a) (real.val x))) = real.val (max |b - x| |a - x|) := by
  simp only [real.sub, real.abs, real.max, real.lt]
  by_cases h : |b - x| < |a - x|
  · simp [h, max_eq_right (le_of_lt h)]
  · simp [h, max_eq_left (not_lt.1 h)]

/-- The distance `D` is a number, not negative, and not smaller than the distance
from `X` to `XMIN` and `XMAX` in any coordinate in which these are numbers. -/
theorem root_D_ge (XMIN XMAX X : vect) :
    ∃ q, root_D XMIN XMAX X = real.val q ∧ 0 ≤ q ∧
      ∀ (k : Fin 3) (a b x : ℚ), XMIN.get k = real.val a → XMAX.get k = real.val b →
        X.get k = real.val x → max |b - x| |a - x| ≤ q := by
  obtain ⟨d1, e1, l1, r1⟩ := update_max_ge 0 (real.max (real.abs (real.sub XMAX.x0 X.x0))
    (real.abs (real.sub XMIN.x0 X.x0)))
  obtain ⟨d2, e2, l2, r2⟩ := update_max_ge d1 (real.max (real.abs (real.sub XMAX.x1 X.x1))
    (real.abs (real.sub XMIN.x1 X.x1)))
  obtain ⟨d3, e3, l3, r3⟩ := update_max_ge d2 (real.max (real.abs (real.sub XMAX.x2 X.x2))
    (real.abs (real.sub XMIN.x2 X.x2)))
  refine ⟨d3, ?_, by linarith, ?_⟩
  · show update_max (update_max (update_max zero _) _) _ = _
    rw [show zero = real.val 0 from rfl, e1, e2, e3]
  · intro k a b x ha hb hx
    fin_cases k
    · have ha : XMIN.x0 = real.val a := ha
      have hb : XMAX.x0 = real.val b := hb
      have hx : X.x0 = real.val x := hx
      have := r1 _ (by rw [ha, hb, hx]; exact dist_val b a x)
      linarith
    · have ha : XMIN.x1 = real.val a := ha
      have hb : XMAX.x1 = real.val b := hb
      have hx : X.x1 = real.val x := hx
      have := r2 _ (by rw [ha, hb, hx]; exact dist_val b a x)
      linarith
    · have ha : XMIN.x2 = real.val a := ha
      have hb : XMAX.x2 = real.val b := hb
      have hx : X.x2 = real.val x := hx
      exact r3 _ (by rw [ha, hb, hx]; exact dist_val b a x)

theorem contains_of_get (cen : vect) (rad : real) (pos : vect)
    (h : ∀ k : Fin 3, real.le (real.abs (real.sub (cen.get k) (pos.get k))) rad = true) :
    contains cen rad pos = true := by
  have h0 := h 0
  have h1 := h 1
  have h2 := h 2
  simp only [vect.get] at h0 h1 h2
  simp [contains, h0, h1, h2]

theorem trunc_val (q : ℚ) : ∃ r, real.trunc (real.add (real.val q) half) = real.val r := by
  simp [real.trunc, real.add, half]

/-- The root centre is a position without NaN if `XAVE` is, or if the centre is
given and is. -/
theorem root_center_get (x0 : Option vect) (XAVE : vect)
    (h0 : ∀ x, x0 = some x → isnan x = false) (h1 : x0 = none → isnan XAVE = false)
    (k : Fin 3) : ∃ x, (root_center x0 XAVE).get k = real.val x := by
  cases x0 with
  | some x => exact isnan_get (h0 x rfl) k
  | none =>
    have hX := h1 rfl
    obtain ⟨a, ha⟩ := isnan_get hX 0
    obtain ⟨b, hb⟩ := isnan_get hX 1
    obtain ⟨c, hc⟩ := isnan_get hX 2
    simp only [vect.get] at ha hb hc
    fin_cases k
    · show ∃ x, real.trunc (real.add XAVE.x0 half) = real.val x
      rw [ha]; exact trunc_val a
    · show ∃ x, real.trunc (real.add XAVE.x1 half) = real.val x
      rw [hb]; exact trunc_val b
    · show ∃ x, real.trunc (real.add XAVE.x2 half) = real.val x
      rw [hc]; exact trunc_val c

theorem xave_no_nan (ds : List dot) (hne : ds ≠ []) (hn : ∀ d ∈ ds, isnan d.POS = false) :
    isnan (vect.div (pos_sum vect.zero ds) (real_of_nat ds.length)) = false := by
  have hl : ((ds.length : ℕ) : ℚ) ≠ 0 := by
    have : ds.length ≠ 0 := fun e => hne (List.length_eq_zero.1 e)
    exact_mod_cast this
  have key : ∀ k : Fin 3, ∃ r,
      (vect.div (pos_sum vect.zero ds) (real_of_nat ds.length)).get k = real.val r := by
    intro k
    obtain ⟨qs, _, e2⟩ := pos_sum_get k ds vect.zero 0 hn (get_zero k)
    rw [vect_div_get, e2]
    exact ⟨(0 + qs.sum) / ds.length, by simp [real_of_nat, real.div, hl]⟩
  obtain ⟨a, ha⟩ := key 0
  obtain ⟨b, hb⟩ := key 1
  obtain ⟨c, hc⟩ := key 2
  simp only [vect.get] at ha hb hc
  simp [isnan, ha, hb, hc, real.isnan]

theorem int_one_plus_log2_five : int_one_plus_log2 5 = 3 := by
  have : (5 : ℚ).floor = 5 := by
    show ⌊(5 : ℚ)⌋ = 5
    rw [Int.floor_eq_iff]
    norm_num
  have h5 : Nat.log 2 5 = 2 := by
    rw [Nat.log_eq_iff (by norm_num)]
    norm_num
  have c1 : (5 : ℚ) ≥ 1 := by norm_num
  rw [int_one_plus_log2, if_pos c1, this]
  simp [Nat.log2_eq_log_two, h5]

/-- The root cube encloses the dots of `setup_from_scratch` if the first body of
the source and the root centre (when it is given) have no NaN. -/
theorem root_cube_encloses (BB : bodies) (SP : Nat) (x0 : Option vect) (s : dot_setup) (q : ℚ)
    (h : setup_from_scratch BB SP = Res.ok s) (hne : s.D ≠ [])
    (hb0 : ∀ b0 rest, BB.B = b0 :: rest → isnan b0.POS = false)
    (hx0 : ∀ x, x0 = some x → isnan x = false)
    (hD : root_D s.XMIN s.XMAX (root_center x0 s.XAVE) = real.val q) (hq : 0 < q) :
    real.gt (root_radius s.XMIN s.XMAX (root_center x0 s.XAVE)) zero = true ∧
      ∀ d ∈ s.D, contains (root_center x0 s.XAVE)
        (root_radius s.XMIN s.XMAX (root_center x0 s.XAVE)) d.POS = true := by
  obtain ⟨h1, h2, h3, h4⟩ := setup_from_scratch_ok BB SP s h
  obtain ⟨k, hk, hlt, _⟩ := pow_two_log_bounds q hq
  rw [root_radius_eq, hD, hk]
  have hpos : (0 : ℚ) < (2 : ℚ) ^ k := by positivity
  refine ⟨by simp [real.gt, zero, hpos], ?_⟩
  intro d hd
  apply contains_of_get
  intro j
  -- the first body and its position
  obtain ⟨b0, rest, hB⟩ : ∃ b0 rest, BB.B = b0 :: rest := by
    cases hBB : BB.B with
    | nil =>
      rw [h1, hBB] at hne
      exact absurd rfl hne
    | cons b0 rest => exact ⟨b0, rest, rfl⟩
  rw [hB] at h3
  simp only at h3
  obtain ⟨a, ha⟩ := isnan_get (hb0 b0 rest hB) j
  obtain ⟨a1, b1, e1, e2, _, _, hall, _, _⟩ := extents_get j s.D (b0.POS, b0.POS) a a h4 ha ha
  rw [← h3] at e1 e2
  simp only at e1 e2
  obtain ⟨p, hp, p1, p2⟩ := hall d hd
  obtain ⟨x, hx⟩ := root_center_get x0 s.XAVE hx0
    (fun _ => by rw [h2]; exact xave_no_nan s.D hne h4) j
  obtain ⟨q1, hq1, _, hge⟩ := root_D_ge s.XMIN s.XMAX (root_center x0 s.XAVE)
  rw [hD] at hq1
  injection hq1 with hq1
  subst hq1
  have hb := hge j a1 b1 x e1 e2 hx
  rw [hx, hp]
  simp only [real.sub, real.abs, real.le, decide_eq_true_eq]
  have : |x - p| ≤ max |b1 - x| |a1 - x| := by
    rw [abs_le]
    constructor
    · have := le_max_left |b1 - x| |a1 - x|
      have := le_abs_self (b1 - x)
      linarith
    · have := le_max_right |b1 - x| |a1 - x|
      have := neg_abs_le (a1 - x)
      linarith
  linarith

theorem root_D_corner (r : ℚ) (hr : 0 < r) :
    root_D (corner (-r)) (corner r) origin = real.val r := by
  have e : real.max (real.abs (real.sub (real.val r) (real.val 0)))
      (real.abs (real.sub (real.val (-r)) (real.val 0))) = real.val r := by
    rw [dist_val]
    simp [abs_of_pos hr]
  have e2 : update_max (real.val r) (real.val r) = real.val r := by
    rw [update_max_val]; simp
  show update_max (update_max (update_max zero _) _) _ = _
  simp only [corner, origin, e]
  rw [show zero = real.val 0 from rfl, update_max_val, max_eq_right (le_of_lt hr), e2, e2]

theorem int_one_plus_log2_one : int_one_plus_log2 1 = 1 := by
  have : (1 : ℚ).floor = 1 := by
    show ⌊(1 : ℚ)⌋ = 1
    simp
  simp [int_one_plus_log2, this, Nat.log2_eq_log_two]

theorem int_one_plus_log2_small : int_one_plus_log2 (3 / 10) = 0 := by
  have : (1 / (3 / 10) : ℚ).floor = 3 := by
    show ⌊(1 / (3 / 10) : ℚ)⌋ = 3
    rw [Int.floor_eq_iff]
    norm_num
  have h3 : Nat.log 2 3 = 1 := by
    rw [Nat.log_eq_iff (by norm_num)]
    norm_num
  have c1 : ¬ ((3 / 10 : ℚ) ≥ 1) := by norm_num
  have c2 : ¬ ((3 / 10 : ℚ) ≥ 1 / 2) := by norm_num
  rw [int_one_plus_log2, if_neg c1, if_neg c2, this]
  simp [Nat.log2_eq_log_two, h3]

/-- The box-dot tree of one dot: the root box with the dot in its octant. -/
theorem build_single (fuel nc dm nl : Nat) (x0 : vect) (sz : real) (d : dot) :
    tree_builder.build (fuel + 1) (box_dot_tree.reset nc dm nl x0 sz) [d] =
      Res.ok { (box_dot_tree.reset nc dm nl x0 sz) with
        P0 := node.box 0 x0 1 []
          (Function.update (fun _ => node.null) (octantF x0 d.POS) (node.dot d)) } := by
  by_cases hnc : nc > 1
  · simp [tree_builder.build, box_dot_tree.reset, adddots, adddot_N, box_reset, node.is_twig, hnc]
  · simp [tree_builder.build, box_dot_tree.reset, adddots, adddot_1, box_reset, hnc]

/-- The linker writes one cell and one leaf for the root box with one dot, and
returns the depth 1. -/
theorem link_single (TB : box_dot_tree) (x0 : vect) (d : dot) (b : Fin 8)
    (h : TB.P0 = node.box 0 x0 1 [] (Function.update (fun _ => node.null) b (node.dot d))) :
    TB.link.1.DEPTH = 1 ∧
      TB.link.2.CELLS = [(0, single_cell x0)] ∧
      TB.link.2.LEAFS = [(0, set_leaf d)] := by
  unfold box_dot_tree.link
  rw [h]
  by_cases hnc : TB.NCRIT > 1
  · simp only [hnc, if_true]
    fin_cases b <;> exact ⟨rfl, rfl, rfl⟩
  · simp only [hnc, if_false]
    fin_cases b <;> exact ⟨rfl, rfl, rfl⟩

/-- The block common to the three entry points, for one dot: a tree of one cell
and one leaf with the depth 1. -/
theorem grow_single (fuel : Nat) (T0 : OctTree) (nc dm : Nat) (x0 : vect) (sz : real) (d : dot) :
    ∃ T, OctTree.grow (fuel + 1) T0 (box_dot_tree.reset nc dm 1 x0 sz) [d] = (T, Res.ok ()) ∧
      T.DEPTH = 1 ∧ T.Nc = 1 ∧ T.Ns = 1 ∧
      T.CELLS = [single_cell x0] ∧
      T.LEAFS = [set_leaf d] ∧ T.BSRCES = T0.BSRCES ∧ T.STATE = T0.STATE ∧ T.USAGE = T0.USAGE := by
  have hb := build_single fuel nc dm 1 x0 sz d
  obtain ⟨l1, l2, l3⟩ := link_single
    { (box_dot_tree.reset nc dm 1 x0 sz) with
        P0 := node.box 0 x0 1 []
          (Function.update (fun _ => node.null) (octantF x0 d.POS) (node.dot d)) }
    x0 d (octantF x0 d.POS) rfl
  rw [grow_eq]
  have hn : (box_dot_tree.reset nc dm 1 x0 sz).NDOTS ≠ 0 := by simp [box_dot_tree.reset]
  rw [if_pos hn, hb]
  refine ⟨_, rfl, ?_, ?_, ?_, ?_, ?_, rfl, rfl, rfl⟩
  · simp only [OctTree.set_depth]
    exact l1
  · simp [OctTree.set_depth, OctTree.store, OctTree.allocate, box_dot_tree.reset]
  · simp [OctTree.set_depth, OctTree.store, OctTree.allocate, box_dot_tree.reset]
  · simp only [OctTree.set_depth, OctTree.store, OctTree.allocate]
    rw [l2]
    simp [box_dot_tree.reset, store_all]
  · simp only [OctTree.set_depth, OctTree.store, OctTree.allocate]
    rw [l3]
    simp [box_dot_tree.reset, store_all]

theorem used_dots_nil (BB : bodies) (SP : Nat) (l : List body) (i : Nat)
    (h : ∀ b ∈ l, selected BB SP b = false) : used_dots BB SP i l = [] := by
  induction l generalizing i with
  | nil => rfl
  | cons b rest ih =>
    have hb := h b (by simp)
    simp only [used_dots, hb, Bool.false_eq_true, if_false]
    exact ih (i + 1) (fun x hx => h x (by simp [hx]))

/-- The set-up from scratch returns when no body that is used has a NaN in its
position. -/
theorem scratch_loop_returns (BB : bodies) (SP : Nat) (minmax : Bool) (s0 : dot_setup)
    (h : ∀ d ∈ used_dots BB SP 0 BB.B, isnan d.POS = false) :
    ∃ s, scratch_loop BB SP minmax BB.B 0 s0 = Res.ok s ∧ s.D = s0.D ++ used_dots BB SP 0 BB.B ∧
      s.XAVE = pos_sum s0.XAVE (used_dots BB SP 0 BB.B) := by
  rcases scratch_loop_outcome BB SP minmax BB.B 0 s0 with ⟨_, b, hb, hs, hn⟩ | ⟨⟨s, hs⟩, _⟩
  · exfalso
    obtain ⟨j, hj⟩ := List.getElem?_of_mem hb
    have hm := (used_dots_spec BB SP BB.B 0).2.2.2 j b hj hs
    have := h _ hm
    simp only at this
    rw [hn] at this
    cases this
  · obtain ⟨h1, h2, _, _⟩ := scratch_loop_ok BB SP minmax BB.B 0 s0 s hs
    exact ⟨s, hs, h1, h2⟩

theorem setup_from_scratch_returns (BB : bodies) (SP : Nat)
    (h : ∀ d ∈ used_dots BB SP 0 BB.B, isnan d.POS = false) :
    ∃ s, setup_from_scratch BB SP = Res.ok s ∧ s.D = used_dots BB SP 0 BB.B := by
  unfold setup_from_scratch
  simp only
  obtain ⟨s, hs, h1, _⟩ := scratch_loop_returns BB SP true _ h
  rw [hs]
  exact ⟨_, rfl, by simpa using h1⟩

theorem setup_from_scratch_x_returns (BB : bodies) (xmin xmax : vect) (SP : Nat)
    (h : ∀ d ∈ used_dots BB SP 0 BB.B, isnan d.POS = false) :
    ∃ s, setup_from_scratch_x BB xmin xmax SP = Res.ok s ∧ s.D = used_dots BB SP 0 BB.B := by
  unfold setup_from_scratch_x
  obtain ⟨s, hs, h1, _⟩ := scratch_loop_returns BB SP false _ h
  rw [hs]
  exact ⟨_, rfl, by simpa using h1⟩

/-- The block common to the three entry points, without dots: the warning and no
other, and a tree without cells and leaves and with the depth 0, whatever the
tree held before. -/
theorem grow_log_empty (fuel : Nat) (T0 : OctTree) (TB : box_dot_tree) (D : List dot)
    (h : TB.NDOTS = 0) :
    ∃ T, OctTree.grow_log fuel T0 TB D = (T, Res.ok (), [Warning.nobody_in_tree]) ∧
      T.DEPTH = 0 ∧ T.Nc = 0 ∧ T.Ns = 0 ∧ T.CELLS = [] ∧ T.LEAFS = [] := by
  unfold OctTree.grow_log
  rw [if_neg (by simp [h])]
  exact ⟨_, rfl, rfl, rfl, rfl, rfl, rfl⟩

theorem grow_empty (fuel : Nat) (T0 : OctTree) (TB : box_dot_tree) (D : List dot)
    (h : TB.NDOTS = 0) :
    ∃ T, OctTree.grow fuel T0 TB D = (T, Res.ok ()) ∧
      T.DEPTH = 0 ∧ T.Nc = 0 ∧ T.Ns = 0 ∧ T.CELLS = [] ∧ T.LEAFS = [] := by
  rw [grow_eq]
  rw [if_neg (by simp [h])]
  exact ⟨_, rfl, rfl, rfl, rfl, rfl, rfl⟩

/-- The tree that the constructor from bodies makes of a source with exactly one
body that is used: one cell, one leaf, and the depth 1 that the linker returns
for a cell without sub-cells. -/
theorem single_body_tree (fuel : Nat) (bb : bodies) (nc : Nat) (x0 : Option vect) (dm sp : Nat)
    (b : body) (h1 : bb.B.filter (fun b => selected bb sp b) = [b]) (hn : isnan b.POS = false) :
    ∃ T c i, OctTree.from_bodies (fuel + 1) bb nc x0 dm sp = Res.ok T ∧
      T.DEPTH = 1 ∧ T.Nc = 1 ∧ T.Ns = 1 ∧ T.CELLS = [single_cell c] ∧
      T.LEAFS = [{ POS := b.POS, LINK := i }] ∧ bb.B[i]? = some b := by
  obtain ⟨u1, _, u3, _⟩ := used_dots_spec bb sp bb.B 0
  rw [h1] at u1
  obtain ⟨d, hd, hp⟩ : ∃ d, used_dots bb sp 0 bb.B = [d] ∧ d.POS = b.POS := by
    cases hu : used_dots bb sp 0 bb.B with
    | nil => rw [hu] at u1; cases u1
    | cons d rest =>
      rw [hu] at u1
      simp only [List.map_cons, List.map_nil, List.cons.injEq, List.map_eq_nil_iff] at u1
      rw [u1.2]
      exact ⟨d, rfl, u1.1⟩
  have hnan : ∀ x ∈ used_dots bb sp 0 bb.B, isnan x.POS = false := by
    intro x hx
    rw [hd, List.mem_singleton] at hx
    rw [hx, hp]; exact hn
  obtain ⟨_, b1, q1, q2, q3⟩ := u3 d (by rw [hd]; simp)
  have hb1 : b1 = b := by
    have hm : b1 ∈ bb.B.filter (fun b => selected bb sp b) :=
      List.mem_filter.2 ⟨List.getElem?_mem q1, q2⟩
    rw [h1, List.mem_singleton] at hm
    exact hm
  subst hb1
  obtain ⟨s, hs, hD⟩ := setup_from_scratch_returns bb sp hnan
  rw [hd] at hD
  have hinit : tree_builder.init x0 nc dm s =
      box_dot_tree.reset nc dm 1 (root_center x0 s.XAVE)
        (root_radius s.XMIN s.XMAX (root_center x0 s.XAVE)) := by
    simp [tree_builder.init, hD]
  obtain ⟨T, hT, t1, t2, t3, t4, t5, _⟩ := grow_single fuel (OctTree.init bb sp) nc dm
    (root_center x0 s.XAVE) (root_radius s.XMIN s.XMAX (root_center x0 s.XAVE)) d
  refine ⟨T.set_rcenter, root_center x0 s.XAVE, d.LINK, ?_, t1, t2, t3, t4, ?_, ?_⟩
  · unfold OctTree.from_bodies
    rw [hs]
    simp only
    rw [hinit, hD, hT]
  · show T.LEAFS = _
    rw [t5, ← hp]
    rfl
  · simpa using q1

/-- What the block common to the three entry points leaves when it ends without
error: the empty tree, or the arrays written by the linker for the tree of the
builder. -/
theorem grow_ok (fuel : Nat) (T0 T : OctTree) (TB : box_dot_tree) (D : List dot)
    (h : OctTree.grow fuel T0 TB D = (T, Res.ok ())) :
    T.BSRCES = T0.BSRCES ∧ T.SPFLAG = T0.SPFLAG ∧ T.STATE = T0.STATE ∧ T.USAGE = T0.USAGE ∧
      ((TB.NDOTS = 0 ∧ T.LEAFS = [] ∧ T.CELLS = [] ∧ T.DEPTH = 0 ∧ T.Ns = 0 ∧ T.Nc = 0) ∨
        (TB.NDOTS ≠ 0 ∧ ∃ TB1, tree_builder.build fuel TB D = Res.ok TB1 ∧
          T.LEAFS = leaf_array TB1 ∧ T.CELLS = cell_array TB1 ∧ T.DEPTH = TB1.link.1.DEPTH ∧
          T.Ns = TB1.NDOTS ∧ T.Nc = TB1.BM ∧ T.MAXDEPTH = TB1.N_levels ∧
          T.RA = List.iterate (fun r => real.mul half r) TB1.root_rad (TB1.N_levels + 1))) := by
  rw [grow_eq] at h
  by_cases hn : TB.NDOTS ≠ 0
  · rw [if_pos hn] at h
    cases hb : tree_builder.build fuel TB D with
    | ok TB1 =>
      rw [hb] at h
      simp only at h
      injection h with h _
      subst h
      refine ⟨rfl, rfl, rfl, rfl, Or.inr ⟨hn, TB1, rfl, ?_, ?_, rfl, rfl, rfl, rfl, rfl⟩⟩
      · simp [OctTree.set_depth, OctTree.store, OctTree.allocate, leaf_array]
      · simp [OctTree.set_depth, OctTree.store, OctTree.allocate, cell_array]
    | error e => rw [hb] at h; simp at h
    | fuel => rw [hb] at h; simp at h
  · rw [if_neg hn] at h
    injection h with h _
    subst h
    exact ⟨rfl, rfl, rfl, rfl, Or.inl ⟨by simpa using hn, rfl, rfl, rfl, rfl, rfl⟩⟩

/-- What the constructor from bodies leaves when it returns. -/
theorem from_bodies_ok (fuel : Nat) (bb : bodies) (nc : Nat) (x0 : Option vect) (dm sp : Nat)
    (T : OctTree) (h : OctTree.from_bodies fuel bb nc x0 dm sp = Res.ok T) :
    ∃ s, setup_from_scratch bb sp = Res.ok s ∧ T.BSRCES = bb ∧ T.SPFLAG = sp ∧
      T.STATE = state_fresh ∧ T.USAGE = usage_un_used ∧
      ((s.D = [] ∧ T.LEAFS = [] ∧ T.CELLS = [] ∧ T.DEPTH = 0 ∧ T.Ns = 0 ∧ T.Nc = 0) ∨
        (s.D ≠ [] ∧ ∃ TB1, tree_builder.build fuel (tree_builder.init x0 nc dm s) s.D = Res.ok TB1 ∧
          T.LEAFS = leaf_array TB1 ∧ T.CELLS = cell_array TB1 ∧ T.DEPTH = TB1.link.1.DEPTH ∧
          T.Ns = TB1.NDOTS ∧ T.Nc = TB1.BM ∧ T.MAXDEPTH = TB1.N_levels ∧
          T.RA = List.iterate (fun r => real.mul half r) TB1.root_rad (TB1.N_levels + 1))) := by
  unfold OctTree.from_bodies at h
  cases hs : setup_from_scratch bb sp with
  | ok s =>
    rw [hs] at h
    simp only at h
    generalize hg : OctTree.grow fuel (OctTree.init bb sp) (tree_builder.init x0 nc dm s) s.D
      = g at h
    obtain ⟨T1, r⟩ := g
    cases r with
    | ok u =>
      simp only at h
      injection h with h
      subst h
      obtain ⟨g1, g2, g3, g4, g5⟩ := grow_ok fuel _ T1 _ _ hg
      refine ⟨s, rfl, g1, g2, g3, g4, ?_⟩
      have hnd : (tree_builder.init x0 nc dm s).NDOTS = s.D.length := by
        simp [tree_builder.init, box_dot_tree.reset]
      rcases g5 with ⟨a, b⟩ | ⟨a, b⟩
      · left
        rw [hnd] at a
        exact ⟨List.length_eq_zero.1 a, b⟩
      · right
        rw [hnd] at a
        exact ⟨fun e => a (by rw [e]; rfl), b⟩
    | error e => simp at h
    | fuel => simp at h
  | error e => rw [hs] at h; simp at h
  | fuel => rw [hs] at h; simp at h

/-- The position of a dot of `setup_from_scratch` is the position of the body
that the dot is linked to. -/
theorem used_dots_pos (BB : bodies) (SP : Nat) (d : dot) (hd : d ∈ used_dots BB SP 0 BB.B) :
    BB.pos d.LINK = d.POS := by
  obtain ⟨_, b, q1, _, q3⟩ := (used_dots_spec BB SP BB.B 0).2.2.1 d hd
  rw [Nat.sub_zero] at q1
  simp [bodies.pos, q1, q3]

/-- After a successful build the leaf array holds the leaves of the dots of the
tree in the order of the linker, which are the inserted dots. -/
theorem leaf_array_eq (fuel nc dm : Nat) (x0 : vect) (sz : real) (dots : List dot)
    (TB : box_dot_tree)
    (h : tree_builder.build fuel (box_dot_tree.reset nc dm dots.length x0 sz) dots
      = Res.ok TB) :
    leaf_array TB = (link_order TB.P0).map set_leaf ∧ List.Perm (link_order TB.P0) dots := by
  unfold leaf_array
  obtain ⟨hWF, hperm, _, _, _, hnd, L, c, N, DOTS, OCT, hP⟩ :=
    build_inv fuel nc dm dots.length x0 sz dots TB h
  have hlink := link_after_build fuel nc dm dots.length x0 sz dots TB h
  have hbox : TB.P0.isBox = true := by rw [hP]; rfl
  have hlo := (link_order_perm TB.P0 hWF hbox).trans hperm
  have hL : TB.link.2.LEAFS = (leaf_run 0 (link_order TB.P0)).reverse := by
    rw [hlink]; simp [link_ext]
  rw [hL, hnd]
  exact ⟨store_leaf_run (link_order TB.P0) (List.replicate dots.length no_leaf)
    (by simp [hlo.length_eq]), hlo⟩

theorem sel_count_congr (LEAF LEAF1 : Nat → Nat) (F a n : Nat)
    (h : ∀ i, a ≤ i → i < a + n → LEAF i = LEAF1 i) :
    sel_count LEAF F a n = sel_count LEAF1 F a n := by
  unfold sel_count
  apply List.countP_congr
  intro i hi
  rw [List.mem_range'_1] at hi
  simp only [h i hi.1 hi.2]

theorem sel_count_add (LEAF : Nat → Nat) (F a m n : Nat) :
    sel_count LEAF F a (m + n) = sel_count LEAF F a m + sel_count LEAF F (a + m) n := by
  unfold sel_count
  rw [range'_split, List.countP_append]

theorem sel_count_le (LEAF : Nat → Nat) (F a n : Nat) : sel_count LEAF F a n ≤ n := by
  unfold sel_count
  have := List.countP_le_length (fun i => is_set (LEAF i) F) (l := List.range' a n)
  simpa using this

theorem sel_count_zero (LEAF : Nat → Nat) (F a : Nat) : sel_count LEAF F a 0 = 0 := rfl

theorem leaf_mark_zero (F a : Nat) (LEAF : Nat → Nat) : leaf_mark F a 0 LEAF = LEAF := by
  funext i
  unfold leaf_mark
  rw [if_neg]
  omega

theorem leaf_mark_off (F a n : Nat) (LEAF : Nat → Nat) (i : Nat) (h : i < a ∨ a + n ≤ i) :
    leaf_mark F a n LEAF i = LEAF i := by
  unfold leaf_mark
  rw [if_neg]
  omega

theorem sel_count_leaf_mark (F a n : Nat) (LEAF : Nat → Nat) (b m : Nat)
    (h : b + m ≤ a ∨ a + n ≤ b) :
    sel_count (leaf_mark F a n LEAF) F b m = sel_count LEAF F b m := by
  apply sel_count_congr
  intro i h1 h2
  apply leaf_mark_off
  omega

theorem leaf_mark_add (F a m n : Nat) (LEAF : Nat → Nat) :
    leaf_mark F (a + m) n (leaf_mark F a m LEAF) = leaf_mark F a (m + n) LEAF := by
  funext i
  by_cases h1 : i < a + m
  · rw [leaf_mark_off F (a + m) n _ i (Or.inl h1)]
    unfold leaf_mark
    by_cases h2 : a ≤ i ∧ i < a + m ∧ is_set (LEAF i) F = true
    · rw [if_pos h2, if_pos ⟨h2.1, by omega, h2.2.2⟩]
    · rw [if_neg h2, if_neg]
      intro h3
      exact h2 ⟨h3.1, h1, h3.2.2⟩
  · have h0 : leaf_mark F a m LEAF i = LEAF i := leaf_mark_off F a m LEAF i (Or.inr (by omega))
    unfold leaf_mark at h0 ⊢
    simp only [h0]
    by_cases h2 : a + m ≤ i ∧ i < a + m + n ∧ is_set (LEAF i) F = true
    · rw [if_pos h2, if_pos ⟨by omega, by omega, h2.2.2⟩]
    · rw [if_neg h2, if_neg]
      intro h3
      exact h2 ⟨by omega, by omega, h3.2.2⟩

theorem mark_leaf_kids_eq (F : Nat) : ∀ (n a ns : Nat) (LEAF : Nat → Nat),
    mark_leaf_kids F (List.range' a n) ns LEAF
      = (ns + sel_count LEAF F a n, leaf_mark F a n LEAF) := by
  intro n
  induction n with
  | zero =>
    intro a ns LEAF
    simp [mark_leaf_kids, sel_count_zero, leaf_mark_zero]
  | succ n ih =>
    intro a ns LEAF
    have hadd := sel_count_add LEAF F a 1 n
    have hm := leaf_mark_add F a 1 n LEAF
    rw [Nat.add_comm 1 n] at hadd hm
    have h1 : sel_count LEAF F a 1 = if is_set (LEAF a) F then 1 else 0 := by
      simp [sel_count, List.countP_cons]
    simp only [List.range'_succ, mark_leaf_kids]
    by_cases hs : is_set (LEAF a) F = true
    · rw [if_pos hs, ih]
      have hL : Function.update LEAF a (flag_for_subtree (LEAF a)) = leaf_mark F a 1 LEAF := by
        funext i
        unfold leaf_mark
        by_cases hi : i = a
        · subst hi; simp [hs]
        · rw [Function.update_noteq hi, if_neg]
          omega
      rw [hL, hm, sel_count_leaf_mark F a 1 LEAF (a + 1) n (Or.inr (Nat.le_refl _)), hadd, h1,
        if_pos hs]
      simp only [Nat.add_assoc]
    · rw [if_neg hs, ih]
      have hL : LEAF = leaf_mark F a 1 LEAF := by
        funext i
        unfold leaf_mark
        by_cases hi : i = a
        · subst hi; simp [hs]
        · rw [if_neg]
          omega
      rw [hadd, h1, if_neg hs, ← hm, ← hL]
      simp

theorem cells_of_decomp (L : Nat) (c : vect) (N : Nat) (DOTS : List dot) (OCT : Fin 8 → node)
    (hW : WF (node.box L c N DOTS OCT)) (o C cf lf : Nat) :
    ∃ (ks : List (Fin 8)) (nl : Nat), (∀ k ∈ ks, (OCT k).isBox = true ∧ WF (OCT k)) ∧
      cells_of (node.box L c N DOTS OCT) o C cf lf
        = (C, root_cell (node.box L c N DOTS OCT) o cf lf) ::
          kids_cells (fun k c1 cf1 lf1 => cells_of (OCT k) k.val c1 cf1 lf1)
            (fun k => sub_cells (OCT k)) (fun k => (link_order (OCT k)).length)
            ks cf (cf + ks.length) (lf + nl) ∧
      (root_cell (node.box L c N DOTS OCT) o cf lf).NLEAFS = nl ∧
      (root_cell (node.box L c N DOTS OCT) o cf lf).FCLEAF = lf ∧
      (root_cell (node.box L c N DOTS OCT) o cf lf).NUMBER
        = nl + (ks.map (fun k => (link_order (OCT k)).length)).sum ∧
      (link_order (node.box L c N DOTS OCT)).length
        = nl + (ks.map (fun k => (link_order (OCT k)).length)).sum ∧
      child_range (root_cell (node.box L c N DOTS OCT) o cf lf) = List.range' cf ks.length ∧
      sub_cells (node.box L c N DOTS OCT)
        = ks.length + (ks.map (fun k => sub_cells (OCT k))).sum ∧
      (root_cell (node.box L c N DOTS OCT) o cf lf).NCELLS = ks.length ∧
      (root_cell (node.box L c N DOTS OCT) o cf lf).LEVEL = L ∧
      (root_cell (node.box L c N DOTS OCT) o cf lf).OCTANT = o ∧
      (root_cell (node.box L c N DOTS OCT) o cf lf).CENTER = c ∧
      (root_cell (node.box L c N DOTS OCT) o cf lf).FCCELL
        = (if ks.length ≠ 0 then (cf : Int) else -1) ∧
      ks = (if (node.box L c N DOTS OCT).is_twig then [] else box_kids OCT (List.finRange 8)) := by
  have hnum := WF_number _ hW rfl
  have hcr := child_range_root_cell (node.box L c N DOTS OCT) o cf lf rfl
  by_cases htw : (node.box L c N DOTS OCT).is_twig = true
  · refine ⟨[], N, ?_, ?_, ?_, ?_, ?_, ?_, ?_, ?_, ?_, ?_, ?_, ?_, ?_, ?_⟩
    · intro k hk; cases hk
    · simp [cells_of, htw, kids_cells]
    · simp [root_cell, htw]
    · simp [root_cell, htw]
    · simp [root_cell, htw]
    · rw [← hnum]; simp [node_number]
    · rw [hcr]; simp [htw]
    · simp [sub_cells, htw]
    · simp [root_cell, htw]
    · simp [root_cell, htw]
    · simp [root_cell, htw]
    · simp [root_cell, htw]
    · simp [root_cell, htw]
    · simp [htw]
  · have hlo := WF_branch_number_lo L c N DOTS OCT hW (by simpa using htw)
    refine ⟨box_kids OCT (List.finRange 8), (dot_kids OCT (List.finRange 8)).length,
      ?_, ?_, ?_, ?_, ?_, ?_, ?_, ?_, ?_, ?_, ?_, ?_, ?_, ?_⟩
    · intro k hk
      exact ⟨box_kids_isBox OCT _ k hk, hW.2.2 k⟩
    · simp [cells_of, htw]
    · simp [root_cell, htw]
    · simp [root_cell, htw]
    · rw [root_cell_NUMBER (node.box L c N DOTS OCT) o cf lf rfl]; exact hlo
    · rw [← hnum]; exact hlo
    · rw [hcr]; simp [htw]
    · simp only [sub_cells, htw]
      rw [if_neg (by simp), sum_one_add]
    · simp [root_cell, htw]
    · simp [root_cell, htw]
    · simp [root_cell, htw]
    · simp [root_cell, htw]
    · simp [root_cell, htw]
    · simp [htw]

theorem cells_of_ne_nil (L : Nat) (c : vect) (N : Nat) (DOTS : List dot) (OCT : Fin 8 → node)
    (o C cf lf : Nat) :
    (C, root_cell (node.box L c N DOTS OCT) o cf lf) ∈ cells_of (node.box L c N DOTS OCT) o C cf lf := by
  simp [cells_of]

theorem cells_of_root_mem (P : node) (hb : P.isBox = true) (o C cf lf : Nat) :
    (C, root_cell P o cf lf) ∈ cells_of P o C cf lf := by
  cases P with
  | null => cases hb
  | dot D => cases hb
  | box L c N DOTS OCT => exact cells_of_ne_nil L c N DOTS OCT o C cf lf

theorem cells_of_bounds (P : node) : WF P → P.isBox = true → ∀ o C cf lf,
    ∀ x ∈ cells_of P o C cf lf,
      (x.1 = C ∨ (cf ≤ x.1 ∧ x.1 < cf + sub_cells P)) ∧ lf ≤ x.2.FCLEAF ∧
        x.2.FCLEAF + x.2.NUMBER ≤ lf + (link_order P).length := by
  induction P with
  | null => intro _ h; cases h
  | dot D => intro _ h; cases h
  | box L c N DOTS OCT ih =>
    intro hW _ o C cf lf x hx
    obtain ⟨ks, nl, hks, hc, _, h2, h3, h4, _, h6, _⟩ := cells_of_decomp L c N DOTS OCT hW o C cf lf
    rw [hc] at hx
    rcases List.mem_cons.1 hx with hx | hx
    · subst hx
      refine ⟨Or.inl rfl, ?_, ?_⟩
      · rw [h2]
      · rw [h2, h3, h4]
    · rw [kids_cells_mem] at hx
      obtain ⟨j, k, hjk, hx⟩ := hx
      have hk : k ∈ ks := List.getElem?_mem hjk
      have := ih k (hks k hk).2 (hks k hk).1 _ _ _ _ x hx
      have hj : j < ks.length := (List.getElem?_eq_some_iff.1 hjk).1
      have p1 := prefix_sum_le ks (fun k => sub_cells (OCT k)) j k hjk
      have p2 := prefix_sum_le ks (fun k => (link_order (OCT k)).length) j k hjk
      simp only at p1 p2
      rw [h4, h6]
      omega

theorem kids_cells_bounds (OCT : Fin 8 → node) (ks : List (Fin 8))
    (hks : ∀ k ∈ ks, (OCT k).isBox = true ∧ WF (OCT k)) (c cf lf : Nat) :
    ∀ x ∈ kids_cells (fun k c1 cf1 lf1 => cells_of (OCT k) k.val c1 cf1 lf1)
        (fun k => sub_cells (OCT k)) (fun k => (link_order (OCT k)).length) ks c cf lf,
      ((c ≤ x.1 ∧ x.1 < c + ks.length) ∨
        (cf ≤ x.1 ∧ x.1 < cf + (ks.map (fun k => sub_cells (OCT k))).sum)) ∧
      lf ≤ x.2.FCLEAF ∧
      x.2.FCLEAF + x.2.NUMBER ≤ lf + (ks.map (fun k => (link_order (OCT k)).length)).sum := by
  intro x hx
  rw [kids_cells_mem] at hx
  obtain ⟨j, k, hjk, hx⟩ := hx
  have hk : k ∈ ks := List.getElem?_mem hjk
  have := cells_of_bounds (OCT k) (hks k hk).2 (hks k hk).1 _ _ _ _ x hx
  have hj : j < ks.length := (List.getElem?_eq_some_iff.1 hjk).1
  have p1 := prefix_sum_le ks (fun k => sub_cells (OCT k)) j k hjk
  have p2 := prefix_sum_le ks (fun k => (link_order (OCT k)).length) j k hjk
  simp only at p1 p2
  omega

theorem sel_cell_congr (LEAF LEAF1 : Nat → Nat) (F : Nat) (Ncr : Int) (x : BasicCell)
    (h : sel_count LEAF F x.FCLEAF x.NUMBER = sel_count LEAF1 F x.FCLEAF x.NUMBER) :
    sel_cell LEAF F Ncr x = sel_cell LEAF1 F Ncr x := by
  unfold sel_cell
  rw [h]

theorem mark_cell_kids_spec (F : Nat) (Ncr : Int) (CELLS : List BasicCell) (fuel : Nat)
    (OCT : Fin 8 → node) (ks : List (Fin 8))
    (hks : ∀ k ∈ ks, (OCT k).isBox = true ∧ WF (OCT k))
    (ih : ∀ k ∈ ks, ∀ (o C cf lf : Nat) (s : mark_state), C < cf →
      (∀ x ∈ cells_of (OCT k) o C cf lf, CELLS[x.1]? = some x.2) →
      ∃ r, mark_sub F Ncr CELLS fuel C s = Res.ok r ∧
        marked F Ncr (cells_of (OCT k) o C cf lf) lf (link_order (OCT k)).length s 0 r) :
    ∀ (c cf lf ns : Nat) (s : mark_state), c + ks.length ≤ cf →
      (∀ x ∈ kids_cells (fun k c1 cf1 lf1 => cells_of (OCT k) k.val c1 cf1 lf1)
          (fun k => sub_cells (OCT k)) (fun k => (link_order (OCT k)).length) ks c cf lf,
        CELLS[x.1]? = some x.2) →
      ∃ r, mark_cell_kids (mark_sub F Ncr CELLS fuel) (List.range' c ks.length) ns s = Res.ok r ∧
        marked F Ncr (kids_cells (fun k c1 cf1 lf1 => cells_of (OCT k) k.val c1 cf1 lf1)
          (fun k => sub_cells (OCT k)) (fun k => (link_order (OCT k)).length) ks c cf lf)
          lf ((ks.map (fun k => (link_order (OCT k)).length)).sum) s ns r := by
  induction ks with
  | nil =>
    intro c cf lf ns s _ _
    refine ⟨(ns, s), rfl, ?_⟩
    simp [marked, kids_cells, sel_count_zero, leaf_mark_zero]
  | cons k ks ih2 =>
    intro c cf lf ns s hc hl
    have hk := hks k (List.mem_cons_self _ _)
    have hks2 : ∀ k ∈ ks, (OCT k).isBox = true ∧ WF (OCT k) :=
      fun k1 h1 => hks k1 (List.mem_cons_of_mem _ h1)
    simp only [kids_cells] at hl ⊢
    simp only [List.length_cons] at hc
    obtain ⟨r1, hr1, m1, m2, m3, m4, m5⟩ := ih k (List.mem_cons_self _ _) k.val c cf lf s (by omega)
      (fun x hx => hl x (List.mem_append_left _ hx))
    obtain ⟨r2, hr2, n1, n2, n3, n4, n5⟩ :=
      ih2 hks2 (fun k1 h1 => ih k1 (List.mem_cons_of_mem _ h1)) (c + 1)
        (cf + sub_cells (OCT k)) (lf + (link_order (OCT k)).length) (ns + r1.1) r1.2
        (by omega) (fun x hx => hl x (List.mem_append_right _ hx))
    have b1 := cells_of_bounds (OCT k) hk.2 hk.1 k.val c cf lf
    have b2 := kids_cells_bounds OCT ks hks2 (c + 1) (cf + sub_cells (OCT k))
      (lf + (link_order (OCT k)).length)
    have hsel : ∀ x ∈ kids_cells (fun k c1 cf1 lf1 => cells_of (OCT k) k.val c1 cf1 lf1)
        (fun k => sub_cells (OCT k)) (fun k => (link_order (OCT k)).length) ks (c + 1)
        (cf + sub_cells (OCT k)) (lf + (link_order (OCT k)).length),
        sel_count r1.2.FLG.LEAF F x.2.FCLEAF x.2.NUMBER
          = sel_count s.FLG.LEAF F x.2.FCLEAF x.2.NUMBER := by
      intro x hx
      rw [m2]
      apply sel_count_leaf_mark
      have := (b2 x hx).2.1
      omega
    refine ⟨r2, ?_, ?_, ?_, ?_, ?_, ?_⟩
    · simp only [List.length_cons, List.range'_succ, mark_cell_kids, hr1]
      exact hr2
    · rw [n1, m1, m2, sel_count_leaf_mark _ _ _ _ _ _ (Or.inr (Nat.le_refl _))]
      simp only [List.map_cons, List.sum_cons, sel_count_add]
      omega
    · rw [n2, m2, leaf_mark_add]
      simp only [List.map_cons, List.sum_cons]
    · intro x hx
      rcases List.mem_append.1 hx with hx | hx
      · rw [n4 x.1, m3 x hx]
        intro y hy
        have := (b1 x hx).1
        have := (b2 y hy).1
        omega
      · rw [n3 x hx, hsel x hx, m4 x.1]
        intro y hy
        have := (b1 y hy).1
        have := (b2 x hx).1
        omega
    · intro c0 h0
      rw [n4 c0 (fun x hx => h0 x (List.mem_append_right _ hx)),
        m4 c0 (fun x hx => h0 x (List.mem_append_left _ hx))]
    · rw [n5, m5, List.countP_append, Nat.add_assoc]
      congr 2
      apply List.countP_congr
      intro x hx
      rw [sel_cell_congr _ _ _ _ _ (hsel x hx)]

theorem mark_sub_spec (F : Nat) (Ncr : Int) (CELLS : List BasicCell) (P : node) :
    WF P → P.isBox = true → ∀ (fuel o C cf lf : Nat) (s : mark_state), C < cf →
      sub_cells P < fuel → (∀ x ∈ cells_of P o C cf lf, CELLS[x.1]? = some x.2) →
      ∃ r, mark_sub F Ncr CELLS fuel C s = Res.ok r ∧
        marked F Ncr (cells_of P o C cf lf) lf (link_order P).length s 0 r := by
  induction P with
  | null => intro _ h; cases h
  | dot D => intro _ h; cases h
  | box L c N DOTS OCT ih =>
    intro hW _ fuel o C cf lf s hC hf hl
    obtain ⟨ks, nl, hks, hc, h1, h2, h3, h4, h5, h6, _⟩ :=
      cells_of_decomp L c N DOTS OCT hW o C cf lf
    rw [h6] at hf
    cases fuel with
    | zero => omega
    | succ fuel =>
      have hcell : CELLS.getD C no_cell = root_cell (node.box L c N DOTS OCT) o cf lf := by
        have := hl _ (cells_of_ne_nil L c N DOTS OCT o C cf lf)
        simp only at this
        simp [List.getD, this]
      rw [hc] at hl ⊢
      have hkids := mark_cell_kids_spec F Ncr CELLS fuel OCT ks hks
        (fun k hk o1 C1 cf1 lf1 s1 hC1 hl1 =>
          ih k (hks k hk).2 (hks k hk).1 fuel o1 C1 cf1 lf1 s1 hC1
            (by
              have := mem_le_sum (fun k => sub_cells (OCT k)) ks k hk
              have := List.length_pos_of_mem hk
              simp only at *
              omega) hl1)
        cf (cf + ks.length) (lf + nl) (sel_count s.FLG.LEAF F lf nl)
        { FLG := { LEAF := leaf_mark F lf nl s.FLG.LEAF
                   CELL := Function.update s.FLG.CELL C (unflag_subtree_flags (s.FLG.CELL C)) }
          nc := s.nc }
        (Nat.le_refl _) (fun x hx => hl x (List.mem_cons_of_mem _ hx))
      obtain ⟨r, hr, m1, m2, m3, m4, m5⟩ := hkids
      have bk := kids_cells_bounds OCT ks hks cf (cf + ks.length) (lf + nl)
      simp only at m1 m2 m3 m4 m5
      have hrC : r.2.FLG.CELL C = unflag_subtree_flags (s.FLG.CELL C) := by
        rw [m4 C]
        · simp
        · intro x hx
          have := (bk x hx).1
          omega
      have hns : r.1 = sel_count s.FLG.LEAF F lf (link_order (node.box L c N DOTS OCT)).length := by
        rw [m1, h4, sel_count_add, sel_count_leaf_mark _ _ _ _ _ _ (Or.inr (Nat.le_refl _))]
      have hselk : ∀ x ∈ kids_cells (fun k c1 cf1 lf1 => cells_of (OCT k) k.val c1 cf1 lf1)
          (fun k => sub_cells (OCT k)) (fun k => (link_order (OCT k)).length) ks cf
          (cf + ks.length) (lf + nl),
          sel_count (leaf_mark F lf nl s.FLG.LEAF) F x.2.FCLEAF x.2.NUMBER
            = sel_count s.FLG.LEAF F x.2.FCLEAF x.2.NUMBER := by
        intro x hx
        apply sel_count_leaf_mark
        have := (bk x hx).2.1
        omega
      have hroot : sel_count s.FLG.LEAF F
          (root_cell (node.box L c N DOTS OCT) o cf lf).FCLEAF
          (root_cell (node.box L c N DOTS OCT) o cf lf).NUMBER = r.1 := by
        rw [h2, h3, hns, h4]
      have hstep : mark_sub F Ncr CELLS (fuel + 1) C s =
          if r.1 ≠ 0 then
            if (r.1 : Int) ≥ Ncr then
              Res.ok (r.1, { FLG := { r.2.FLG with
                                      CELL := Function.update r.2.FLG.CELL C
                                        (flag_as_subtreecell (flag_for_subtree (r.2.FLG.CELL C))) }
                             nc := r.2.nc + 1 })
            else
              Res.ok (r.1, { r.2 with FLG := { r.2.FLG with
                                               CELL := Function.update r.2.FLG.CELL C
                                                 (flag_for_subtree (r.2.FLG.CELL C)) } })
          else Res.ok r := by
        rw [mark_sub]
        simp only [hcell, h5, leaf_kids, h1, h2, mark_leaf_kids_eq, Nat.zero_add, hr]
      have hother : ∀ (g : Nat) (c0 : Nat),
          (∀ x ∈ (C, root_cell (node.box L c N DOTS OCT) o cf lf) ::
            kids_cells (fun k c1 cf1 lf1 => cells_of (OCT k) k.val c1 cf1 lf1)
              (fun k => sub_cells (OCT k)) (fun k => (link_order (OCT k)).length) ks cf
              (cf + ks.length) (lf + nl), x.1 ≠ c0) →
          Function.update r.2.FLG.CELL C g c0 = s.FLG.CELL c0 := by
        intro g c0 h0
        have hne : c0 ≠ C := fun h => h0 _ (List.mem_cons_self _ _) h.symm
        rw [Function.update_noteq hne, m4 c0 (fun x hx => h0 x (List.mem_cons_of_mem _ hx)),
          Function.update_noteq hne]
      have hkid : ∀ (g : Nat),
          ∀ x ∈ kids_cells (fun k c1 cf1 lf1 => cells_of (OCT k) k.val c1 cf1 lf1)
              (fun k => sub_cells (OCT k)) (fun k => (link_order (OCT k)).length) ks cf
              (cf + ks.length) (lf + nl),
          Function.update r.2.FLG.CELL C g x.1
            = cell_mark Ncr (sel_count s.FLG.LEAF F x.2.FCLEAF x.2.NUMBER) (s.FLG.CELL x.1) := by
        intro g x hx
        have hne : x.1 ≠ C := by
          have := (bk x hx).1
          omega
        rw [Function.update_noteq hne, m3 x hx, hselk x hx, Function.update_noteq hne]
      have hcnt : r.2.nc = s.nc +
          (kids_cells (fun k c1 cf1 lf1 => cells_of (OCT k) k.val c1 cf1 lf1)
              (fun k => sub_cells (OCT k)) (fun k => (link_order (OCT k)).length) ks cf
              (cf + ks.length) (lf + nl)).countP (fun x => sel_cell s.FLG.LEAF F Ncr x.2) := by
        rw [m5]
        congr 1
        apply List.countP_congr
        intro x hx
        rw [sel_cell_congr _ _ _ _ _ (hselk x hx)]
      have hLEAF : r.2.FLG.LEAF
          = leaf_mark F lf (link_order (node.box L c N DOTS OCT)).length s.FLG.LEAF := by
        rw [m2, h4, leaf_mark_add]
      rw [hstep]
      by_cases hz : r.1 ≠ 0
      · rw [if_pos hz]
        by_cases hge : (r.1 : Int) ≥ Ncr
        · rw [if_pos hge]
          refine ⟨_, rfl, ?_, hLEAF, ?_, ?_, ?_⟩
          · simpa using hns
          · intro x hx
            rcases List.mem_cons.1 hx with hx | hx
            · subst hx
              simp only [hroot, Function.update_same, cell_mark, if_pos hz, if_pos hge, hrC]
            · exact hkid _ x hx
          · intro c0 h0
            exact hother _ c0 h0
          · simp only [List.countP_cons, hcnt, sel_cell, hroot]
            rw [if_pos (by simpa using ⟨hz, hge⟩)]
            omega
        · rw [if_neg hge]
          refine ⟨_, rfl, ?_, hLEAF, ?_, ?_, ?_⟩
          · simpa using hns
          · intro x hx
            rcases List.mem_cons.1 hx with hx | hx
            · subst hx
              simp only [hroot, Function.update_same, cell_mark, if_pos hz, if_neg hge, hrC]
            · exact hkid _ x hx
          · intro c0 h0
            exact hother _ c0 h0
          · simp only [List.countP_cons, hcnt, sel_cell, hroot]
            rw [if_neg (by simp; intro _; omega)]
            omega
      · rw [if_neg hz]
        refine ⟨_, rfl, ?_, hLEAF, ?_, ?_, ?_⟩
        · simpa using hns
        · intro x hx
          rcases List.mem_cons.1 hx with hx | hx
          · subst hx
            simp only [hroot, cell_mark, if_neg hz, hrC]
          · have := hkid (r.2.FLG.CELL C) x hx
            rwa [Function.update_eq_self] at this
        · intro c0 h0
          have := hother (r.2.FLG.CELL C) c0 h0
          rwa [Function.update_eq_self] at this
        · simp only [List.countP_cons, hcnt, sel_cell, hroot]
          rw [if_neg (by simp; intro h; exact absurd h hz)]
          omega

theorem is_set_two_pow (f i : Nat) : is_set f (2 ^ i) = f.testBit i := by
  unfold is_set
  rw [Nat.and_two_pow]
  cases f.testBit i <;> simp

theorem in_subtree_eq (f : Nat) : in_subtree f = f.testBit 7 := by
  have h : SUBTREE = 2 ^ 7 := by decide
  rw [in_subtree, h, is_set_two_pow]

theorem is_subtreecell_eq (f : Nat) : is_subtreecell f = f.testBit 8 := by
  have h : SUBTREECELL = 2 ^ 8 := by decide
  rw [is_subtreecell, h, is_set_two_pow]

theorem testBit_flag_for_subtree (f i : Nat) :
    (flag_for_subtree f).testBit i = (f.testBit i || decide (7 = i)) := by
  have h : SUBTREE = 2 ^ 7 := by decide
  rw [flag_for_subtree, flag_add, h, Nat.testBit_or, Nat.testBit_two_pow]

theorem testBit_flag_as_subtreecell (f i : Nat) :
    (flag_as_subtreecell f).testBit i = (f.testBit i || decide (8 = i)) := by
  have h : SUBTREECELL = 2 ^ 8 := by decide
  rw [flag_as_subtreecell, flag_add, h, Nat.testBit_or, Nat.testBit_two_pow]

theorem testBit_unflag_subtree_flags (f i : Nat) :
    (unflag_subtree_flags f).testBit i = (f.testBit i && !(decide (7 = i) || decide (8 = i))) := by
  have h : SUBTREE_FLAGS = 2 ^ 7 ||| 2 ^ 8 := by decide
  rw [unflag_subtree_flags, flag_un_set, h, Nat.testBit_xor, Nat.testBit_and, Nat.testBit_or,
    Nat.testBit_two_pow, Nat.testBit_two_pow]
  cases f.testBit i <;> cases decide (7 = i) <;> cases decide (8 = i) <;> rfl

theorem cell_mark_in_subtree (Ncr : Int) (n f : Nat) :
    in_subtree (cell_mark Ncr n f) = decide (n ≠ 0) := by
  rw [in_subtree_eq]
  unfold cell_mark
  by_cases hz : n ≠ 0
  · rw [if_pos hz]
    by_cases hge : (n : Int) ≥ Ncr
    · rw [if_pos hge, testBit_flag_as_subtreecell, testBit_flag_for_subtree]
      simp [hz]
    · rw [if_neg hge, testBit_flag_for_subtree]
      simp [hz]
  · rw [if_neg hz, testBit_unflag_subtree_flags]
    simp [hz]

theorem cell_mark_is_subtreecell (Ncr : Int) (n f : Nat) :
    is_subtreecell (cell_mark Ncr n f) = decide (n ≠ 0 ∧ (n : Int) ≥ Ncr) := by
  rw [is_subtreecell_eq]
  unfold cell_mark
  by_cases hz : n ≠ 0
  · rw [if_pos hz]
    by_cases hge : (n : Int) ≥ Ncr
    · rw [if_pos hge, testBit_flag_as_subtreecell]
      simp [hz, hge]
    · rw [if_neg hge, testBit_flag_for_subtree, testBit_unflag_subtree_flags]
      simp [hz, hge]
  · rw [if_neg hz, testBit_unflag_subtree_flags]
    simp [hz]

theorem leaf_mark_in_subtree (F a n : Nat) (LEAF : Nat → Nat) (i : Nat) :
    in_subtree (leaf_mark F a n LEAF i)
      = (in_subtree (LEAF i) || decide (a ≤ i ∧ i < a + n ∧ is_set (LEAF i) F = true)) := by
  unfold leaf_mark
  by_cases h : a ≤ i ∧ i < a + n ∧ is_set (LEAF i) F = true
  · rw [if_pos h, in_subtree_eq, testBit_flag_for_subtree]
    simp [h]
  · rw [if_neg h]
    simp [h]

theorem built_layout (fuel nc dm : Nat) (x0 : vect) (sz : real) (dots : List dot)
    (TB : box_dot_tree)
    (h : tree_builder.build fuel (box_dot_tree.reset nc dm dots.length x0 sz) dots
      = Res.ok TB) :
    is_linked TB.P0 (cell_array TB) ∧ TB.BM = 1 + sub_cells TB.P0 ∧
      TB.NDOTS = (link_order TB.P0).length ∧ (cell_array TB).length = TB.BM ∧
      (cells_of TB.P0 0 0 1 0).length = TB.BM := by
  have hl := is_linked_after_build fuel nc dm x0 sz dots TB h
  obtain ⟨hW, _, hBM, _, _, hND, _⟩ := build_inv fuel nc dm dots.length x0 sz dots TB h
  have hsc := sub_cells_nboxes TB.P0 hW hl.2.1
  have hlo := (leaf_array_eq fuel nc dm x0 sz dots TB h).2.length_eq
  have hk := (cells_of_keys TB.P0 hl.2.1 0 0 1 0).length_eq
  simp only [List.length_map, List.length_cons, List.length_range'] at hk
  refine ⟨hl, by omega, by omega, ?_, by omega⟩
  rw [hl.2.2.2.2]; omega

theorem mark_for_subtree_built (fuel0 nc dm : Nat) (x0 : vect) (sz : real) (dots : List dot)
    (TB : box_dot_tree)
    (h : tree_builder.build fuel0 (box_dot_tree.reset nc dm dots.length x0 sz) dots
      = Res.ok TB)
    (F : Nat) (Ncr : Int) (hN : Ncr > 1) (fuel : Nat) (hf : TB.BM ≤ fuel) (FLG : tree_flags) :
    ∃ FLG1, mark_for_subtree fuel F Ncr (cell_array TB) TB.BM FLG
        = Res.ok ((cells_of TB.P0 0 0 1 0).countP (fun x => sel_cell FLG.LEAF F Ncr x.2),
            sel_count FLG.LEAF F 0 TB.NDOTS, FLG1) ∧
      FLG1.LEAF = leaf_mark F 0 TB.NDOTS FLG.LEAF ∧
      (∀ x ∈ cells_of TB.P0 0 0 1 0, FLG1.CELL x.1
        = cell_mark Ncr (sel_count FLG.LEAF F x.2.FCLEAF x.2.NUMBER) (FLG.CELL x.1)) := by
  obtain ⟨hl, hBM, hND, _, _⟩ := built_layout fuel0 nc dm x0 sz dots TB h
  obtain ⟨r, hr, m1, m2, m3, _, m5⟩ := mark_sub_spec F Ncr (cell_array TB) TB.P0 hl.1 hl.2.1
    fuel 0 0 1 0 { FLG := FLG, nc := 0 } (by omega) (by omega) hl.2.2.1
  refine ⟨r.2.FLG, ?_, ?_, ?_⟩
  · unfold mark_for_subtree
    rw [if_pos hN, hr]
    simp only at m1 m5 ⊢
    rw [m1, m5, hND]
    simp
  · rw [m2, hND]
  · exact m3

theorem sel_count_all (LEAF : Nat → Nat) (F a n : Nat)
    (h : ∀ i, a ≤ i → i < a + n → is_set (LEAF i) F = true) :
    sel_count LEAF F a n = n := by
  unfold sel_count
  have : List.countP (fun i => is_set (LEAF i) F) (List.range' a n) = (List.range' a n).length := by
    rw [List.countP_eq_length]
    intro i hi
    rw [List.mem_range'_1] at hi
    exact h i hi.1 hi.2
  rw [this, List.length_range']

theorem link_cell_kids_dep (OCT : Fin 8 → node)
    (rec : Fin 8 → Nat → link_state → Nat × link_state) (D : Fin 8 → Nat)
    (hrec : ∀ i Ci st, (rec i Ci st).1 = D i) (l : List (Fin 8)) :
    ∀ s : cells_state, (link_cell_kids (fun i => (OCT i).isBox) rec l s).dep
      = ((box_kids OCT l).map D).foldl max s.dep := by
  induction l with
  | nil => intro s; rfl
  | cons i l ih =>
    intro s
    by_cases hb : (OCT i).isBox = true
    · rw [box_kids_cons_box OCT i l hb]
      simp only [link_cell_kids, hb, if_true, ih, hrec, List.map_cons, List.foldl_cons]
      congr 1
      by_cases hd : D i > s.dep
      · rw [if_pos hd]; omega
      · rw [if_neg hd]; omega
    · rw [box_kids_cons_not OCT i l (by simpa using hb)]
      simp only [link_cell_kids, hb, Bool.false_eq_true, if_false, ih]

theorem link_cells_N_depth (P : node) : ∀ (o C : Nat) (st : link_state),
    (link_cells_N P o C st).1 = link_depth P := by
  induction P with
  | null => intro o C st; rfl
  | dot D => intro o C st; rfl
  | box L c N DOTS OCT ih =>
    intro o C st
    by_cases htw : (node.box L c N DOTS OCT).is_twig = true
    · simp [link_cells_N, link_depth, htw]
    · simp only [link_cells_N, link_depth, htw, link_leaf_kids_eq]
      by_cases hk : (box_kids OCT (List.finRange 8)).length = 0
      · have hk2 : box_kids OCT (List.finRange 8) = [] := List.length_eq_zero.1 hk
        simp [hk2]
      · simp only [Nat.zero_add, ne_eq, hk, not_false_eq_true, if_true, Bool.false_eq_true,
          if_false]
        rw [link_cell_kids_dep OCT _ (fun k => link_depth (OCT k))
          (fun i Ci st1 => ih i i.val Ci st1)]
        exact Nat.add_comm _ _

theorem link_depth_decomp (L : Nat) (c : vect) (N : Nat) (DOTS : List dot) (OCT : Fin 8 → node) :
    link_depth (node.box L c N DOTS OCT)
      = 1 + ((if (node.box L c N DOTS OCT).is_twig then []
              else box_kids OCT (List.finRange 8)).map (fun k => link_depth (OCT k))).foldl max 0 := by
  by_cases htw : (node.box L c N DOTS OCT).is_twig = true
  · simp [link_depth, htw]
  · simp [link_depth, htw]

theorem sub_scan_all (PC : List BasicCell) (PL : List BasicLeaf) (FLG : tree_flags) :
    ∀ (cs : List Nat) (s : scan_state), (∀ pc ∈ cs, is_subtreecell (FLG.CELL pc) = true) →
      sub_scan PC PL FLG cs s = { s with ncells := s.ncells + cs.length } := by
  intro cs
  induction cs with
  | nil => intro s _; rfl
  | cons pc cs ih =>
    intro s h
    simp only [sub_scan, h pc (List.mem_cons_self _ _), if_true]
    rw [ih _ (fun p hp => h p (List.mem_cons_of_mem _ hp))]
    simp only [List.length_cons]
    congr 1
    omega

theorem getD_of_layout (CELLS : List BasicCell) (P : node) (hb : P.isBox = true)
    (o C cf lf : Nat) (hl : ∀ x ∈ cells_of P o C cf lf, CELLS[x.1]? = some x.2) :
    CELLS.getD C no_cell = root_cell P o cf lf := by
  have := hl _ (cells_of_root_mem P hb o C cf lf)
  simp only at this
  rw [List.getD_eq_getElem?_getD, this]
  rfl

theorem sub_kids_all (PC : List BasicCell) (PL : List BasicLeaf) (FLG : tree_flags) (fuel : Nat)
    (OCT : Fin 8 → node) (ks : List (Fin 8))
    (hks : ∀ k ∈ ks, (OCT k).isBox = true ∧ WF (OCT k))
    (ih : ∀ k ∈ ks, ∀ (o P C cf lf : Nat) (st : sub_state), P < cf →
      (∀ x ∈ cells_of (OCT k) o P cf lf, PC[x.1]? = some x.2) →
      (∀ x ∈ cells_of (OCT k) o P cf lf, is_subtreecell (FLG.CELL x.1) = true) →
      ∃ num st1, sub_link PC PL FLG fuel P C st = Res.ok (link_depth (OCT k), num, st1)) :
    ∀ (c cf lf : Nat) (s : sub_kids_state), c + ks.length ≤ cf →
      (∀ x ∈ kids_cells (fun k c1 cf1 lf1 => cells_of (OCT k) k.val c1 cf1 lf1)
          (fun k => sub_cells (OCT k)) (fun k => (link_order (OCT k)).length) ks c cf lf,
        PC[x.1]? = some x.2 ∧ is_subtreecell (FLG.CELL x.1) = true) →
      ∃ s1, sub_kids FLG (sub_link PC PL FLG fuel) (List.range' c ks.length) s = Res.ok s1 ∧
        s1.dep = (ks.map (fun k => link_depth (OCT k))).foldl max s.dep := by
  induction ks with
  | nil =>
    intro c cf lf s _ _
    exact ⟨s, rfl, rfl⟩
  | cons k ks ih2 =>
    intro c cf lf s hc hl
    have hk := hks k (List.mem_cons_self _ _)
    simp only [kids_cells] at hl
    simp only [List.length_cons] at hc
    have hroot := hl _ (List.mem_append_left _ (cells_of_root_mem (OCT k) hk.1 k.val c cf lf))
    obtain ⟨num, st1, h1⟩ := ih k (List.mem_cons_self _ _) k.val c s.Ci cf lf s.st (by omega)
      (fun x hx => (hl x (List.mem_append_left _ hx)).1)
      (fun x hx => (hl x (List.mem_append_left _ hx)).2)
    obtain ⟨s2, h2, h3⟩ := ih2 (fun k1 h1 => hks k1 (List.mem_cons_of_mem _ h1))
      (fun k1 h1 => ih k1 (List.mem_cons_of_mem _ h1)) (c + 1) (cf + sub_cells (OCT k))
      (lf + (link_order (OCT k)).length)
      { Ci := s.Ci + 1, dep := if link_depth (OCT k) > s.dep then link_depth (OCT k) else s.dep,
        number := s.number + num, st := st1 }
      (by omega) (fun x hx => hl x (List.mem_append_right _ hx))
    refine ⟨s2, ?_, ?_⟩
    · simp only [List.length_cons, List.range'_succ, sub_kids, hroot.2, if_true, h1]
      exact h2
    · rw [h3]
      simp only [List.map_cons, List.foldl_cons]
      congr 1
      by_cases hd : link_depth (OCT k) > s.dep
      · rw [if_pos hd]; omega
      · rw [if_neg hd]; omega

theorem sub_link_all (PC : List BasicCell) (PL : List BasicLeaf) (FLG : tree_flags) (Q : node) :
    WF Q → Q.isBox = true → ∀ (fuel o P C cf lf : Nat) (st : sub_state), P < cf →
      sub_cells Q < fuel → (∀ x ∈ cells_of Q o P cf lf, PC[x.1]? = some x.2) →
      (∀ x ∈ cells_of Q o P cf lf, is_subtreecell (FLG.CELL x.1) = true) →
      ∃ num st1, sub_link PC PL FLG fuel P C st = Res.ok (link_depth Q, num, st1) := by
  induction Q with
  | null => intro _ h; cases h
  | dot D => intro _ h; cases h
  | box L c N DOTS OCT ih =>
    intro hW _ fuel o P C cf lf st hP hf hl hr
    have hcell := getD_of_layout PC (node.box L c N DOTS OCT) rfl o P cf lf hl
    obtain ⟨ks, nl, hks, hc, h1, h2, h3, h4, h5, h6, _, _, _, _, _, hke⟩ :=
      cells_of_decomp L c N DOTS OCT hW o P cf lf
    rw [h6] at hf
    rw [link_depth_decomp, ← hke]
    rw [hc] at hl hr
    cases fuel with
    | zero => omega
    | succ fuel =>
      have hkids := sub_kids_all PC PL FLG fuel OCT ks hks
        (fun k hk o1 P1 C1 cf1 lf1 st1 hP1 hl1 hr1 =>
          ih k (hks k hk).2 (hks k hk).1 fuel o1 P1 C1 cf1 lf1 st1 hP1
            (by
              have := mem_le_sum (fun k => sub_cells (OCT k)) ks k hk
              have := List.length_pos_of_mem hk
              simp only at *
              omega) hl1 hr1)
        cf (cf + ks.length) (lf + nl)
      have hscan : ∀ s : scan_state,
          sub_scan PC PL FLG (List.range' cf ks.length) s
            = { s with ncells := s.ncells + ks.length } := by
        intro s
        have := sub_scan_all PC PL FLG (List.range' cf ks.length) s (by
          intro pc hpc
          rw [List.mem_range'_1] at hpc
          obtain ⟨j, rfl⟩ : ∃ j, pc = cf + j := ⟨pc - cf, by omega⟩
          have hj : j < ks.length := by omega
          have hm : (cf + j, root_cell (OCT (ks.get ⟨j, hj⟩)) (ks.get ⟨j, hj⟩).val
              (cf + ks.length + ((ks.take j).map (fun k => sub_cells (OCT k))).sum)
              (lf + nl + ((ks.take j).map (fun k => (link_order (OCT k)).length)).sum))
              ∈ kids_cells (fun k c1 cf1 lf1 => cells_of (OCT k) k.val c1 cf1 lf1)
                (fun k => sub_cells (OCT k)) (fun k => (link_order (OCT k)).length) ks cf
                (cf + ks.length) (lf + nl) := by
            rw [kids_cells_mem]
            refine ⟨j, ks.get ⟨j, hj⟩, ?_, ?_⟩
            · simp [List.getElem?_eq_getElem hj]
            · exact cells_of_root_mem _ (hks _ (List.get_mem _ _ _)).1 _ _ _ _
          exact hr _ (List.mem_cons_of_mem _ hm))
        simpa using this
      rw [sub_link]
      simp only [hcell, h5, hscan, Nat.zero_add]
      by_cases hz : ks.length ≠ 0
      · rw [if_pos hz]
        obtain ⟨s1, hs1, hd⟩ := hkids _ (Nat.le_refl _)
          (fun x hx => ⟨hl x (List.mem_cons_of_mem _ hx), hr x (List.mem_cons_of_mem _ hx)⟩)
        rw [hs1]
        simp only [hd]
        rw [Nat.add_comm]
        exact ⟨_, _, rfl⟩
      · rw [if_neg hz]
        have : ks = [] := List.length_eq_zero.1 (by omega)
        subst this
        exact ⟨_, _, rfl⟩

theorem built_depth (fuel nc dm : Nat) (x0 : vect) (sz : real) (dots : List dot)
    (TB : box_dot_tree)
    (h : tree_builder.build fuel (box_dot_tree.reset nc dm dots.length x0 sz) dots
      = Res.ok TB) : TB.link.1.DEPTH = link_depth TB.P0 := by
  obtain ⟨_, _, _, hnt, hNC, _, _⟩ := build_inv fuel nc dm dots.length x0 sz dots TB h
  unfold box_dot_tree.link
  by_cases hc : TB.NCRIT > 1
  · simp only [hc, if_true]
    exact link_cells_N_depth _ _ _ _
  · simp only [hc, if_false]
    rw [link_cells_1_eq_N TB.P0 (hnt (by rw [← hNC]; exact hc))]
    exact link_cells_N_depth _ _ _ _

theorem from_bodies_made_of (fuel : Nat) (bb : bodies) (nc : Nat) (x0 : Option vect)
    (dm sp : Nat) (T : OctTree) (h : OctTree.from_bodies fuel bb nc x0 dm sp = Res.ok T)
    (hN : T.Ns ≠ 0) :
    ∃ (c : vect) (sz : real) (dots : List dot) (TB : box_dot_tree),
      tree_builder.build fuel (box_dot_tree.reset nc dm dots.length c sz) dots = Res.ok TB ∧
        T.made_of TB := by
  obtain ⟨s, _, _, _, _, _, hcase⟩ := from_bodies_ok fuel bb nc x0 dm sp T h
  rcases hcase with ⟨_, _, _, _, h0, _⟩ | ⟨_, TB, hb, h1, h2, h3, h4, h5, _⟩
  · exact absurd h0 hN
  · exact ⟨_, _, s.D, TB, hb, h2, h1, h5, h4, h3⟩

theorem sub_tree_empty (fuel : Nat) (par : OctTree) (FLG : tree_flags) (F : Nat) (Ncrit : Int)
    (Nc Ns : Nat) (FLG1 : tree_flags)
    (h : mark_for_subtree fuel F Ncrit par.CELLS par.Nc FLG = Res.ok (Nc, Ns, FLG1))
    (h0 : Ns = 0 ∨ Nc = 0) :
    ∃ T st, OctTree.sub_tree fuel par FLG F Ncrit = Res.ok (T, st, FLG1) ∧
      T.Nc = 0 ∧ T.Ns = 0 ∧ T.DEPTH = 0 ∧ T.CELLS = [] ∧ T.LEAFS = [] ∧ st.CELLS = [] ∧
      st.LEAFS = [] ∧ st.CALLS = [] := by
  unfold OctTree.sub_tree
  simp only [h, h0, if_true]
  exact ⟨_, _, rfl, rfl, rfl, rfl, rfl, rfl, rfl, rfl, rfl⟩

theorem sub_tree_same (fuel0 nc dm : Nat) (x0 : vect) (sz : real) (dots : List dot)
    (TB : box_dot_tree) (par : OctTree) (FLG : tree_flags) (F : Nat) (Ncrit : Int) (fuel : Nat)
    (h : tree_builder.build fuel0 (box_dot_tree.reset nc dm dots.length x0 sz) dots
      = Res.ok TB)
    (hp : par.made_of TB) (hN : Ncrit > 1) (hf : par.Nc ≤ fuel)
    (hall : ∀ i, i < par.Ns → is_set (FLG.LEAF i) F = true)
    (hcr : ∀ cell ∈ par.CELLS, Ncrit ≤ (cell.NUMBER : Int)) :
    ∃ T st FLG1, OctTree.sub_tree fuel par FLG F Ncrit = Res.ok (T, st, FLG1) ∧
      T.Nc = par.Nc ∧ T.Ns = par.Ns ∧ T.DEPTH = par.DEPTH := by
  obtain ⟨hC, hL, hNc, hNs, hD⟩ := hp
  obtain ⟨hl, hBM, hND, hlen, hclen⟩ := built_layout fuel0 nc dm x0 sz dots TB h
  rw [hNs] at hall
  rw [hNc] at hf
  rw [hC] at hcr
  obtain ⟨FLG1, hm, _, hcell⟩ :=
    mark_for_subtree_built fuel0 nc dm x0 sz dots TB h F Ncrit hN fuel hf FLG
  have hsel : ∀ x ∈ cells_of TB.P0 0 0 1 0,
      sel_count FLG.LEAF F x.2.FCLEAF x.2.NUMBER = x.2.NUMBER ∧ Ncrit ≤ (x.2.NUMBER : Int) := by
    intro x hx
    have b := cells_of_bounds TB.P0 hl.1 hl.2.1 0 0 1 0 x hx
    refine ⟨sel_count_all _ _ _ _ (fun i _ hi => hall i (by omega)), ?_⟩
    exact hcr _ (List.getElem?_mem (hl.2.2.1 x hx))
  have hret : ∀ x ∈ cells_of TB.P0 0 0 1 0, sel_cell FLG.LEAF F Ncrit x.2 = true := by
    intro x hx
    obtain ⟨e, hge⟩ := hsel x hx
    unfold sel_cell
    rw [e]
    refine decide_eq_true ⟨?_, hge⟩
    intro h0
    rw [h0] at hge
    omega
  have hcnt : (cells_of TB.P0 0 0 1 0).countP (fun x => sel_cell FLG.LEAF F Ncrit x.2)
      = TB.BM := by
    rw [List.countP_eq_length.2 hret, hclen]
  have hroot := hsel _ (cells_of_root_mem TB.P0 hl.2.1 0 0 1 0)
  rw [root_cell_NUMBER TB.P0 0 1 0 hl.2.1] at hroot
  have hnum := WF_number TB.P0 hl.1 hl.2.1
  have hns : sel_count FLG.LEAF F 0 TB.NDOTS = TB.NDOTS :=
    sel_count_all _ _ _ _ (fun i _ hi => hall i (by omega))
  rw [hcnt, hns] at hm
  have hflag : ∀ x ∈ cells_of TB.P0 0 0 1 0, is_subtreecell (FLG1.CELL x.1) = true := by
    intro x hx
    rw [hcell x hx, cell_mark_is_subtreecell]
    have := hret x hx
    unfold sel_cell at this
    exact this
  obtain ⟨num, st1, hlk⟩ := sub_link_all (cell_array TB) par.LEAFS FLG1 TB.P0 hl.1 hl.2.1 fuel 0 0 0
    1 0 { CELLS := [], LEAFS := [], CALLS := [], Cf := 1, Lf := 0 } (by omega) (by omega)
    hl.2.2.1 hflag
  have hne : ¬ (TB.NDOTS = 0 ∨ TB.BM = 0) := by
    have := hroot.2
    omega
  unfold OctTree.sub_tree
  simp only [hC, hNc, hm, hne, if_false, sub_tree_builder.link, hlk]
  refine ⟨_, _, _, rfl, ?_, ?_, ?_⟩
  · simp [OctTree.set_rcenter, OctTree.set_depth, OctTree.allocate]
  · simp [OctTree.set_rcenter, OctTree.set_depth, OctTree.allocate, hNs]
  · simp [OctTree.set_rcenter, OctTree.set_depth, hD]
    exact (built_depth fuel0 nc dm x0 sz dots TB h).symm

theorem sub_copy_eq (PL : List BasicLeaf) (LEAF : Nat → Nat) :
    ∀ (l : List Nat) (n : Nat) (LEAFS : List (Nat × BasicLeaf)) (Lf : Nat),
      sub_copy PL LEAF l n LEAFS Lf
        = (n + (leaf_copies PL LEAF l Lf).length, (leaf_copies PL LEAF l Lf).reverse ++ LEAFS,
            Lf + (leaf_copies PL LEAF l Lf).length) := by
  intro l
  induction l with
  | nil => intro n LEAFS Lf; rfl
  | cons pl rest ih =>
    intro n LEAFS Lf
    by_cases h : in_subtree (LEAF pl) = true
    · simp only [sub_copy, leaf_copies, h, if_true, ih, List.length_cons, List.reverse_cons,
        List.append_assoc, List.singleton_append]
      refine Prod.ext ?_ (Prod.ext rfl ?_)
      · simp only; omega
      · simp only; omega
    · simp only [sub_copy, leaf_copies, h, if_false, ih, Bool.false_eq_true]

theorem leaf_copies_keys (PL : List BasicLeaf) (LEAF : Nat → Nat) :
    ∀ (l : List Nat) (Lf : Nat),
      (leaf_copies PL LEAF l Lf).map Prod.fst
        = List.range' Lf (leaf_copies PL LEAF l Lf).length := by
  intro l
  induction l with
  | nil => intro Lf; rfl
  | cons pl rest ih =>
    intro Lf
    by_cases h : in_subtree (LEAF pl) = true
    · simp only [leaf_copies, h, if_true, List.map_cons, List.length_cons, List.range'_succ, ih]
    · simp only [leaf_copies, h, if_false, ih, Bool.false_eq_true]

theorem leaf_copies_mem (PL : List BasicLeaf) (LEAF : Nat → Nat) :
    ∀ (l : List Nat) (Lf i : Nat), i ∈ l → in_subtree (LEAF i) = true →
      ∃ m, Lf ≤ m ∧ m < Lf + (leaf_copies PL LEAF l Lf).length ∧
        (m, PL.getD i no_leaf) ∈ leaf_copies PL LEAF l Lf := by
  intro l
  induction l with
  | nil => intro Lf i hi; cases hi
  | cons pl rest ih =>
    intro Lf i hi hs
    by_cases h : in_subtree (LEAF pl) = true
    · simp only [leaf_copies, h, if_true, List.length_cons, List.mem_cons]
      rcases List.mem_cons.1 hi with hi | hi
      · subst hi
        exact ⟨Lf, Nat.le_refl _, by omega, Or.inl rfl⟩
      · obtain ⟨m, h1, h2, h3⟩ := ih (Lf + 1) i hi hs
        exact ⟨m, by omega, by omega, Or.inr h3⟩
    · simp only [leaf_copies, h, if_false, Bool.false_eq_true]
      rcases List.mem_cons.1 hi with hi | hi
      · subst hi
        exact absurd hs h
      · exact ih Lf i hi hs

theorem leaf_copies_length (PL : List BasicLeaf) (LEAF : Nat → Nat) :
    ∀ (l : List Nat) (Lf : Nat),
      (leaf_copies PL LEAF l Lf).length = l.countP (fun i => in_subtree (LEAF i)) := by
  intro l
  induction l with
  | nil => intro Lf; rfl
  | cons pl rest ih =>
    intro Lf
    by_cases h : in_subtree (LEAF pl) = true
    · simp only [leaf_copies, h, if_true, List.length_cons, ih, List.countP_cons]
    · simp only [leaf_copies, h, if_false, ih, List.countP_cons, Bool.false_eq_true, Nat.add_zero]

theorem sub_scan_eq (PC : List BasicCell) (PL : List BasicLeaf) (FLG : tree_flags) :
    ∀ (cs : List Nat) (s : scan_state),
      sub_scan PC PL FLG cs s
        = { ncells := s.ncells + cs.countP (fun pc => is_subtreecell (FLG.CELL pc))
            nleafs := s.nleafs + (scan_copies PC PL FLG cs s.Lf).length
            LEAFS := (scan_copies PC PL FLG cs s.Lf).reverse ++ s.LEAFS
            Lf := s.Lf + (scan_copies PC PL FLG cs s.Lf).length } := by
  intro cs
  induction cs with
  | nil => intro s; rfl
  | cons pc rest ih =>
    intro s
    by_cases h : is_subtreecell (FLG.CELL pc) = true
    · simp only [sub_scan, scan_copies, h, if_true, ih, List.countP_cons]
      congr 1
      omega
    · by_cases h2 : in_subtree (FLG.CELL pc) = true
      · simp only [sub_scan, scan_copies, h, h2, if_true, if_false, ih, List.countP_cons,
          sub_copy_eq, List.length_append, List.reverse_append, List.append_assoc,
          Bool.false_eq_true, Nat.add_zero]
        congr 1 <;> omega
      · simp only [sub_scan, scan_copies, h, h2, if_false, ih, List.countP_cons,
          Bool.false_eq_true, Nat.add_zero]

theorem scan_copies_keys (PC : List BasicCell) (PL : List BasicLeaf) (FLG : tree_flags) :
    ∀ (cs : List Nat) (Lf : Nat),
      (scan_copies PC PL FLG cs Lf).map Prod.fst
        = List.range' Lf (scan_copies PC PL FLG cs Lf).length := by
  intro cs
  induction cs with
  | nil => intro Lf; rfl
  | cons pc rest ih =>
    intro Lf
    by_cases h : is_subtreecell (FLG.CELL pc) = true
    · simp only [scan_copies, h, if_true, ih]
    · by_cases h2 : in_subtree (FLG.CELL pc) = true
      · simp only [scan_copies, h, h2, if_true, if_false, List.map_append, ih,
          leaf_copies_keys, List.length_append, range'_split, Bool.false_eq_true]
      · simp only [scan_copies, h, h2, if_false, ih, Bool.false_eq_true]

theorem scan_copies_mem (PC : List BasicCell) (PL : List BasicLeaf) (FLG : tree_flags) :
    ∀ (cs : List Nat) (Lf pc i : Nat), pc ∈ cs → is_subtreecell (FLG.CELL pc) = false →
      in_subtree (FLG.CELL pc) = true → i ∈ all_leafs (PC.getD pc no_cell) →
      in_subtree (FLG.LEAF i) = true →
      ∃ m, Lf ≤ m ∧ m < Lf + (scan_copies PC PL FLG cs Lf).length ∧
        (m, PL.getD i no_leaf) ∈ scan_copies PC PL FLG cs Lf := by
  intro cs
  induction cs with
  | nil => intro Lf pc i hpc; cases hpc
  | cons p rest ih =>
    intro Lf pc i hpc hr hs hi hl
    by_cases h : is_subtreecell (FLG.CELL p) = true
    · simp only [scan_copies, h, if_true]
      rcases List.mem_cons.1 hpc with e | hpc
      · subst e; rw [h] at hr; cases hr
      · exact ih Lf pc i hpc hr hs hi hl
    · by_cases h2 : in_subtree (FLG.CELL p) = true
      · simp only [scan_copies, h, h2, if_true, if_false, List.length_append, List.mem_append,
          Bool.false_eq_true]
        rcases List.mem_cons.1 hpc with e | hpc
        · subst e
          obtain ⟨m, h1, h3, h4⟩ := leaf_copies_mem PL FLG.LEAF _ Lf i hi hl
          exact ⟨m, h1, by omega, Or.inl h4⟩
        · obtain ⟨m, h1, h3, h4⟩ := ih
            (Lf + (leaf_copies PL FLG.LEAF (all_leafs (PC.getD p no_cell)) Lf).length)
            pc i hpc hr hs hi hl
          exact ⟨m, by omega, by omega, Or.inr h4⟩
      · simp only [scan_copies, h, h2, if_false, Bool.false_eq_true]
        rcases List.mem_cons.1 hpc with e | hpc
        · subst e; rw [hs] at h2; exact absurd rfl h2
        · exact ih Lf pc i hpc hr hs hi hl

theorem kid_insub_add (FLG : tree_flags) (OCT : Fin 8 → node) (ks : List (Fin 8)) :
    ∀ c lf, kid_insub FLG true OCT ks c lf + kid_insub FLG false OCT ks c lf
      = sel_count FLG.LEAF SUBTREE lf ((ks.map (fun k => (link_order (OCT k)).length)).sum) := by
  induction ks with
  | nil => intro c lf; rfl
  | cons k ks ih =>
    intro c lf
    simp only [kid_insub, List.map_cons, List.sum_cons, sel_count_add]
    have := ih (c + 1) (lf + (link_order (OCT k)).length)
    cases is_subtreecell (FLG.CELL c) <;> simp <;> omega

theorem insub_count (LEAF : Nat → Nat) (a n : Nat) :
    (List.range' a n).countP (fun i => in_subtree (LEAF i)) = sel_count LEAF SUBTREE a n := rfl

theorem scan_copies_le (PC : List BasicCell) (PL : List BasicLeaf) (FLG : tree_flags)
    (OCT : Fin 8 → node) (ks : List (Fin 8))
    (hks : ∀ k ∈ ks, (OCT k).isBox = true ∧ WF (OCT k)) :
    ∀ (c cf lf Lf : Nat),
      (∀ x ∈ kids_cells (fun k c1 cf1 lf1 => cells_of (OCT k) k.val c1 cf1 lf1)
          (fun k => sub_cells (OCT k)) (fun k => (link_order (OCT k)).length) ks c cf lf,
        PC[x.1]? = some x.2) →
      (scan_copies PC PL FLG (List.range' c ks.length) Lf).length
        ≤ kid_insub FLG false OCT ks c lf := by
  induction ks with
  | nil => intro c cf lf Lf _; exact Nat.le_refl _
  | cons k ks ih =>
    intro c cf lf Lf hl
    have hk := hks k (List.mem_cons_self _ _)
    simp only [kids_cells] at hl
    have hget := getD_of_layout PC (OCT k) hk.1 k.val c cf lf
      (fun x hx => hl x (List.mem_append_left _ hx))
    have hrest := fun Lf1 => ih (fun k1 h1 => hks k1 (List.mem_cons_of_mem _ h1)) (c + 1)
      (cf + sub_cells (OCT k)) (lf + (link_order (OCT k)).length) Lf1
      (fun x hx => hl x (List.mem_append_right _ hx))
    simp only [List.length_cons, List.range'_succ, scan_copies, kid_insub]
    by_cases hr : is_subtreecell (FLG.CELL c) = true
    · simp only [hr, if_true]
      have := hrest Lf
      simp only [Bool.true_eq_false, if_false]
      omega
    · have hr2 : is_subtreecell (FLG.CELL c) = false := by simpa using hr
      simp only [hr2, Bool.false_eq_true, if_false, if_true]
      by_cases hs : in_subtree (FLG.CELL c) = true
      · simp only [hs, if_true, List.length_append, leaf_copies_length, hget, all_leafs,
          root_cell_FCLEAF, root_cell_NUMBER (OCT k) k.val cf lf hk.1,
          WF_number (OCT k) hk.2 hk.1, insub_count]
        have := hrest (Lf + sel_count FLG.LEAF SUBTREE lf (link_order (OCT k)).length)
        omega
      · simp only [hs, if_false, Bool.false_eq_true]
        have := hrest Lf
        omega

theorem sub_frame_mono (PC : List BasicCell) (PL : List BasicLeaf) (FLG : tree_flags) (P C : Nat)
    (K K1 : List (Nat × BasicCell)) (L L1 : List (Nat × BasicLeaf))
    (hK : ∀ x ∈ K, x ∈ K1) (hL : ∀ x ∈ L, x ∈ L1) (h : sub_frame PC PL FLG P C K L) :
    sub_frame PC PL FLG P C K1 L1 := by
  obtain ⟨cell, h1, h2, h3, h4, h5⟩ := h
  refine ⟨cell, hK _ h1, h2, h3, h4, ?_⟩
  intro i hi hc
  obtain ⟨m, m1, m2, m3⟩ := h5 i hi hc
  exact ⟨m, m1, m2, hL _ m3⟩

theorem sel_count_mono (LEAF : Nat → Nat) (F a n b m : Nat) (h1 : b ≤ a) (h2 : a + n ≤ b + m) :
    sel_count LEAF F a n ≤ sel_count LEAF F b m := by
  obtain ⟨d, rfl⟩ : ∃ d, a = b + d := ⟨a - b, by omega⟩
  obtain ⟨e, rfl⟩ : ∃ e, m = d + (n + e) := ⟨m - d - n, by omega⟩
  rw [sel_count_add, sel_count_add]
  omega

theorem sel_cell_mono (LEAF : Nat → Nat) (F : Nat) (Ncr : Int) (K : node) (hW : WF K)
    (hb : K.isBox = true) (o C cf lf : Nat) (x : Nat × BasicCell)
    (hx : x ∈ cells_of K o C cf lf) (hs : sel_cell LEAF F Ncr x.2 = true) :
    sel_cell LEAF F Ncr (root_cell K o cf lf) = true := by
  have b := cells_of_bounds K hW hb o C cf lf x hx
  have hn := WF_number K hW hb
  have hm := sel_count_mono LEAF F x.2.FCLEAF x.2.NUMBER lf (link_order K).length b.2.1 b.2.2
  unfold sel_cell at hs ⊢
  rw [root_cell_FCLEAF, root_cell_NUMBER K o cf lf hb, hn]
  have hs := of_decide_eq_true hs
  refine decide_eq_true ⟨?_, ?_⟩
  · omega
  · omega

theorem no_sel_beneath (LEAF : Nat → Nat) (F : Nat) (Ncr : Int) (K : node) (hW : WF K)
    (hb : K.isBox = true) (o C cf lf : Nat)
    (h : sel_cell LEAF F Ncr (root_cell K o cf lf) = false) :
    (cells_of K o C cf lf).countP (fun x => sel_cell LEAF F Ncr x.2) = 0 ∧
      (cells_of K o C cf lf).filter (fun x => sel_cell LEAF F Ncr x.2) = [] := by
  have hall : ∀ x ∈ cells_of K o C cf lf, ¬ sel_cell LEAF F Ncr x.2 = true := by
    intro x hx hs
    rw [sel_cell_mono LEAF F Ncr K hW hb o C cf lf x hx hs] at h
    cases h
  exact ⟨List.countP_eq_zero.2 hall, List.filter_eq_nil_iff.2 hall⟩

theorem cells_of_cons (K : node) (hb : K.isBox = true) (o C cf lf : Nat) :
    cells_of K o C cf lf = (C, root_cell K o cf lf) :: (cells_of K o C cf lf).tail := by
  cases K with
  | null => cases hb
  | dot D => cases hb
  | box L c N DOTS OCT => simp [cells_of]

theorem perm_blocks (x : Nat) (A C D : List Nat) (l1 l2 : List Nat)
    (h1 : List.Perm l1 (x :: C)) (h2 : List.Perm l2 (A ++ D)) :
    List.Perm (l2 ++ l1) ((x :: A) ++ (C ++ D)) := by
  refine (List.Perm.append h2 h1).trans ?_
  rw [List.perm_iff_count]
  intro a
  simp only [List.count_append, List.count_cons]
  omega

theorem sub_kids_spec (PC : List BasicCell) (PL : List BasicLeaf) (FLG : tree_flags)
    (LEAF0 : Nat → Nat) (F : Nat) (Ncr : Int) (fuel : Nat)
    (OCT : Fin 8 → node) (ks : List (Fin 8))
    (hks : ∀ k ∈ ks, (OCT k).isBox = true ∧ WF (OCT k))
    (ih : ∀ k ∈ ks, ∀ (o P C cf lf : Nat) (st : sub_state), P < cf →
      (∀ x ∈ cells_of (OCT k) o P cf lf, PC[x.1]? = some x.2) →
      (∀ x ∈ cells_of (OCT k) o P cf lf,
        is_subtreecell (FLG.CELL x.1) = sel_cell LEAF0 F Ncr x.2) →
      ∃ dep num st1, sub_link PC PL FLG fuel P C st = Res.ok (dep, num, st1) ∧
        sub_linked PC PL FLG (fun x => sel_cell LEAF0 F Ncr x.2)
          (cells_of (OCT k) o P cf lf).tail P C st st1 ∧
        st1.Lf ≤ st.Lf + sel_count FLG.LEAF SUBTREE lf (link_order (OCT k)).length) :
    ∀ (c cf lf : Nat) (s : sub_kids_state), c + ks.length ≤ cf →
      (∀ x ∈ kids_cells (fun k c1 cf1 lf1 => cells_of (OCT k) k.val c1 cf1 lf1)
          (fun k => sub_cells (OCT k)) (fun k => (link_order (OCT k)).length) ks c cf lf,
        PC[x.1]? = some x.2 ∧ is_subtreecell (FLG.CELL x.1) = sel_cell LEAF0 F Ncr x.2) →
      ∃ (s1 : sub_kids_state) (newC : List (Nat × Nat)) (newK : List (Nat × BasicCell))
        (newL : List (Nat × BasicLeaf)) (nrd : Nat),
        sub_kids FLG (sub_link PC PL FLG fuel) (List.range' c ks.length) s = Res.ok s1 ∧
        s1.st.CALLS = newC ++ s.st.CALLS ∧ s1.st.CELLS = newK ++ s.st.CELLS ∧
        s1.st.LEAFS = newL ++ s.st.LEAFS ∧
        (kids_cells (fun k c1 cf1 lf1 => cells_of (OCT k) k.val c1 cf1 lf1)
          (fun k => sub_cells (OCT k)) (fun k => (link_order (OCT k)).length) ks c cf lf).countP
            (fun x => sel_cell LEAF0 F Ncr x.2)
          = (List.range' c ks.length).countP (fun pc => is_subtreecell (FLG.CELL pc)) + nrd ∧
        s1.st.Cf = s.st.Cf + nrd ∧ s1.st.Lf = s.st.Lf + newL.length ∧
        List.Perm (newL.map Prod.fst) (List.range' s.st.Lf newL.length) ∧
        List.Perm (newC.map Prod.snd)
          (List.range' s.Ci
              ((List.range' c ks.length).countP (fun pc => is_subtreecell (FLG.CELL pc)))
            ++ List.range' s.st.Cf nrd) ∧
        List.Perm (newK.map Prod.fst)
          (List.range' s.Ci
              ((List.range' c ks.length).countP (fun pc => is_subtreecell (FLG.CELL pc)))
            ++ List.range' s.st.Cf nrd) ∧
        List.Perm (newC.map Prod.fst)
          (((kids_cells (fun k c1 cf1 lf1 => cells_of (OCT k) k.val c1 cf1 lf1)
            (fun k => sub_cells (OCT k)) (fun k => (link_order (OCT k)).length) ks c cf lf).filter
              (fun x => sel_cell LEAF0 F Ncr x.2)).map Prod.fst) ∧
        (∀ pC ∈ newC, sub_frame PC PL FLG pC.1 pC.2 newK newL) ∧
        newL.length ≤ kid_insub FLG true OCT ks c lf := by
  induction ks with
  | nil =>
    intro c cf lf s _ _
    refine ⟨s, [], [], [], 0, rfl, rfl, rfl, rfl, rfl, rfl, rfl, ?_, ?_, ?_, ?_, ?_, ?_⟩
    · exact List.Perm.refl _
    · exact List.Perm.refl _
    · exact List.Perm.refl _
    · exact List.Perm.refl _
    · intro pC h; cases h
    · exact Nat.le_refl _
  | cons k ks ih2 =>
    intro c cf lf s hc hl
    have hk := hks k (List.mem_cons_self _ _)
    have hks2 : ∀ k ∈ ks, (OCT k).isBox = true ∧ WF (OCT k) :=
      fun k1 h1 => hks k1 (List.mem_cons_of_mem _ h1)
    simp only [kids_cells] at hl ⊢
    simp only [List.length_cons] at hc
    have hroot := hl _ (List.mem_append_left _ (cells_of_root_mem (OCT k) hk.1 k.val c cf lf))
    simp only at hroot
    have hcons := cells_of_cons (OCT k) hk.1 k.val c cf lf
    simp only [List.length_cons, List.range'_succ, List.countP_cons, List.countP_append,
      List.filter_append, List.map_append]
    by_cases hr : is_subtreecell (FLG.CELL c) = true
    · have hsel : sel_cell LEAF0 F Ncr (root_cell (OCT k) k.val cf lf) = true := by
        rw [← hroot.2]; exact hr
      obtain ⟨de, num, st1, hlk, ⟨nC1, nK1, nL1, a1, a2, a3, a4, a5, a6, a7, a8, a9, a10⟩, a11⟩ :=
        ih k (List.mem_cons_self _ _) k.val c s.Ci cf lf s.st (by omega)
          (fun x hx => (hl x (List.mem_append_left _ hx)).1)
          (fun x hx => (hl x (List.mem_append_left _ hx)).2)
      obtain ⟨s1, nC2, nK2, nL2, nrd, hsk, b1, b2, b3, b4, b5, b6, b7, b8, b9, b10, b11, b12⟩ :=
        ih2 hks2 (fun k1 h1 => ih k1 (List.mem_cons_of_mem _ h1)) (c + 1)
          (cf + sub_cells (OCT k)) (lf + (link_order (OCT k)).length)
          { Ci := s.Ci + 1, dep := if de > s.dep then de else s.dep,
            number := s.number + num, st := st1 }
          (by omega) (fun x hx => hl x (List.mem_append_right _ hx))
      simp only at b1 b2 b3 b5 b6 b7 b8 b9
      have hcnt : (cells_of (OCT k) k.val c cf lf).countP (fun x => sel_cell LEAF0 F Ncr x.2)
          = 1 + (cells_of (OCT k) k.val c cf lf).tail.countP
              (fun x => sel_cell LEAF0 F Ncr x.2) := by
        conv_lhs => rw [hcons]
        rw [List.countP_cons, if_pos hsel]
        omega
      have hfil : ((cells_of (OCT k) k.val c cf lf).filter
            (fun x => sel_cell LEAF0 F Ncr x.2)).map Prod.fst
          = c :: ((cells_of (OCT k) k.val c cf lf).tail.filter
              (fun x => sel_cell LEAF0 F Ncr x.2)).map Prod.fst := by
        conv_lhs => rw [hcons]
        rw [List.filter_cons, if_pos hsel]
        rfl
      refine ⟨s1, nC2 ++ nC1, nK2 ++ nK1, nL2 ++ nL1,
        (cells_of (OCT k) k.val c cf lf).tail.countP (fun x => sel_cell LEAF0 F Ncr x.2) + nrd,
        ?_, ?_, ?_, ?_, ?_, ?_, ?_, ?_, ?_, ?_, ?_, ?_, ?_⟩
      · simp only [sub_kids, hr, if_true, hlk]
        exact hsk
      · rw [b1, a1, List.append_assoc]
      · rw [b2, a2, List.append_assoc]
      · rw [b3, a3, List.append_assoc]
      · rw [hcnt, b4, if_pos hr]
        omega
      · rw [b5, a4]; omega
      · rw [b6, a5, List.length_append]; omega
      · rw [List.map_append, List.length_append, Nat.add_comm nL2.length, range'_split]
        refine (List.Perm.append b7 a6).trans ?_
        rw [a5]
        exact List.perm_append_comm
      · rw [if_pos hr, List.map_append, List.range'_succ, range'_split]
        rw [a4] at b8
        exact perm_blocks _ _ _ _ _ _ a7 b8
      · rw [if_pos hr, List.map_append, List.range'_succ, range'_split]
        rw [a4] at b9
        exact perm_blocks _ _ _ _ _ _ a8 b9
      · rw [List.map_append, hfil]
        refine (List.Perm.append b10 a9).trans ?_
        exact List.perm_append_comm
      · intro pC hp
        rcases List.mem_append.1 hp with hp | hp
        · exact sub_frame_mono PC PL FLG _ _ _ _ _ _ (fun x hx => List.mem_append_left _ hx)
            (fun x hx => List.mem_append_left _ hx) (b11 pC hp)
        · exact sub_frame_mono PC PL FLG _ _ _ _ _ _ (fun x hx => List.mem_append_right _ hx)
            (fun x hx => List.mem_append_right _ hx) (a10 pC hp)
      · simp only [List.length_append, kid_insub, hr, if_true]
        omega
    · have hsel : sel_cell LEAF0 F Ncr (root_cell (OCT k) k.val cf lf) = false := by
        rw [← hroot.2]; simpa using hr
      obtain ⟨z1, z2⟩ := no_sel_beneath LEAF0 F Ncr (OCT k) hk.2 hk.1 k.val c cf lf hsel
      obtain ⟨s1, nC2, nK2, nL2, nrd, hsk, b1, b2, b3, b4, b5, b6, b7, b8, b9, b10, b11, b12⟩ :=
        ih2 hks2 (fun k1 h1 => ih k1 (List.mem_cons_of_mem _ h1)) (c + 1)
          (cf + sub_cells (OCT k)) (lf + (link_order (OCT k)).length) s
          (by omega) (fun x hx => hl x (List.mem_append_right _ hx))
      refine ⟨s1, nC2, nK2, nL2, nrd, ?_, b1, b2, b3, ?_, b5, b6, b7, ?_, ?_, ?_, b11, ?_⟩
      · simp only [sub_kids, hr, if_false, Bool.false_eq_true]
        exact hsk
      · rw [z1, b4, if_neg hr]; omega
      · rw [if_neg hr]; exact b8
      · rw [if_neg hr]; exact b9
      · rw [z2]; exact b10
      · simp only [kid_insub, hr, if_false, Bool.false_eq_true]
        omega

theorem perm_leaf_keys (a n1 n2 n3 : Nat) (l1 l2 l3 : List Nat)
    (h1 : l1 = List.range' a n1) (h2 : l2 = List.range' (a + n1) n2)
    (h3 : List.Perm l3 (List.range' (a + n1 + n2) n3)) :
    List.Perm (l3 ++ (l2.reverse ++ l1.reverse)) (List.range' a (n3 + (n2 + n1))) := by
  have e : n3 + (n2 + n1) = n1 + (n2 + n3) := by omega
  rw [e, range'_split, range'_split, ← h1, ← h2]
  rw [List.perm_iff_count]
  intro x
  simp only [List.count_append, List.count_reverse, h3.count_eq]
  omega

theorem perm_snoc_range (x a n1 n2 : Nat) (l : List Nat)
    (h : List.Perm l (List.range' a n1 ++ List.range' (a + n1) n2)) :
    List.Perm (l ++ [x]) (x :: List.range' a (n1 + n2)) := by
  rw [range'_split]
  exact List.perm_append_comm.trans (List.Perm.cons x h)

theorem kids_none_retained (FLG : tree_flags) (LEAF0 : Nat → Nat) (F : Nat) (Ncr : Int)
    (OCT : Fin 8 → node) (ks : List (Fin 8))
    (hks : ∀ k ∈ ks, (OCT k).isBox = true ∧ WF (OCT k)) (c cf lf : Nat)
    (hr : ∀ x ∈ kids_cells (fun k c1 cf1 lf1 => cells_of (OCT k) k.val c1 cf1 lf1)
          (fun k => sub_cells (OCT k)) (fun k => (link_order (OCT k)).length) ks c cf lf,
        is_subtreecell (FLG.CELL x.1) = sel_cell LEAF0 F Ncr x.2)
    (h0 : (List.range' c ks.length).countP (fun pc => is_subtreecell (FLG.CELL pc)) = 0) :
    (kids_cells (fun k c1 cf1 lf1 => cells_of (OCT k) k.val c1 cf1 lf1)
        (fun k => sub_cells (OCT k)) (fun k => (link_order (OCT k)).length) ks c cf lf).countP
          (fun x => sel_cell LEAF0 F Ncr x.2) = 0 ∧
      (kids_cells (fun k c1 cf1 lf1 => cells_of (OCT k) k.val c1 cf1 lf1)
        (fun k => sub_cells (OCT k)) (fun k => (link_order (OCT k)).length) ks c cf lf).filter
          (fun x => sel_cell LEAF0 F Ncr x.2) = [] := by
  have hall : ∀ x ∈ kids_cells (fun k c1 cf1 lf1 => cells_of (OCT k) k.val c1 cf1 lf1)
      (fun k => sub_cells (OCT k)) (fun k => (link_order (OCT k)).length) ks c cf lf,
      ¬ sel_cell LEAF0 F Ncr x.2 = true := by
    intro x hx hs
    have hx2 := hx
    rw [kids_cells_mem] at hx2
    obtain ⟨j, k, hjk, hxk⟩ := hx2
    have hk : k ∈ ks := List.getElem?_mem hjk
    have hj : j < ks.length := (List.getElem?_eq_some_iff.1 hjk).1
    have hroot := sel_cell_mono LEAF0 F Ncr (OCT k) (hks k hk).2 (hks k hk).1 _ _ _ _ x hxk hs
    have hm : (c + j, root_cell (OCT k) k.val
        (cf + ((ks.take j).map (fun k => sub_cells (OCT k))).sum)
        (lf + ((ks.take j).map (fun k => (link_order (OCT k)).length)).sum))
        ∈ kids_cells (fun k c1 cf1 lf1 => cells_of (OCT k) k.val c1 cf1 lf1)
          (fun k => sub_cells (OCT k)) (fun k => (link_order (OCT k)).length) ks c cf lf := by
      rw [kids_cells_mem]
      exact ⟨j, k, hjk, cells_of_root_mem _ (hks k hk).1 _ _ _ _⟩
    have h1 := hr _ hm
    simp only at h1
    rw [hroot] at h1
    rw [List.countP_eq_zero] at h0
    exact h0 (c + j) (by rw [List.mem_range'_1]; omega) h1
  exact ⟨List.countP_eq_zero.2 hall, List.filter_eq_nil_iff.2 hall⟩

theorem sub_link_spec (PC : List BasicCell) (PL : List BasicLeaf) (FLG : tree_flags)
    (LEAF0 : Nat → Nat) (F : Nat) (Ncr : Int) (Q : node) :
    WF Q → Q.isBox = true → ∀ (fuel o P C cf lf : Nat) (st : sub_state), P < cf →
      sub_cells Q < fuel → (∀ x ∈ cells_of Q o P cf lf, PC[x.1]? = some x.2) →
      (∀ x ∈ cells_of Q o P cf lf,
        is_subtreecell (FLG.CELL x.1) = sel_cell LEAF0 F Ncr x.2) →
      ∃ dep num st1, sub_link PC PL FLG fuel P C st = Res.ok (dep, num, st1) ∧
        sub_linked PC PL FLG (fun x => sel_cell LEAF0 F Ncr x.2)
          (cells_of Q o P cf lf).tail P C st st1 ∧
        st1.Lf ≤ st.Lf + sel_count FLG.LEAF SUBTREE lf (link_order Q).length := by
  induction Q with
  | null => intro _ h; cases h
  | dot D => intro _ h; cases h
  | box L c N DOTS OCT ih =>
    intro hW _ fuel o P C cf lf st hP hf hl hr
    have hcell := getD_of_layout PC (node.box L c N DOTS OCT) rfl o P cf lf hl
    obtain ⟨ks, nl, hks, hc, h1, h2, h3, h4, h5, h6, _⟩ :=
      cells_of_decomp L c N DOTS OCT hW o P cf lf
    rw [h6] at hf
    rw [hc] at hl hr
    rw [hc, List.tail_cons]
    cases fuel with
    | zero => omega
    | succ fuel =>
      have hkids := sub_kids_spec PC PL FLG LEAF0 F Ncr fuel OCT ks hks
        (fun k hk o1 P1 C1 cf1 lf1 st1 hP1 hl1 hr1 =>
          ih k (hks k hk).2 (hks k hk).1 fuel o1 P1 C1 cf1 lf1 st1 hP1
            (by
              have := mem_le_sum (fun k => sub_cells (OCT k)) ks k hk
              have := List.length_pos_of_mem hk
              simp only at *
              omega) hl1 hr1)
        cf (cf + ks.length) (lf + nl)
      have hnone := kids_none_retained FLG LEAF0 F Ncr OCT ks hks cf (cf + ks.length) (lf + nl)
        (fun x hx => hr x (List.mem_cons_of_mem _ hx))
      have k1 := leaf_copies_keys PL FLG.LEAF
        (leaf_kids (root_cell (node.box L c N DOTS OCT) o cf lf)) st.Lf
      have m1 := leaf_copies_mem PL FLG.LEAF
        (leaf_kids (root_cell (node.box L c N DOTS OCT) o cf lf)) st.Lf
      obtain ⟨c1, hc1⟩ : ∃ c1, c1 = leaf_copies PL FLG.LEAF
        (leaf_kids (root_cell (node.box L c N DOTS OCT) o cf lf)) st.Lf := ⟨_, rfl⟩
      rw [← hc1] at k1 m1
      have k2 := scan_copies_keys PC PL FLG (List.range' cf ks.length) (st.Lf + c1.length)
      have m2 := scan_copies_mem PC PL FLG (List.range' cf ks.length) (st.Lf + c1.length)
      obtain ⟨c2, hc2⟩ : ∃ c2, c2 = scan_copies PC PL FLG (List.range' cf ks.length)
        (st.Lf + c1.length) := ⟨_, rfl⟩
      have n1 : c1.length = sel_count FLG.LEAF SUBTREE lf nl := by
        rw [hc1, leaf_copies_length, leaf_kids, h1, h2]
        rfl
      have n2 : c2.length ≤ kid_insub FLG false OCT ks cf (lf + nl) := by
        rw [hc2]
        exact scan_copies_le PC PL FLG OCT ks hks cf (cf + ks.length) (lf + nl) _
          (fun x hx => hl x (List.mem_cons_of_mem _ hx))
      have n3 := kid_insub_add FLG OCT ks cf (lf + nl)
      have n4 : sel_count FLG.LEAF SUBTREE lf (link_order (node.box L c N DOTS OCT)).length
          = sel_count FLG.LEAF SUBTREE lf nl + sel_count FLG.LEAF SUBTREE (lf + nl)
              ((ks.map (fun k => (link_order (OCT k)).length)).sum) := by
        rw [h4, sel_count_add]
      rw [← hc2] at k2 m2
      rw [sub_link]
      simp only [hcell, h5, sub_copy_eq, sub_scan_eq, Nat.zero_add, ← hc1, ← hc2]
      have hframe : ∀ (num : Nat) (fc : Int) (ncl : Nat) (K : List (Nat × BasicCell))
          (Lr : List (Nat × BasicLeaf)),
          sub_frame PC PL FLG P C
            ((C, { LEVEL := (root_cell (node.box L c N DOTS OCT) o cf lf).LEVEL,
                   OCTANT := (root_cell (node.box L c N DOTS OCT) o cf lf).OCTANT,
                   CENTER := (root_cell (node.box L c N DOTS OCT) o cf lf).CENTER,
                   NUMBER := num, FCLEAF := st.Lf, NLEAFS := c1.length + c2.length,
                   FCCELL := fc, NCELLS := ncl }) :: K)
            (Lr ++ (c2.reverse ++ c1.reverse)) := by
        intro num fc ncl K Lr
        refine ⟨_, List.mem_cons_self _ _, ?_, ?_, ?_, ?_⟩
        · rw [hcell]
        · rw [hcell]
        · rw [hcell]
        · intro i hi hcase
          rw [hcell, h5] at hcase
          rcases hcase with hd | ⟨pc, hpc, q1, q2, q3⟩
          · obtain ⟨m, a1, a2, a3⟩ := m1 i hd hi
            refine ⟨m, a1, by simp only; omega, ?_⟩
            simp only [List.mem_append, List.mem_reverse]
            exact Or.inr (Or.inr a3)
          · obtain ⟨m, a1, a2, a3⟩ := m2 pc i hpc q1 q2 q3 hi
            refine ⟨m, by simp only; omega, by simp only; omega, ?_⟩
            simp only [List.mem_append, List.mem_reverse]
            exact Or.inr (Or.inl a3)
      by_cases hz : (List.range' cf ks.length).countP (fun pc => is_subtreecell (FLG.CELL pc)) ≠ 0
      · rw [if_pos hz]
        obtain ⟨s1, nC, nK, nL, nrd, hsk, b1, b2, b3, b4, b5, b6, b7, b8, b9, b10, b11, b12⟩ :=
          hkids
            { Ci := st.Cf, dep := 0, number := c1.length + c2.length
              st := { CELLS := st.CELLS, LEAFS := c2.reverse ++ (c1.reverse ++ st.LEAFS)
                      CALLS := (P, C) :: st.CALLS
                      Cf := st.Cf + (List.range' cf ks.length).countP
                        (fun pc => is_subtreecell (FLG.CELL pc))
                      Lf := st.Lf + c1.length + c2.length } }
            (Nat.le_refl _)
            (fun x hx => ⟨hl x (List.mem_cons_of_mem _ hx), hr x (List.mem_cons_of_mem _ hx)⟩)
        simp only at b1 b2 b3 b5 b6 b7 b8 b9
        rw [hsk]
        simp only
        refine ⟨_, _, _, rfl, ⟨nC ++ [(P, C)],
          (C, { LEVEL := (root_cell (node.box L c N DOTS OCT) o cf lf).LEVEL,
                OCTANT := (root_cell (node.box L c N DOTS OCT) o cf lf).OCTANT,
                CENTER := (root_cell (node.box L c N DOTS OCT) o cf lf).CENTER,
                NUMBER := s1.number, FCLEAF := st.Lf, NLEAFS := c1.length + c2.length,
                FCCELL := (st.Cf : Int),
                NCELLS := (List.range' cf ks.length).countP
                  (fun pc => is_subtreecell (FLG.CELL pc)) }) :: nK,
          nL ++ (c2.reverse ++ c1.reverse), ?_, ?_, ?_, ?_, ?_, ?_, ?_, ?_, ?_, ?_⟩, ?_⟩
        · simp only [b1, List.append_assoc, List.singleton_append]
        · simp only [b2, List.cons_append]
        · simp only [b3, List.append_assoc]
        · simp only [b5, b4]; omega
        · simp only [b6, List.length_append, List.length_reverse]; omega
        · simp only [List.map_append, List.map_reverse, List.length_append, List.length_reverse]
          exact perm_leaf_keys st.Lf c1.length c2.length nL.length _ _ _ k1 k2 b7
        · simp only [List.map_append, List.map_cons, List.map_nil, b4]
          exact perm_snoc_range _ _ _ _ _ b8
        · simp only [List.map_cons, b4]
          rw [range'_split]
          exact List.Perm.cons _ b9
        · simp only [List.map_append, List.map_cons, List.map_nil]
          exact List.perm_append_comm.trans (List.Perm.cons _ b10)
        · intro pC hp
          rcases List.mem_append.1 hp with hp | hp
          · exact sub_frame_mono PC PL FLG _ _ _ _ _ _ (fun x hx => List.mem_cons_of_mem _ hx)
              (fun x hx => List.mem_append_left _ hx) (b11 pC hp)
          · rw [List.mem_singleton.1 hp]
            exact hframe _ _ _ _ _
        · simp only [b6]
          omega
      · rw [if_neg hz]
        obtain ⟨z1, z2⟩ := hnone (by omega)
        refine ⟨_, _, _, rfl, ⟨[(P, C)],
          [(C, { LEVEL := (root_cell (node.box L c N DOTS OCT) o cf lf).LEVEL,
                 OCTANT := (root_cell (node.box L c N DOTS OCT) o cf lf).OCTANT,
                 CENTER := (root_cell (node.box L c N DOTS OCT) o cf lf).CENTER,
                 NUMBER := c1.length + c2.length, FCLEAF := st.Lf,
                 NLEAFS := c1.length + c2.length, FCCELL := -1, NCELLS := 0 })],
          c2.reverse ++ c1.reverse, rfl, rfl, ?_, ?_, ?_, ?_, ?_, ?_, ?_, ?_⟩, ?_⟩
        · simp only [List.append_assoc]
        · simp only [z1, Nat.add_zero]
        · simp only [List.length_append, List.length_reverse]; omega
        · simp only [List.map_append, List.map_reverse, List.length_append, List.length_reverse]
          have := perm_leaf_keys st.Lf c1.length c2.length 0 _ _ [] k1 k2 (List.Perm.refl _)
          simpa using this
        · simp only [z1, List.map_cons, List.map_nil, List.range'_zero]
          exact List.Perm.refl _
        · simp only [z1, List.map_cons, List.map_nil, List.range'_zero]
          exact List.Perm.refl _
        · simp only [z2, List.map_cons, List.map_nil]
          exact List.Perm.refl _
        · intro pC hp
          rw [List.mem_singleton.1 hp]
          have := hframe (c1.length + c2.length) (-1) 0 [] []
          simpa using this
        · simp only
          omega

theorem sel_count_pos (LEAF : Nat → Nat) (F a n i : Nat) (h1 : a ≤ i) (h2 : i < a + n)
    (hs : is_set (LEAF i) F = true) : sel_count LEAF F a n ≠ 0 := by
  unfold sel_count
  have : 0 < (List.range' a n).countP (fun i => is_set (LEAF i) F) :=
    List.countP_pos_iff.2 ⟨i, by rw [List.mem_range'_1]; exact ⟨h1, h2⟩, hs⟩
  omega

theorem linked_leaf_range {P0 : node} {CELLS : List BasicCell} (hl : is_linked P0 CELLS)
    (c : Nat) (cell : BasicCell) (hc : CELLS[c]? = some cell) (i : Nat) :
    leaf_of_cell CELLS c i ↔ cell.FCLEAF ≤ i ∧ i < cell.FCLEAF + cell.NUMBER := by
  obtain ⟨Q, o, cf, lf, hin, hcell, _, hb⟩ := is_linked_cell hl hc
  subst hcell
  rw [root_cell_FCLEAF, root_cell_NUMBER _ _ _ _ hb]
  constructor
  · intro hi
    exact leaf_of_cell_range hl hi Q o cf lf hin
  · rintro ⟨h1, h2⟩
    exact range_leaf_of_cell hl Q o c cf lf hin i h1 h2

theorem linked_child_range {P0 : node} {CELLS : List BasicCell} (hl : is_linked P0 CELLS)
    (c : Nat) (cell : BasicCell) (hc : CELLS[c]? = some cell) (k : Nat)
    (hk : k ∈ child_range cell) :
    cell.FCCELL ≤ (k : Int) ∧ (k : Int) < cell.FCCELL + (cell.NCELLS : Int) := by
  obtain ⟨Q, o, cf, lf, hin, hcell, hW, hb⟩ := is_linked_cell hl hc
  cases Q with
  | null => cases hb
  | dot D => cases hb
  | box L ctr N DOTS OCT =>
    obtain ⟨ks, nl, _, _, _, _, _, _, h5, _, h7, _, _, _, h11, _⟩ :=
      cells_of_decomp L ctr N DOTS OCT hW o c cf lf
    rw [hcell] at hk ⊢
    rw [h5, List.mem_range'_1] at hk
    rw [h7, h11]
    have : ks.length ≠ 0 := by omega
    rw [if_pos this]
    omega

theorem beneath_leaf {P0 : node} {CELLS : List BasicCell} (hl : is_linked P0 CELLS)
    (c q : Nat) (hb : cell_beneath CELLS c q) (i : Nat) (hi : leaf_of_cell CELLS q i) :
    leaf_of_cell CELLS c i := by
  induction hb with
  | self c => exact hi
  | child c k q cell h hk _ ih =>
    obtain ⟨h1, h2⟩ := linked_child_range hl c cell h k hk
    exact leaf_of_cell.child c k i cell h h1 h2 (ih hi)

theorem nodup_of_perm_range (l : List Nat) (C a n : Nat) (hC : C < a)
    (h : List.Perm l (C :: List.range' a n)) :
    l.Nodup ∧ ∀ x ∈ l, x = C ∨ (a ≤ x ∧ x < a + n) := by
  constructor
  · rw [h.nodup_iff, List.nodup_cons]
    refine ⟨?_, List.nodup_range' _ _⟩
    rw [List.mem_range'_1]
    omega
  · intro x hx
    have := h.subset hx
    rcases List.mem_cons.1 this with e | hm
    · exact Or.inl e
    · rw [List.mem_range'_1] at hm
      exact Or.inr hm

theorem sub_tree_linked (fuel : Nat) (par : OctTree) (FLG : tree_flags) (F : Nat) (Ncrit : Int)
    (Nc Ns : Nat) (FLG1 : tree_flags) (dep num : Nat) (st1 : sub_state)
    (hm : mark_for_subtree fuel F Ncrit par.CELLS par.Nc FLG = Res.ok (Nc, Ns, FLG1))
    (hne : ¬ (Ns = 0 ∨ Nc = 0))
    (hlk : sub_link par.CELLS par.LEAFS FLG1 fuel 0 0
      { CELLS := [], LEAFS := [], CALLS := [], Cf := 1, Lf := 0 } = Res.ok (dep, num, st1)) :
    ∃ T, OctTree.sub_tree fuel par FLG F Ncrit = Res.ok (T, st1, FLG1) ∧
      T.Nc = Nc ∧ T.Ns = Ns ∧ T.DEPTH = dep ∧
      T.CELLS = store_all st1.CELLS (List.replicate Nc no_cell) ∧
      T.LEAFS = store_all st1.LEAFS (List.replicate Ns no_leaf) := by
  unfold OctTree.sub_tree
  simp only [hm, hne, if_false, sub_tree_builder.link, hlk]
  exact ⟨_, rfl, rfl, rfl, rfl, rfl, rfl⟩

theorem sub_tree_cells (fuel0 nc dm : Nat) (x0 : vect) (sz : real) (dots : List dot)
    (TB : box_dot_tree) (par : OctTree) (FLG : tree_flags) (F : Nat) (Ncrit : Int) (fuel : Nat)
    (h : tree_builder.build fuel0 (box_dot_tree.reset nc dm dots.length x0 sz) dots
      = Res.ok TB)
    (hp : par.made_of TB) (hN : Ncrit > 1) (hf : par.Nc ≤ fuel) :
    ∃ T st FLG1, OctTree.sub_tree fuel par FLG F Ncrit = Res.ok (T, st, FLG1) ∧
      (∀ p cell, par.CELLS[p]? = some cell →
        ((∃ C, (p, C) ∈ st.CALLS) ↔
          Ncrit ≤ (sel_count FLG.LEAF F cell.FCLEAF cell.NUMBER : Int))) ∧
      (∀ p C, (p, C) ∈ st.CALLS →
        ∃ pcell cell, par.CELLS[p]? = some pcell ∧ T.CELLS[C]? = some cell ∧
          cell.LEVEL = pcell.LEVEL ∧ cell.OCTANT = pcell.OCTANT ∧ cell.CENTER = pcell.CENTER ∧
          ∀ pc kid q i, pc ∈ child_range pcell → par.CELLS[pc]? = some kid →
            (sel_count FLG.LEAF F kid.FCLEAF kid.NUMBER : Int) < Ncrit →
            cell_beneath par.CELLS pc q → leaf_of_cell par.CELLS q i →
            is_set (FLG.LEAF i) F = true →
            ∃ m, cell.FCLEAF ≤ m ∧ m < cell.FCLEAF + cell.NLEAFS ∧
              (m, par.LEAFS.getD i no_leaf) ∈ st.LEAFS ∧
              (m < T.Ns → T.LEAFS[m]? = some (par.LEAFS.getD i no_leaf)) ∧
              ((∀ j, j < par.Ns → in_subtree (FLG.LEAF j) = true →
                  is_set (FLG.LEAF j) F = true) → m < T.Ns)) := by
  obtain ⟨hC, hL, hNc, hNs, hD⟩ := hp
  obtain ⟨hl, hBM, hND, hlen, hclen⟩ := built_layout fuel0 nc dm x0 sz dots TB h
  rw [hNc] at hf
  obtain ⟨FLG1, hm, hLEAF, hcell⟩ :=
    mark_for_subtree_built fuel0 nc dm x0 sz dots TB h F Ncrit hN fuel hf FLG
  rw [← hC, ← hNc] at hm
  rw [← hC] at hl
  have hsel_iff : ∀ cell : BasicCell, sel_cell FLG.LEAF F Ncrit cell = true ↔
      Ncrit ≤ (sel_count FLG.LEAF F cell.FCLEAF cell.NUMBER : Int) := by
    intro cell
    unfold sel_cell
    rw [decide_eq_true_iff]
    constructor
    · intro h1; exact h1.2
    · intro h1; exact ⟨by omega, h1⟩
  have hmem : ∀ p cell, par.CELLS[p]? = some cell → (p, cell) ∈ cells_of TB.P0 0 0 1 0 :=
    fun p cell hpc => hl.2.2.2.1 p cell hpc
  have huniq : ∀ x ∈ cells_of TB.P0 0 0 1 0, ∀ cell, par.CELLS[x.1]? = some cell →
      cell = x.2 := by
    intro x hx cell hpc
    exact Option.some.inj (hpc.symm.trans (hl.2.2.1 x hx))
  have hroot_cons := cells_of_cons TB.P0 hl.2.1 0 0 1 0
  have hroot_mem := cells_of_root_mem TB.P0 hl.2.1 0 0 1 0
  by_cases hemp : sel_count FLG.LEAF F 0 TB.NDOTS = 0 ∨
      (cells_of TB.P0 0 0 1 0).countP (fun x => sel_cell FLG.LEAF F Ncrit x.2) = 0
  · obtain ⟨T, st, hT, _, _, _, _, _, _, _, hcalls⟩ :=
      sub_tree_empty fuel par FLG F Ncrit _ _ FLG1 hm hemp
    refine ⟨T, st, FLG1, hT, ?_, ?_⟩
    · intro p cell hpc
      rw [hcalls]
      constructor
      · rintro ⟨C, hC2⟩; cases hC2
      · intro hge
        exfalso
        have hx := hmem p cell hpc
        rcases hemp with h0 | h0
        · have b := cells_of_bounds TB.P0 hl.1 hl.2.1 0 0 1 0 _ hx
          have := sel_count_mono FLG.LEAF F cell.FCLEAF cell.NUMBER 0 TB.NDOTS (Nat.zero_le _)
            (by have := b.2.2; simp only at this; omega)
          omega
        · rw [List.countP_eq_zero] at h0
          exact h0 _ hx ((hsel_iff cell).2 hge)
    · intro p C hpC
      rw [hcalls] at hpC
      cases hpC
  · have hflag : ∀ x ∈ cells_of TB.P0 0 0 1 0,
        is_subtreecell (FLG1.CELL x.1) = sel_cell FLG.LEAF F Ncrit x.2 := by
      intro x hx
      rw [hcell x hx, cell_mark_is_subtreecell]
      rfl
    have hrootsel : sel_cell FLG.LEAF F Ncrit (root_cell TB.P0 0 1 0) = true := by
      cases hs : sel_cell FLG.LEAF F Ncrit (root_cell TB.P0 0 1 0) with
      | true => rfl
      | false =>
        exact absurd (Or.inr (no_sel_beneath FLG.LEAF F Ncrit TB.P0 hl.1 hl.2.1 0 0 1 0 hs).1)
          hemp
    have hcnt : (cells_of TB.P0 0 0 1 0).countP (fun x => sel_cell FLG.LEAF F Ncrit x.2)
        = 1 + (cells_of TB.P0 0 0 1 0).tail.countP (fun x => sel_cell FLG.LEAF F Ncrit x.2) := by
      conv_lhs => rw [hroot_cons]
      rw [List.countP_cons, if_pos hrootsel]
      omega
    obtain ⟨dep, num, st1, hlk, ⟨nC, nK, nL, a1, a2, a3, a4, a5, a6, a7, a8, a9, a10⟩, a11⟩ :=
      sub_link_spec par.CELLS par.LEAFS FLG1 FLG.LEAF F Ncrit TB.P0 hl.1 hl.2.1 fuel 0 0 0
        1 0 { CELLS := [], LEAFS := [], CALLS := [], Cf := 1, Lf := 0 } (by omega) (by omega)
        hl.2.2.1 hflag
    simp only [List.append_nil] at a1 a2 a3
    simp only at a5 a6 a7 a8
    obtain ⟨T, hT, tNc, tNs, _, tC, tL⟩ :=
      sub_tree_linked fuel par FLG F Ncrit _ _ FLG1 dep num st1 hm hemp hlk
    refine ⟨T, st1, FLG1, hT, ?_, ?_⟩
    · intro p cell hpc
      have hx := hmem p cell hpc
      rw [← hsel_iff cell, a1]
      constructor
      · rintro ⟨C, hpC⟩
        have hp1 : p ∈ nC.map Prod.fst := List.mem_map.2 ⟨(p, C), hpC, rfl⟩
        have hp2 := a9.subset hp1
        rcases List.mem_cons.1 hp2 with e | hp3
        · subst e
          rw [huniq _ hroot_mem cell hpc]
          exact hrootsel
        · obtain ⟨x, hx1, hx2⟩ := List.mem_map.1 hp3
          obtain ⟨hx3, hx4⟩ := List.mem_filter.1 hx1
          rw [← hx2] at hpc
          rw [huniq x (List.mem_of_mem_tail hx3) cell hpc]
          exact hx4
      · intro hs
        rw [hroot_cons] at hx
        have hp2 : p ∈ nC.map Prod.fst := by
          apply a9.symm.subset
          rcases List.mem_cons.1 hx with e | hx3
          · rw [(Prod.mk.inj e).1]
            exact List.mem_cons_self _ _
          · exact List.mem_cons_of_mem _
              (List.mem_map.2 ⟨(p, cell), List.mem_filter.2 ⟨hx3, hs⟩, rfl⟩)
        obtain ⟨y, hy1, hy2⟩ := List.mem_map.1 hp2
        exact ⟨y.2, by rw [← hy2]; exact hy1⟩
    · intro p C hpC
      rw [a1] at hpC
      obtain ⟨cell, f1, f2, f3, f4, f5⟩ := a10 (p, C) hpC
      simp only at f1 f2 f3 f4 f5
      have hp1 : p ∈ nC.map Prod.fst := List.mem_map.2 ⟨(p, C), hpC, rfl⟩
      have hp2 := a9.subset hp1
      have hpin : ∃ pcell, (p, pcell) ∈ cells_of TB.P0 0 0 1 0 := by
        rcases List.mem_cons.1 hp2 with e | hp3
        · exact ⟨_, by rw [e]; exact hroot_mem⟩
        · obtain ⟨x, hx1, hx2⟩ := List.mem_map.1 hp3
          exact ⟨x.2, by rw [← hx2]; exact List.mem_of_mem_tail (List.mem_filter.1 hx1).1⟩
      obtain ⟨pcell, hpin⟩ := hpin
      have hpc := hl.2.2.1 _ hpin
      simp only at hpc
      have hgetp : par.CELLS.getD p no_cell = pcell := by
        rw [List.getD_eq_getElem?_getD, hpc]; rfl
      rw [hgetp] at f2 f3 f4 f5
      obtain ⟨hnd, hrange⟩ := nodup_of_perm_range _ 0 1 _ (by omega) a8
      have hCin := hrange C (List.mem_map.2 ⟨(C, cell), f1, rfl⟩)
      have hTC : T.CELLS[C]? = some cell := by
        rw [tC, a2]
        apply store_all_get _ _ hnd C cell f1
        rw [List.length_replicate, hcnt]
        omega
      have hndL : (nL.map Prod.fst).Nodup := by
        rw [a6.nodup_iff]; exact List.nodup_range' _ _
      refine ⟨pcell, cell, hpc, hTC, f2, f3, f4, ?_⟩
      intro pc kid q i hpcr hkid hlt hbe hlo hset
      have hli := beneath_leaf hl pc q hbe i hlo
      rw [linked_leaf_range hl pc kid hkid i] at hli
      have hkin := hl.2.2.2.1 pc kid hkid
      have bk := cells_of_bounds TB.P0 hl.1 hl.2.1 0 0 1 0 _ hkin
      simp only at bk
      have hiN : i < TB.NDOTS := by omega
      have hgetk : par.CELLS.getD pc no_cell = kid := by
        rw [List.getD_eq_getElem?_getD, hkid]; rfl
      have hpos := sel_count_pos FLG.LEAF F kid.FCLEAF kid.NUMBER i hli.1 hli.2 hset
      have hinsL : in_subtree (FLG1.LEAF i) = true := by
        rw [hLEAF, leaf_mark_in_subtree]
        simp [hset, hiN]
      have hk1 : is_subtreecell (FLG1.CELL pc) = false := by
        have := hcell _ hkin
        simp only at this
        rw [this, cell_mark_is_subtreecell]
        apply decide_eq_false
        intro hcon
        exact absurd hcon.2 (by omega)
      have hk2 : in_subtree (FLG1.CELL pc) = true := by
        have := hcell _ hkin
        simp only at this
        rw [this, cell_mark_in_subtree]
        exact decide_eq_true hpos
      obtain ⟨m, m1, m2, m3⟩ := f5 i hinsL (Or.inr ⟨pc, hpcr, hk1, hk2, by
        rw [hgetk]; unfold all_leafs; rw [List.mem_range'_1]; exact hli⟩)
      refine ⟨m, m1, m2, by rw [a3]; exact m3, ?_, ?_⟩
      · intro hmN
        rw [tL, a3]
        apply store_all_get nL _ hndL m _ m3
        rw [List.length_replicate, ← tNs]
        exact hmN
      · intro hclean
        have hmk : m ∈ nL.map Prod.fst := List.mem_map.2 ⟨_, m3, rfl⟩
        have hmr := a6.subset hmk
        rw [List.mem_range'_1] at hmr
        have hcl : sel_count FLG1.LEAF SUBTREE 0 TB.NDOTS = sel_count FLG.LEAF F 0 TB.NDOTS := by
          unfold sel_count
          apply List.countP_congr
          intro j hj
          rw [List.mem_range'_1] at hj
          have e1 : is_set (FLG1.LEAF j) SUBTREE = in_subtree (FLG1.LEAF j) := rfl
          rw [e1, hLEAF, leaf_mark_in_subtree]
          have hjN : j < par.Ns := by omega
          cases hs : is_set (FLG.LEAF j) F with
          | true =>
            have : j < TB.NDOTS := by omega
            simp [this]
          | false =>
            cases hi : in_subtree (FLG.LEAF j) with
            | true => rw [hclean j hjN hi] at hs; cases hs
            | false => simp
        rw [← hND, hcl] at a11
        simp only at a5 a11
        omega

theorem four_bodies_tree :
    ∃ par c sz dots TB, OctTree.from_bodies 10 four_bodies 1 none 10 0 = Res.ok par ∧
      tree_builder.build 10 (box_dot_tree.reset 1 10 dots.length c sz) dots = Res.ok TB ∧
      par.made_of TB ∧ par.Nc = 3 ∧ par.Ns = 4 ∧ par.DEPTH = 2 ∧
      ∀ cell ∈ par.CELLS, (2 : Int) ≤ (cell.NUMBER : Int) := by
  have h : (match OctTree.from_bodies 10 four_bodies 1 none 10 0 with
      | Res.ok par => decide (par.Nc = 3 ∧ par.Ns = 4 ∧ par.DEPTH = 2) &&
          par.CELLS.all (fun cell => decide ((2 : Int) ≤ (cell.NUMBER : Int)))
      | _ => false) = true := by decide!
  split at h
  · rename_i par hpar
    rw [Bool.and_eq_true] at h
    obtain ⟨h1, h2⟩ := h
    have h1 := of_decide_eq_true h1
    obtain ⟨c, sz, dots, TB, hb, hm⟩ :=
      from_bodies_made_of 10 four_bodies 1 none 10 0 par hpar (by rw [h1.2.1]; decide)
    refine ⟨par, c, sz, dots, TB, hpar, hb, hm, h1.1, h1.2.1, h1.2.2, ?_⟩
    intro cell hc
    exact of_decide_eq_true (List.all_eq_true.1 h2 cell hc)
  · cases h

theorem same_shape_isBox {P Q : node} (h : same_shape P Q) : P.isBox = Q.isBox := by
  cases h <;> rfl

theorem same_shape_is_twig {P Q : node} (h : same_shape P Q) : P.is_twig = Q.is_twig := by
  cases h with
  | null => rfl
  | dot D => rfl
  | box L c N DOTS D1 OCT O1 hp h =>
    simp only [node.is_twig]
    cases DOTS with
    | nil => rw [List.Perm.nil_eq hp]
    | cons d ds =>
      cases D1 with
      | nil => exact absurd hp.symm (List.not_perm_nil_cons _ _)
      | cons e es => rfl

theorem same_shape_cases {P Q : node} (h : same_shape P Q) :
    (P = node.null ∧ Q = node.null) ∨ (∃ D, P = node.dot D ∧ Q = node.dot D) ∨
      ∃ L c N DOTS D1 OCT O1, P = node.box L c N DOTS OCT ∧ Q = node.box L c N D1 O1 ∧
        List.Perm DOTS D1 ∧ ∀ i, same_shape (OCT i) (O1 i) := by
  cases h with
  | null => exact Or.inl ⟨rfl, rfl⟩
  | dot D => exact Or.inr (Or.inl ⟨D, rfl, rfl⟩)
  | box L c N DOTS D1 OCT O1 hp h =>
    exact Or.inr (Or.inr ⟨L, c, N, DOTS, D1, OCT, O1, rfl, rfl, hp, h⟩)

theorem same_shape_dot_kids (OCT O1 : Fin 8 → node) (h : ∀ i, same_shape (OCT i) (O1 i))
    (l : List (Fin 8)) : dot_kids OCT l = dot_kids O1 l := by
  induction l with
  | nil => rfl
  | cons i l ih =>
    simp only [dot_kids]
    rcases same_shape_cases (h i) with ⟨e1, e2⟩ | ⟨D, e1, e2⟩ |
      ⟨L, c, N, DOTS, D1, O, O2, e1, e2, _, _⟩
    · rw [e1, e2]; exact ih
    · rw [e1, e2, ih]
    · rw [e1, e2]; exact ih

theorem same_shape_box_kids (OCT O1 : Fin 8 → node) (h : ∀ i, same_shape (OCT i) (O1 i))
    (l : List (Fin 8)) : box_kids OCT l = box_kids O1 l := by
  unfold box_kids
  apply List.filter_congr
  intro i _
  exact same_shape_isBox (h i)

theorem same_shape_layout {P Q : node} (h : same_shape P Q) :
    sub_cells P = sub_cells Q ∧ List.Perm (link_order P) (link_order Q) ∧
      ∀ o C cf lf, cells_of P o C cf lf = cells_of Q o C cf lf := by
  induction h with
  | null => exact ⟨rfl, List.Perm.refl _, fun _ _ _ _ => rfl⟩
  | dot D => exact ⟨rfl, List.Perm.refl _, fun _ _ _ _ => rfl⟩
  | box L c N DOTS D1 OCT O1 hp h ih =>
    have htw := same_shape_is_twig (same_shape.box L c N DOTS D1 OCT O1 hp h)
    have hdk := same_shape_dot_kids OCT O1 h (List.finRange 8)
    have hbk := same_shape_box_kids OCT O1 h (List.finRange 8)
    have e1 : (fun k => sub_cells (OCT k)) = (fun k => sub_cells (O1 k)) :=
      funext (fun k => (ih k).1)
    have e2 : (fun k => (link_order (OCT k)).length) = (fun k => (link_order (O1 k)).length) :=
      funext (fun k => (ih k).2.1.length_eq)
    have e3 : (fun (k : Fin 8) c1 cf1 lf1 => cells_of (OCT k) k.val c1 cf1 lf1)
        = (fun (k : Fin 8) c1 cf1 lf1 => cells_of (O1 k) k.val c1 cf1 lf1) := by
      funext k c1 cf1 lf1
      exact (ih k).2.2 _ _ _ _
    refine ⟨?_, ?_, ?_⟩
    · simp only [sub_cells, htw, hbk]
      have : (fun k => 1 + sub_cells (OCT k)) = (fun k => 1 + sub_cells (O1 k)) :=
        funext (fun k => by rw [(ih k).1])
      rw [this]
    · simp only [link_order, htw, hdk, hbk]
      by_cases ht : (node.box L c N D1 O1).is_twig = true
      · simp only [ht, if_true]; exact hp
      · simp only [ht, if_false, Bool.false_eq_true]
        refine List.Perm.append_left _ ?_
        generalize box_kids O1 (List.finRange 8) = ks
        induction ks with
        | nil => exact List.Perm.refl _
        | cons k ks ih2 =>
          simp only [List.flatMap_cons]
          exact List.Perm.append (ih k).2.1 ih2
    · intro o C cf lf
      simp only [cells_of, root_cell, htw, hdk, hbk, e1, e2, e3]

theorem slice_mid {α : Type} (A M B : List α) (a n : Nat) (h : a + n ≤ M.length) :
    leaf_slice (A ++ M ++ B) (A.length + a) n = leaf_slice M a n := by
  unfold leaf_slice
  rw [List.append_assoc, List.drop_append, List.drop_append_eq_append_drop]
  have h1 : a - M.length = 0 := by omega
  rw [h1, List.drop_zero, List.take_append_eq_append_take]
  have h2 : n - (M.drop a).length = 0 := by rw [List.length_drop]; omega
  rw [h2, List.take_zero, List.append_nil]

theorem slice_all {α : Type} (l : List α) : leaf_slice l 0 l.length = l := by
  unfold leaf_slice
  rw [List.drop_zero, List.take_length]

theorem flatMap_split {α β : Type} (f : α → List β) (ks : List α) :
    ∀ (j : Nat) (k : α), ks[j]? = some k →
      ks.flatMap f = (ks.take j).flatMap f ++ f k ++ (ks.drop (j + 1)).flatMap f := by
  induction ks with
  | nil => intro j k h; simp at h
  | cons a ks ih =>
    intro j k h
    cases j with
    | zero =>
      simp only [List.getElem?_cons_zero, Option.some.injEq] at h
      subst h
      simp
    | succ j =>
      simp only [List.getElem?_cons_succ] at h
      simp only [List.flatMap_cons, List.take_succ_cons, List.drop_succ_cons, List.append_assoc]
      rw [ih j k h]
      simp only [List.append_assoc]

theorem length_flatMap_take {α β : Type} (f : α → List β) (ks : List α) (j : Nat) :
    ((ks.take j).flatMap f).length = ((ks.take j).map (fun k => (f k).length)).sum := by
  generalize ks.take j = l
  induction l with
  | nil => rfl
  | cons a l ih => simp only [List.flatMap_cons, List.length_append, ih, List.map_cons, List.sum_cons]

theorem same_shape_slices {P Q : node} (h : same_shape P Q) : WF P → WF Q →
    ∀ o C cf lf, ∀ x ∈ cells_of P o C cf lf,
      List.Perm (leaf_slice (link_order P) (x.2.FCLEAF - lf) x.2.NUMBER)
        (leaf_slice (link_order Q) (x.2.FCLEAF - lf) x.2.NUMBER) := by
  induction h with
  | null => intro _ _ o C cf lf x hx; cases hx
  | dot D => intro _ _ o C cf lf x hx; cases hx
  | box L c N DOTS D1 OCT O1 hp h ih =>
    intro hWP hWQ o C cf lf x hx
    have hs := same_shape.box L c N DOTS D1 OCT O1 hp h
    have hlay := same_shape_layout hs
    have htw := same_shape_is_twig hs
    obtain ⟨ks, nl, hks, hc, h1, h2, h3, h4, _, _, _, _, _, _, _, hke⟩ :=
      cells_of_decomp L c N DOTS OCT hWP o C cf lf
    rw [hc] at hx
    rcases List.mem_cons.1 hx with e | hx
    · subst e
      simp only
      rw [h2, h3, ← h4, Nat.sub_self, slice_all]
      have : (link_order (node.box L c N DOTS OCT)).length
          = (link_order (node.box L c N D1 O1)).length := hlay.2.1.length_eq
      rw [this, slice_all]
      exact hlay.2.1
    · rw [kids_cells_mem] at hx
      obtain ⟨j, k, hjk, hxk⟩ := hx
      have hk : k ∈ ks := List.getElem?_mem hjk
      have hnt : (node.box L c N DOTS OCT).is_twig = false := by
        cases ht : (node.box L c N DOTS OCT).is_twig with
        | false => rfl
        | true => rw [ht] at hke; simp only [if_true] at hke; rw [hke] at hk; cases hk
      have hnt2 : (node.box L c N D1 O1).is_twig = false := by rw [← htw]; exact hnt
      rw [hnt] at hke
      simp only [Bool.false_eq_true, if_false] at hke
      have hbk := same_shape_box_kids OCT O1 h (List.finRange 8)
      have hdk := same_shape_dot_kids OCT O1 h (List.finRange 8)
      have hnl : nl = (dot_kids OCT (List.finRange 8)).length := by
        have := h1
        simp only [root_cell, hnt, Bool.false_eq_true, if_false] at this
        exact this.symm
      have b := cells_of_bounds (OCT k) (hks k hk).2 (hks k hk).1 _ _ _ _ x hxk
      have hih := ih k (hks k hk).2 (hWQ.2.2 k) k.val (cf + j)
        (cf + ks.length + ((ks.take j).map (fun k => sub_cells (OCT k))).sum)
        (lf + nl + ((ks.take j).map (fun k => (link_order (OCT k)).length)).sum) x hxk
      have hoff : x.2.FCLEAF - lf
          = (dot_kids OCT (List.finRange 8) ++
              (ks.take j).flatMap (fun k => link_order (OCT k))).length
            + (x.2.FCLEAF
                - (lf + nl + ((ks.take j).map (fun k => (link_order (OCT k)).length)).sum)) := by
        rw [List.length_append, length_flatMap_take, ← hnl]
        omega
      have hoff2 : x.2.FCLEAF - lf
          = (dot_kids O1 (List.finRange 8) ++
              (ks.take j).flatMap (fun k => link_order (O1 k))).length
            + (x.2.FCLEAF
                - (lf + nl + ((ks.take j).map (fun k => (link_order (OCT k)).length)).sum)) := by
        rw [List.length_append, length_flatMap_take, ← hdk, ← hnl]
        have : (fun k => (link_order (O1 k)).length) = (fun k => (link_order (OCT k)).length) :=
          funext (fun k => ((same_shape_layout (h k)).2.1.length_eq).symm)
        rw [this]
        omega
      have hP : link_order (node.box L c N DOTS OCT)
          = (dot_kids OCT (List.finRange 8) ++
              (ks.take j).flatMap (fun k => link_order (OCT k))) ++ link_order (OCT k)
            ++ (ks.drop (j + 1)).flatMap (fun k => link_order (OCT k)) := by
        simp only [link_order, hnt, Bool.false_eq_true, if_false, ← hke]
        rw [flatMap_split (fun k => link_order (OCT k)) ks j k hjk]
        simp only [List.append_assoc]
      have hQ : link_order (node.box L c N D1 O1)
          = (dot_kids O1 (List.finRange 8) ++
              (ks.take j).flatMap (fun k => link_order (O1 k))) ++ link_order (O1 k)
            ++ (ks.drop (j + 1)).flatMap (fun k => link_order (O1 k)) := by
        simp only [link_order, hnt2, Bool.false_eq_true, if_false, ← hbk, ← hke]
        rw [flatMap_split (fun k => link_order (O1 k)) ks j k hjk]
        simp only [List.append_assoc]
      have hlen : (link_order (OCT k)).length = (link_order (O1 k)).length :=
        (same_shape_layout (h k)).2.1.length_eq
      conv_lhs => rw [hP, hoff, slice_mid _ _ _ _ _ (by omega)]
      conv_rhs => rw [hQ, hoff2, slice_mid _ _ _ _ _ (by omega)]
      exact hih

theorem filter_flatMap_octant {β : Type} (F : Fin 8 → List β) (g : β → Fin 8)
    (hF : ∀ i, ∀ d ∈ F i, g d = i) (b : Fin 8) :
    ∀ l : List (Fin 8), l.Nodup →
      (l.flatMap F).filter (fun d => decide (g d = b)) = if b ∈ l then F b else [] := by
  intro l
  induction l with
  | nil => intro _; rfl
  | cons i l ih =>
    intro hnd
    rw [List.nodup_cons] at hnd
    rw [List.flatMap_cons, List.filter_append, ih hnd.2]
    by_cases hib : i = b
    · subst hib
      have h1 : (F i).filter (fun d => decide (g d = i)) = F i := by
        rw [List.filter_eq_self]
        intro d hd
        exact decide_eq_true (hF i d hd)
      rw [h1, if_neg hnd.1, if_pos (List.mem_cons_self _ _), List.append_nil]
    · have h1 : (F i).filter (fun d => decide (g d = b)) = [] := by
        rw [List.filter_eq_nil_iff]
        intro d hd
        rw [decide_eq_true_iff, hF i d hd]
        exact hib
      rw [h1, List.nil_append]
      by_cases hb : b ∈ l
      · rw [if_pos hb, if_pos (List.mem_cons_of_mem _ hb)]
      · rw [if_neg hb, if_neg]
        intro h
        rcases List.mem_cons.1 h with e | h
        · exact hib e.symm
        · exact hb h

theorem dots_of_octant (NCRIT DMAX : Nat) (RA : List real) (L : Nat) (c : vect) (N : Nat)
    (OCT : Fin 8 → node) (hp : placed NCRIT DMAX RA (node.box L c N [] OCT)) (b : Fin 8) :
    (dots_of (node.box L c N [] OCT)).filter (fun d => decide (octantF c d.POS = b))
      = dots_of (OCT b) := by
  simp only [dots_of, List.nil_append]
  rw [filter_flatMap_octant (fun i => dots_of (OCT i)) (fun d => octantF c d.POS)
    (fun i => (hp.2.2 i).1) b (List.finRange 8) (List.nodup_finRange 8),
    if_pos (List.mem_finRange b)]

theorem WF_twig_number (L : Nat) (c : vect) (N : Nat) (DOTS : List dot) (OCT : Fin 8 → node)
    (hW : WF (node.box L c N DOTS OCT)) (hD : DOTS ≠ []) :
    dots_of (node.box L c N DOTS OCT) = DOTS ∧ N = DOTS.length := by
  have hnull := hW.2.1 hD
  have h1 : dots_of (node.box L c N DOTS OCT) = DOTS := by
    have : (fun i => dots_of (OCT i)) = fun _ => [] := funext (fun i => by rw [hnull i]; rfl)
    show DOTS ++ (List.finRange 8).flatMap (fun i => dots_of (OCT i)) = DOTS
    rw [this, flatMap_const_nil, List.append_nil]
  exact ⟨h1, by rw [hW.1, h1]⟩

theorem canonical_unique (NCRIT DMAX : Nat) (RA : List real) (P : node) :
    ∀ (L : Nat) (c : vect) (N : Nat) (D : List dot) (O : Fin 8 → node),
      P = node.box L c N D O → ∀ (N1 : Nat) (D1 : List dot) (O1 : Fin 8 → node),
      WF P → WF (node.box L c N1 D1 O1) → placed NCRIT DMAX RA P →
      placed NCRIT DMAX RA (node.box L c N1 D1 O1) → shaped NCRIT P →
      shaped NCRIT (node.box L c N1 D1 O1) → (D = [] ↔ D1 = []) →
      List.Perm (dots_of P) (dots_of (node.box L c N1 D1 O1)) →
      same_shape P (node.box L c N1 D1 O1) := by
  induction P with
  | null => intro L c N D O h; cases h
  | dot E => intro L c N D O h; cases h
  | box L0 c0 N0 DOTS OCT ih =>
    intro L c N D O hP N1 D1 O1 hWP hWQ hpP hpQ hsP hsQ hD hperm
    cases hP
    have hN : N0 = N1 := by rw [hWP.1, hWQ.1]; exact hperm.length_eq
    subst hN
    by_cases hDe : DOTS = []
    · have hD1 : D1 = [] := hD.1 hDe
      subst hDe
      subst hD1
      refine same_shape.box _ _ _ _ _ _ _ (List.Perm.refl _) ?_
      intro i
      have e1 := dots_of_octant NCRIT DMAX RA L0 c0 N0 OCT hpP i
      have e2 := dots_of_octant NCRIT DMAX RA L0 c0 N0 O1 hpQ i
      have hpi : List.Perm (dots_of (OCT i)) (dots_of (O1 i)) := by
        rw [← e1, ← e2]
        exact hperm.filter _
      have hWi := hWP.2.2 i
      have hWj := hWQ.2.2 i
      have hsi := hsP i
      have hsj := hsQ i
      have hpli := hpP.2.2 i
      have hplj := hpQ.2.2 i
      have ihi := ih i
      cases hOi : OCT i with
      | null =>
        rw [hOi] at hpi
        cases hOj : O1 i with
        | null => exact same_shape.null
        | dot E =>
          rw [hOj] at hpi
          exact absurd hpi.length_eq (by simp [dots_of])
        | box L2 c2 N2 D2 O2 =>
          rw [hOj] at hpi hWj
          have := (hsj.1 L2 c2 N2 D2 O2 hOj).1
          have h0 := hpi.length_eq
          rw [← hWj.1] at h0
          simp only [dots_of, List.length_nil] at h0
          omega
      | dot E =>
        rw [hOi] at hpi
        cases hOj : O1 i with
        | null =>
          rw [hOj] at hpi
          exact absurd hpi.length_eq (by simp [dots_of])
        | dot E2 =>
          rw [hOj] at hpi
          simp only [dots_of] at hpi
          have : E = E2 := by
            have := hpi.subset (List.mem_singleton_self E)
            exact List.mem_singleton.1 this
          subst this
          exact same_shape.dot E
        | box L2 c2 N2 D2 O2 =>
          rw [hOj] at hpi hWj
          have := (hsj.1 L2 c2 N2 D2 O2 hOj).1
          have h0 := hpi.length_eq
          rw [← hWj.1] at h0
          simp only [dots_of, List.length_singleton] at h0
          omega
      | box L1 c1 N1 D1 O2 =>
        rw [hOi] at hpi hWi hsi hpli ihi
        have hs1 := hsi.1 L1 c1 N1 D1 O2 rfl
        cases hOj : O1 i with
        | null =>
          rw [hOj] at hpi
          have h0 := hpi.length_eq
          rw [← hWi.1] at h0
          simp only [dots_of, List.length_nil] at h0
          omega
        | dot E2 =>
          rw [hOj] at hpi
          have h0 := hpi.length_eq
          rw [← hWi.1] at h0
          simp only [dots_of, List.length_singleton] at h0
          omega
        | box L2 c2 N2 D2 O3 =>
          rw [hOj] at hpi hWj hsj hplj
          have hs2 := hsj.1 L2 c2 N2 D2 O3 rfl
          have g1 := hpli.2.1 L1 c1 N1 D1 O2 rfl
          have g2 := hplj.2.1 L2 c2 N2 D2 O3 rfl
          rw [g1] at g2
          have hLc : L1 = L2 ∧ c1 = c2 := by
            have := Res.ok.inj g2
            exact ⟨(Prod.mk.inj this).1, (Prod.mk.inj this).2⟩
          obtain ⟨eL, ec⟩ := hLc
          subst eL
          subst ec
          have hNN : N1 = N2 := by rw [hWi.1, hWj.1]; exact hpi.length_eq
          refine ihi L1 c1 N1 D1 O2 rfl N2 D2 O3 hWi hWj hpli.2.2 hplj.2.2 hsi.2 hsj.2 ?_ hpi
          constructor
          · intro hd1
            by_contra hd2
            have := (WF_twig_number L1 c1 N2 D2 O3 hWj hd2).2
            have := hplj.2.2.2.1
            have := hs1.2 hd1
            omega
          · intro hd2
            by_contra hd1
            have := (WF_twig_number L1 c1 N1 D1 O2 hWi hd1).2
            have := hpli.2.2.2.1
            have := hs2.2 hd2
            omega
    · have hD1 : D1 ≠ [] := fun h => hDe (hD.2 h)
      obtain ⟨d1, _⟩ := WF_twig_number L0 c0 N0 DOTS OCT hWP hDe
      obtain ⟨d2, _⟩ := WF_twig_number L0 c0 N0 D1 O1 hWQ hD1
      rw [d1, d2] at hperm
      refine same_shape.box _ _ _ _ _ _ _ hperm ?_
      intro i
      rw [hWP.2.1 hDe i, hWQ.2.1 hD1 i]
      exact same_shape.null

theorem split_step_box {DMAX : Nat} {RA : List real} {L : Nat} {c : vect}
    {LST : Fin 8 → List dot} {s s1 : split_state} {b : Fin 8}
    (h : split_step DMAX RA L c LST s b = Res.ok s1) (hb : s.OCT b = node.null)
    (hbox : (s1.OCT b).isBox = true) : 2 ≤ (LST b).length := by
  unfold split_step at h
  split at h
  · injection h with e
    subst e
    rw [hb] at hbox
    cases hbox
  · injection h with e
    subst e
    simp only [Function.update_same] at hbox
    cases hbox
  · rename_i D D1 rest h0
    rw [h0]
    simp

theorem split_loop_box {DMAX : Nat} {RA : List real} {L : Nat} {c : vect}
    {LST : Fin 8 → List dot} :
    ∀ (bs : List (Fin 8)) (s s1 : split_state),
      split_loop DMAX RA L c LST bs s = Res.ok s1 → bs.Nodup → (∀ b ∈ bs, s.OCT b = node.null) →
        ∀ b ∈ bs, (s1.OCT b).isBox = true → 2 ≤ (LST b).length := by
  intro bs
  induction bs with
  | nil => intro s s1 _ _ _ b hb; cases hb
  | cons a bs ih =>
    intro s s1 h hnd hnull
    rw [List.nodup_cons] at hnd
    simp only [split_loop] at h
    split at h
    · rename_i s2 hstep
      obtain ⟨v, hO, _, _, _⟩ := split_step_inv hstep (hnull a (by simp))
      have hnull2 : ∀ b ∈ bs, s2.OCT b = node.null := by
        intro b hb
        have hne : b ≠ a := fun e => hnd.1 (e ▸ hb)
        rw [hO, Function.update_noteq hne]
        exact hnull b (by simp [hb])
      obtain ⟨k1, _, _, _⟩ := split_loop_inv bs s2 s1 h hnd.2 hnull2
      intro b hb hbox
      rcases List.mem_cons.1 hb with e | e
      · subst e
        rw [k1 b hnd.1] at hbox
        exact split_step_box hstep (hnull b (by simp)) hbox
      · exact ih s2 s1 h hnd.2 hnull2 b e hbox
    · cases h
    · cases h

theorem shaped_twig (NCRIT : Nat) (L : Nat) (c : vect) (N : Nat) (DOTS : List dot) :
    shaped NCRIT (node.box L c N DOTS (fun _ => node.null)) :=
  fun _ => ⟨fun _ _ _ _ _ h => (by cases h), trivial⟩

theorem shaped_store (NCRIT : Nat) (L : Nat) (c : vect) (N N1 : Nat) (DOTS D1 : List dot)
    (OCT : Fin 8 → node) (b : Fin 8) (v : node)
    (hP : shaped NCRIT (node.box L c N DOTS OCT)) (hv : shaped NCRIT v)
    (hs : ∀ L1 c1 N2 D2 O2, v = node.box L1 c1 N2 D2 O2 → 2 ≤ N2 ∧ (D2 = [] → NCRIT < N2)) :
    shaped NCRIT (node.box L c N1 D1 (Function.update OCT b v)) := by
  intro i
  by_cases hi : i = b
  · subst hi
    rw [Function.update_same]
    exact ⟨hs, hv⟩
  · rw [Function.update_noteq hi]
    exact hP i

theorem split_ne_one (c : vect) (DOTS : List dot) (b : Fin 8)
    (hne : (List.finRange 8).countP (fun b => decide ((sort_dots c DOTS b).length ≠ 0)) = 1)
    (hb : (sort_dots c DOTS b).length ≠ 0) :
    (sort_dots c DOTS b).length = DOTS.length ∧
      ∀ i, i ≠ b → (sort_dots c DOTS i).length = 0 := by
  have hother : ∀ i, i ≠ b → (sort_dots c DOTS i).length = 0 := by
    intro i hib
    by_contra hz
    have := countP_two (fun b => decide ((sort_dots c DOTS b).length ≠ 0))
      (List.finRange 8) i b (List.mem_finRange i) (List.mem_finRange b) hib
      (decide_eq_true hz) (decide_eq_true hb)
    omega
  refine ⟨?_, hother⟩
  have hsum := sort_dots_length c DOTS
  have h1 := sum_le_single (fun b => (sort_dots c DOTS b).length) (List.finRange 8) b
    (List.nodup_finRange 8) (fun i _ hib => hother i hib)
  have h2 := mem_le_sum (fun b => (sort_dots c DOTS b).length) (List.finRange 8) b
    (List.mem_finRange b)
  simp only at h1 h2
  omega

theorem split_box_shaped (NCRIT DMAX : Nat) (RA : List real) :
    ∀ (fuel : Nat) (first : Bool) (L : Nat) (c : vect) (DOTS : List dot) (BM : Nat) (P1 : node)
      (BM1 : Nat),
      split_box DMAX RA fuel first (node.box L c DOTS.length DOTS (fun _ => node.null)) BM
          = Res.ok (P1, BM1) →
        NCRIT < DOTS.length → shaped NCRIT P1 := by
  intro fuel
  induction fuel with
  | zero => intro first L c DOTS BM P1 BM1 h; simp [split_box] at h
  | succ fuel ih =>
    intro first L c DOTS BM P1 BM1 h hlen
    simp only [split_box] at h
    split at h
    · rename_i s hloop
      obtain ⟨_, h2, _, h4⟩ := split_loop_inv (List.finRange 8) _ s hloop
        (List.nodup_finRange 8) (fun _ _ => rfl)
      obtain ⟨m1, m2, m3, m4⟩ := split_loop_more (List.finRange 8) _ s hloop
        (List.nodup_finRange 8) (fun _ _ => rfl)
      have hb2 := split_loop_box (List.finRange 8) _ s hloop
        (List.nodup_finRange 8) (fun _ _ => rfl)
      simp only [Nat.zero_add] at h4 m2 m4
      have hslot : ∀ b, split_slot (sort_dots c DOTS) b (s.OCT b) :=
        fun b => h2 b (List.mem_finRange b)
      have slotS : ∀ i, (∀ L1 c1 N1 D1 O1, s.OCT i = node.box L1 c1 N1 D1 O1 →
            2 ≤ N1 ∧ (D1 = [] → NCRIT < N1)) ∧ shaped NCRIT (s.OCT i) := by
        intro i
        cases hv : s.OCT i with
        | null => exact ⟨fun _ _ _ _ _ h => (by cases h), trivial⟩
        | dot D => exact ⟨fun _ _ _ _ _ h => (by cases h), trivial⟩
        | box L1 c1 N1 D1 O1 =>
          obtain ⟨l, c2, e⟩ := (hslot i).2.2.1 (by rw [hv]; rfl)
          have h2i := hb2 i (List.mem_finRange i) (by rw [hv]; rfl)
          rw [hv] at e
          injection e with e1 e2 e3 e4 e5
          subst e1 e2 e3 e4 e5
          refine ⟨?_, shaped_twig NCRIT _ _ _ _⟩
          intro L1 c1 N1 D1 O1 e
          injection e with e1 e2 e3 e4 e5
          subst e3 e4
          refine ⟨h2i, ?_⟩
          intro hnil
          rw [hnil] at h2i
          simp at h2i
      split at h
      · rename_i hne
        split at h
        · rename_i b hsb
          have hbox : (s.OCT b).isBox = true := by
            rcases h4 with h4 | ⟨b1, e1, _, e3⟩
            · rw [hsb] at h4; cases h4
            · rw [hsb] at e1; injection e1 with e1; subst e1; exact e3
          have hbl : 2 ≤ (sort_dots c DOTS b).length := hb2 b (List.mem_finRange b) hbox
          obtain ⟨l, c1, hv⟩ := (hslot b).2.2.1 hbox
          split at h
          · rename_i Q BM2 hrec
            injection h with h
            injection h with e1 e2
            subst e1 e2
            rw [hv] at hrec
            have hall := (split_ne_one c DOTS b (by rw [← m2]; exact hne) (by omega)).1
            have hQ := ih false l c1 _ s.BM Q BM2 hrec (by omega)
            obtain ⟨_, _, _, OCT1, q4⟩ := split_box_inv DMAX RA fuel false l c1 _ s.BM Q BM2 hrec
            intro i
            by_cases hi : i = b
            · subst hi
              rw [Function.update_same]
              refine ⟨?_, hQ⟩
              intro L1 c2 N1 D1 O1 e
              rw [q4] at e
              injection e with e1 e2 e3 e4 e5
              subst e3 e4
              exact ⟨hbl, fun _ => by omega⟩
            · rw [Function.update_noteq hi]
              exact slotS i
          · cases h
          · cases h
        · split at h
          · cases h
          · injection h with h
            injection h with e1 e2
            subst e1 e2
            exact slotS
      · injection h with h
        injection h with e1 e2
        subst e1 e2
        exact slotS
    · cases h
    · cases h

theorem adddot_N_shaped (NCRIT DMAX : Nat) (RA : List real) (hNc : 2 ≤ NCRIT) :
    ∀ (fuel : Nat) (L : Nat) (c : vect) (N : Nat) (DOTS : List dot) (OCT : Fin 8 → node)
      (Di : dot) (BM : Nat) (P1 : node) (BM1 : Nat),
      adddot_N NCRIT DMAX RA fuel (node.box L c N DOTS OCT) Di BM = Res.ok (P1, BM1) →
      WF (node.box L c N DOTS OCT) → shaped NCRIT (node.box L c N DOTS OCT) →
        shaped NCRIT P1 ∧ ∃ D1 O1, P1 = node.box L c (N + 1) D1 O1 ∧
          (D1 = [] → DOTS = [] ∨ NCRIT < N + 1) ∧ (DOTS = [] → D1 = []) := by
  intro fuel
  induction fuel with
  | zero => intro L c N DOTS OCT Di BM P1 BM1 h; simp [adddot_N] at h
  | succ fuel ih =>
    intro L c N DOTS OCT Di BM P1 BM1 h hWF hS
    simp only [adddot_N] at h
    obtain ⟨hN, hTw, hK⟩ := hWF
    split at h
    · rename_i htw
      have hne : DOTS ≠ [] := by
        intro e
        simp [node.is_twig, e] at htw
      have hO : OCT = fun _ => node.null := funext (hTw hne)
      subst hO
      rw [dots_of_twig] at hN
      subst hN
      split at h
      · rename_i hgt
        have hrec : split_box DMAX RA fuel true
            (node.box L c (Di :: DOTS).length (Di :: DOTS) (fun _ => node.null)) BM
            = Res.ok (P1, BM1) := h
        obtain ⟨_, _, _, OCT1, q4⟩ := split_box_inv DMAX RA fuel true L c _ BM P1 BM1 hrec
        refine ⟨split_box_shaped NCRIT DMAX RA fuel true L c _ BM P1 BM1 hrec
          (by simp only [List.length_cons]; omega), [], OCT1, q4, fun _ => Or.inr hgt,
          fun _ => rfl⟩
      · injection h with h
        injection h with e1 e2
        subst e1 e2
        exact ⟨shaped_twig NCRIT _ _ _ _, _, _, rfl, fun e => (by cases e),
          fun e => absurd e hne⟩
    · rename_i htw
      have hDe : DOTS = [] := by
        cases DOTS with
        | nil => rfl
        | cons d ds => simp [node.is_twig] at htw
      split at h
      · rename_i hb
        injection h with h
        injection h with h1 h2
        subst h1 h2
        exact ⟨shaped_store NCRIT L c N _ DOTS DOTS OCT _ _ hS trivial
          (fun _ _ _ _ _ h => (by cases h)), _, _, rfl, fun e => Or.inl e, fun e => e⟩
      · rename_i Do hb
        split at h
        · rename_i P BMa hsub
          split at h
          · rename_i P2 BM2 hrec
            injection h with h
            injection h with h1 h2
            subst h1 h2
            obtain ⟨c1, hP, _, _⟩ := make_subbox_N_ok hsub
            subst hP
            have hPW : WF (node.box ((L + 1) % 256) c1 1 [Do] (fun _ => node.null)) :=
              WF_twig _ c1 [Do]
            obtain ⟨q1, D1, O1, q2, q3, _⟩ := ih _ _ _ _ _ Di _ P2 BM2 hrec hPW
              (shaped_twig NCRIT _ _ _ _)
            refine ⟨shaped_store NCRIT L c N _ DOTS DOTS OCT _ _ hS q1 ?_, _, _, rfl,
              fun e => Or.inl e, fun e => e⟩
            intro L1 c2 N2 D2 O2 e
            rw [q2] at e
            injection e with e1 e2 e3 e4 e5
            subst e3 e4
            refine ⟨by omega, ?_⟩
            intro hd
            rcases q3 hd with q | q
            · cases q
            · omega
          · cases h
          · cases h
        · cases h
        · cases h
      · rename_i L1 c1 N1 D1 O1 hb
        split at h
        · rename_i P2 BM2 hrec
          injection h with h
          injection h with h1 h2
          subst h1 h2
          have hKW : WF (node.box L1 c1 N1 D1 O1) := hb ▸ hK _
          have hKS : shaped NCRIT (node.box L1 c1 N1 D1 O1) := hb ▸ (hS _).2
          have hK2 := (hS (octantF c Di.POS)).1 L1 c1 N1 D1 O1 hb
          obtain ⟨q1, D2, O2, q2, q3, _⟩ := ih L1 c1 N1 D1 O1 Di _ P2 BM2 hrec hKW hKS
          refine ⟨shaped_store NCRIT L c N _ DOTS DOTS OCT _ _ hS q1 ?_, _, _, rfl,
            fun e => Or.inl e, fun e => e⟩
          intro L3 c3 N3 D3 O3 e
          rw [q2] at e
          injection e with e1 e2 e3 e4 e5
          subst e3 e4
          refine ⟨by omega, ?_⟩
          intro hd
          rcases q3 hd with q | q
          · have := hK2.2 q
            omega
          · exact q
        · cases h
        · cases h

theorem adddot_1_shaped (NCRIT DMAX : Nat) (RA : List real) (hNc : NCRIT ≤ 1) :
    ∀ (fuel : Nat) (L : Nat) (c : vect) (N : Nat) (DOTS : List dot) (OCT : Fin 8 → node)
      (Di : dot) (BM : Nat) (P1 : node) (BM1 : Nat),
      adddot_1 DMAX RA fuel (node.box L c N DOTS OCT) Di BM = Res.ok (P1, BM1) →
      shaped NCRIT (node.box L c N DOTS OCT) →
        shaped NCRIT P1 ∧ ∃ O1, P1 = node.box L c (N + 1) DOTS O1 := by
  intro fuel
  induction fuel with
  | zero => intro L c N DOTS OCT Di BM P1 BM1 h; simp [adddot_1] at h
  | succ fuel ih =>
    intro L c N DOTS OCT Di BM P1 BM1 h hS
    simp only [adddot_1] at h
    split at h
    · injection h with h
      injection h with h1 h2
      subst h1 h2
      exact ⟨shaped_store NCRIT L c N _ DOTS DOTS OCT _ _ hS trivial
        (fun _ _ _ _ _ h => (by cases h)), _, rfl⟩
    · rename_i Do hb
      split at h
      · rename_i P BMa hsub
        split at h
        · rename_i P2 BM2 hrec
          injection h with h
          injection h with h1 h2
          subst h1 h2
          obtain ⟨c1, hP, _, _⟩ := make_subbox_1_ok hsub
          subst hP
          have hPS : shaped NCRIT (node.box ((L + 1) % 256) c1 1 []
              (Function.update (fun _ => node.null) (octantF c1 Do.POS) (node.dot Do))) :=
            shaped_store NCRIT _ c1 1 _ [] [] _ _ _ (shaped_twig NCRIT _ c1 1 []) trivial
              (fun _ _ _ _ _ h => (by cases h))
          obtain ⟨q1, O1, q2⟩ := ih _ _ _ _ _ Di _ P2 BM2 hrec hPS
          refine ⟨shaped_store NCRIT L c N _ DOTS DOTS OCT _ _ hS q1 ?_, _, rfl⟩
          intro L1 c2 N2 D2 O2 e
          rw [q2] at e
          injection e with e1 e2 e3 e4 e5
          subst e3
          exact ⟨by omega, fun _ => (by omega)⟩
        · cases h
        · cases h
      · cases h
      · cases h
    · rename_i L1 c1 N1 D1 O1 hb
      split at h
      · rename_i P2 BM2 hrec
        injection h with h
        injection h with h1 h2
        subst h1 h2
        have hKS : shaped NCRIT (node.box L1 c1 N1 D1 O1) := hb ▸ (hS _).2
        have hK2 := (hS (octantF c Di.POS)).1 L1 c1 N1 D1 O1 hb
        obtain ⟨q1, O2, q2⟩ := ih L1 c1 N1 D1 O1 Di _ P2 BM2 hrec hKS
        refine ⟨shaped_store NCRIT L c N _ DOTS DOTS OCT _ _ hS q1 ?_, _, rfl⟩
        intro L3 c3 N3 D3 O3 e
        rw [q2] at e
        injection e with e1 e2 e3 e4 e5
        subst e3
        exact ⟨by omega, fun _ => (by omega)⟩
      · cases h
      · cases h

theorem shallow_mono (T : node) : ∀ n m, shallow T n → n ≤ m → shallow T m := by
  induction T with
  | null => intro _ _ _ _; trivial
  | dot D => intro _ _ _ _; trivial
  | box L c N D O ih =>
    intro n m h hnm
    exact ⟨by have := h.1; omega, fun i => ih i (n - 1) (m - 1) (h.2 i) (by omega)⟩

theorem shallow_nboxes (T : node) : shallow T (nboxes T) := by
  induction T with
  | null => trivial
  | dot D => trivial
  | box L c N D O ih =>
    refine ⟨by simp only [nboxes]; omega, fun i => ?_⟩
    refine shallow_mono (O i) _ _ (ih i) ?_
    have := mem_le_sum (fun i => nboxes (O i)) (List.finRange 8) i (List.mem_finRange i)
    simp only [nboxes]
    simp only at this
    omega

theorem shallow_placed (NCRIT DMAX : Nat) (RA : List real) (hd : DMAX ≤ 254) (T : node) :
    placed NCRIT DMAX RA T → ∀ L c N D O, T = node.box L c N D O →
      shallow T (DMAX + 1 - L) := by
  induction T with
  | null => intro _ L c N D O h; cases h
  | dot E => intro _ L c N D O h; cases h
  | box L0 c0 N0 D0 O0 ih =>
    intro hp L c N D O h
    cases h
    refine ⟨by have := hp.1; omega, fun i => ?_⟩
    cases hO : O0 i with
    | null => trivial
    | dot E => trivial
    | box L1 c1 N1 D1 O1 =>
      have hsh := (hp.2.2 i).2.1 L1 c1 N1 D1 O1 hO
      have hl := next_level hd hp.1 (shrink_ok hsh).1
      have := ih i (hp.2.2 i).2.2 L1 c1 N1 D1 O1 hO
      rw [hO] at this
      have e : DMAX + 1 - L0 - 1 = DMAX + 1 - L1 := by omega
      rw [e]
      exact this

theorem sort_dots_filter (c : vect) (DOTS : List dot) (b : Fin 8) :
    List.Perm (sort_dots c DOTS b) (DOTS.filter (fun d => decide (octantF c d.POS = b))) := by
  have h1 := filter_flatMap_octant (sort_dots c DOTS) (fun d => octantF c d.POS)
    (fun i d hd => sort_dots_octant c DOTS i d hd) b (List.finRange 8) (List.nodup_finRange 8)
  rw [if_pos (List.mem_finRange b)] at h1
  rw [← h1]
  exact (sort_dots_perm c DOTS).filter _

theorem subperm_octant (NCRIT DMAX : Nat) (RA : List real) (L : Nat) (c : vect) (N : Nat)
    (OCT : Fin 8 → node) (hp : placed NCRIT DMAX RA (node.box L c N [] OCT)) (b : Fin 8)
    (l : List dot) (hl : l.Subperm (dots_of (node.box L c N [] OCT)))
    (hb : ∀ d ∈ l, octantF c d.POS = b) : l.Subperm (dots_of (OCT b)) := by
  have h1 : l.filter (fun d => decide (octantF c d.POS = b)) = l := by
    rw [List.filter_eq_self]
    intro d hd
    exact decide_eq_true (hb d hd)
  rw [← h1, ← dots_of_octant NCRIT DMAX RA L c N OCT hp b]
  exact hl.filter _

theorem box_of_two (v : node) (h : 2 ≤ (dots_of v).length) :
    ∃ L1 c1 N1 D1 O1, v = node.box L1 c1 N1 D1 O1 := by
  cases v with
  | null => simp [dots_of] at h
  | dot D => simp [dots_of] at h
  | box L1 c1 N1 D1 O1 => exact ⟨_, _, _, _, _, rfl⟩

theorem branch_of_many (NCRIT DMAX : Nat) (RA : List real) (L : Nat) (c : vect) (N : Nat)
    (D : List dot) (O : Fin 8 → node) (hW : WF (node.box L c N D O))
    (hp : placed NCRIT DMAX RA (node.box L c N D O))
    (h : NCRIT < (dots_of (node.box L c N D O)).length) : D = [] := by
  by_contra hD
  have := (WF_twig_number L c N D O hW hD).1
  rw [this] at h
  have := hp.2.1
  omega

theorem split_loop_ok (DMAX : Nat) (RA : List real) (L : Nat) (c : vect)
    (LST : Fin 8 → List dot) :
    ∀ (bs : List (Fin 8)) (s : split_state),
      (∀ b ∈ bs, 2 ≤ (LST b).length → ∃ r, shrink_to_octant DMAX RA L c b.val = Res.ok r) →
      ∃ s1, split_loop DMAX RA L c LST bs s = Res.ok s1 := by
  intro bs
  induction bs with
  | nil => intro s _; exact ⟨s, rfl⟩
  | cons a bs ih =>
    intro s h
    have hstep : ∃ s2, split_step DMAX RA L c LST s a = Res.ok s2 := by
      unfold split_step
      split
      · exact ⟨_, rfl⟩
      · exact ⟨_, rfl⟩
      · rename_i D D1 rest h0
        obtain ⟨r, hr⟩ := h a (List.mem_cons_self _ _) (by rw [h0]; simp)
        simp only [make_subbox, hr]
        exact ⟨_, rfl⟩
    obtain ⟨s2, hs2⟩ := hstep
    obtain ⟨s1, hs1⟩ := ih s2 (fun b hb => h b (List.mem_cons_of_mem _ hb))
    exact ⟨s1, by simp only [split_loop, hs2]; exact hs1⟩

theorem split_box_fits (NCRIT DMAX : Nat) (RA : List real) :
    ∀ (fuel : Nat) (first : Bool) (L : Nat) (c : vect) (DOTS : List dot) (BM : Nat)
      (NT : Nat) (DT : List dot) (OT : Fin 8 → node) (n : Nat),
      WF (node.box L c NT DT OT) → placed NCRIT DMAX RA (node.box L c NT DT OT) →
      DOTS.Subperm (dots_of (node.box L c NT DT OT)) → NCRIT < DOTS.length →
      2 ≤ DOTS.length → shallow (node.box L c NT DT OT) n → n ≤ fuel →
      ∃ P1 BM1, split_box DMAX RA fuel first
        (node.box L c DOTS.length DOTS (fun _ => node.null)) BM = Res.ok (P1, BM1) := by
  intro fuel
  induction fuel with
  | zero =>
    intro first L c DOTS BM NT DT OT n _ _ _ _ _ hsh hn
    have := hsh.1
    omega
  | succ fuel ih =>
    intro first L c DOTS BM NT DT OT n hWT hpT hsub hNC h2 hsh hn
    have hDT : DT = [] := branch_of_many NCRIT DMAX RA L c NT DT OT hWT hpT
      (by have := hsub.length_le; omega)
    subst hDT
    have hoct : ∀ b, (sort_dots c DOTS b).Subperm (dots_of (OT b)) := by
      intro b
      apply subperm_octant NCRIT DMAX RA L c NT OT hpT b
      · exact (sort_dots_filter c DOTS b).subperm.trans ((List.filter_sublist _).subperm.trans hsub)
      · exact sort_dots_octant c DOTS b
    have hkid : ∀ b, 2 ≤ (sort_dots c DOTS b).length →
        ∃ L1 c1 N1 D1 O1, OT b = node.box L1 c1 N1 D1 O1 ∧
          shrink_to_octant DMAX RA L c b.val = Res.ok (L1, c1) := by
      intro b hb
      obtain ⟨L1, c1, N1, D1, O1, e⟩ := box_of_two (OT b)
        (by have := (hoct b).length_le; omega)
      exact ⟨L1, c1, N1, D1, O1, e, (hpT.2.2 b).2.1 L1 c1 N1 D1 O1 e⟩
    obtain ⟨s, hloop⟩ := split_loop_ok DMAX RA L c (sort_dots c DOTS) (List.finRange 8)
      { OCT := fun _ => node.null, ne := 0, sub := none, BM := BM }
      (fun b _ hb => by
        obtain ⟨L1, c1, _, _, _, _, e⟩ := hkid b hb
        exact ⟨_, e⟩)
    obtain ⟨_, k2, _, k4⟩ := split_loop_inv (List.finRange 8) _ s hloop
      (List.nodup_finRange 8) (fun _ _ => rfl)
    obtain ⟨m1, m2, m3, m4⟩ := split_loop_more (List.finRange 8) _ s hloop
      (List.nodup_finRange 8) (fun _ _ => rfl)
    have hb2 := split_loop_box (List.finRange 8) _ s hloop
      (List.nodup_finRange 8) (fun _ _ => rfl)
    simp only [Nat.zero_add] at k4 m2 m4
    simp only [split_box, hloop]
    by_cases hne : s.ne = 1
    · rw [if_pos hne]
      cases hsb : s.sub with
      | none =>
        exfalso
        have hle := m3 hsb
        have hsum := sort_dots_length c DOTS
        have := sum_le_countP (fun b => (sort_dots c DOTS b).length) (List.finRange 8)
          (fun b hb => hle b hb)
        simp only at this
        omega
      | some b =>
        simp only
        have hbox : (s.OCT b).isBox = true := by
          rcases k4 with h4 | ⟨b1, e1, _, e3⟩
          · rw [hsb] at h4; cases h4
          · rw [hsb] at e1; injection e1 with e1; subst e1; exact e3
        have hbl : 2 ≤ (sort_dots c DOTS b).length := hb2 b (List.mem_finRange b) hbox
        obtain ⟨l, c1, hv⟩ := (k2 b (List.mem_finRange b)).2.2.1 hbox
        have hsh1 := m1 b (List.mem_finRange b) _ _ _ _ _ hv
        obtain ⟨L1, c2, N1, D1, O1, eT, hsh2⟩ := hkid b hbl
        rw [hsh1] at hsh2
        have hLc := Prod.mk.inj (Res.ok.inj hsh2)
        have hall := (split_ne_one c DOTS b (by rw [← m2]; exact hne) (by omega)).1
        have hWk : WF (node.box L1 c2 N1 D1 O1) := eT ▸ hWT.2.2 b
        have hpk : placed NCRIT DMAX RA (node.box L1 c2 N1 D1 O1) := eT ▸ (hpT.2.2 b).2.2
        have hsk : shallow (node.box L1 c2 N1 D1 O1) (n - 1) := eT ▸ hsh.2 b
        have hsubk : (sort_dots c DOTS b).Subperm (dots_of (node.box L1 c2 N1 D1 O1)) :=
          eT ▸ hoct b
        obtain ⟨Q, BM2, hrec⟩ := ih false L1 c2 (sort_dots c DOTS b) s.BM N1 D1 O1 (n - 1)
          hWk hpk hsubk (by omega) hbl hsk (by omega)
        rw [hv, hLc.1, hLc.2, hrec]
        exact ⟨_, _, rfl⟩
    · rw [if_neg hne]
      exact ⟨_, _, rfl⟩

theorem dots_of_kid_sublist (NCRIT DMAX : Nat) (RA : List real) (L : Nat) (c : vect) (N : Nat)
    (OCT : Fin 8 → node) (hp : placed NCRIT DMAX RA (node.box L c N [] OCT)) (b : Fin 8) :
    List.Sublist (dots_of (OCT b)) (dots_of (node.box L c N [] OCT)) := by
  rw [← dots_of_octant NCRIT DMAX RA L c N OCT hp b]
  exact List.filter_sublist _

theorem kid_fits (NCRIT DMAX : Nat) (RA : List real) (L : Nat) (c : vect) (N : Nat)
    (OCT : Fin 8 → node) (NT : Nat) (OT : Fin 8 → node) (Di : dot)
    (hp : placed NCRIT DMAX RA (node.box L c N [] OCT))
    (hpT : placed NCRIT DMAX RA (node.box L c NT [] OT))
    (hsub : (Di :: dots_of (node.box L c N [] OCT)).Subperm (dots_of (node.box L c NT [] OT))) :
    (Di :: dots_of (OCT (octantF c Di.POS))).Subperm (dots_of (OT (octantF c Di.POS))) := by
  apply subperm_octant NCRIT DMAX RA L c NT OT hpT
  · exact (((dots_of_kid_sublist NCRIT DMAX RA L c N OCT hp _).cons₂ Di).subperm).trans hsub
  · intro d hd
    rcases List.mem_cons.1 hd with e | e
    · rw [e]
    · exact (hp.2.2 _).1 d e

theorem adddot_N_fits (NCRIT DMAX : Nat) (RA : List real) (hNc : 2 ≤ NCRIT) :
    ∀ (fuel : Nat) (L : Nat) (c : vect) (N : Nat) (DOTS : List dot) (OCT : Fin 8 → node)
      (Di : dot) (BM : Nat) (NT : Nat) (DT : List dot) (OT : Fin 8 → node) (n : Nat),
      WF (node.box L c N DOTS OCT) → WF (node.box L c NT DT OT) →
      placed NCRIT DMAX RA (node.box L c N DOTS OCT) →
      placed NCRIT DMAX RA (node.box L c NT DT OT) →
      shaped NCRIT (node.box L c N DOTS OCT) → (DOTS = [] → DT = []) →
      (Di :: dots_of (node.box L c N DOTS OCT)).Subperm (dots_of (node.box L c NT DT OT)) →
      shallow (node.box L c NT DT OT) n → n < fuel →
      ∃ P1 BM1, adddot_N NCRIT DMAX RA fuel (node.box L c N DOTS OCT) Di BM
        = Res.ok (P1, BM1) := by
  intro fuel
  induction fuel with
  | zero => intro L c N DOTS OCT Di BM NT DT OT n _ _ _ _ _ _ _ _ hn; omega
  | succ fuel ih =>
    intro L c N DOTS OCT Di BM NT DT OT n hW hWT hp hpT hS hbr hsub hsh hn
    have hn1 := hsh.1
    simp only [adddot_N]
    obtain ⟨hN, hTw, hK⟩ := hW
    split
    · rename_i htw
      have hne : DOTS ≠ [] := by
        intro e
        simp [node.is_twig, e] at htw
      have hO : OCT = fun _ => node.null := funext (hTw hne)
      subst hO
      rw [dots_of_twig] at hN hsub
      subst hN
      split
      · rename_i hgt
        exact split_box_fits NCRIT DMAX RA fuel true L c (Di :: DOTS) BM NT DT OT n hWT hpT hsub
          (by simp only [List.length_cons]; omega) (by simp only [List.length_cons]; omega)
          hsh (by omega)
      · exact ⟨_, _, rfl⟩
    · rename_i htw
      have hDe : DOTS = [] := by
        cases DOTS with
        | nil => rfl
        | cons d ds => simp [node.is_twig] at htw
      subst hDe
      have hDT := hbr rfl
      subst hDT
      have hkid := kid_fits NCRIT DMAX RA L c N OCT NT OT Di hp hpT hsub
      cases hb : OCT (octantF c Di.POS) with
      | null => exact ⟨_, _, rfl⟩
      | dot Do =>
        rw [hb] at hkid
        obtain ⟨L1, c1, N1, D1, O1, eT⟩ := box_of_two (OT (octantF c Di.POS))
          (by have := hkid.length_le; simp [dots_of] at this ⊢; omega)
        have hshr := (hpT.2.2 _).2.1 L1 c1 N1 D1 O1 eT
        have hWk : WF (node.box L1 c1 N1 D1 O1) := eT ▸ hWT.2.2 _
        have hpk : placed NCRIT DMAX RA (node.box L1 c1 N1 D1 O1) := eT ▸ (hpT.2.2 _).2.2
        have hsk : shallow (node.box L1 c1 N1 D1 O1) (n - 1) := eT ▸ hsh.2 _
        rw [eT] at hkid
        obtain ⟨Q, BM2, hrec⟩ := ih L1 c1 (0 + 1) [Do] (fun _ => node.null) Di (BM + 1)
          N1 D1 O1 (n - 1) (WF_twig L1 c1 [Do]) hWk
          (placed_twig NCRIT DMAX RA L1 c1 _ [Do] (shrink_ok hshr).2 (by simp; omega)) hpk
          (shaped_twig NCRIT _ _ _ _) (fun e => (by cases e))
          (by rw [dots_of_twig]; simpa [dots_of] using hkid) hsk (by omega)
        simp only [make_subbox_N, make_subbox, hshr, box_reset, adddot_to_list, hrec]
        exact ⟨_, _, rfl⟩
      | box L1 c1 N1 D1 O1 =>
        rw [hb] at hkid
        have hKW : WF (node.box L1 c1 N1 D1 O1) := hb ▸ hK _
        have hKp : placed NCRIT DMAX RA (node.box L1 c1 N1 D1 O1) := hb ▸ (hp.2.2 _).2.2
        have hKS : shaped NCRIT (node.box L1 c1 N1 D1 O1) := hb ▸ (hS _).2
        have hK2 := (hS (octantF c Di.POS)).1 L1 c1 N1 D1 O1 hb
        have hKn := hKW.1
        obtain ⟨L2, c2, N2, D2, O2, eT⟩ := box_of_two (OT (octantF c Di.POS))
          (by have := hkid.length_le; simp only [List.length_cons] at this; omega)
        have hshr := (hpT.2.2 _).2.1 L2 c2 N2 D2 O2 eT
        rw [(hp.2.2 _).2.1 L1 c1 N1 D1 O1 hb] at hshr
        have hLc := Prod.mk.inj (Res.ok.inj hshr)
        rw [← hLc.1, ← hLc.2] at eT
        have hWk : WF (node.box L1 c1 N2 D2 O2) := eT ▸ hWT.2.2 _
        have hpk : placed NCRIT DMAX RA (node.box L1 c1 N2 D2 O2) := eT ▸ (hpT.2.2 _).2.2
        have hsk : shallow (node.box L1 c1 N2 D2 O2) (n - 1) := eT ▸ hsh.2 _
        rw [eT] at hkid
        obtain ⟨Q, BM2, hrec⟩ := ih L1 c1 N1 D1 O1 Di BM N2 D2 O2 (n - 1) hKW hWk hKp hpk hKS
          (fun e => branch_of_many NCRIT DMAX RA L1 c1 N2 D2 O2 hWk hpk (by
            have := hkid.length_le
            have := hK2.2 e
            simp only [List.length_cons] at *
            omega))
          hkid hsk (by omega)
        simp only [hrec]
        exact ⟨_, _, rfl⟩

theorem WF_single (l : Nat) (c : vect) (b : Fin 8) (D : dot) :
    WF (node.box l c 1 [] (Function.update (fun _ => node.null) b (node.dot D))) := by
  refine ⟨?_, fun h => absurd rfl h, WF_update_null _ b _ trivial (fun _ => trivial)⟩
  have := (dots_of_single l c 1 b D).length_eq
  rw [this]
  rfl

theorem no_twig_single (l : Nat) (c : vect) (N : Nat) (b : Fin 8) (D : dot) :
    no_twig (node.box l c N [] (Function.update (fun _ => node.null) b (node.dot D))) :=
  ⟨rfl, no_twig_update _ b _ trivial (fun _ => trivial)⟩

theorem adddot_1_fits (NCRIT DMAX : Nat) (RA : List real) :
    ∀ (fuel : Nat) (L : Nat) (c : vect) (N : Nat) (DOTS : List dot) (OCT : Fin 8 → node)
      (Di : dot) (BM : Nat) (NT : Nat) (DT : List dot) (OT : Fin 8 → node) (n : Nat),
      WF (node.box L c N DOTS OCT) → WF (node.box L c NT DT OT) →
      no_twig (node.box L c N DOTS OCT) → no_twig (node.box L c NT DT OT) →
      placed NCRIT DMAX RA (node.box L c N DOTS OCT) →
      placed NCRIT DMAX RA (node.box L c NT DT OT) →
      shaped NCRIT (node.box L c N DOTS OCT) →
      (Di :: dots_of (node.box L c N DOTS OCT)).Subperm (dots_of (node.box L c NT DT OT)) →
      shallow (node.box L c NT DT OT) n → n < fuel →
      ∃ P1 BM1, adddot_1 DMAX RA fuel (node.box L c N DOTS OCT) Di BM = Res.ok (P1, BM1) := by
  intro fuel
  induction fuel with
  | zero => intro L c N DOTS OCT Di BM NT DT OT n _ _ _ _ _ _ _ _ _ hn; omega
  | succ fuel ih =>
    intro L c N DOTS OCT Di BM NT DT OT n hW hWT hnt hntT hp hpT hS hsub hsh hn
    have hn1 := hsh.1
    simp only [adddot_1]
    obtain ⟨hN, hTw, hK⟩ := hW
    have hDe := hnt.1
    subst hDe
    have hDT := hntT.1
    subst hDT
    have hkid := kid_fits NCRIT DMAX RA L c N OCT NT OT Di hp hpT hsub
    cases hb : OCT (octantF c Di.POS) with
    | null => exact ⟨_, _, rfl⟩
    | dot Do =>
      rw [hb] at hkid
      obtain ⟨L1, c1, N1, D1, O1, eT⟩ := box_of_two (OT (octantF c Di.POS))
        (by have := hkid.length_le; simp [dots_of] at this ⊢; omega)
      have hshr := (hpT.2.2 _).2.1 L1 c1 N1 D1 O1 eT
      have hWk : WF (node.box L1 c1 N1 D1 O1) := eT ▸ hWT.2.2 _
      have hpk : placed NCRIT DMAX RA (node.box L1 c1 N1 D1 O1) := eT ▸ (hpT.2.2 _).2.2
      have hsk : shallow (node.box L1 c1 N1 D1 O1) (n - 1) := eT ▸ hsh.2 _
      have hnk : no_twig (node.box L1 c1 N1 D1 O1) := eT ▸ hntT.2 _
      rw [eT] at hkid
      obtain ⟨Q, BM2, hrec⟩ := ih L1 c1 (0 + 1) []
        (Function.update (fun _ => node.null) (octantF c1 Do.POS) (node.dot Do)) Di (BM + 1)
        N1 D1 O1 (n - 1) (WF_single L1 c1 _ Do) hWk (no_twig_single L1 c1 _ _ Do) hnk
        (placed_single NCRIT DMAX RA L1 c1 _ _ Do (shrink_ok hshr).2 rfl) hpk
        (shaped_store NCRIT _ c1 1 _ [] [] _ _ _ (shaped_twig NCRIT _ c1 1 []) trivial
              (fun _ _ _ _ _ h => (by cases h)))
        (((dots_of_single L1 c1 _ _ Do).cons Di).subperm.trans
          (by simpa [dots_of] using hkid)) hsk (by omega)
      simp only [make_subbox_1, make_subbox, hshr, box_reset, adddot_to_octs, hrec]
      exact ⟨_, _, rfl⟩
    | box L1 c1 N1 D1 O1 =>
      rw [hb] at hkid
      have hKW : WF (node.box L1 c1 N1 D1 O1) := hb ▸ hK _
      have hKp : placed NCRIT DMAX RA (node.box L1 c1 N1 D1 O1) := hb ▸ (hp.2.2 _).2.2
      have hKS : shaped NCRIT (node.box L1 c1 N1 D1 O1) := hb ▸ (hS _).2
      have hKn : no_twig (node.box L1 c1 N1 D1 O1) := hb ▸ hnt.2 _
      have hK2 := (hS (octantF c Di.POS)).1 L1 c1 N1 D1 O1 hb
      have hKl := hKW.1
      obtain ⟨L2, c2, N2, D2, O2, eT⟩ := box_of_two (OT (octantF c Di.POS))
        (by have := hkid.length_le; simp only [List.length_cons] at this; omega)
      have hshr := (hpT.2.2 _).2.1 L2 c2 N2 D2 O2 eT
      rw [(hp.2.2 _).2.1 L1 c1 N1 D1 O1 hb] at hshr
      have hLc := Prod.mk.inj (Res.ok.inj hshr)
      rw [← hLc.1, ← hLc.2] at eT
      have hWk : WF (node.box L1 c1 N2 D2 O2) := eT ▸ hWT.2.2 _
      have hpk : placed NCRIT DMAX RA (node.box L1 c1 N2 D2 O2) := eT ▸ (hpT.2.2 _).2.2
      have hsk : shallow (node.box L1 c1 N2 D2 O2) (n - 1) := eT ▸ hsh.2 _
      have hnk : no_twig (node.box L1 c1 N2 D2 O2) := eT ▸ hntT.2 _
      rw [eT] at hkid
      obtain ⟨Q, BM2, hrec⟩ := ih L1 c1 N1 D1 O1 Di BM N2 D2 O2 (n - 1) hKW hWk hKn hnk hKp hpk
        hKS hkid hsk (by omega)
      simp only [hrec]
      exact ⟨_, _, rfl⟩

theorem grown_reset (nc dm : Nat) (RA : List real) (x0 : vect) :
    grown nc dm RA x0 (box_reset 0 x0) :=
  ⟨build_invariant_reset nc dm RA x0, shaped_twig nc 0 x0 0 [], _, _, rfl⟩

theorem adddot_N_grown (nc dm : Nat) (RA : List real) (x0 : vect) (hnc : nc > 1) (fuel : Nat)
    (P : node) (Di : dot) (BM : Nat) (P1 : node) (BM1 : Nat)
    (h : adddot_N nc dm RA fuel P Di BM = Res.ok (P1, BM1)) (hI : grown nc dm RA x0 P) :
    grown nc dm RA x0 P1 ∧ List.Perm (dots_of P1) (Di :: dots_of P) := by
  obtain ⟨hB, hS, N, O, e⟩ := hI
  have hB1 := adddot_N_invariant nc dm RA hnc fuel P Di BM P1 BM1 h hB
  subst e
  obtain ⟨_, hperm, _, _⟩ := adddot_N_inv nc dm RA fuel _ Di BM P1 BM1 h hB.1
  obtain ⟨q1, D1, O1, q2, _, q4⟩ := adddot_N_shaped nc dm RA (by omega) fuel 0 x0 N [] O Di BM
    P1 BM1 h hB.1 hS
  have := q4 rfl
  subst this
  exact ⟨⟨hB1, q1, _, _, q2⟩, hperm⟩

theorem adddot_1_grown (nc dm : Nat) (RA : List real) (x0 : vect) (hnc : ¬ nc > 1) (fuel : Nat)
    (P : node) (Di : dot) (BM : Nat) (P1 : node) (BM1 : Nat)
    (h : adddot_1 dm RA fuel P Di BM = Res.ok (P1, BM1)) (hI : grown nc dm RA x0 P) :
    grown nc dm RA x0 P1 ∧ List.Perm (dots_of P1) (Di :: dots_of P) := by
  obtain ⟨hB, hS, N, O, e⟩ := hI
  have hB1 := adddot_1_invariant nc dm RA hnc fuel P Di BM P1 BM1 h hB
  subst e
  obtain ⟨_, _, hperm, _, _⟩ := adddot_1_inv dm RA fuel _ Di BM P1 BM1 h hB.1 (hB.2.2.1 hnc)
  obtain ⟨q1, O1, q2⟩ := adddot_1_shaped nc dm RA (by omega) fuel 0 x0 N [] O Di BM
    P1 BM1 h hS
  exact ⟨⟨hB1, q1, _, _, q2⟩, hperm⟩

/-- The invariant `grown` after a successful `tree_builder::build()`. -/
theorem build_grown (fuel nc dm nl : Nat) (x0 : vect) (sz : real) (dots : List dot)
    (TB : box_dot_tree)
    (h : tree_builder.build fuel (box_dot_tree.reset nc dm nl x0 sz) dots = Res.ok TB) :
    grown nc dm (List.iterate (fun r => real.mul half r) sz (dm + 1)) x0 TB.P0 := by
  unfold tree_builder.build at h
  simp only [box_dot_tree.reset] at h
  split at h
  · rename_i P BM hrun
    injection h with h
    subst h
    show grown nc dm (List.iterate (fun r => real.mul half r) sz (dm + 1)) x0 P
    by_cases hnc : nc > 1
    · simp only [hnc, if_true] at hrun
      exact adddots_invariant _ _
        (fun P Di BM P1 BM1 hh hI => (adddot_N_grown nc dm _ x0 hnc fuel P Di BM P1 BM1 hh hI).1)
        dots _ _ P BM hrun (grown_reset nc dm _ x0)
    · simp only [hnc, if_false] at hrun
      exact adddots_invariant _ _
        (fun P Di BM P1 BM1 hh hI => (adddot_1_grown nc dm _ x0 hnc fuel P Di BM P1 BM1 hh hI).1)
        dots _ _ P BM hrun (grown_reset nc dm _ x0)
  · cases h
  · cases h

/-- The loop over the dots returns when every insertion into a tree whose dots,
with the new one, are among the dots of `T` returns. -/
theorem adddots_fits (add : node → dot → Nat → Res (node × Nat)) (I : node → Prop) (T : node)
    (hinv : ∀ P Di BM P1 BM1, add P Di BM = Res.ok (P1, BM1) → I P →
      I P1 ∧ List.Perm (dots_of P1) (Di :: dots_of P))
    (hfit : ∀ P Di BM, I P → (Di :: dots_of P).Subperm (dots_of T) →
      ∃ P1 BM1, add P Di BM = Res.ok (P1, BM1)) :
    ∀ (dots : List dot) (P : node) (BM : Nat), I P →
      (dots ++ dots_of P).Subperm (dots_of T) →
      ∃ P1 BM1, adddots add dots P BM = Res.ok (P1, BM1) := by
  intro dots
  induction dots with
  | nil => intro P BM _ _; exact ⟨P, BM, rfl⟩
  | cons d ds ih =>
    intro P BM hI hsub
    have h1 : (d :: dots_of P).Subperm (dots_of T) := by
      refine List.Subperm.trans (List.Sublist.subperm ?_) hsub
      simp only [List.cons_append]
      exact (List.sublist_append_right ds (dots_of P)).cons₂ d
    obtain ⟨P2, BM2, hstep⟩ := hfit P d BM hI h1
    obtain ⟨hI2, hp2⟩ := hinv P d BM P2 BM2 hstep hI
    have h2 : (ds ++ dots_of P2).Subperm (dots_of T) := by
      refine List.Subperm.trans (List.Perm.subperm ?_) hsub
      refine (hp2.append_left ds).trans ?_
      simp only [List.cons_append]
      exact List.perm_middle
    obtain ⟨P1, BM1, hrec⟩ := ih P2 BM2 hI2 h2
    exact ⟨P1, BM1, by simp only [adddots, hstep]; exact hrec⟩

/-- When the build of the dots in one order has returned a tree, the build of
the same dots in another order returns, given more passes for every insertion
than the tree has levels of boxes. -/
theorem build_fits (fuel1 fuel2 nc dm nl1 nl2 : Nat) (x0 : vect) (sz : real)
    (dots1 dots2 : List dot) (hperm : dots1.Perm dots2) (TB1 : box_dot_tree)
    (h : tree_builder.build fuel1 (box_dot_tree.reset nc dm nl1 x0 sz) dots1 = Res.ok TB1)
    (n : Nat) (hsh : shallow TB1.P0 n) (hn : n < fuel2) :
    ∃ TB2, tree_builder.build fuel2 (box_dot_tree.reset nc dm nl2 x0 sz) dots2 = Res.ok TB2 := by
  obtain ⟨⟨hW, hP, hT, _⟩, hS, NT, OT, eT⟩ := build_grown fuel1 nc dm nl1 x0 sz dots1 TB1 h
  obtain ⟨_, hd1, _⟩ := build_inv fuel1 nc dm nl1 x0 sz dots1 TB1 h
  have hsub : (dots2 ++ dots_of (box_reset 0 x0)).Subperm (dots_of TB1.P0) := by
    rw [dots_of_box_reset, List.append_nil]
    exact (hperm.symm.trans hd1.symm).subperm
  rw [eT] at hW hP hT hS hsh hsub
  unfold tree_builder.build
  simp only [box_dot_tree.reset]
  by_cases hnc : nc > 1
  · simp only [hnc, if_true]
    obtain ⟨P1, BM1, hrun⟩ := adddots_fits
      (adddot_N nc dm (List.iterate (fun r => real.mul half r) sz (dm + 1)) fuel2)
      (grown nc dm (List.iterate (fun r => real.mul half r) sz (dm + 1)) x0)
      (node.box 0 x0 NT [] OT)
      (fun P Di BM P1 BM1 hh hI => adddot_N_grown nc dm _ x0 hnc fuel2 P Di BM P1 BM1 hh hI)
      (fun P Di BM hI hs => by
        obtain ⟨hB, hS1, N, O, e⟩ := hI
        subst e
        exact adddot_N_fits nc dm _ (by omega) fuel2 0 x0 N [] O Di BM NT [] OT n hB.1 hW
          hB.2.1 hP hS1 (fun _ => rfl) hs hsh hn)
      dots2 (box_reset 0 x0) 1 (grown_reset nc dm _ x0) hsub
    rw [hrun]
    exact ⟨_, rfl⟩
  · simp only [hnc, if_false]
    obtain ⟨P1, BM1, hrun⟩ := adddots_fits
      (adddot_1 dm (List.iterate (fun r => real.mul half r) sz (dm + 1)) fuel2)
      (grown nc dm (List.iterate (fun r => real.mul half r) sz (dm + 1)) x0)
      (node.box 0 x0 NT [] OT)
      (fun P Di BM P1 BM1 hh hI => adddot_1_grown nc dm _ x0 hnc fuel2 P Di BM P1 BM1 hh hI)
      (fun P Di BM hI hs => by
        obtain ⟨hB, hS1, N, O, e⟩ := hI
        subst e
        exact adddot_1_fits nc dm _ fuel2 0 x0 N [] O Di BM NT [] OT n hB.1 hW
          (hB.2.2.1 hnc) (hT hnc) hB.2.1 hP hS1 hs hsh hn)
      dots2 (box_reset 0 x0) 1 (grown_reset nc dm _ x0) hsub
    rw [hrun]
    exact ⟨_, rfl⟩

/-- Two successful builds of the same dots in two orders give trees of the same
boxes, with the same dots in every box. -/
theorem build_same_shape (fuel1 fuel2 nc dm nl1 nl2 : Nat) (x0 : vect) (sz : real)
    (dots1 dots2 : List dot) (hperm : dots1.Perm dots2) (TB1 TB2 : box_dot_tree)
    (h1 : tree_builder.build fuel1 (box_dot_tree.reset nc dm nl1 x0 sz) dots1 = Res.ok TB1)
    (h2 : tree_builder.build fuel2 (box_dot_tree.reset nc dm nl2 x0 sz) dots2 = Res.ok TB2) :
    same_shape TB2.P0 TB1.P0 := by
  obtain ⟨⟨hW1, hP1, _, _⟩, hS1, N1, O1, e1⟩ := build_grown fuel1 nc dm nl1 x0 sz dots1 TB1 h1
  obtain ⟨⟨hW2, hP2, _, _⟩, hS2, N2, O2, e2⟩ := build_grown fuel2 nc dm nl2 x0 sz dots2 TB2 h2
  obtain ⟨_, hd1, _⟩ := build_inv fuel1 nc dm nl1 x0 sz dots1 TB1 h1
  obtain ⟨_, hd2, _⟩ := build_inv fuel2 nc dm nl2 x0 sz dots2 TB2 h2
  rw [e1] at hW1 hP1 hS1 hd1 ⊢
  exact canonical_unique nc dm _ TB2.P0 0 x0 N2 [] O2 e2 N1 [] O1 hW2 hW1 hP2 hP1 hS2 hS1
    Iff.rfl (hd2.trans (hperm.symm.trans hd1.symm))

theorem leaf_slice_map {α β : Type} (f : α → β) (l : List α) (a n : Nat) :
    leaf_slice (l.map f) a n = (leaf_slice l a n).map f := by
  simp [leaf_slice, List.map_take, List.map_drop]

/-- Two successful builds of the same dots in two orders link to the same cell
array, and the leaves of every cell hold the same dots. -/
theorem build_same_cells (fuel1 fuel2 nc dm : Nat) (x0 : vect) (sz : real)
    (dots1 dots2 : List dot) (hperm : dots1.Perm dots2) (TB1 TB2 : box_dot_tree)
    (h1 : tree_builder.build fuel1 (box_dot_tree.reset nc dm dots1.length x0 sz) dots1
      = Res.ok TB1)
    (h2 : tree_builder.build fuel2 (box_dot_tree.reset nc dm dots2.length x0 sz) dots2
      = Res.ok TB2) :
    cell_array TB2 = cell_array TB1 ∧
      ∀ cell ∈ cell_array TB1,
        List.Perm (leaf_slice (leaf_array TB2) cell.FCLEAF cell.NUMBER)
          (leaf_slice (leaf_array TB1) cell.FCLEAF cell.NUMBER) := by
  have hs := build_same_shape fuel1 fuel2 nc dm _ _ x0 sz dots1 dots2 hperm TB1 TB2 h1 h2
  obtain ⟨hsc, _, hcells⟩ := same_shape_layout hs
  obtain ⟨hW1, _, hBM1, _, _, _, L1, c1, N1, D1, O1, e1⟩ :=
    build_inv fuel1 nc dm _ x0 sz dots1 TB1 h1
  obtain ⟨hW2, _, hBM2, _, _, _, L2, c2, N2, D2, O2, e2⟩ :=
    build_inv fuel2 nc dm _ x0 sz dots2 TB2 h2
  have hb1 : TB1.P0.isBox = true := by rw [e1]; rfl
  have hb2 : TB2.P0.isBox = true := by rw [e2]; rfl
  have hl1 := link_after_build fuel1 nc dm _ x0 sz dots1 TB1 h1
  have hl2 := link_after_build fuel2 nc dm _ x0 sz dots2 TB2 h2
  have hBM : TB2.BM = TB1.BM := by
    rw [hBM1, hBM2, sub_cells_nboxes _ hW1 hb1, sub_cells_nboxes _ hW2 hb2, hsc]
  refine ⟨?_, ?_⟩
  · unfold cell_array
    rw [hl1, hl2, hBM]
    simp only [link_ext, hcells]
  · intro cell hcell
    obtain ⟨c, hc⟩ := List.getElem?_of_mem hcell
    have hx := (cell_array_spec fuel1 nc dm x0 sz dots1 TB1 h1).2.2 c cell hc
    rw [← hcells 0 0 1 0] at hx
    have := same_shape_slices hs hW2 hW1 0 0 1 0 (c, cell) hx
    simp only [Nat.sub_zero] at this
    rw [(leaf_array_eq fuel1 nc dm x0 sz dots1 TB1 h1).1,
      (leaf_array_eq fuel2 nc dm x0 sz dots2 TB2 h2).1, leaf_slice_map, leaf_slice_map]
    exact this.map _

theorem leaf_order_loop_D (BB : bodies) : ∀ (l : List BasicLeaf) (s : dot_setup),
    (leaf_order_loop BB l s).D
      = s.D ++ l.map (fun Li => ({ POS := BB.pos Li.LINK, LINK := Li.LINK } : dot)) := by
  intro l
  induction l with
  | nil => intro s; simp [leaf_order_loop]
  | cons a l ih =>
    intro s
    simp only [leaf_order_loop]
    rw [ih]
    simp

/-- The dots that `setup_leaf_order` makes of the leaves of a tree built from
the bodies are the dots of `setup_from_scratch`, in the order of the leaves. -/
theorem leaf_order_perm (BB : bodies) (SP : Nat) (s : dot_setup) (fuel nc dm : Nat) (x0 : vect)
    (sz : real) (TB : box_dot_tree) (hs : setup_from_scratch BB SP = Res.ok s)
    (h : tree_builder.build fuel (box_dot_tree.reset nc dm s.D.length x0 sz) s.D = Res.ok TB) :
    List.Perm (setup_leaf_order BB (leaf_array TB)).D s.D := by
  obtain ⟨hl, hp⟩ := leaf_array_eq fuel nc dm x0 sz s.D TB h
  have hD := (setup_from_scratch_ok BB SP s hs).1
  have e : (setup_leaf_order BB (leaf_array TB)).D = link_order TB.P0 := by
    unfold setup_leaf_order
    simp only [leaf_order_loop_D, List.nil_append]
    rw [hl, List.map_map]
    conv => rhs; rw [← List.map_id (link_order TB.P0)]
    apply List.map_congr_left
    intro d hd
    have := used_dots_pos BB SP d (by rw [← hD]; exact hp.subset hd)
    simp only [Function.comp, set_leaf, this, id]
  rw [e]
  exact hp

theorem octant_bits (c p : vect) :
    octant c p < 8 ∧ (octant c p).testBit 0 = real.gt p.x0 c.x0 ∧
      (octant c p).testBit 1 = real.gt p.x1 c.x1 ∧
      (octant c p).testBit 2 = real.gt p.x2 c.x2 := by
  unfold octant
  cases real.gt p.x0 c.x0 <;> cases real.gt p.x1 c.x1 <;> cases real.gt p.x2 c.x2 <;>
    simp <;> decide

theorem scenario_octants :
    octantF origin (corner (-1)) = 0 ∧
    octantF origin ⟨real.val 1, real.val (-1), real.val (-1)⟩ = 1 ∧
    octantF origin ⟨real.val (-1), real.val 1, real.val (-1)⟩ = 2 ∧
    octantF origin (corner 1) = 7 := by decide!

theorem adddot_1_null (DMAX : Nat) (RA : List real) (fuel L : Nat) (c : vect) (N : Nat)
    (DOTS : List dot) (OCT : Fin 8 → node) (Di : dot) (BM : Nat)
    (h : OCT (octantF c Di.POS) = node.null) :
    adddot_1 DMAX RA (fuel + 1) (node.box L c N DOTS OCT) Di BM
      = Res.ok (node.box L c (N + 1) DOTS
          (Function.update OCT (octantF c Di.POS) (node.dot Di)), BM) := by
  simp only [adddot_1, h]

theorem scenario_build (fuel dm nl : Nat) (sz : real) :
    tree_builder.build (fuel + 1) (box_dot_tree.reset 1 dm nl origin sz) scenario_dots
      = Res.ok { box_dot_tree.reset 1 dm nl origin sz with
          P0 := node.box 0 origin 4 [] scenario_octs } := by
  obtain ⟨e0, e1, e2, e7⟩ := scenario_octants
  simp only [tree_builder.build, box_dot_tree.reset, scenario_dots, adddots, box_reset,
    gt_iff_lt, lt_self_iff_false, if_false]
  rw [adddot_1_null _ _ _ _ _ _ _ _ _ _ rfl]
  simp only
  rw [adddot_1_null _ _ _ _ _ _ _ _ _ _ (by rw [e0, e1]; rfl)]
  simp only
  rw [adddot_1_null _ _ _ _ _ _ _ _ _ _ (by rw [e0, e1, e2]; rfl)]
  simp only
  rw [adddot_1_null _ _ _ _ _ _ _ _ _ _ (by rw [e0, e1, e2, e7]; rfl)]
  simp only [e0, e1, e2, e7]
  rfl

theorem scenario_occupied :
    occupied (node.box 0 origin 4 [] scenario_octs) = [0, 1, 2, 7] ∧
    with_dot (node.box 0 origin 4 [] scenario_octs) = [0, 1, 2, 7] := by
  decide

theorem scenario_cells (dm nl : Nat) (sz : real) :
    cell_array { box_dot_tree.reset 1 dm nl origin sz with
        P0 := node.box 0 origin 4 [] scenario_octs }
      = [{ LEVEL := 0, OCTANT := 0, CENTER := origin, NUMBER := 4, FCLEAF := 0, NLEAFS := 4,
           FCCELL := -1, NCELLS := 0 }] := by
  rfl

theorem scenario_no_twig : no_twig (node.box 0 origin 4 [] scenario_octs) :=
  ⟨rfl, no_twig_update _ _ _ trivial (no_twig_update _ _ _ trivial
    (no_twig_update _ _ _ trivial (no_twig_update _ _ _ trivial (fun _ => trivial))))⟩

theorem trunc_nearest (q : ℚ) (h : -(1 / 2) ≤ q) :
    ∃ n : ℤ, real.trunc (real.add (real.val q) half) = real.val n ∧ |q - n| ≤ 1 / 2 := by
  have h0 : (0 : ℚ) ≤ q + 1 / 2 := by linarith
  refine ⟨⌊q + 1 / 2⌋, ?_, ?_⟩
  · simp only [real.add, half, real.trunc]
    rw [if_pos (show q + 1 / 2 ≥ 0 from h0)]
    rfl
  · have h1 := Int.floor_le (q + 1 / 2)
    have h2 := Int.lt_floor_add_one (q + 1 / 2)
    rw [abs_le]
    constructor <;> linarith

theorem sub_nil (P : node) : P.sub [] = P := by
  cases P <;> rfl

theorem sub_null (p : List (Fin 8)) : node.null.sub p = node.null := by
  cases p <;> rfl

theorem sub_dot (D : dot) (i : Fin 8) (p : List (Fin 8)) : (node.dot D).sub (i :: p) = node.null :=
  rfl

/-- A property of slots that a box hands down to its octants holds for every
slot beneath. -/
theorem sub_induct (I : node → Prop) (hnull : I node.null)
    (hstep : ∀ L c N D O (i : Fin 8), I (node.box L c N D O) → I (O i)) :
    ∀ (p : List (Fin 8)) (P : node), I P → I (P.sub p) := by
  intro p
  induction p with
  | nil => intro P h; rw [sub_nil]; exact h
  | cons i p ih =>
    intro P h
    cases P with
    | null => exact hnull
    | dot D => exact hnull
    | box L c N D O => exact ih (O i) (hstep L c N D O i h)

theorem placed_sub (NCRIT DMAX : Nat) (RA : List real) (P : node) (p : List (Fin 8))
    (h : placed NCRIT DMAX RA P) : placed NCRIT DMAX RA (P.sub p) :=
  sub_induct _ trivial (fun _ _ _ _ _ i h => (h.2.2 i).2.2) p P h

theorem WF_sub (P : node) (p : List (Fin 8)) (h : WF P) : WF (P.sub p) :=
  sub_induct _ trivial (fun _ _ _ _ _ i h => h.2.2 i) p P h

theorem shaped_sub (NCRIT : Nat) (P : node) (p : List (Fin 8)) (h : shaped NCRIT P) :
    shaped NCRIT (P.sub p) :=
  sub_induct _ trivial (fun _ _ _ _ _ i h => (h i).2) p P h

theorem no_twig_sub (P : node) (p : List (Fin 8)) (h : no_twig P) : no_twig (P.sub p) :=
  sub_induct _ trivial (fun _ _ _ _ _ i h => h.2 i) p P h

theorem sub_append (p q : List (Fin 8)) : ∀ P : node, P.sub (p ++ q) = (P.sub p).sub q := by
  induction p with
  | nil => intro P; rw [sub_nil]; rfl
  | cons i p ih =>
    intro P
    cases P with
    | null => simp [node.sub, sub_null]
    | dot D => simp [node.sub, sub_null]
    | box L c N D O => exact ih (O i)

theorem in_layout_sub {P : node} {o C cf lf : Nat} {Q : node} {o1 C1 cf1 lf1 : Nat}
    (h : in_layout P o C cf lf Q o1 C1 cf1 lf1) : ∃ p, P.sub p = Q := by
  induction h with
  | self P o C cf lf h => exact ⟨[], sub_nil P⟩
  | kid L c N DOTS OCT o C cf lf j k Q o1 C1 cf1 lf1 htw hk h ih =>
    obtain ⟨p, hp⟩ := ih
    exact ⟨k :: p, hp⟩

theorem adddots_append (add : node → dot → Nat → Res (node × Nat)) :
    ∀ (l1 l2 : List dot) (P : node) (BM : Nat),
      adddots add (l1 ++ l2) P BM =
        match adddots add l1 P BM with
        | Res.ok (P1, BM1) => adddots add l2 P1 BM1
        | Res.error e => Res.error e
        | Res.fuel => Res.fuel := by
  intro l1
  induction l1 with
  | nil => intro l2 P BM; rfl
  | cons d l1 ih =>
    intro l2 P BM
    simp only [List.cons_append, adddots]
    cases add P d BM with
    | ok x => exact ih l2 x.1 x.2
    | error e => rfl
    | fuel => rfl

/-- The state of a build after the insertion of the first dots of the sequence
is the result of the build of these dots. -/
theorem build_prefix (fuel : Nat) (TB0 : box_dot_tree) (l1 l2 : List dot) (TB : box_dot_tree)
    (h : tree_builder.build fuel TB0 (l1 ++ l2) = Res.ok TB) :
    ∃ TB1, tree_builder.build fuel TB0 l1 = Res.ok TB1 := by
  unfold tree_builder.build at h ⊢
  simp only at h ⊢
  rw [adddots_append] at h
  cases h1 : adddots (if TB0.NCRIT > 1 then adddot_N TB0.NCRIT TB0.DMAX TB0.RA fuel
      else adddot_1 TB0.DMAX TB0.RA fuel) l1 TB0.P0 TB0.BM with
  | ok x => exact ⟨_, rfl⟩
  | error e => rw [h1] at h; cases h
  | fuel => rw [h1] at h; cases h

theorem slice_get {α : Type} (l : List α) (a n i : Nat) (h : i < n) :
    (leaf_slice l a n)[i]? = l[a + i]? := by
  unfold leaf_slice
  rw [List.getElem?_take_of_lt h, List.getElem?_drop]

/-- The dots of a box of the tree are written to the leaves from the first free
leaf of the box on: they are a slice of the dots of the tree in the order of the
linker. -/
theorem layout_slice {P : node} {o C cf lf : Nat} {Q : node} {o1 C1 cf1 lf1 : Nat}
    (h : in_layout P o C cf lf Q o1 C1 cf1 lf1) :
    lf ≤ lf1 ∧ lf1 - lf + (link_order Q).length ≤ (link_order P).length ∧
      leaf_slice (link_order P) (lf1 - lf) (link_order Q).length = link_order Q := by
  induction h with
  | self P o C cf lf h =>
    refine ⟨Nat.le_refl _, by omega, ?_⟩
    rw [Nat.sub_self]
    exact slice_all _
  | kid L c N DOTS OCT o C cf lf j k Q o1 C1 cf1 lf1 htw hk h ih =>
    obtain ⟨i1, i2, i3⟩ := ih
    have hlo : link_order (node.box L c N DOTS OCT)
        = (dot_kids OCT (List.finRange 8) ++
            ((box_kids OCT (List.finRange 8)).take j).flatMap (fun k => link_order (OCT k)))
          ++ link_order (OCT k)
          ++ ((box_kids OCT (List.finRange 8)).drop (j + 1)).flatMap
              (fun k => link_order (OCT k)) := by
      simp only [link_order, htw, Bool.false_eq_true, if_false]
      rw [flatMap_split (fun k => link_order (OCT k)) _ j k hk]
      simp only [List.append_assoc]
    have hA : (dot_kids OCT (List.finRange 8) ++
        ((box_kids OCT (List.finRange 8)).take j).flatMap (fun k => link_order (OCT k))).length
        = kid_lf OCT lf j - lf := by
      rw [List.length_append, length_flatMap_take]
      unfold kid_lf
      omega
    have hge : lf ≤ kid_lf OCT lf j := by unfold kid_lf; omega
    have e : lf1 - lf = (dot_kids OCT (List.finRange 8) ++
        ((box_kids OCT (List.finRange 8)).take j).flatMap (fun k => link_order (OCT k))).length
        + (lf1 - kid_lf OCT lf j) := by
      rw [hA]; omega
    refine ⟨by omega, ?_, ?_⟩
    · rw [hlo, e]
      simp only [List.length_append]
      omega
    · rw [hlo, e, slice_mid _ _ _ _ _ i2]
      exact i3

theorem root_cell_box (L : Nat) (c : vect) (N : Nat) (D : List dot) (O : Fin 8 → node)
    (o cf lf : Nat) :
    (root_cell (node.box L c N D O) o cf lf).LEVEL = L ∧
      (root_cell (node.box L c N D O) o cf lf).CENTER = c ∧
      (root_cell (node.box L c N D O) o cf lf).OCTANT = o ∧
      (root_cell (node.box L c N D O) o cf lf).NUMBER = N ∧
      (root_cell (node.box L c N D O) o cf lf).FCLEAF = lf := by
  simp only [root_cell]
  split <;> exact ⟨rfl, rfl, rfl, rfl, rfl⟩

/-- A cell kid of a cell of the linked tree is the cell of a sub-box of the box
of the cell, linked as the octant in which the sub-box is. -/
theorem linked_kid {P0 : node} {CELLS : List BasicCell} (hl : is_linked P0 CELLS)
    (c : Nat) (cell : BasicCell) (hc : CELLS[c]? = some cell) (k : Nat)
    (hk : k ∈ child_range cell) :
    ∃ (L : Nat) (ctr : vect) (N : Nat) (DOTS : List dot) (OCT : Fin 8 → node) (o cf lf : Nat)
        (kk : Fin 8) (j : Nat),
      in_layout P0 0 0 1 0 (node.box L ctr N DOTS OCT) o c cf lf ∧
      cell = root_cell (node.box L ctr N DOTS OCT) o cf lf ∧
      (box_kids OCT (List.finRange 8))[j]? = some kk ∧
      in_layout P0 0 0 1 0 (OCT kk) kk.val k (kid_cf OCT cf j) (kid_lf OCT lf j) ∧
      CELLS[k]? = some (root_cell (OCT kk) kk.val (kid_cf OCT cf j) (kid_lf OCT lf j)) := by
  obtain ⟨L, ctr, N, DOTS, OCT, o, cf, lf, hin, hn, hkids⟩ := (child_cells_core hl).1 c cell hc
  have hcell := is_linked_cell_at hl hin
  rw [hc] at hcell
  injection hcell with hcell
  unfold child_range at hk
  rw [List.mem_range'_1] at hk
  obtain ⟨j, hj⟩ : ∃ j, k = cell.FCCELL.toNat + j := ⟨k - cell.FCCELL.toNat, by omega⟩
  have hjl : j < (box_kids OCT (List.finRange 8)).length := by omega
  have hkk : (box_kids OCT (List.finRange 8))[j]?
      = some ((box_kids OCT (List.finRange 8))[j]) := List.getElem?_eq_getElem hjl
  obtain ⟨hin2, _⟩ := hkids j _ hkk
  rw [← hj] at hin2
  exact ⟨L, ctr, N, DOTS, OCT, o, cf, lf, _, j, hin, hcell, hkk, hin2, is_linked_cell_at hl hin2⟩

theorem in_layout_placed {NCRIT DMAX : Nat} {RA : List real} {P : node} {o C cf lf : Nat}
    {Q : node} {o1 C1 cf1 lf1 : Nat} (h : in_layout P o C cf lf Q o1 C1 cf1 lf1)
    (hP : placed NCRIT DMAX RA P) : placed NCRIT DMAX RA Q := by
  obtain ⟨p, hp⟩ := in_layout_sub h
  rw [← hp]
  exact placed_sub NCRIT DMAX RA P p hP

/-- The leaf `i` of a cell of the linked tree holds a dot of the box of the
cell. -/
theorem linked_leaf_dot (fuel nc dm : Nat) (x0 : vect) (sz : real) (dots : List dot)
    (TB : box_dot_tree)
    (h : tree_builder.build fuel (box_dot_tree.reset nc dm dots.length x0 sz) dots
      = Res.ok TB)
    (Q : node) (o k cf lf : Nat) (hin : in_layout TB.P0 0 0 1 0 Q o k cf lf)
    (i : Nat) (hi : leaf_of_cell (cell_array TB) k i) (leaf : BasicLeaf)
    (hL : (leaf_array TB)[i]? = some leaf) :
    ∃ d ∈ dots_of Q, leaf = set_leaf d := by
  have hl := is_linked_after_build fuel nc dm x0 sz dots TB h
  obtain ⟨hr1, hr2⟩ := leaf_of_cell_range hl hi Q o cf lf hin
  obtain ⟨s1, s2, s3⟩ := layout_slice hin
  have hWQ := in_layout_WF hin hl.1
  have hbQ := in_layout_isBox hin
  have hperm := link_order_perm Q hWQ hbQ
  have hnum : node_number Q = (link_order Q).length := by
    rw [WF_number Q hWQ hbQ, hperm.length_eq]
  rw [(leaf_array_eq fuel nc dm x0 sz dots TB h).1, List.getElem?_map] at hL
  cases hd : (link_order TB.P0)[i]? with
  | none => rw [hd] at hL; cases hL
  | some d =>
    rw [hd] at hL
    injection hL with hL
    refine ⟨d, ?_, hL.symm⟩
    apply hperm.subset
    rw [← s3]
    have hg := slice_get (link_order TB.P0) (lf - 0) (link_order Q).length (i - lf) (by omega)
    have e : lf - 0 + (i - lf) = i := by omega
    rw [e, hd] at hg
    exact List.getElem?_mem hg

/-- After a successful build every dot in or beneath octant `b` of a box of the
tree has octant `b` with respect to the centre of the box. -/
theorem build_octants (fuel nc dm nl : Nat) (x0 : vect) (sz : real) (dots : List dot)
    (TB : box_dot_tree)
    (h : tree_builder.build fuel (box_dot_tree.reset nc dm nl x0 sz) dots = Res.ok TB)
    (p : List (Fin 8)) (L : Nat) (c : vect) (N : Nat) (D : List dot) (O : Fin 8 → node)
    (b : Fin 8) (hp : TB.P0.sub p = node.box L c N D O) :
    ∀ d ∈ dots_of (O b), octant c d.POS = b.val := by
  obtain ⟨⟨_, hP, _, _⟩, _, _⟩ := build_placed fuel nc dm nl x0 sz dots TB h
  have := placed_sub nc dm TB.RA TB.P0 p hP
  rw [hp] at this
  intro d hd
  have e := (this.2.2 b).1 d hd
  rw [← e]
  rfl

theorem octant_and (c p : vect) :
    (octant c p &&& 1 ≠ 0 ↔ real.gt p.x0 c.x0 = true) ∧
      (octant c p &&& 2 ≠ 0 ↔ real.gt p.x1 c.x1 = true) ∧
      (octant c p &&& 4 ≠ 0 ↔ real.gt p.x2 c.x2 = true) := by
  unfold octant
  cases real.gt p.x0 c.x0 <;> cases real.gt p.x1 c.x1 <;> cases real.gt p.x2 c.x2 <;>
    simp <;> decide

theorem radius_get (sz : real) (dm l : Nat) (h : l ≤ dm) :
    (List.iterate (fun r => real.mul half r) sz (dm + 1)).getD l real.nan
      = (fun r => real.mul half r)^[l] sz := by
  rw [List.getD_eq_getElem?_getD, List.getElem?_iterate _ _ _ _ (by omega)]
  rfl

theorem radius_val (q : ℚ) (l : Nat) :
    (fun r => real.mul half r)^[l] (real.val q) = real.val (q / 2 ^ l) := by
  induction l with
  | zero => simp
  | succ l ih =>
    rw [Function.iterate_succ_apply', ih]
    simp only [real.mul, half]
    congr 1
    rw [pow_succ]
    field_simp
    left
    ring

theorem radius_nan (l : Nat) : (fun r => real.mul half r)^[l] real.nan = real.nan := by
  induction l with
  | zero => rfl
  | succ l ih =>
    rw [Function.iterate_succ_apply', ih]
    rfl

/-- The radius of the level that `shrink_to_octant` goes to is at least half the
radius of the level it comes from. -/
theorem radius_step (sz : real) (dm L l : Nat) (hL : L ≤ dm) (hl : l ≤ dm) (hle : l ≤ L + 1)
    (a : ℚ) (ha : 0 ≤ a)
    (h : (List.iterate (fun r => real.mul half r) sz (dm + 1)).getD L real.nan = real.val a) :
    ∃ b, (List.iterate (fun r => real.mul half r) sz (dm + 1)).getD l real.nan = real.val b ∧
      a ≤ 2 * b := by
  rw [radius_get sz dm L hL] at h
  rw [radius_get sz dm l hl]
  cases sz with
  | nan => rw [radius_nan] at h; cases h
  | val q =>
    rw [radius_val] at h
    injection h with h
    refine ⟨_, radius_val q l, ?_⟩
    have h2L : (0 : ℚ) < 2 ^ L := by positivity
    have h2l : (0 : ℚ) < 2 ^ l := by positivity
    have hq : 0 ≤ q := by
      rw [← h] at ha
      have := mul_nonneg ha h2L.le
      rwa [div_mul_cancel₀ _ h2L.ne'] at this
    have hpow : (2 : ℚ) ^ l ≤ 2 ^ (L + 1) := pow_le_pow_right₀ (by norm_num) hle
    rw [← h]
    have e : q / 2 ^ L = 2 * (q / 2 ^ (L + 1)) := by
      rw [pow_succ]; field_simp; ring
    rw [e]
    apply mul_le_mul_of_nonneg_left _ (by norm_num)
    exact div_le_div_of_nonneg_left hq h2l hpow

/-- One coordinate of the step from a cube to the cube of an octant: a position
within `a` of the centre `c` is within `b` of `c + b` if it is greater than `c`,
and of `c - b` if not, when `a <= 2 b`. -/
theorem axis_shrink (c p r r1 : real) (a b : ℚ) (hr : r = real.val a) (hr1 : r1 = real.val b)
    (hab : a ≤ 2 * b) (h : real.le (real.abs (real.sub c p)) r = true) :
    real.le (real.abs (real.sub (if real.gt p c = true then real.add c r1 else real.sub c r1) p))
      r1 = true := by
  subst hr hr1
  cases c with
  | nan => cases p <;> simp [real.sub, real.abs, real.le] at h
  | val cq =>
    cases p with
    | nan => simp [real.sub, real.abs, real.le] at h
    | val pq =>
      simp only [real.sub, real.abs, real.le, decide_eq_true_eq] at h
      rw [abs_le] at h
      by_cases hg : pq > cq
      · have : real.gt (real.val pq) (real.val cq) = true := by simp [real.gt, hg]
        rw [if_pos this]
        simp only [real.add, real.sub, real.abs, real.le, decide_eq_true_eq]
        rw [abs_le]
        constructor <;> linarith
      · have : ¬ (real.gt (real.val pq) (real.val cq) = true) := by simp [real.gt, hg]
        rw [if_neg this]
        simp only [real.sub, real.abs, real.le, decide_eq_true_eq]
        rw [abs_le]
        constructor <;> linarith

theorem contains_radius (c p : vect) (r : real) (h : contains c r p = true) :
    ∃ a : ℚ, r = real.val a ∧ 0 ≤ a := by
  simp only [contains, Bool.and_eq_true] at h
  obtain ⟨⟨h0, _⟩, _⟩ := h
  cases r with
  | nan => cases hx : real.abs (real.sub c.x0 p.x0) <;> rw [hx] at h0 <;> simp [real.le] at h0
  | val a =>
    refine ⟨a, rfl, ?_⟩
    cases hx : real.abs (real.sub c.x0 p.x0) with
    | nan => rw [hx] at h0; simp [real.le] at h0
    | val v =>
      rw [hx] at h0
      simp only [real.le, decide_eq_true_eq] at h0
      have : 0 ≤ v := by
        cases hs : real.sub c.x0 p.x0 with
        | nan => rw [hs] at hx; cases hx
        | val w =>
          rw [hs] at hx
          simp only [real.abs] at hx
          injection hx with hx
          rw [← hx]
          exact abs_nonneg w
      linarith

/-- A position in the cube of a box is in the cube that `shrink_to_octant` makes
for the octant of the position. -/
theorem contains_shrink (sz : real) (dm L : Nat) (c p : vect) (l : Nat) (c1 : vect)
    (hL : L ≤ dm)
    (h : contains c ((List.iterate (fun r => real.mul half r) sz (dm + 1)).getD L real.nan) p
      = true)
    (hs : shrink_to_octant dm (List.iterate (fun r => real.mul half r) sz (dm + 1)) L c
      (octant c p) = Res.ok (l, c1)) :
    contains c1 ((List.iterate (fun r => real.mul half r) sz (dm + 1)).getD l real.nan) p
      = true := by
  obtain ⟨a, hr, ha⟩ := contains_radius c p _ h
  obtain ⟨hl1, hl2⟩ := shrink_ok hs
  obtain ⟨b, hb, hab⟩ := radius_step sz dm L l hL hl2
    (by rw [hl1]; exact Nat.mod_le _ _) a ha hr
  obtain ⟨o0, o1, o2⟩ := octant_and c p
  unfold shrink_to_octant at hs
  simp only at hs
  rw [if_neg (by rw [← hl1]; omega)] at hs
  injection hs with hs
  injection hs with e1 e2
  rw [← hl1] at e2
  subst e2
  simp only [contains, Bool.and_eq_true] at h ⊢
  obtain ⟨⟨h0, h1⟩, h2⟩ := h
  have k0 := axis_shrink c.x0 p.x0 _ _ a b hr hb hab h0
  have k1 := axis_shrink c.x1 p.x1 _ _ a b hr hb hab h1
  have k2 := axis_shrink c.x2 p.x2 _ _ a b hr hb hab h2
  refine ⟨⟨?_, ?_⟩, ?_⟩
  · by_cases g : real.gt p.x0 c.x0 = true
    · rw [if_pos (o0.2 g)]; rw [if_pos g] at k0; exact k0
    · rw [if_neg (fun e => g (o0.1 e))]; rw [if_neg g] at k0; exact k0
  · by_cases g : real.gt p.x1 c.x1 = true
    · rw [if_pos (o1.2 g)]; rw [if_pos g] at k1; exact k1
    · rw [if_neg (fun e => g (o1.1 e))]; rw [if_neg g] at k1; exact k1
  · by_cases g : real.gt p.x2 c.x2 = true
    · rw [if_pos (o2.2 g)]; rw [if_pos g] at k2; exact k2
    · rw [if_neg (fun e => g (o2.1 e))]; rw [if_neg g] at k2; exact k2

theorem dots_of_kid_mem (L : Nat) (c : vect) (N : Nat) (D : List dot) (O : Fin 8 → node)
    (i : Fin 8) (d : dot) (h : d ∈ dots_of (O i)) : d ∈ dots_of (node.box L c N D O) := by
  simp only [dots_of, List.mem_append, List.mem_flatMap]
  exact Or.inr ⟨i, List.mem_finRange i, h⟩

/-- When the dots of a box are in the cube of the box, the dots of every box
beneath it are in the cube of that box. -/
theorem inside_sub (nc dm : Nat) (sz : real) :
    ∀ (p : List (Fin 8)) (P : node) (L : Nat) (c : vect) (N : Nat) (D : List dot)
      (O : Fin 8 → node), P = node.box L c N D O →
      placed nc dm (List.iterate (fun r => real.mul half r) sz (dm + 1)) P →
      (∀ d ∈ dots_of P, contains c
        ((List.iterate (fun r => real.mul half r) sz (dm + 1)).getD L real.nan) d.POS = true) →
      ∀ (L1 : Nat) (c1 : vect) (N1 : Nat) (D1 : List dot) (O1 : Fin 8 → node),
        P.sub p = node.box L1 c1 N1 D1 O1 →
        ∀ d ∈ dots_of (node.box L1 c1 N1 D1 O1), contains c1
          ((List.iterate (fun r => real.mul half r) sz (dm + 1)).getD L1 real.nan) d.POS
            = true := by
  intro p
  induction p with
  | nil =>
    intro P L c N D O hP _ hin L1 c1 N1 D1 O1 hs d hd
    rw [sub_nil, hP] at hs
    injection hs with e1 e2 e3 e4 e5
    subst e1 e2 e3 e4 e5
    rw [hP] at hin
    exact hin d hd
  | cons i p ih =>
    intro P L c N D O hP hpl hin L1 c1 N1 D1 O1 hs d hd
    subst hP
    have hs1 : (O i).sub p = node.box L1 c1 N1 D1 O1 := hs
    cases hO : O i with
    | null => rw [hO, sub_null] at hs1; cases hs1
    | dot E =>
      rw [hO] at hs1
      cases p with
      | nil => rw [sub_nil] at hs1; cases hs1
      | cons j p => rw [sub_dot] at hs1; cases hs1
    | box L2 c2 N2 D2 O2 =>
      have hsh := (hpl.2.2 i).2.1 L2 c2 N2 D2 O2 hO
      have hk : placed nc dm (List.iterate (fun r => real.mul half r) sz (dm + 1))
          (node.box L2 c2 N2 D2 O2) := hO ▸ (hpl.2.2 i).2.2
      rw [hO] at hs1
      refine ih (node.box L2 c2 N2 D2 O2) L2 c2 N2 D2 O2 rfl hk ?_ L1 c1 N1 D1 O1 hs1 d hd
      intro e he
      have he1 : e ∈ dots_of (O i) := by rw [hO]; exact he
      have hoct : octant c e.POS = i.val := by
        have := (hpl.2.2 i).1 e he1
        rw [← this]
        rfl
      rw [← hoct] at hsh
      exact contains_shrink sz dm L c e.POS L2 c2 hpl.1
        (hin e (dots_of_kid_mem L c N D O i e he1)) hsh

/-- The level, the centre and the octant of the cell of a sub-box are those that
`shrink_to_octant` makes of the level and the centre of the box of the parent
cell. -/
theorem linked_levels (fuel nc dm : Nat) (x0 : vect) (sz : real) (dots : List dot)
    (TB : box_dot_tree)
    (h : tree_builder.build fuel (box_dot_tree.reset nc dm dots.length x0 sz) dots
      = Res.ok TB)
    (c : Nat) (cell : BasicCell) (k : Nat) (kc : BasicCell)
    (hc : (cell_array TB)[c]? = some cell) (hk : k ∈ child_range cell)
    (hkc : (cell_array TB)[k]? = some kc) :
    cell.LEVEL ≤ dm ∧ kc.OCTANT < 8 ∧
      shrink_to_octant dm TB.RA cell.LEVEL cell.CENTER kc.OCTANT
        = Res.ok (kc.LEVEL, kc.CENTER) := by
  have hl := is_linked_after_build fuel nc dm x0 sz dots TB h
  obtain ⟨L, ctr, N, DOTS, OCT, o, cf, lf, kk, j, hin, hcell, hkk, hin2, hkc2⟩ :=
    linked_kid hl c cell hc k hk
  rw [hkc] at hkc2
  injection hkc2 with hkc2
  obtain ⟨⟨_, hP, _, _⟩, _, _⟩ := build_placed fuel nc dm _ x0 sz dots TB h
  have hPQ := in_layout_placed hin hP
  have hb : (OCT kk).isBox = true := in_layout_isBox hin2
  obtain ⟨r1, r2, _⟩ := root_cell_box L ctr N DOTS OCT o cf lf
  rw [hcell, hkc2, r1, r2]
  cases hO : OCT kk with
  | null => rw [hO] at hb; cases hb
  | dot D => rw [hO] at hb; cases hb
  | box L1 c1 N1 D1 O1 =>
    obtain ⟨s1, s2, s3, _⟩ := root_cell_box L1 c1 N1 D1 O1 kk.val (kid_cf OCT cf j)
      (kid_lf OCT lf j)
    rw [s1, s2, s3]
    exact ⟨hPQ.1, kk.isLt, (hPQ.2.2 kk).2.1 L1 c1 N1 D1 O1 hO⟩

theorem shrink_centre {DMAX : Nat} {RA : List real} {L : Nat} {c : vect} {i l : Nat} {c1 : vect}
    (h : shrink_to_octant DMAX RA L c i = Res.ok (l, c1)) :
    c1.x0 = (if i &&& 1 ≠ 0 then real.add c.x0 (RA.getD l real.nan)
      else real.sub c.x0 (RA.getD l real.nan)) ∧
    c1.x1 = (if i &&& 2 ≠ 0 then real.add c.x1 (RA.getD l real.nan)
      else real.sub c.x1 (RA.getD l real.nan)) ∧
    c1.x2 = (if i &&& 4 ≠ 0 then real.add c.x2 (RA.getD l real.nan)
      else real.sub c.x2 (RA.getD l real.nan)) := by
  unfold shrink_to_octant at h
  by_cases hl : (L + 1) % 256 > DMAX
  · simp [hl] at h
  · simp only [hl, if_false] at h
    injection h with h
    injection h with h1 h2
    subst h1 h2
    exact ⟨rfl, rfl, rfl⟩

/-- The radii that `allocate` writes to the tree are those of the builder. -/
theorem grow_radii (fuel nc dm : Nat) (x0 : vect) (sz : real) (dots : List dot)
    (T0 T : OctTree) (hne : dots ≠ [])
    (h : OctTree.grow fuel T0 (box_dot_tree.reset nc dm dots.length x0 sz) dots
      = (T, Res.ok ())) :
    ∃ TB, tree_builder.build fuel (box_dot_tree.reset nc dm dots.length x0 sz) dots
        = Res.ok TB ∧
      T.CELLS = cell_array TB ∧ T.LEAFS = leaf_array TB ∧ T.RA = TB.RA ∧
      TB.RA = List.iterate (fun r => real.mul half r) sz (dm + 1) := by
  obtain ⟨_, _, _, _, hcase⟩ := grow_ok fuel T0 T _ dots h
  rcases hcase with ⟨h0, _⟩ | ⟨_, TB, hb, hL, hC, _, _, _, _, hRA⟩
  · exfalso
    simp only [box_dot_tree.reset] at h0
    exact hne (List.length_eq_zero.1 h0)
  · obtain ⟨_, hdm, hra⟩ := build_placed fuel nc dm _ x0 sz dots TB hb
    obtain ⟨_, _, N0, O0, e0⟩ := build_grown fuel nc dm _ x0 sz dots TB hb
    refine ⟨TB, hb, hC, hL, ?_, hra⟩
    rw [hRA]
    simp only [box_dot_tree.root_rad, box_dot_tree.N_levels, e0, hdm, Nat.sub_zero]
    rw [hra, radius_get sz dm 0 (Nat.zero_le _)]
    rfl

theorem is_twig_ne_nil {L : Nat} {c : vect} {N : Nat} {D : List dot} {O : Fin 8 → node}
    (h : (node.box L c N D O).is_twig = true) : D ≠ [] := by
  intro e
  subst e
  cases h

theorem in_layout_WF_placed {NCRIT DMAX : Nat} {RA : List real} {P : node} {o C cf lf : Nat}
    {Q : node} {o1 C1 cf1 lf1 : Nat} (h : in_layout P o C cf lf Q o1 C1 cf1 lf1)
    (hW : WF P) (hP : placed NCRIT DMAX RA P) : WF Q ∧ placed NCRIT DMAX RA Q :=
  ⟨in_layout_WF h hW, in_layout_placed h hP⟩

/-- A twig box of a tree with the invariants of the insertion holds a dot list
of `NUMBER` dots, at least one and at most `Ncrit`. -/
theorem twig_number (NCRIT DMAX : Nat) (RA : List real) (L : Nat) (c : vect) (N : Nat)
    (D : List dot) (O : Fin 8 → node) (hW : WF (node.box L c N D O))
    (hP : placed NCRIT DMAX RA (node.box L c N D O))
    (ht : (node.box L c N D O).is_twig = true) :
    D.length = N ∧ 1 ≤ N ∧ N ≤ NCRIT := by
  have hne := is_twig_ne_nil ht
  obtain ⟨_, hN⟩ := WF_twig_number L c N D O hW hne
  have h1 : 1 ≤ D.length := List.length_pos.2 hne
  have h2 := hP.2.1
  omega

theorem stays_refl (P : node) : stays P P := by
  induction P with
  | null => trivial
  | dot D => trivial
  | box L c N D O ih => exact ⟨N, D, O, rfl, fun e => e, ih⟩

theorem stays_trans (P : node) : ∀ Q R : node, stays P Q → stays Q R → stays P R := by
  induction P with
  | null => intro _ _ _ _; trivial
  | dot D => intro _ _ _ _; trivial
  | box L c N D O ih =>
    intro Q R h1 h2
    obtain ⟨N1, D1, O1, e1, d1, k1⟩ := h1
    subst e1
    obtain ⟨N2, D2, O2, e2, d2, k2⟩ := h2
    subst e2
    exact ⟨N2, D2, O2, rfl, fun e => d2 (d1 e), fun i => ih i _ _ (k1 i) (k2 i)⟩

theorem stays_update (L : Nat) (c : vect) (N N1 : Nat) (D : List dot) (O : Fin 8 → node)
    (b : Fin 8) (v : node) (h : stays (O b) v) :
    stays (node.box L c N D O) (node.box L c N1 D (Function.update O b v)) := by
  refine ⟨N1, D, _, rfl, fun e => e, ?_⟩
  intro i
  by_cases hi : i = b
  · subst hi
    rw [Function.update_same]
    exact h
  · rw [Function.update_noteq hi]
    exact stays_refl _

/-- A box without dot list at a place of `P` is a box without dot list, with the
same level and centre, at the same place of `Q`. -/
theorem stays_sub : ∀ (p : List (Fin 8)) (P Q : node), stays P Q →
    ∀ (L : Nat) (c : vect) (N : Nat) (O : Fin 8 → node), P.sub p = node.box L c N [] O →
      ∃ N2 O2, Q.sub p = node.box L c N2 [] O2 := by
  intro p
  induction p with
  | nil =>
    intro P Q h L c N O hs
    rw [sub_nil] at hs
    subst hs
    obtain ⟨N1, D1, O1, e1, d1, _⟩ := h
    rw [sub_nil, e1, d1 rfl]
    exact ⟨_, _, rfl⟩
  | cons i p ih =>
    intro P Q h L c N O hs
    cases P with
    | null => cases hs
    | dot D => cases hs
    | box L0 c0 N0 D0 O0 =>
      obtain ⟨N1, D1, O1, e1, _, k1⟩ := h
      subst e1
      exact ih (O0 i) (O1 i) (k1 i) L c N O hs

/-- An insertion with `adddot_N` leaves every box of the tree at its place, and
a box without dot list without dot list. -/
theorem adddot_N_stays (NCRIT DMAX : Nat) (RA : List real) :
    ∀ (fuel : Nat) (L : Nat) (c : vect) (N : Nat) (DOTS : List dot) (OCT : Fin 8 → node)
      (Di : dot) (BM : Nat) (P1 : node) (BM1 : Nat),
      adddot_N NCRIT DMAX RA fuel (node.box L c N DOTS OCT) Di BM = Res.ok (P1, BM1) →
      WF (node.box L c N DOTS OCT) → stays (node.box L c N DOTS OCT) P1 := by
  intro fuel
  induction fuel with
  | zero => intro L c N DOTS OCT Di BM P1 BM1 h; simp [adddot_N] at h
  | succ fuel ih =>
    intro L c N DOTS OCT Di BM P1 BM1 h hWF
    simp only [adddot_N] at h
    obtain ⟨hN, hTw, hK⟩ := hWF
    split at h
    · rename_i htw
      have hne : DOTS ≠ [] := is_twig_ne_nil htw
      have hO : OCT = fun _ => node.null := funext (hTw hne)
      subst hO
      rw [dots_of_twig] at hN
      subst hN
      split at h
      · have hrec : split_box DMAX RA fuel true
            (node.box L c (Di :: DOTS).length (Di :: DOTS) (fun _ => node.null)) BM
            = Res.ok (P1, BM1) := h
        obtain ⟨_, _, _, OCT1, q4⟩ := split_box_inv DMAX RA fuel true L c _ BM P1 BM1 hrec
        exact ⟨_, _, OCT1, q4, fun e => absurd e hne, fun _ => trivial⟩
      · injection h with h
        injection h with e1 e2
        subst e1
        exact ⟨_, _, _, rfl, fun e => absurd e hne, fun _ => trivial⟩
    · split at h
      · injection h with h
        injection h with h1 h2
        subst h1
        rename_i hb
        exact stays_update L c N (N + 1) DOTS OCT _ _ (by rw [hb]; trivial)
      · rename_i Do hb
        split at h
        · split at h
          · injection h with h
            injection h with h1 h2
            subst h1
            exact stays_update L c N (N + 1) DOTS OCT _ _ (by rw [hb]; trivial)
          · cases h
          · cases h
        · cases h
        · cases h
      · rename_i L1 c1 N1 D1 O1 hb
        split at h
        · rename_i P2 BM2 hrec
          injection h with h
          injection h with h1 h2
          subst h1
          have hKW : WF (node.box L1 c1 N1 D1 O1) := hb ▸ hK _
          exact stays_update L c N (N + 1) DOTS OCT _ _
            (by rw [hb]; exact ih L1 c1 N1 D1 O1 Di _ P2 BM2 hrec hKW)
        · cases h
        · cases h

/-- An insertion with `adddot_1` leaves every box of the tree at its place, with
its dot list. -/
theorem adddot_1_stays (DMAX : Nat) (RA : List real) :
    ∀ (fuel : Nat) (L : Nat) (c : vect) (N : Nat) (DOTS : List dot) (OCT : Fin 8 → node)
      (Di : dot) (BM : Nat) (P1 : node) (BM1 : Nat),
      adddot_1 DMAX RA fuel (node.box L c N DOTS OCT) Di BM = Res.ok (P1, BM1) →
      stays (node.box L c N DOTS OCT) P1 := by
  intro fuel
  induction fuel with
  | zero => intro L c N DOTS OCT Di BM P1 BM1 h; simp [adddot_1] at h
  | succ fuel ih =>
    intro L c N DOTS OCT Di BM P1 BM1 h
    simp only [adddot_1] at h
    split at h
    · injection h with h
      injection h with h1 h2
      subst h1
      rename_i hb
      exact stays_update L c N (N + 1) DOTS OCT _ _ (by rw [hb]; trivial)
    · rename_i Do hb
      split at h
      · split at h
        · injection h with h
          injection h with h1 h2
          subst h1
          exact stays_update L c N (N + 1) DOTS OCT _ _ (by rw [hb]; trivial)
        · cases h
        · cases h
      · cases h
      · cases h
    · rename_i L1 c1 N1 D1 O1 hb
      split at h
      · rename_i P2 BM2 hrec
        injection h with h
        injection h with h1 h2
        subst h1
        exact stays_update L c N (N + 1) DOTS OCT _ _
          (by rw [hb]; exact ih L1 c1 N1 D1 O1 Di _ P2 BM2 hrec)
      · cases h
      · cases h

theorem adddots_stays (add : node → dot → Nat → Res (node × Nat)) (I : node → Prop)
    (hadd : ∀ P Di BM P1 BM1, add P Di BM = Res.ok (P1, BM1) → I P → I P1 ∧ stays P P1) :
    ∀ (dots : List dot) (P : node) (BM : Nat) (P1 : node) (BM1 : Nat),
      adddots add dots P BM = Res.ok (P1, BM1) → I P → stays P P1 := by
  intro dots
  induction dots with
  | nil =>
    intro P BM P1 BM1 h _
    simp only [adddots] at h
    injection h with h
    injection h with h1 h2
    subst h1
    exact stays_refl P
  | cons d ds ih =>
    intro P BM P1 BM1 h hI
    simp only [adddots] at h
    split at h
    · rename_i P2 BM2 hstep
      obtain ⟨hI2, hs⟩ := hadd P d BM P2 BM2 hstep hI
      exact stays_trans P P2 P1 hs (ih P2 BM2 P1 BM1 h hI2)
    · cases h
    · cases h

theorem shaped_sub_number (NCRIT : Nat) : ∀ (p : List (Fin 8)) (P : node), shaped NCRIT P →
    p ≠ [] → ∀ (L : Nat) (c : vect) (N : Nat) (D : List dot) (O : Fin 8 → node),
      P.sub p = node.box L c N D O → 2 ≤ N := by
  intro p
  induction p with
  | nil => intro P _ h; exact absurd rfl h
  | cons i p ih =>
    intro P hS _ L c N D O hs
    cases P with
    | null => cases hs
    | dot E => cases hs
    | box L0 c0 N0 D0 O0 =>
      have hs1 : (O0 i).sub p = node.box L c N D O := hs
      cases p with
      | nil =>
        rw [sub_nil] at hs1
        exact ((hS i).1 L c N D O hs1).1
      | cons j p => exact ih (O0 i) (hS i).2 (List.cons_ne_nil _ _) L c N D O hs1

theorem branch_occupied (L : Nat) (c : vect) (N : Nat) (O : Fin 8 → node)
    (hW : WF (node.box L c N [] O)) (hN : 1 ≤ N) : ∃ i, O i ≠ node.null := by
  by_contra hno
  have hall : ∀ i, O i = node.null := by
    intro i
    by_contra hi
    exact hno ⟨i, hi⟩
  have hO : O = fun _ => node.null := funext hall
  subst hO
  have := hW.1
  rw [dots_of_twig] at this
  simp at this
  omega

/-- The tree after the insertion of the first dots of a build and the tree at
its end: every box stays at its place, a box without dot list without it. -/
theorem build_stays (fuel nc dm nl : Nat) (x0 : vect) (sz : real) (l1 l2 : List dot)
    (TB1 TB : box_dot_tree)
    (h1 : tree_builder.build fuel (box_dot_tree.reset nc dm nl x0 sz) l1 = Res.ok TB1)
    (h : tree_builder.build fuel (box_dot_tree.reset nc dm nl x0 sz) (l1 ++ l2) = Res.ok TB) :
    stays TB1.P0 TB.P0 := by
  have hI1 := (build_placed fuel nc dm nl x0 sz l1 TB1 h1).1
  rw [(build_placed fuel nc dm nl x0 sz l1 TB1 h1).2.2] at hI1
  unfold tree_builder.build at h h1
  simp only [box_dot_tree.reset] at h h1
  rw [adddots_append] at h
  split at h1
  · rename_i P BM hrun1
    injection h1 with h1
    subst h1
    rw [hrun1] at h
    simp only at h hI1
    split at h
    · rename_i P2 BM2 hrun2
      injection h with h
      subst h
      show stays P P2
      by_cases hnc : nc > 1
      · simp only [hnc, if_true] at hrun2
        refine adddots_stays _ (build_invariant nc dm _) ?_ l2 P BM P2 BM2 hrun2 hI1
        intro Q Di B Q1 B1 hh hI
        refine ⟨adddot_N_invariant nc dm _ hnc fuel Q Di B Q1 B1 hh hI, ?_⟩
        obtain ⟨hW, _, _, c, N, D, O, e⟩ := hI
        subst e
        exact adddot_N_stays nc dm _ fuel 0 c N D O Di B Q1 B1 hh hW
      · simp only [hnc, if_false] at hrun2
        refine adddots_stays _ (build_invariant nc dm _) ?_ l2 P BM P2 BM2 hrun2 hI1
        intro Q Di B Q1 B1 hh hI
        refine ⟨adddot_1_invariant nc dm _ hnc fuel Q Di B Q1 B1 hh hI, ?_⟩
        obtain ⟨_, _, _, c, N, D, O, e⟩ := hI
        subst e
        exact adddot_1_stays dm _ fuel 0 c N D O Di B Q1 B1 hh
    · cases h
    · cases h
  · cases h1
  · cases h1

theorem scan_copies_eq (PC : List BasicCell) (PL : List BasicLeaf) (FLG : tree_flags)
    (OCT : Fin 8 → node) (ks : List (Fin 8))
    (hks : ∀ k ∈ ks, (OCT k).isBox = true ∧ WF (OCT k)) :
    ∀ (c cf lf Lf : Nat),
      (∀ x ∈ kids_cells (fun k c1 cf1 lf1 => cells_of (OCT k) k.val c1 cf1 lf1)
          (fun k => sub_cells (OCT k)) (fun k => (link_order (OCT k)).length) ks c cf lf,
        PC[x.1]? = some x.2 ∧ (in_subtree (FLG.CELL x.1) = false →
          sel_count FLG.LEAF SUBTREE x.2.FCLEAF x.2.NUMBER = 0)) →
      (scan_copies PC PL FLG (List.range' c ks.length) Lf).length
        = kid_insub FLG false OCT ks c lf := by
  induction ks with
  | nil => intro c cf lf Lf _; rfl
  | cons k ks ih =>
    intro c cf lf Lf hl
    have hk := hks k (List.mem_cons_self _ _)
    simp only [kids_cells] at hl
    have hget := getD_of_layout PC (OCT k) hk.1 k.val c cf lf
      (fun x hx => (hl x (List.mem_append_left _ hx)).1)
    have hroot := (hl _ (List.mem_append_left _ (cells_of_root_mem (OCT k) hk.1 k.val c cf lf))).2
    simp only [root_cell_FCLEAF, root_cell_NUMBER (OCT k) k.val cf lf hk.1,
      WF_number (OCT k) hk.2 hk.1] at hroot
    have hrest := fun Lf1 => ih (fun k1 h1 => hks k1 (List.mem_cons_of_mem _ h1)) (c + 1)
      (cf + sub_cells (OCT k)) (lf + (link_order (OCT k)).length) Lf1
      (fun x hx => hl x (List.mem_append_right _ hx))
    simp only [List.length_cons, List.range'_succ, scan_copies, kid_insub]
    by_cases hr : is_subtreecell (FLG.CELL c) = true
    · simp only [hr, if_true]
      have := hrest Lf
      simp only [Bool.true_eq_false, if_false]
      omega
    · have hr2 : is_subtreecell (FLG.CELL c) = false := by simpa using hr
      simp only [hr2, Bool.false_eq_true, if_false, if_true]
      by_cases hs : in_subtree (FLG.CELL c) = true
      · simp only [hs, if_true, List.length_append, leaf_copies_length, hget, all_leafs,
          root_cell_FCLEAF, root_cell_NUMBER (OCT k) k.val cf lf hk.1,
          WF_number (OCT k) hk.2 hk.1, insub_count]
        have := hrest (Lf + sel_count FLG.LEAF SUBTREE lf (link_order (OCT k)).length)
        omega
      · have hs2 : in_subtree (FLG.CELL c) = false := by simpa using hs
        simp only [hs, if_false, Bool.false_eq_true]
        have := hrest Lf
        have := hroot hs2
        omega

theorem kid_insub_none (FLG : tree_flags) (OCT : Fin 8 → node) (ks : List (Fin 8)) :
    ∀ c lf, (List.range' c ks.length).countP (fun pc => is_subtreecell (FLG.CELL pc)) = 0 →
      kid_insub FLG true OCT ks c lf = 0 := by
  induction ks with
  | nil => intro c lf _; rfl
  | cons k ks ih =>
    intro c lf h
    simp only [List.length_cons, List.range'_succ, List.countP_cons] at h
    have h1 : is_subtreecell (FLG.CELL c) = false := by
      cases hh : is_subtreecell (FLG.CELL c) with
      | false => rfl
      | true => rw [hh] at h; simp at h
    simp only [kid_insub, h1, Bool.false_eq_true, if_false, Nat.zero_add]
    exact ih (c + 1) _ (by omega)

theorem sub_kids_count (PC : List BasicCell) (PL : List BasicLeaf) (FLG : tree_flags)
    (fuel : Nat) (OCT : Fin 8 → node) (ks : List (Fin 8))
    (ih : ∀ k ∈ ks, ∀ (o P C cf lf : Nat) (st : sub_state) (dep num : Nat) (st1 : sub_state),
      (∀ x ∈ cells_of (OCT k) o P cf lf, PC[x.1]? = some x.2 ∧
        (in_subtree (FLG.CELL x.1) = false →
          sel_count FLG.LEAF SUBTREE x.2.FCLEAF x.2.NUMBER = 0)) →
      sub_link PC PL FLG fuel P C st = Res.ok (dep, num, st1) →
      st1.Lf = st.Lf + sel_count FLG.LEAF SUBTREE lf (link_order (OCT k)).length) :
    ∀ (c cf lf : Nat) (s s1 : sub_kids_state),
      (∀ x ∈ kids_cells (fun k c1 cf1 lf1 => cells_of (OCT k) k.val c1 cf1 lf1)
          (fun k => sub_cells (OCT k)) (fun k => (link_order (OCT k)).length) ks c cf lf,
        PC[x.1]? = some x.2 ∧ (in_subtree (FLG.CELL x.1) = false →
          sel_count FLG.LEAF SUBTREE x.2.FCLEAF x.2.NUMBER = 0)) →
      sub_kids FLG (sub_link PC PL FLG fuel) (List.range' c ks.length) s = Res.ok s1 →
      s1.st.Lf = s.st.Lf + kid_insub FLG true OCT ks c lf := by
  induction ks with
  | nil =>
    intro c cf lf s s1 _ h
    simp only [List.length_nil, List.range'_zero, sub_kids] at h
    cases h
    rfl
  | cons k ks ih2 =>
    intro c cf lf s s1 hl h
    simp only [kids_cells] at hl
    have hrest := ih2 (fun k1 h1 => ih k1 (List.mem_cons_of_mem _ h1)) (c + 1)
      (cf + sub_cells (OCT k)) (lf + (link_order (OCT k)).length)
    simp only [List.length_cons, List.range'_succ, sub_kids] at h
    simp only [kid_insub]
    by_cases hr : is_subtreecell (FLG.CELL c) = true
    · rw [if_pos hr] at h
      rw [if_pos hr]
      cases hk : sub_link PC PL FLG fuel c s.Ci s.st with
      | ok r =>
        obtain ⟨de, num, st1⟩ := r
        rw [hk] at h
        simp only at h
        have e1 := ih k (List.mem_cons_self _ _) k.val c s.Ci cf lf s.st de num st1
          (fun x hx => hl x (List.mem_append_left _ hx)) hk
        have e2 := hrest _ s1 (fun x hx => hl x (List.mem_append_right _ hx)) h
        simp only at e2
        omega
      | error e => rw [hk] at h; cases h
      | fuel => rw [hk] at h; cases h
    · rw [if_neg hr] at h
      rw [if_neg hr]
      have e2 := hrest s s1 (fun x hx => hl x (List.mem_append_right _ hx)) h
      omega

theorem sub_link_count (PC : List BasicCell) (PL : List BasicLeaf) (FLG : tree_flags) (Q : node) :
    WF Q → Q.isBox = true → ∀ (fuel o P C cf lf : Nat) (st : sub_state) (dep num : Nat)
      (st1 : sub_state),
      (∀ x ∈ cells_of Q o P cf lf, PC[x.1]? = some x.2 ∧
        (in_subtree (FLG.CELL x.1) = false →
          sel_count FLG.LEAF SUBTREE x.2.FCLEAF x.2.NUMBER = 0)) →
      sub_link PC PL FLG fuel P C st = Res.ok (dep, num, st1) →
      st1.Lf = st.Lf + sel_count FLG.LEAF SUBTREE lf (link_order Q).length := by
  induction Q with
  | null => intro _ h; cases h
  | dot D => intro _ h; cases h
  | box L c N DOTS OCT ih =>
    intro hW _ fuel o P C cf lf st dep num st1 hl hlk
    have hcell := getD_of_layout PC (node.box L c N DOTS OCT) rfl o P cf lf
      (fun x hx => (hl x hx).1)
    obtain ⟨ks, nl, hks, hc, h1, h2, h3, h4, h5, h6, _⟩ :=
      cells_of_decomp L c N DOTS OCT hW o P cf lf
    rw [hc] at hl
    cases fuel with
    | zero => cases hlk
    | succ fuel =>
      have hkids := sub_kids_count PC PL FLG fuel OCT ks
        (fun k hk o1 P1 C1 cf1 lf1 st2 dep2 num2 st3 hl1 hlk1 =>
          ih k (hks k hk).2 (hks k hk).1 fuel o1 P1 C1 cf1 lf1 st2 dep2 num2 st3 hl1 hlk1)
        cf (cf + ks.length) (lf + nl)
      obtain ⟨c1, hc1⟩ : ∃ c1, c1 = leaf_copies PL FLG.LEAF
        (leaf_kids (root_cell (node.box L c N DOTS OCT) o cf lf)) st.Lf := ⟨_, rfl⟩
      obtain ⟨c2, hc2⟩ : ∃ c2, c2 = scan_copies PC PL FLG (List.range' cf ks.length)
        (st.Lf + c1.length) := ⟨_, rfl⟩
      have n1 : c1.length = sel_count FLG.LEAF SUBTREE lf nl := by
        rw [hc1, leaf_copies_length, leaf_kids, h1, h2]
        rfl
      have n2 : c2.length = kid_insub FLG false OCT ks cf (lf + nl) := by
        rw [hc2]
        exact scan_copies_eq PC PL FLG OCT ks hks cf (cf + ks.length) (lf + nl) _
          (fun x hx => hl x (List.mem_cons_of_mem _ hx))
      have n3 := kid_insub_add FLG OCT ks cf (lf + nl)
      have n4 : sel_count FLG.LEAF SUBTREE lf (link_order (node.box L c N DOTS OCT)).length
          = sel_count FLG.LEAF SUBTREE lf nl + sel_count FLG.LEAF SUBTREE (lf + nl)
              ((ks.map (fun k => (link_order (OCT k)).length)).sum) := by
        rw [h4, sel_count_add]
      rw [sub_link] at hlk
      simp only [hcell, h5, sub_copy_eq, sub_scan_eq, Nat.zero_add, ← hc1, ← hc2] at hlk
      by_cases hz : (List.range' cf ks.length).countP (fun pc => is_subtreecell (FLG.CELL pc)) ≠ 0
      · rw [if_pos hz] at hlk
        split at hlk
        · rename_i s hs
          have e := hkids _ s (fun x hx => hl x (List.mem_cons_of_mem _ hx)) hs
          simp only at e
          injection hlk with hlk
          injection hlk with _ hlk
          injection hlk with _ hlk
          rw [← hlk]
          simp only
          omega
        · cases hlk
        · cases hlk
      · rw [if_neg hz] at hlk
        have z := kid_insub_none FLG OCT ks cf (lf + nl) (by omega)
        injection hlk with hlk
        injection hlk with _ hlk
        injection hlk with _ hlk
        rw [← hlk]
        simp only
        omega

theorem range_cons (n : Nat) : 0 :: List.range' 1 n = List.range (1 + n) := by
  rw [List.range_eq_range', Nat.add_comm, List.range'_succ]

theorem sub_tree_counts (fuel0 nc dm : Nat) (x0 : vect) (sz : real) (dots : List dot)
    (TB : box_dot_tree) (par : OctTree) (FLG : tree_flags) (F : Nat) (Ncrit : Int) (fuel : Nat)
    (h : tree_builder.build fuel0 (box_dot_tree.reset nc dm dots.length x0 sz) dots
      = Res.ok TB)
    (hp : par.made_of TB) (hN : Ncrit > 1) (hf : par.Nc ≤ fuel)
    (hclean : ∀ j, j < par.Ns → in_subtree (FLG.LEAF j) = true → is_set (FLG.LEAF j) F = true) :
    ∃ Nsubc Nsubs T st FLG1,
      mark_for_subtree fuel F Ncrit par.CELLS par.Nc FLG = Res.ok (Nsubc, Nsubs, FLG1) ∧
      OctTree.sub_tree fuel par FLG F Ncrit = Res.ok (T, st, FLG1) ∧
      (¬ (Nsubs = 0 ∨ Nsubc = 0) →
        T.CELLS.length = Nsubc ∧ T.LEAFS.length = Nsubs ∧
        List.Perm (st.CELLS.map Prod.fst) (List.range Nsubc) ∧
        List.Perm (st.LEAFS.map Prod.fst) (List.range Nsubs)) := by
  obtain ⟨hC, hL, hNc, hNs, hD⟩ := hp
  obtain ⟨hl, hBM, hND, hlen, hclen⟩ := built_layout fuel0 nc dm x0 sz dots TB h
  rw [hNc] at hf
  obtain ⟨FLG1, hm, hLEAF, hcell⟩ :=
    mark_for_subtree_built fuel0 nc dm x0 sz dots TB h F Ncrit hN fuel hf FLG
  rw [← hC, ← hNc] at hm
  rw [← hC] at hl
  have hroot_cons := cells_of_cons TB.P0 hl.2.1 0 0 1 0
  by_cases hemp : sel_count FLG.LEAF F 0 TB.NDOTS = 0 ∨
      (cells_of TB.P0 0 0 1 0).countP (fun x => sel_cell FLG.LEAF F Ncrit x.2) = 0
  · obtain ⟨T, st, hT, _⟩ := sub_tree_empty fuel par FLG F Ncrit _ _ FLG1 hm hemp
    exact ⟨_, _, T, st, FLG1, hm, hT, fun hne => absurd hemp hne⟩
  · have hflag : ∀ x ∈ cells_of TB.P0 0 0 1 0,
        is_subtreecell (FLG1.CELL x.1) = sel_cell FLG.LEAF F Ncrit x.2 := by
      intro x hx
      rw [hcell x hx, cell_mark_is_subtreecell]
      rfl
    have hrootsel : sel_cell FLG.LEAF F Ncrit (root_cell TB.P0 0 1 0) = true := by
      cases hs : sel_cell FLG.LEAF F Ncrit (root_cell TB.P0 0 1 0) with
      | true => rfl
      | false =>
        exact absurd (Or.inr (no_sel_beneath FLG.LEAF F Ncrit TB.P0 hl.1 hl.2.1 0 0 1 0 hs).1)
          hemp
    have hcnt : (cells_of TB.P0 0 0 1 0).countP (fun x => sel_cell FLG.LEAF F Ncrit x.2)
        = 1 + (cells_of TB.P0 0 0 1 0).tail.countP (fun x => sel_cell FLG.LEAF F Ncrit x.2) := by
      conv_lhs => rw [hroot_cons]
      rw [List.countP_cons, if_pos hrootsel]
      omega
    obtain ⟨dep, num, st1, hlk, ⟨nC, nK, nL, a1, a2, a3, a4, a5, a6, a7, a8, a9, a10⟩, a11⟩ :=
      sub_link_spec par.CELLS par.LEAFS FLG1 FLG.LEAF F Ncrit TB.P0 hl.1 hl.2.1 fuel 0 0 0
        1 0 { CELLS := [], LEAFS := [], CALLS := [], Cf := 1, Lf := 0 } (by omega) (by omega)
        hl.2.2.1 hflag
    simp only [List.append_nil] at a1 a2 a3
    simp only at a5 a6 a7 a8
    obtain ⟨T, hT, tNc, tNs, _, tC, tL⟩ :=
      sub_tree_linked fuel par FLG F Ncrit _ _ FLG1 dep num st1 hm hemp hlk
    have hcl : ∀ a n, a + n ≤ TB.NDOTS →
        sel_count FLG1.LEAF SUBTREE a n = sel_count FLG.LEAF F a n := by
      intro a n han
      unfold sel_count
      apply List.countP_congr
      intro j hj
      rw [List.mem_range'_1] at hj
      have e1 : is_set (FLG1.LEAF j) SUBTREE = in_subtree (FLG1.LEAF j) := rfl
      rw [e1, hLEAF, leaf_mark_in_subtree]
      have hjN : j < par.Ns := by omega
      cases hs : is_set (FLG.LEAF j) F with
      | true =>
        have : j < TB.NDOTS := by omega
        simp [this]
      | false =>
        cases hi : in_subtree (FLG.LEAF j) with
        | true => rw [hclean j hjN hi] at hs; cases hs
        | false => simp
    have hLf := sub_link_count par.CELLS par.LEAFS FLG1 TB.P0 hl.1 hl.2.1 fuel 0 0 0 1 0
      { CELLS := [], LEAFS := [], CALLS := [], Cf := 1, Lf := 0 } dep num st1
      (by
        intro x hx
        refine ⟨hl.2.2.1 x hx, ?_⟩
        intro hin
        have b := cells_of_bounds TB.P0 hl.1 hl.2.1 0 0 1 0 x hx
        rw [hcell x hx, cell_mark_in_subtree] at hin
        have hz := of_decide_eq_false hin
        rw [hcl _ _ (by have := b.2.2; omega)]
        omega)
      hlk
    simp only [Nat.zero_add] at hLf
    rw [← hND, hcl 0 TB.NDOTS (by omega)] at hLf
    refine ⟨_, _, T, st1, FLG1, hm, hT, fun _ => ⟨?_, ?_, ?_, ?_⟩⟩
    · rw [tC, length_store_all, List.length_replicate]
    · rw [tL, length_store_all, List.length_replicate]
    · rw [a2, hcnt, ← range_cons]
      exact a8
    · rw [a3, ← hLf, a5, Nat.zero_add, List.range_eq_range']
      exact a6

theorem mark_for_subtree_cells (fuel0 nc dm : Nat) (x0 : vect) (sz : real) (dots : List dot)
    (TB : box_dot_tree) (par : OctTree) (FLG : tree_flags) (F : Nat) (Ncrit : Int) (fuel : Nat)
    (h : tree_builder.build fuel0 (box_dot_tree.reset nc dm dots.length x0 sz) dots
      = Res.ok TB)
    (hp : par.made_of TB) (hN : Ncrit > 1) (hf : par.Nc ≤ fuel) :
    ∃ Nsubc Nsubs FLG1,
      mark_for_subtree fuel F Ncrit par.CELLS par.Nc FLG = Res.ok (Nsubc, Nsubs, FLG1) ∧
      ∀ p cell, par.CELLS[p]? = some cell →
        (is_subtreecell (FLG1.CELL p) = true ↔
          Ncrit ≤ (sel_count FLG.LEAF F cell.FCLEAF cell.NUMBER : Int)) ∧
        (in_subtree (FLG1.CELL p) = true ↔ sel_count FLG.LEAF F cell.FCLEAF cell.NUMBER ≠ 0) := by
  obtain ⟨hC, hL, hNc, hNs, hD⟩ := hp
  obtain ⟨hl, hBM, hND, hlen, hclen⟩ := built_layout fuel0 nc dm x0 sz dots TB h
  rw [hNc] at hf
  obtain ⟨FLG1, hm, hLEAF, hcell⟩ :=
    mark_for_subtree_built fuel0 nc dm x0 sz dots TB h F Ncrit hN fuel hf FLG
  rw [← hC, ← hNc] at hm
  rw [← hC] at hl
  refine ⟨_, _, FLG1, hm, ?_⟩
  intro p cell hpc
  have hx := hl.2.2.2.1 p cell hpc
  have hc := hcell _ hx
  simp only at hc
  rw [hc, cell_mark_is_subtreecell, cell_mark_in_subtree, decide_eq_true_iff, decide_eq_true_iff]
  constructor
  · constructor
    · intro h1; exact h1.2
    · intro h1; exact ⟨by omega, h1⟩
  · exact Iff.rfl

theorem sub_tree_fits (fuel0 nc dm : Nat) (x0 : vect) (sz : real) (dots : List dot)
    (TB : box_dot_tree) (par : OctTree) (FLG : tree_flags) (F : Nat) (Ncrit : Int) (fuel : Nat)
    (h : tree_builder.build fuel0 (box_dot_tree.reset nc dm dots.length x0 sz) dots
      = Res.ok TB)
    (hp : par.made_of TB) (hN : Ncrit > 1) (hf : par.Nc ≤ fuel)
    (hclean : ∀ j, j < par.Ns → in_subtree (FLG.LEAF j) = true → is_set (FLG.LEAF j) F = true)
    (T : OctTree) (st : sub_state) (FLG1 : tree_flags)
    (hT : OctTree.sub_tree fuel par FLG F Ncrit = Res.ok (T, st, FLG1)) :
    st.fits T.CELLS.length T.LEAFS.length = true := by
  obtain ⟨Nsubc, Nsubs, T1, st1, FLG2, hm, hT1, hw⟩ :=
    sub_tree_counts fuel0 nc dm x0 sz dots TB par FLG F Ncrit fuel h hp hN hf hclean
  rw [hT] at hT1
  injection hT1 with e
  injection e with e1 e
  injection e with e2 e3
  subst e1 e2 e3
  by_cases hemp : Nsubs = 0 ∨ Nsubc = 0
  · obtain ⟨T2, st2, hT2, _, _, _, _, _, s1, s2, _⟩ :=
      sub_tree_empty fuel par FLG F Ncrit _ _ FLG1 hm hemp
    rw [hT] at hT2
    injection hT2 with e
    injection e with e1 e
    injection e with e2 _
    subst e1 e2
    simp [sub_state.fits, s1, s2]
  · obtain ⟨w1, w2, w3, w4⟩ := hw hemp
    unfold sub_state.fits
    rw [Bool.and_eq_true, List.all_eq_true, List.all_eq_true]
    constructor
    · intro x hx
      have := w3.subset (List.mem_map.2 ⟨x, hx, rfl⟩)
      rw [List.mem_range] at this
      exact decide_eq_true (by omega)
    · intro x hx
      have := w4.subset (List.mem_map.2 ⟨x, hx, rfl⟩)
      rw [List.mem_range] at this
      exact decide_eq_true (by omega)

theorem sub_tree_kept (fuel0 nc dm : Nat) (x0 : vect) (sz : real) (dots : List dot)
    (TB : box_dot_tree) (par : OctTree) (FLG : tree_flags) (F : Nat) (Ncrit : Int) (fuel : Nat)
    (h : tree_builder.build fuel0 (box_dot_tree.reset nc dm dots.length x0 sz) dots
      = Res.ok TB)
    (hp : par.made_of TB) (hN : Ncrit > 1) (hf : par.Nc ≤ fuel)
    (hclean : ∀ j, j < par.Ns → in_subtree (FLG.LEAF j) = true → is_set (FLG.LEAF j) F = true) :
    ∃ T st FLG1, OctTree.sub_tree fuel par FLG F Ncrit = Res.ok (T, st, FLG1) ∧
      st.fits T.CELLS.length T.LEAFS.length = true ∧
      (∀ p cell, par.CELLS[p]? = some cell →
        ((∃ C, (p, C) ∈ st.CALLS) ↔
          Ncrit ≤ (sel_count FLG.LEAF F cell.FCLEAF cell.NUMBER : Int))) ∧
      (∀ p C, (p, C) ∈ st.CALLS →
        ∃ pcell cell, par.CELLS[p]? = some pcell ∧ T.CELLS[C]? = some cell ∧
          cell.LEVEL = pcell.LEVEL ∧ cell.OCTANT = pcell.OCTANT ∧ cell.CENTER = pcell.CENTER ∧
          ∀ pc kid q i, pc ∈ child_range pcell → par.CELLS[pc]? = some kid →
            (sel_count FLG.LEAF F kid.FCLEAF kid.NUMBER : Int) < Ncrit →
            cell_beneath par.CELLS pc q → leaf_of_cell par.CELLS q i →
            is_set (FLG.LEAF i) F = true →
            ∃ m, cell.FCLEAF ≤ m ∧ m < cell.FCLEAF + cell.NLEAFS ∧
              (m, par.LEAFS.getD i no_leaf) ∈ st.LEAFS ∧
              T.LEAFS[m]? = some (par.LEAFS.getD i no_leaf)) := by
  obtain ⟨T, st, FLG1, hT, c1, c2⟩ :=
    sub_tree_cells fuel0 nc dm x0 sz dots TB par FLG F Ncrit fuel h hp hN hf
  refine ⟨T, st, FLG1, hT,
    sub_tree_fits fuel0 nc dm x0 sz dots TB par FLG F Ncrit fuel h hp hN hf hclean T st FLG1 hT,
    c1, ?_⟩
  intro p C hpC
  obtain ⟨pcell, cell, d1, d2, d3, d4, d5, d6⟩ := c2 p C hpC
  refine ⟨pcell, cell, d1, d2, d3, d4, d5, ?_⟩
  intro pc kid q i g1 g2 g3 g4 g5 g6
  obtain ⟨m, m1, m2, m3, m4, m5⟩ := d6 pc kid q i g1 g2 g3 g4 g5 g6
  exact ⟨m, m1, m2, m3, m4 (m5 hclean)⟩

/-! ## The claims -/

/-- C1: for every dot sequence (empty or not) on which `tree_builder::build`
succeeds (`Ncrit = 1` and `Ncrit > 1` alike), the leaf array written by
`box_dot_tree::link` is a permutation of the inserted dots: it holds the
(position, body link) of every dot once, it has as many leaves as there are
dots, and the leaves `0, 1, ...` are written once each, in this order. -/
theorem C1_leaf_array_is_permutation_of_dots (fuel nc dm : Nat) (x0 : vect) (sz : real)
    (dots : List dot) (TB : box_dot_tree)
    (h : tree_builder.build fuel (box_dot_tree.reset nc dm dots.length x0 sz) dots
      = Res.ok TB) :
    List.Perm (leaf_array TB) (dots.map set_leaf) ∧
      (leaf_array TB).length = dots.length ∧
      (TB.link.2.LEAFS.map Prod.fst).reverse = List.range dots.length := by
  unfold leaf_array
  obtain ⟨hWF, hperm, _, _, _, hnd, L, c, N, DOTS, OCT, hP⟩ :=
    build_inv fuel nc dm dots.length x0 sz dots TB h
  have hlink := link_after_build fuel nc dm dots.length x0 sz dots TB h
  have hbox : TB.P0.isBox = true := by rw [hP]; rfl
  have hlo := (link_order_perm TB.P0 hWF hbox).trans hperm
  have hL : TB.link.2.LEAFS = (leaf_run 0 (link_order TB.P0)).reverse := by
    rw [hlink]; simp [link_ext]
  have hlen : (link_order TB.P0).length = dots.length := hlo.length_eq
  rw [hL, hnd]
  have hst := store_leaf_run (link_order TB.P0) (List.replicate dots.length no_leaf)
    (by simp [hlen])
  refine ⟨?_, ?_, ?_⟩
  · rw [hst]; exact hlo.map _
  · rw [length_store_all]; simp
  · rw [List.map_reverse, List.reverse_reverse, leaf_run_keys, hlen, List.range_eq_range']

/-- C1 at the five dots `sample_dots` with `Ncrit = 1` and maximum depth 5. -/
theorem C1_witness :
    ∃ TB, tree_builder.build 20 (box_dot_tree.reset 1 5 sample_dots.length origin (real.val 2))
        sample_dots = Res.ok TB ∧
      List.Perm (leaf_array TB) (sample_dots.map set_leaf) := by
  have hok : (tree_builder.build 20
      (box_dot_tree.reset 1 5 sample_dots.length origin (real.val 2)) sample_dots).isOk = true := by
    decide!
  obtain ⟨TB, hTB⟩ := Res.isOk_elim hok
  exact ⟨TB, hTB,
    (C1_leaf_array_is_permutation_of_dots 20 1 5 origin (real.val 2) sample_dots TB hTB).1⟩

/-- C2: for every cell `C` of a successfully built and linked tree (linked by
`link_cells_1` or by `link_cells_N`), the leaves that belong to `C` directly or
through any chain of child cells are exactly the leaves `i` with
`fcleaf(C) <= i < fcleaf(C) + number(C)`. -/
theorem C2_leaves_of_a_cell_are_one_contiguous_range (fuel nc dm : Nat) (x0 : vect)
    (sz : real) (dots : List dot) (TB : box_dot_tree)
    (h : tree_builder.build fuel (box_dot_tree.reset nc dm dots.length x0 sz) dots
      = Res.ok TB)
    (c : Nat) (cell : BasicCell) (hc : (cell_array TB)[c]? = some cell) (i : Nat) :
    leaf_of_cell (cell_array TB) c i ↔ cell.FCLEAF ≤ i ∧ i < cell.FCLEAF + cell.NUMBER := by
  have hl := is_linked_after_build fuel nc dm x0 sz dots TB h
  obtain ⟨Q, o, cf, lf, hin, hcell, _, hb⟩ := is_linked_cell hl hc
  subst hcell
  rw [root_cell_FCLEAF, root_cell_NUMBER _ _ _ _ hb]
  constructor
  · intro hi
    exact leaf_of_cell_range hl hi Q o cf lf hin
  · rintro ⟨h1, h2⟩
    exact range_leaf_of_cell hl Q o c cf lf hin i h1 h2

/-- C2 at the root cell and leaf 3 of the tree of `sample_dots` with `Ncrit = 1`. -/
theorem C2_witness :
    ∃ TB cell, tree_builder.build 20
        (box_dot_tree.reset 1 5 sample_dots.length origin (real.val 2)) sample_dots = Res.ok TB ∧
      (cell_array TB)[0]? = some cell ∧
      (leaf_of_cell (cell_array TB) 0 3 ↔ cell.FCLEAF ≤ 3 ∧ 3 < cell.FCLEAF + cell.NUMBER) := by
  have hok : (tree_builder.build 20
      (box_dot_tree.reset 1 5 sample_dots.length origin (real.val 2)) sample_dots).isOk = true := by
    decide!
  obtain ⟨TB, hTB⟩ := Res.isOk_elim hok
  have hl := is_linked_after_build 20 1 5 origin (real.val 2) sample_dots TB hTB
  have h0 := is_linked_cell_at hl (in_layout.self TB.P0 0 0 1 0 hl.2.1)
  exact ⟨TB, _, hTB, h0,
    C2_leaves_of_a_cell_are_one_contiguous_range 20 1 5 origin (real.val 2) sample_dots
      TB hTB 0 _ h0 3⟩

/-- C3: in a successfully built and linked tree, (1) every cell `c` is the cell
of a box of the tree, `ncells(c)` is the number of sub-boxes of that box, and
the sub-boxes are linked, in increasing octant order, to the cells
`fccell(c), fccell(c)+1, ...`; (2) the octants of the cells
`fccell(c) .. fccell(c)+ncells(c)-1` increase strictly; (3) these cells lie in
`1 .. N_boxes-1`; (4) the child ranges of distinct cells are disjoint; (5) every
cell but the root lies in the child range of a cell (of exactly one, by 4). -/
theorem C3_child_cells_are_contiguous_and_partition_the_cells (fuel nc dm : Nat) (x0 : vect)
    (sz : real) (dots : List dot) (TB : box_dot_tree)
    (h : tree_builder.build fuel (box_dot_tree.reset nc dm dots.length x0 sz) dots
      = Res.ok TB) :
    (∀ (c : Nat) (cell : BasicCell), (cell_array TB)[c]? = some cell →
      ∃ L ctr N DOTS OCT o cf lf,
        in_layout TB.P0 0 0 1 0 (node.box L ctr N DOTS OCT) o c cf lf ∧
        cell.NCELLS = (box_kids OCT (List.finRange 8)).length ∧
        ∀ j k, (box_kids OCT (List.finRange 8))[j]? = some k →
          in_layout TB.P0 0 0 1 0 (OCT k) k.val (cell.FCCELL.toNat + j)
            (kid_cf OCT cf j) (kid_lf OCT lf j) ∧
          ∃ kc, (cell_array TB)[cell.FCCELL.toNat + j]? = some kc ∧ kc.OCTANT = k.val) ∧
    (∀ (c : Nat) (cell : BasicCell), (cell_array TB)[c]? = some cell →
      ∀ (j1 j2 : Nat) (c1 c2 : BasicCell), j1 < j2 → j2 < cell.NCELLS →
        (cell_array TB)[cell.FCCELL.toNat + j1]? = some c1 →
        (cell_array TB)[cell.FCCELL.toNat + j2]? = some c2 → c1.OCTANT < c2.OCTANT) ∧
    (∀ (c : Nat) (cell : BasicCell), (cell_array TB)[c]? = some cell →
      ∀ k ∈ child_range cell, 1 ≤ k ∧ k < TB.BM) ∧
    (∀ (c c1 : Nat) (cell cell1 : BasicCell), (cell_array TB)[c]? = some cell →
      (cell_array TB)[c1]? = some cell1 → c ≠ c1 →
        ∀ k ∈ child_range cell, k ∉ child_range cell1) ∧
    (∀ k, 1 ≤ k → k < TB.BM →
      ∃ (c : Nat) (cell : BasicCell), (cell_array TB)[c]? = some cell ∧
        k ∈ child_range cell) := by
  have hl := is_linked_after_build fuel nc dm x0 sz dots TB h
  have hlen := (cell_array_spec fuel nc dm x0 sz dots TB h).1
  have hcore := child_cells_core hl
  rw [hlen] at hcore
  exact hcore

/-- C3, part 5, at the tree of `sample_dots` with `Ncrit = 1`. -/
theorem C3_witness :
    ∃ TB, tree_builder.build 20
        (box_dot_tree.reset 1 5 sample_dots.length origin (real.val 2)) sample_dots = Res.ok TB ∧
      ∀ k, 1 ≤ k → k < TB.BM →
        ∃ (c : Nat) (cell : BasicCell), (cell_array TB)[c]? = some cell ∧
          k ∈ child_range cell := by
  have hok : (tree_builder.build 20
      (box_dot_tree.reset 1 5 sample_dots.length origin (real.val 2)) sample_dots).isOk = true := by
    decide!
  obtain ⟨TB, hTB⟩ := Res.isOk_elim hok
  exact ⟨TB, hTB,
    (C3_child_cells_are_contiguous_and_partition_the_cells 20 1 5 origin (real.val 2)
      sample_dots TB hTB).2.2.2.2⟩

/-- C4: for every cell `C` of a successfully built and linked tree,
`number(C) = nleafs(C) +` the sum of `number(K)` over the child cells `K` of
`C`, the cells `fccell(C) .. fccell(C)+ncells(C)-1`. -/
theorem C4_number_is_nleafs_plus_numbers_of_child_cells (fuel nc dm : Nat) (x0 : vect)
    (sz : real) (dots : List dot) (TB : box_dot_tree)
    (h : tree_builder.build fuel (box_dot_tree.reset nc dm dots.length x0 sz) dots
      = Res.ok TB)
    (c : Nat) (cell : BasicCell) (hc : (cell_array TB)[c]? = some cell) :
    cell.NUMBER = cell.NLEAFS + ((List.range cell.NCELLS).map
      (fun j => ((cell_array TB).getD (cell.FCCELL.toNat + j) no_cell).NUMBER)).sum :=
  number_is_sum_core (is_linked_after_build fuel nc dm x0 sz dots TB h) c cell hc

/-- C4 at the root cell of the tree of `sample_dots` with `Ncrit = 2`. -/
theorem C4_witness :
    ∃ TB cell, tree_builder.build 20
        (box_dot_tree.reset 2 5 sample_dots.length origin (real.val 2)) sample_dots = Res.ok TB ∧
      (cell_array TB)[0]? = some cell ∧
      cell.NUMBER = cell.NLEAFS + ((List.range cell.NCELLS).map
        (fun j => ((cell_array TB).getD (cell.FCCELL.toNat + j) no_cell).NUMBER)).sum := by
  have hok : (tree_builder.build 20
      (box_dot_tree.reset 2 5 sample_dots.length origin (real.val 2)) sample_dots).isOk = true := by
    decide!
  obtain ⟨TB, hTB⟩ := Res.isOk_elim hok
  have hl := is_linked_after_build 20 2 5 origin (real.val 2) sample_dots TB hTB
  have h0 := is_linked_cell_at hl (in_layout.self TB.P0 0 0 1 0 hl.2.1)
  exact ⟨TB, _, hTB, h0,
    C4_number_is_nleafs_plus_numbers_of_child_cells 20 2 5 origin (real.val 2) sample_dots
      TB hTB 0 _ h0⟩

/-- C5: after a successful build, linking consumes exactly the pre-allocated
storage: when `box_dot_tree::link` returns, the next free cell is `N_boxes` and
the next free leaf is `N_dots`, and the cells `0 .. N_boxes-1` and the leaves
`0 .. N_dots-1` have been written once each. -/
theorem C5_link_consumes_exactly_the_allocated_storage (fuel nc dm : Nat) (x0 : vect)
    (sz : real) (dots : List dot) (TB : box_dot_tree)
    (h : tree_builder.build fuel (box_dot_tree.reset nc dm dots.length x0 sz) dots
      = Res.ok TB) :
    TB.link.2.Cf = TB.BM ∧ TB.link.2.Lf = TB.NDOTS ∧
      List.Perm (TB.link.2.CELLS.map Prod.fst) (List.range TB.BM) ∧
      List.Perm (TB.link.2.LEAFS.map Prod.fst) (List.range TB.NDOTS) := by
  obtain ⟨hWF, hperm, hBM, _, _, hnd, L, c, N, DOTS, OCT, hP⟩ :=
    build_inv fuel nc dm dots.length x0 sz dots TB h
  have hlink := link_after_build fuel nc dm dots.length x0 sz dots TB h
  have hbox : TB.P0.isBox = true := by rw [hP]; rfl
  have hlo := (link_order_perm TB.P0 hWF hbox).trans hperm
  have hlen : (link_order TB.P0).length = dots.length := hlo.length_eq
  have hnb := sub_cells_nboxes TB.P0 hWF hbox
  rw [hlink]
  refine ⟨?_, ?_, ?_, ?_⟩
  · show 1 + sub_cells TB.P0 = TB.BM
    omega
  · show 0 + (link_order TB.P0).length = TB.NDOTS
    omega
  · show List.Perm (((cells_of TB.P0 0 0 1 0).reverse ++ []).map Prod.fst) (List.range TB.BM)
    rw [List.append_nil, List.map_reverse, hBM, hnb]
    refine (List.reverse_perm _).trans ?_
    refine (cells_of_keys TB.P0 hbox 0 0 1 0).trans ?_
    rw [List.range_eq_range', range'_split 0 1 (sub_cells TB.P0)]
    simp [List.range']
  · show List.Perm (((leaf_run 0 (link_order TB.P0)).reverse ++ []).map Prod.fst)
      (List.range TB.NDOTS)
    rw [List.append_nil, List.map_reverse, hnd]
    refine (List.reverse_perm _).trans ?_
    rw [leaf_run_keys, hlen, List.range_eq_range']

/-- C5 at the tree of `sample_dots` with `Ncrit = 2`. -/
theorem C5_witness :
    ∃ TB, tree_builder.build 20 (box_dot_tree.reset 2 5 sample_dots.length origin (real.val 2))
        sample_dots = Res.ok TB ∧ TB.link.2.Cf = TB.BM ∧ TB.link.2.Lf = TB.NDOTS := by
  have hok : (tree_builder.build 20
      (box_dot_tree.reset 2 5 sample_dots.length origin (real.val 2)) sample_dots).isOk = true := by
    decide!
  obtain ⟨TB, hTB⟩ := Res.isOk_elim hok
  have h := C5_link_consumes_exactly_the_allocated_storage 20 2 5 origin (real.val 2)
    sample_dots TB hTB
  exact ⟨TB, hTB, h.1, h.2.1⟩

/-- C6 (the code departs from the claim at maximum depth 255): with `Ncrit >= 1`
and a maximum depth `dm <= 254`, the build of a dot sequence in which more than
`Ncrit` dots have the same position ends with the fatal error 'exceeding maximum
tree depth' (with a budget of `dm + 2` passes for every insertion).  With
maximum depth 255, which the configuration check accepts, it does not: the
build of three dots with a common position and `Ncrit = 2` (through `adddot_N`
and `split_box`), and of two such dots with `Ncrit = 1` (through `adddot_1`),
never reports that error, whatever the budget. -/
theorem C6_depth_error_unless_maximum_depth_255 :
    (∀ (fuel : Nat) (x0 : vect) (sz : real) (p : vect) (l1 l2 l3 : Nat),
        tree_builder.build fuel (box_dot_tree.reset 2 255 3 x0 sz) [⟨p, l1⟩, ⟨p, l2⟩, ⟨p, l3⟩]
          ≠ Res.error Fatal.max_depth ∧
        tree_builder.build fuel (box_dot_tree.reset 1 255 2 x0 sz) [⟨p, l1⟩, ⟨p, l2⟩]
          ≠ Res.error Fatal.max_depth) ∧
      (∀ (fuel nc dm nl : Nat) (x0 : vect) (sz : real) (dots : List dot) (p : vect),
        1 ≤ nc → dm ≤ 254 → dm + 2 ≤ fuel →
        nc < dots.countP (fun d => decide (d.POS = p)) →
          tree_builder.build fuel (box_dot_tree.reset nc dm nl x0 sz) dots
            = Res.error Fatal.max_depth) := by
  refine ⟨?_, ?_⟩
  · intro fuel x0 sz p l1 l2 l3
    rw [build_N_coincident, build_1_coincident]
    exact ⟨fun h => (by cases h), fun h => (by cases h)⟩
  · intro fuel nc dm nl x0 sz dots p hnc hd hf hc
    exact build_depth_error fuel nc dm nl x0 sz dots p hnc hd hf hc

/-- C6 at three dots of which the last two have the same position, with
`Ncrit = 1` and maximum depth 4: the build ends with the depth error. -/
theorem C6_witness :
    tree_builder.build 6 (box_dot_tree.reset 1 4 3 origin (real.val 2))
        [⟨origin, 0⟩, ⟨⟨real.val 1, real.val 1, real.val 1⟩, 1⟩,
          ⟨⟨real.val 1, real.val 1, real.val 1⟩, 2⟩]
      = Res.error Fatal.max_depth :=
  C6_depth_error_unless_maximum_depth_255.2 6 1 4 3 origin (real.val 2) _
    ⟨real.val 1, real.val 1, real.val 1⟩ (by decide) (by decide) (by decide) (by decide!)

/-- C7: the population of the dots from scratch (both variants of
`setup_from_scratch`, with or without a selection flag) ends with a fatal error
if and only if the position of a body that it uses (`selected`) has a NaN
component; the error is then the NaN error, and the positions of the bodies
that are not used play no part. -/
theorem C7_setup_from_scratch_fails_iff_a_selected_position_is_nan (BB : bodies) (SP : Nat)
    (xmin xmax : vect) :
    ((∃ e, setup_from_scratch BB SP = Res.error e) ↔
        ∃ b ∈ BB.B, selected BB SP b = true ∧ isnan b.POS = true) ∧
      ((∃ e, setup_from_scratch_x BB xmin xmax SP = Res.error e) ↔
        ∃ b ∈ BB.B, selected BB SP b = true ∧ isnan b.POS = true) ∧
      (∀ e, setup_from_scratch BB SP = Res.error e → e = Fatal.nan_position) ∧
      (∀ e, setup_from_scratch_x BB xmin xmax SP = Res.error e → e = Fatal.nan_position) ∧
      ((¬ ∃ b ∈ BB.B, selected BB SP b = true ∧ isnan b.POS = true) →
        (setup_from_scratch BB SP).isOk = true ∧
          (setup_from_scratch_x BB xmin xmax SP).isOk = true) := by
  have k1 := scratch_result_outcome BB SP true _ (setup_from_scratch BB SP) rfl
  have k2 := scratch_result_outcome BB SP false _ (setup_from_scratch_x BB xmin xmax SP) rfl
  exact ⟨k1.1, k2.1, k1.2.1, k2.2.1, fun hn => ⟨k1.2.2 hn, k2.2.2 hn⟩⟩

/-- C8 (the code departs from the claim): the constructor from bodies,
lines 1363-1388, never reports the configuration error, whatever the maximum
depth, and with maximum depth 256 it builds a tree; the constructor with given
extents and `OctTree::build` report the error for every depth `dm >= 256`. -/
theorem C8_constructor_from_bodies_does_not_check_the_depth :
    (∀ fuel bb nc x0 dm sp,
        OctTree.from_bodies fuel bb nc x0 dm sp ≠ Res.error Fatal.config_depth) ∧
      (OctTree.from_bodies 10 sample_bodies 1 none 256 0).isOk = true ∧
      (∀ fuel bb xi xa nc x0 dm sp, 256 ≤ dm →
        OctTree.from_bodies_x fuel bb xi xa nc x0 dm sp = Res.error Fatal.config_depth) ∧
      (∀ fuel T nc x0 dm, 256 ≤ dm →
        OctTree.build fuel T nc x0 dm = (T, Res.error Fatal.config_depth)) := by
  refine ⟨?_, by decide!, ?_, ?_⟩
  · intro fuel bb nc x0 dm sp h
    unfold OctTree.from_bodies at h
    split at h
    · rename_i s hs
      generalize hg : OctTree.grow fuel (OctTree.init bb sp) (tree_builder.init x0 nc dm s) s.D
        = g at h
      obtain ⟨T1, r⟩ := g
      cases r with
      | ok a => simp at h
      | error e =>
        simp only at h
        injection h with h
        subst h
        have := (grow_error fuel _ _ _ Fatal.config_depth (by rw [hg])).1
        rcases this with e1 | e1 <;> cases e1
      | fuel => simp at h
    · rename_i e hs
      injection h with h
      subst h
      have := setup_from_scratch_error bb sp _ hs
      cases this
    · cases h
  · intro fuel bb xi xa nc x0 dm sp h
    have h2 : dm ≥ 1 <<< 8 := h
    unfold OctTree.from_bodies_x
    rw [if_pos h2]
  · intro fuel T nc x0 dm h
    have h2 : dm ≥ 1 <<< 8 := h
    unfold OctTree.build
    rw [if_pos h2]

/-- C9: if `OctTree::build` (the rebuild in place) ends with a fatal error, the
tree is as it was before the call: the cell array, the leaf array, the counts,
the depth, the table of radii and the state and usage tags are unchanged. -/
theorem C9_failed_build_leaves_the_tree_unchanged (fuel : Nat) (T : OctTree) (nc : Nat)
    (x0 : Option vect) (dm : Nat) (e : Fatal)
    (h : (OctTree.build fuel T nc x0 dm).2 = Res.error e) :
    (OctTree.build fuel T nc x0 dm).1 = T := by
  unfold OctTree.build at h ⊢
  by_cases hd : dm ≥ 1 <<< 8
  · rw [if_pos hd]
  · rw [if_neg hd] at h ⊢
    simp only at h ⊢
    generalize hg : OctTree.grow fuel T
      (tree_builder.init x0 nc dm (setup_leaf_order T.BSRCES T.LEAFS))
      (setup_leaf_order T.BSRCES T.LEAFS).D = g at h ⊢
    obtain ⟨T1, r⟩ := g
    cases r with
    | ok a => simp at h
    | error e1 =>
      have := (grow_error fuel T _ _ e1 (by rw [hg])).2
      rw [hg] at this
      exact this
    | fuel => simp at h

/-- C9 at a rebuild that fails with the depth error (two bodies at one position,
maximum depth 3) and at one that fails the configuration check (maximum depth
256). -/
theorem C9_witness :
    (OctTree.build 10 sample_tree 1 none 3).2 = Res.error Fatal.max_depth ∧
      (OctTree.build 10 sample_tree 1 none 3).1 = sample_tree ∧
      (OctTree.build 10 sample_tree 1 none 256).2 = Res.error Fatal.config_depth ∧
      (OctTree.build 10 sample_tree 1 none 256).1 = sample_tree :=
  ⟨by decide!,
    C9_failed_build_leaves_the_tree_unchanged 10 sample_tree 1 none 3 Fatal.max_depth
      (by decide!),
    by decide!,
    C9_failed_build_leaves_the_tree_unchanged 10 sample_tree 1 none 256 Fatal.config_depth
      (by decide!)⟩

/-- C10 (the code departs from the claim at maximum depth 255): with a maximum
depth `dm <= 254` `tree_builder::build` terminates for every `Ncrit` and every dot
sequence: with a budget of `dm + 2` passes for every insertion it returns the
tree or ends with the depth error.  With maximum depth 255, which the
configuration check accepts, it does not terminate on two dots with a common
position and `Ncrit = 1`, nor on three such dots with `Ncrit = 2`: whatever the
budget, the build has neither stored the dots nor ended with an error when the
budget is used up.  The level of a box is a `uint8`, so the incremented level is
never greater than 255. -/
theorem C10_build_terminates_unless_maximum_depth_255 :
    (∀ (fuel : Nat) (x0 : vect) (sz : real) (p : vect) (l1 l2 l3 : Nat),
        tree_builder.build fuel (box_dot_tree.reset 1 255 2 x0 sz) [⟨p, l1⟩, ⟨p, l2⟩]
          = Res.fuel ∧
        tree_builder.build fuel (box_dot_tree.reset 2 255 3 x0 sz)
          [⟨p, l1⟩, ⟨p, l2⟩, ⟨p, l3⟩] = Res.fuel) ∧
      (∀ (fuel nc dm nl : Nat) (x0 : vect) (sz : real) (dots : List dot),
        dm ≤ 254 → dm + 2 ≤ fuel →
          (∃ TB, tree_builder.build fuel (box_dot_tree.reset nc dm nl x0 sz) dots = Res.ok TB) ∨
            tree_builder.build fuel (box_dot_tree.reset nc dm nl x0 sz) dots
              = Res.error Fatal.max_depth) := by
  refine ⟨?_, ?_⟩
  · intro fuel x0 sz p l1 l2 l3
    exact ⟨build_1_coincident fuel x0 sz p l1 l2, build_N_coincident fuel x0 sz p l1 l2 l3⟩
  · intro fuel nc dm nl x0 sz dots hd hf
    have he := build_ends fuel nc dm nl x0 sz dots hd hf
    cases hr : tree_builder.build fuel (box_dot_tree.reset nc dm nl x0 sz) dots with
    | ok TB => exact Or.inl ⟨TB, rfl⟩
    | error e =>
      rw [hr] at he
      have he : e = Fatal.max_depth := he
      rw [he]
      exact Or.inr rfl
    | fuel => rw [hr] at he; exact he.elim

/-- C10 at the five sample dots with `Ncrit = 2`, maximum depth 5 and a budget of
7 passes for every insertion. -/
theorem C10_witness :
    (∃ TB, tree_builder.build 7 (box_dot_tree.reset 2 5 5 origin (real.val 2)) sample_dots
        = Res.ok TB) ∨
      tree_builder.build 7 (box_dot_tree.reset 2 5 5 origin (real.val 2)) sample_dots
        = Res.error Fatal.max_depth :=
  C10_build_terminates_unless_maximum_depth_255.2 7 2 5 5 origin (real.val 2) sample_dots
    (by decide) (by decide)

/-- Claim C11: for a fixed root centre `x0`, root radius `sz`, `Ncrit` `nc` and
depth bound `dm`, and two orders `dots1`, `dots2` of the same dots: the build of
one order returns a tree (with some budget of passes for every insertion) iff
the build of the other order does; when the build of `dots1` has returned the
tree `TB1`, the build of `dots2` returns a tree that links to the same cell
array, in which the leaves `fcleaf .. fcleaf+number-1` of every cell hold the
same dots; with `dm <= 254` and at least `dm + 2` passes for every insertion
both builds end with the depth error, or both return and link to the same cell
array; and the dots that `setup_leaf_order` makes of the leaves of a tree built
from the bodies are the dots of `setup_from_scratch` in another order, so that
the rebuild in the prior leaf order returns when the rebuild in the order of the
body source does and links to the same cell array. -/
theorem C11_cells_do_not_depend_on_the_order_of_insertion (nc dm : Nat) (x0 : vect) (sz : real)
    (dots1 dots2 : List dot) (hperm : dots1.Perm dots2) :
    ((∃ fuel TB, tree_builder.build fuel (box_dot_tree.reset nc dm dots1.length x0 sz) dots1
          = Res.ok TB) ↔
      (∃ fuel TB, tree_builder.build fuel (box_dot_tree.reset nc dm dots2.length x0 sz) dots2
          = Res.ok TB)) ∧
    (∀ fuel1 fuel2 TB1,
      tree_builder.build fuel1 (box_dot_tree.reset nc dm dots1.length x0 sz) dots1
        = Res.ok TB1 →
      TB1.BM < fuel2 →
      ∃ TB2, tree_builder.build fuel2 (box_dot_tree.reset nc dm dots2.length x0 sz) dots2
          = Res.ok TB2 ∧
        cell_array TB2 = cell_array TB1 ∧
        ∀ cell ∈ cell_array TB1,
          List.Perm (leaf_slice (leaf_array TB2) cell.FCLEAF cell.NUMBER)
            (leaf_slice (leaf_array TB1) cell.FCLEAF cell.NUMBER)) ∧
    (dm ≤ 254 → ∀ fuel1 fuel2, dm + 2 ≤ fuel1 → dm + 2 ≤ fuel2 →
      (tree_builder.build fuel1 (box_dot_tree.reset nc dm dots1.length x0 sz) dots1
          = Res.error Fatal.max_depth ∧
        tree_builder.build fuel2 (box_dot_tree.reset nc dm dots2.length x0 sz) dots2
          = Res.error Fatal.max_depth) ∨
      ∃ TB1 TB2,
        tree_builder.build fuel1 (box_dot_tree.reset nc dm dots1.length x0 sz) dots1
          = Res.ok TB1 ∧
        tree_builder.build fuel2 (box_dot_tree.reset nc dm dots2.length x0 sz) dots2
          = Res.ok TB2 ∧
        cell_array TB2 = cell_array TB1) ∧
    (∀ (BB : bodies) (SP : Nat) (s : dot_setup) (fuel0 nc0 dm0 : Nat) (x00 : vect) (sz0 : real)
        (TB0 : box_dot_tree), setup_from_scratch BB SP = Res.ok s →
      tree_builder.build fuel0 (box_dot_tree.reset nc0 dm0 s.D.length x00 sz0) s.D
        = Res.ok TB0 →
      List.Perm (setup_leaf_order BB (leaf_array TB0)).D s.D ∧
      ∀ fuel1 fuel2 TB1,
        tree_builder.build fuel1 (box_dot_tree.reset nc dm s.D.length x0 sz) s.D = Res.ok TB1 →
        TB1.BM < fuel2 →
        ∃ TB2, tree_builder.build fuel2
            (box_dot_tree.reset nc dm (setup_leaf_order BB (leaf_array TB0)).D.length x0 sz)
            (setup_leaf_order BB (leaf_array TB0)).D = Res.ok TB2 ∧
          cell_array TB2 = cell_array TB1) := by
  have one : ∀ (d1 d2 : List dot), d1.Perm d2 → ∀ fuel1 TB1,
      tree_builder.build fuel1 (box_dot_tree.reset nc dm d1.length x0 sz) d1 = Res.ok TB1 →
      ∀ n, shallow TB1.P0 n → ∀ fuel2, n < fuel2 →
      ∃ TB2, tree_builder.build fuel2 (box_dot_tree.reset nc dm d2.length x0 sz) d2
          = Res.ok TB2 ∧ cell_array TB2 = cell_array TB1 ∧
        ∀ cell ∈ cell_array TB1,
          List.Perm (leaf_slice (leaf_array TB2) cell.FCLEAF cell.NUMBER)
            (leaf_slice (leaf_array TB1) cell.FCLEAF cell.NUMBER) := by
    intro d1 d2 hp fuel1 TB1 h1 n hsh fuel2 hn
    obtain ⟨TB2, h2⟩ := build_fits fuel1 fuel2 nc dm _ d2.length x0 sz d1 d2 hp TB1 h1 n hsh hn
    exact ⟨TB2, h2, build_same_cells fuel1 fuel2 nc dm x0 sz d1 d2 hp TB1 TB2 h1 h2⟩
  have deep : ∀ (d1 : List dot) fuel1 TB1,
      tree_builder.build fuel1 (box_dot_tree.reset nc dm d1.length x0 sz) d1 = Res.ok TB1 →
      dm ≤ 254 → shallow TB1.P0 (dm + 1) := by
    intro d1 fuel1 TB1 h1 hd
    obtain ⟨⟨_, hP, _, _⟩, _, N, O, e⟩ := build_grown fuel1 nc dm _ x0 sz d1 TB1 h1
    exact shallow_placed nc dm _ hd TB1.P0 hP 0 x0 N [] O e
  refine ⟨⟨?_, ?_⟩, ?_, ?_, ?_⟩
  · rintro ⟨fuel1, TB1, h1⟩
    obtain ⟨TB2, h2, _⟩ := one dots1 dots2 hperm fuel1 TB1 h1 _ (shallow_nboxes _) _
      (Nat.lt_succ_self _)
    exact ⟨_, TB2, h2⟩
  · rintro ⟨fuel2, TB2, h2⟩
    obtain ⟨TB1, h1, _⟩ := one dots2 dots1 hperm.symm fuel2 TB2 h2 _ (shallow_nboxes _) _
      (Nat.lt_succ_self _)
    exact ⟨_, TB1, h1⟩
  · intro fuel1 fuel2 TB1 h1 hf
    refine one dots1 dots2 hperm fuel1 TB1 h1 _ (shallow_nboxes _) fuel2 ?_
    rw [← (build_inv fuel1 nc dm _ x0 sz dots1 TB1 h1).2.2.1]
    exact hf
  · intro hd fuel1 fuel2 hf1 hf2
    have e1 := build_ends fuel1 nc dm dots1.length x0 sz dots1 hd hf1
    have e2 := build_ends fuel2 nc dm dots2.length x0 sz dots2 hd hf2
    cases h1 : tree_builder.build fuel1 (box_dot_tree.reset nc dm dots1.length x0 sz) dots1 with
    | ok TB1 =>
      obtain ⟨TB2, h2, hc, _⟩ := one dots1 dots2 hperm fuel1 TB1 h1 _
        (deep dots1 fuel1 TB1 h1 hd) fuel2 (by omega)
      exact Or.inr ⟨TB1, TB2, rfl, h2, hc⟩
    | error e =>
      rw [h1] at e1
      have e1 : e = Fatal.max_depth := e1
      subst e1
      cases h2 : tree_builder.build fuel2 (box_dot_tree.reset nc dm dots2.length x0 sz) dots2 with
      | ok TB2 =>
        obtain ⟨TB1, h3, _⟩ := one dots2 dots1 hperm.symm fuel2 TB2 h2 _
          (deep dots2 fuel2 TB2 h2 hd) fuel1 (by omega)
        rw [h1] at h3
        cases h3
      | error e =>
        rw [h2] at e2
        have e2 : e = Fatal.max_depth := e2
        subst e2
        exact Or.inl ⟨rfl, rfl⟩
      | fuel => rw [h2] at e2; exact e2.elim
    | fuel => rw [h1] at e1; exact e1.elim
  · intro BB SP s fuel0 nc0 dm0 x00 sz0 TB0 hs h0
    have hp := leaf_order_perm BB SP s fuel0 nc0 dm0 x00 sz0 TB0 hs h0
    refine ⟨hp, ?_⟩
    intro fuel1 fuel2 TB1 h1 hf
    obtain ⟨TB2, h2, hc, _⟩ := one s.D _ hp.symm fuel1 TB1 h1 _ (shallow_nboxes _) fuel2
      (by rw [← (build_inv fuel1 nc dm _ x0 sz s.D TB1 h1).2.2.1]; exact hf)
    exact ⟨TB2, h2, hc⟩

/-- The theorem of claim C11 at the four dots `crowded_dots` and their reverse,
with `Ncrit = 2`, depth bound 10 and the root cube of radius 4 about the origin:
both builds return within 12 passes for every insertion and link to the same
cell array. -/
theorem C11_witness :
    List.Perm crowded_dots crowded_dots.reverse ∧
    ∃ TB1 TB2,
      tree_builder.build 12 (box_dot_tree.reset 2 10 crowded_dots.length origin (real.val 4))
          crowded_dots = Res.ok TB1 ∧
      tree_builder.build 12
          (box_dot_tree.reset 2 10 crowded_dots.reverse.length origin (real.val 4))
          crowded_dots.reverse = Res.ok TB2 ∧
      cell_array TB2 = cell_array TB1 ∧ TB1.BM = 2 := by
  refine ⟨(List.reverse_perm _).symm, ?_⟩
  have h := (C11_cells_do_not_depend_on_the_order_of_insertion 2 10 origin (real.val 4)
    crowded_dots crowded_dots.reverse (List.reverse_perm _).symm).2.2.1 (by decide) 12 12
    (by decide) (by decide)
  have hb : (match tree_builder.build 12
      (box_dot_tree.reset 2 10 crowded_dots.length origin (real.val 4)) crowded_dots with
    | Res.ok TB => decide (TB.BM = 2)
    | _ => false) = true := by decide!
  rcases h with ⟨h1, _⟩ | ⟨TB1, TB2, h1, h2, hc⟩
  · rw [h1] at hb
    cases hb
  · rw [h1] at hb
    exact ⟨TB1, TB2, h1, h2, hc, of_decide_eq_true hb⟩

/-- C12: `reuse()` sets the position of every leaf to the current position of the
body that the leaf is linked to, sets the state and usage tags, and changes
nothing else: the cell array, the link of every leaf, the numbers of leaves and
cells, the depth, the maximum depth, the table of radii and the root centre are
as before.  For a tree that the constructor from bodies has built, with the
bodies as they were, the leaves after `reuse()` are the leaves of the build. -/
theorem C12_reuse_refreshes_the_leaf_positions_only :
    (∀ T : OctTree,
      T.reuse.CELLS = T.CELLS ∧ T.reuse.Ns = T.Ns ∧ T.reuse.Nc = T.Nc ∧
      T.reuse.DEPTH = T.DEPTH ∧ T.reuse.MAXDEPTH = T.MAXDEPTH ∧ T.reuse.RA = T.RA ∧
      T.reuse.RCENTER = T.RCENTER ∧ T.reuse.BSRCES = T.BSRCES ∧ T.reuse.SPFLAG = T.SPFLAG ∧
      T.reuse.LEAFS.length = T.LEAFS.length ∧
      (∀ (i : Nat) (L : BasicLeaf), T.LEAFS[i]? = some L →
        T.reuse.LEAFS[i]? = some { POS := T.BSRCES.pos L.LINK, LINK := L.LINK }) ∧
      T.reuse.STATE = (T.STATE &&& state_origins) ||| state_re_used ∧
      T.reuse.USAGE = usage_un_used) ∧
      (∀ (fuel : Nat) (bb : bodies) (nc : Nat) (x0 : Option vect) (dm sp : Nat) (T : OctTree),
        OctTree.from_bodies fuel bb nc x0 dm sp = Res.ok T →
          T.reuse.LEAFS = T.LEAFS ∧ T.reuse.CELLS = T.CELLS ∧ T.reuse.DEPTH = T.DEPTH) := by
  constructor
  · intro T
    refine ⟨rfl, rfl, rfl, rfl, rfl, rfl, rfl, rfl, rfl, by simp [OctTree.reuse], ?_, rfl, rfl⟩
    intro i L hL
    simp [OctTree.reuse, hL, copy_from_bodies_pos]
  · intro fuel bb nc x0 dm sp T h
    refine ⟨?_, rfl, rfl⟩
    obtain ⟨s, hs, hB, _, _, _, hcase⟩ := from_bodies_ok fuel bb nc x0 dm sp T h
    show T.LEAFS.map (copy_from_bodies_pos T.BSRCES) = T.LEAFS
    rcases hcase with ⟨_, hL, _⟩ | ⟨_, TB1, hb, hL, _⟩
    · rw [hL]; rfl
    · obtain ⟨hD, _, _, _⟩ := setup_from_scratch_ok bb sp s hs
      obtain ⟨hla, hperm⟩ := leaf_array_eq fuel nc dm _ _ s.D TB1 hb
      rw [hB]
      conv_rhs => rw [← List.map_id T.LEAFS]
      apply List.map_congr_left
      intro L hm
      rw [hL, hla] at hm
      obtain ⟨d, hd, e⟩ := List.mem_map.1 hm
      have hd := hperm.subset hd
      rw [hD] at hd
      have := used_dots_pos bb sp d hd
      rw [← e]
      simp [copy_from_bodies_pos, set_leaf, this]

/-- C12 at the tree of the two bodies `sample_bodies`. -/
theorem C12_witness :
    ∃ T, OctTree.from_bodies 10 sample_bodies 1 none 10 0 = Res.ok T ∧
      T.reuse.LEAFS = T.LEAFS ∧ T.reuse.CELLS = T.CELLS ∧ T.reuse.DEPTH = T.DEPTH := by
  have hok : (OctTree.from_bodies 10 sample_bodies 1 none 10 0).isOk = true := by decide!
  obtain ⟨T, hT⟩ := Res.isOk_elim hok
  exact ⟨T, hT, C12_reuse_refreshes_the_leaf_positions_only.2 10 sample_bodies 1 none 10 0 T hT⟩

/-- C13: when no body is used (there is no body, or no body carries the flag),
the two constructors from bodies do not end with a fatal error: the set-up of
the dots returns; the block that builds the tree, whatever the members of the
tree hold when it begins, returns without error, issues the warning
`nobody in tree` and no other, and leaves a tree with the depth 0, no cell and
no leaf; and the constructor, whose mem-initializers leave the numbers and the
depth unset, returns the tree with the depth 0, no cell and no leaf.  The
constructor with given extents is taken with a maximum depth that passes its
check. -/
theorem C13_build_without_bodies_gives_the_empty_tree (fuel : Nat) (bb : bodies) (nc : Nat)
    (x0 : Option vect) (dm sp : Nat) (xi xa : vect)
    (h : ∀ b ∈ bb.B, selected bb sp b = false) :
    (∃ s T, setup_from_scratch bb sp = Res.ok s ∧
        (∀ T0 : OctTree, ∃ T1,
          OctTree.grow_log fuel T0 (tree_builder.init x0 nc dm s) s.D
            = (T1, Res.ok (), [Warning.nobody_in_tree]) ∧
          T1.DEPTH = 0 ∧ T1.Nc = 0 ∧ T1.Ns = 0 ∧ T1.CELLS = [] ∧ T1.LEAFS = []) ∧
        OctTree.from_bodies fuel bb nc x0 dm sp = Res.ok T ∧
        T.DEPTH = 0 ∧ T.Nc = 0 ∧ T.Ns = 0 ∧ T.CELLS = [] ∧ T.LEAFS = []) ∧
      (dm < 256 → ∃ s T, setup_from_scratch_x bb xi xa sp = Res.ok s ∧
        (∀ T0 : OctTree, ∃ T1,
          OctTree.grow_log fuel T0 (tree_builder.init x0 nc dm s) s.D
            = (T1, Res.ok (), [Warning.nobody_in_tree]) ∧
          T1.DEPTH = 0 ∧ T1.Nc = 0 ∧ T1.Ns = 0 ∧ T1.CELLS = [] ∧ T1.LEAFS = []) ∧
        OctTree.from_bodies_x fuel bb xi xa nc x0 dm sp = Res.ok T ∧
        T.DEPTH = 0 ∧ T.Nc = 0 ∧ T.Ns = 0 ∧ T.CELLS = [] ∧ T.LEAFS = []) := by
  have hu : used_dots bb sp 0 bb.B = [] := used_dots_nil bb sp bb.B 0 h
  have hn : ∀ d ∈ used_dots bb sp 0 bb.B, isnan d.POS = false := by
    rw [hu]; intro d hd; cases hd
  constructor
  · obtain ⟨s, hs, hD⟩ := setup_from_scratch_returns bb sp hn
    rw [hu] at hD
    have h0 : (tree_builder.init x0 nc dm s).NDOTS = 0 := by
      simp [tree_builder.init, box_dot_tree.reset, hD]
    obtain ⟨T, hT, t1, t2, t3, t4, t5⟩ :=
      grow_empty fuel (OctTree.init bb sp) (tree_builder.init x0 nc dm s) s.D h0
    refine ⟨s, T.set_rcenter, hs,
      fun T0 => grow_log_empty fuel T0 (tree_builder.init x0 nc dm s) s.D h0, ?_,
      t1, t2, t3, t4, t5⟩
    unfold OctTree.from_bodies
    rw [hs]
    simp only
    rw [hT]
  · intro hdm
    obtain ⟨s, hs, hD⟩ := setup_from_scratch_x_returns bb xi xa sp hn
    rw [hu] at hD
    have h0 : (tree_builder.init x0 nc dm s).NDOTS = 0 := by
      simp [tree_builder.init, box_dot_tree.reset, hD]
    obtain ⟨T, hT, t1, t2, t3, t4, t5⟩ :=
      grow_empty fuel (OctTree.init bb sp) (tree_builder.init x0 nc dm s) s.D h0
    refine ⟨s, T.set_rcenter, hs,
      fun T0 => grow_log_empty fuel T0 (tree_builder.init x0 nc dm s) s.D h0, ?_,
      t1, t2, t3, t4, t5⟩
    unfold OctTree.from_bodies_x
    have hc : ¬ dm ≥ 1 <<< 8 := by
      have : (1 : Nat) <<< 8 = 256 := by decide
      omega
    rw [if_neg hc, hs]
    simp only
    rw [hT]

/-- C13 at the two bodies `flagged_bodies`, none of which carries flag 2: the
block issues the warning on the tree as the mem-initializers leave it, whose
number of leaves is not set, and the constructor returns the empty tree. -/
theorem C13_witness :
    (∀ b ∈ flagged_bodies.B, selected flagged_bodies 2 b = false) ∧
      (OctTree.init flagged_bodies 2).Ns ≠ 0 ∧
      ∃ s T1 T, setup_from_scratch flagged_bodies 2 = Res.ok s ∧
        OctTree.grow_log 0 (OctTree.init flagged_bodies 2) (tree_builder.init none 1 10 s) s.D
          = (T1, Res.ok (), [Warning.nobody_in_tree]) ∧
        OctTree.from_bodies 0 flagged_bodies 1 none 10 2 = Res.ok T ∧
        T.DEPTH = 0 ∧ T.Nc = 0 ∧ T.Ns = 0 := by
  have h : ∀ b ∈ flagged_bodies.B, selected flagged_bodies 2 b = false := by decide
  obtain ⟨s, T, hs, hw, hT, t1, t2, t3, _⟩ :=
    (C13_build_without_bodies_gives_the_empty_tree 0 flagged_bodies 1 none 10 2 origin origin h).1
  obtain ⟨T1, hT1, _⟩ := hw (OctTree.init flagged_bodies 2)
  exact ⟨h, by decide, s, T1, T, hs, hT1, hT, t1, t2, t3⟩

/-- C14 (with the depth that the code records): for every source with
exactly one body that is used, without NaN in its position, and every `Ncrit`,
the constructor from bodies makes a tree with exactly one cell (the root, with
`number = nleafs = 1` and no cell below it) and exactly one leaf (the body), and
the recorded depth is 1, the value that the linker returns for a cell without
sub-cells. -/
theorem C14_single_body_tree_has_one_cell_one_leaf_and_depth_one (fuel : Nat) (bb : bodies)
    (nc : Nat) (x0 : Option vect) (dm sp : Nat) (b : body)
    (h1 : bb.B.filter (fun b => selected bb sp b) = [b]) (hn : isnan b.POS = false) :
    ∃ T c i, OctTree.from_bodies (fuel + 1) bb nc x0 dm sp = Res.ok T ∧
      T.DEPTH = 1 ∧ T.Nc = 1 ∧ T.Ns = 1 ∧ T.CELLS = [single_cell c] ∧
      T.LEAFS = [{ POS := b.POS, LINK := i }] ∧ bb.B[i]? = some b :=
  single_body_tree fuel bb nc x0 dm sp b h1 hn

/-- C14 at the source `single_body` with `Ncrit = 4`. -/
theorem C14_witness :
    ∃ T c i, OctTree.from_bodies 1 single_body 4 none 10 0 = Res.ok T ∧
      T.DEPTH = 1 ∧ T.Nc = 1 ∧ T.Ns = 1 ∧ T.CELLS = [single_cell c] ∧
      T.LEAFS = [{ POS := ⟨real.val (1 / 4), real.val (1 / 4), real.val (1 / 4)⟩, LINK := i }] ∧
      single_body.B[i]? =
        some { POS := ⟨real.val (1 / 4), real.val (1 / 4), real.val (1 / 4)⟩, FLG := 0 } :=
  C14_single_body_tree_has_one_cell_one_leaf_and_depth_one 0 single_body 4 none 10 0
    { POS := ⟨real.val (1 / 4), real.val (1 / 4), real.val (1 / 4)⟩, FLG := 0 } rfl rfl

/-- The tree of the source `single_body` (one body, `Ncrit = 1`) has one cell and
one leaf, and its recorded depth is 1, not 0. -/
theorem C14_single_body_depth_is_not_zero :
    ∃ T, OctTree.from_bodies 1 single_body 1 none 10 0 = Res.ok T ∧
      T.Nc = 1 ∧ T.Ns = 1 ∧ T.DEPTH = 1 ∧ T.DEPTH ≠ 0 := by
  obtain ⟨T, _, _, hT, t1, t2, t3, _⟩ := single_body_tree 0 single_body 1 none 10 0
    { POS := ⟨real.val (1 / 4), real.val (1 / 4), real.val (1 / 4)⟩, FLG := 0 } rfl rfl
  exact ⟨T, hT, t2, t3, t1, by rw [t1]; decide⟩

/-- C15 (the code departs from the claim when the threshold is 1 or less): for
every tree `par` that holds the arrays made of a successfully built box-dot
tree, every flag `F` that every leaf of `par` carries, and every threshold
`Ncrit > 1` that is no larger than `number` of any cell of `par`, the
construction as sub-tree returns a tree with as many cells and leaves as `par`
and with the recorded depth of `par`.  With a threshold of 1 or less
`mark_for_subtree` takes its second branch, which flags a cell whose leaf kids
do not carry the flag as cell of the sub-tree when one of its cell kids is in
the sub-tree, but does not count it: for the tree of `four_bodies` (three cells,
the root without leaf kid), flag 1 on every leaf and threshold 1, the sub-tree
is allocated with two cells although the parent has three and the linker
stores three cells. -/
theorem C15_sub_tree_of_all_leaves_with_threshold_one_misses_a_cell :
    (∀ (fuel0 nc dm : Nat) (x0 : vect) (sz : real) (dots : List dot) (TB : box_dot_tree)
        (par : OctTree) (FLG : tree_flags) (F : Nat) (Ncrit : Int) (fuel : Nat),
      tree_builder.build fuel0 (box_dot_tree.reset nc dm dots.length x0 sz) dots = Res.ok TB →
      par.made_of TB → Ncrit > 1 → par.Nc ≤ fuel →
      (∀ i, i < par.Ns → is_set (FLG.LEAF i) F = true) →
      (∀ cell ∈ par.CELLS, Ncrit ≤ (cell.NUMBER : Int)) →
      ∃ T st FLG1, OctTree.sub_tree fuel par FLG F Ncrit = Res.ok (T, st, FLG1) ∧
        T.Nc = par.Nc ∧ T.Ns = par.Ns ∧ T.DEPTH = par.DEPTH) ∧
    (∃ par T st FLG1, OctTree.from_bodies 10 four_bodies 1 none 10 0 = Res.ok par ∧
      (∀ i, is_set (all_flagged.LEAF i) 1 = true) ∧
      (∀ cell ∈ par.CELLS, (1 : Int) ≤ (cell.NUMBER : Int)) ∧
      OctTree.sub_tree 10 par all_flagged 1 1 = Res.ok (T, st, FLG1) ∧
      par.Nc = 3 ∧ T.Nc = 2 ∧ T.Nc ≠ par.Nc ∧ T.Ns = par.Ns ∧ st.CELLS.length = 3) := by
  constructor
  · intro fuel0 nc dm x0 sz dots TB par FLG F Ncrit fuel h hp hN hf hall hcr
    exact sub_tree_same fuel0 nc dm x0 sz dots TB par FLG F Ncrit fuel h hp hN hf hall hcr
  · have h : (match OctTree.from_bodies 10 four_bodies 1 none 10 0 with
        | Res.ok par =>
            (match OctTree.sub_tree 10 par all_flagged 1 1 with
             | Res.ok (T, st, _) =>
                 decide (par.Nc = 3 ∧ T.Nc = 2 ∧ T.Nc ≠ par.Nc ∧ T.Ns = par.Ns ∧
                   st.CELLS.length = 3) &&
                 par.CELLS.all (fun cell => decide ((1 : Int) ≤ (cell.NUMBER : Int)))
             | _ => false)
        | _ => false) = true := by decide!
    split at h
    · rename_i par hpar
      split at h
      · rename_i T st FLG1 hT
        rw [Bool.and_eq_true] at h
        obtain ⟨h1, h2⟩ := h
        have h1 := of_decide_eq_true h1
        exact ⟨par, T, st, FLG1, hpar, fun _ => (show is_set 1 1 = true by decide),
          fun cell hc => of_decide_eq_true (List.all_eq_true.1 h2 cell hc), hT, h1⟩
      · cases h
    · cases h

/-- C15 with threshold 2 at the tree of `four_bodies`, every cell of which has
at least two leaves: the sub-tree has the three cells, the four leaves and the
depth 2 of the parent. -/
theorem C15_witness :
    ∃ par T st FLG1, OctTree.from_bodies 10 four_bodies 1 none 10 0 = Res.ok par ∧
      OctTree.sub_tree par.Nc par all_flagged 1 2 = Res.ok (T, st, FLG1) ∧
      T.Nc = par.Nc ∧ T.Ns = par.Ns ∧ T.DEPTH = par.DEPTH ∧ T.Nc = 3 ∧ T.Ns = 4 ∧
      T.DEPTH = 2 := by
  obtain ⟨par, c, sz, dots, TB, hpar, hb, hm, p1, p2, p3, p4⟩ := four_bodies_tree
  obtain ⟨T, st, FLG1, hT, t1, t2, t3⟩ :=
    C15_sub_tree_of_all_leaves_with_threshold_one_misses_a_cell.1 10 1 10 c sz dots TB par
      all_flagged 1 2 par.Nc hb hm (by decide) (Nat.le_refl _)
      (fun _ _ => (show is_set 1 1 = true by decide)) p4
  exact ⟨par, T, st, FLG1, hpar, hT, t1, t2, t3, by rw [t1, p1], by rw [t2, p2], by rw [t3, p3]⟩

/-- C16 (the code departs from the claim when a leaf still carries the sub-tree
flag of an earlier extraction): for every tree `par` that holds the arrays made
of a successfully built box-dot tree, every flag `F` and every threshold
`Ncrit > 1`, in every state of the flags `mark_for_subtree` returns and flags a
cell of `par` as cell of the sub-tree exactly when at least `Ncrit` of the
leaves `fcleaf .. fcleaf+number-1` of the cell, its descendant leaves, carry
`F`, and as in the sub-tree exactly when one of them does.  If no leaf enters
with the flag `SUBTREE` without carrying `F`, the construction as sub-tree
returns, every store of the linker falls inside the arrays of the sub-tree, and
(1) the linker is called for a cell of `par` (which makes it a cell of the
sub-tree) exactly when at least `Ncrit` of its descendant leaves carry `F`;
(2) the call for cell `p` with cell `C` of the sub-tree leaves in cell `C` of
the sub-tree a cell with level, octant and centre of `p`; (3) if a cell kid `pc`
of such a cell `p` has fewer than `Ncrit` leaves with `F` (it is not a cell of
the sub-tree, nor is any cell beneath it, so that `p` is the nearest cell above
them that is), then for every cell `q` that is `pc` or beneath it and every
leaf `i` of `q` that carries `F`, the copy of leaf `i` is in the leaf array of
the sub-tree at one of the `nleafs` leaves from `fcleaf` of cell `C`, its leaf
kids.  The marking counts the leaves that carry `F` and the linker copies the
leaves that carry `SUBTREE`, which the marking does not reset on a leaf: for
the tree of `four_bodies` with threshold 2, when leaf 1 carries `SUBTREE` and
not flag 1 and the other leaves carry flag 1, the leaf array of the sub-tree
has 3 entries, the linker copies leaf 1, which does not carry the flag, to leaf
1 of the sub-tree, and stores the copy of leaf 3 to leaf 3, outside the
array. -/
theorem C16_cells_are_kept_or_collapsed_unless_a_leaf_has_a_stale_flag :
    (∀ (fuel0 nc dm : Nat) (x0 : vect) (sz : real) (dots : List dot) (TB : box_dot_tree)
        (par : OctTree) (FLG : tree_flags) (F : Nat) (Ncrit : Int) (fuel : Nat),
      tree_builder.build fuel0 (box_dot_tree.reset nc dm dots.length x0 sz) dots = Res.ok TB →
      par.made_of TB → Ncrit > 1 → par.Nc ≤ fuel →
      (∃ Nsubc Nsubs FLG1,
        mark_for_subtree fuel F Ncrit par.CELLS par.Nc FLG = Res.ok (Nsubc, Nsubs, FLG1) ∧
        ∀ p cell, par.CELLS[p]? = some cell →
          (is_subtreecell (FLG1.CELL p) = true ↔
            Ncrit ≤ (sel_count FLG.LEAF F cell.FCLEAF cell.NUMBER : Int)) ∧
          (in_subtree (FLG1.CELL p) = true ↔
            sel_count FLG.LEAF F cell.FCLEAF cell.NUMBER ≠ 0)) ∧
      ((∀ j, j < par.Ns → in_subtree (FLG.LEAF j) = true → is_set (FLG.LEAF j) F = true) →
        ∃ T st FLG1, OctTree.sub_tree fuel par FLG F Ncrit = Res.ok (T, st, FLG1) ∧
          st.fits T.CELLS.length T.LEAFS.length = true ∧
          (∀ p cell, par.CELLS[p]? = some cell →
            ((∃ C, (p, C) ∈ st.CALLS) ↔
              Ncrit ≤ (sel_count FLG.LEAF F cell.FCLEAF cell.NUMBER : Int))) ∧
          (∀ p C, (p, C) ∈ st.CALLS →
            ∃ pcell cell, par.CELLS[p]? = some pcell ∧ T.CELLS[C]? = some cell ∧
              cell.LEVEL = pcell.LEVEL ∧ cell.OCTANT = pcell.OCTANT ∧
              cell.CENTER = pcell.CENTER ∧
              ∀ pc kid q i, pc ∈ child_range pcell → par.CELLS[pc]? = some kid →
                (sel_count FLG.LEAF F kid.FCLEAF kid.NUMBER : Int) < Ncrit →
                cell_beneath par.CELLS pc q → leaf_of_cell par.CELLS q i →
                is_set (FLG.LEAF i) F = true →
                ∃ m, cell.FCLEAF ≤ m ∧ m < cell.FCLEAF + cell.NLEAFS ∧
                  (m, par.LEAFS.getD i no_leaf) ∈ st.LEAFS ∧
                  T.LEAFS[m]? = some (par.LEAFS.getD i no_leaf)))) ∧
    (∃ par T st FLG1, OctTree.from_bodies 10 four_bodies 1 none 10 0 = Res.ok par ∧
      in_subtree (stale_flagged.LEAF 1) = true ∧ is_set (stale_flagged.LEAF 1) 1 = false ∧
      (∀ j, j ≠ 1 → is_set (stale_flagged.LEAF j) 1 = true) ∧
      OctTree.sub_tree 10 par stale_flagged 1 2 = Res.ok (T, st, FLG1) ∧
      par.LEAFS.length = 4 ∧ T.CELLS.length = 2 ∧ T.LEAFS.length = 3 ∧
      st.CALLS = [(2, 1), (0, 0)] ∧ st.LEAFS.map Prod.fst = [3, 2, 1, 0] ∧
      (1, par.LEAFS.getD 1 no_leaf) ∈ st.LEAFS ∧ (3, par.LEAFS.getD 3 no_leaf) ∈ st.LEAFS ∧
      st.fits T.CELLS.length T.LEAFS.length = false) := by
  constructor
  · intro fuel0 nc dm x0 sz dots TB par FLG F Ncrit fuel h hp hN hf
    exact ⟨mark_for_subtree_cells fuel0 nc dm x0 sz dots TB par FLG F Ncrit fuel h hp hN hf,
      fun hclean =>
        sub_tree_kept fuel0 nc dm x0 sz dots TB par FLG F Ncrit fuel h hp hN hf hclean⟩
  · have h : (match OctTree.from_bodies 10 four_bodies 1 none 10 0 with
        | Res.ok par =>
            (match OctTree.sub_tree 10 par stale_flagged 1 2 with
             | Res.ok (T, st, _) =>
                 decide (par.LEAFS.length = 4 ∧ T.CELLS.length = 2 ∧ T.LEAFS.length = 3 ∧
                   st.CALLS = [(2, 1), (0, 0)] ∧ st.LEAFS.map Prod.fst = [3, 2, 1, 0] ∧
                   (1, par.LEAFS.getD 1 no_leaf) ∈ st.LEAFS ∧
                   (3, par.LEAFS.getD 3 no_leaf) ∈ st.LEAFS ∧
                   st.fits T.CELLS.length T.LEAFS.length = false)
             | _ => false)
        | _ => false) = true := by decide!
    split at h
    · rename_i par hpar
      split at h
      · rename_i T st FLG1 hT
        have h1 := of_decide_eq_true h
        refine ⟨par, T, st, FLG1, hpar, by decide, by decide, ?_, hT, h1⟩
        intro j hj
        simp only [stale_flagged, if_neg hj]
        decide
      · cases h
    · cases h

/-- C16 at the tree of `four_bodies` with flag 1 on the leaves 0, 1 and 2, no
leaf flagged for a sub-tree, and threshold 2. -/
theorem C16_witness :
    ∃ par T st FLG1, OctTree.from_bodies 10 four_bodies 1 none 10 0 = Res.ok par ∧
      OctTree.sub_tree par.Nc par three_flagged 1 2 = Res.ok (T, st, FLG1) ∧
      st.fits T.CELLS.length T.LEAFS.length = true ∧
      (∀ p cell, par.CELLS[p]? = some cell →
        ((∃ C, (p, C) ∈ st.CALLS) ↔
          (2 : Int) ≤ (sel_count three_flagged.LEAF 1 cell.FCLEAF cell.NUMBER : Int))) ∧
      (∀ p C, (p, C) ∈ st.CALLS →
        ∃ pcell cell, par.CELLS[p]? = some pcell ∧ T.CELLS[C]? = some cell ∧
          cell.LEVEL = pcell.LEVEL ∧ cell.OCTANT = pcell.OCTANT ∧ cell.CENTER = pcell.CENTER ∧
          ∀ pc kid q i, pc ∈ child_range pcell → par.CELLS[pc]? = some kid →
            (sel_count three_flagged.LEAF 1 kid.FCLEAF kid.NUMBER : Int) < 2 →
            cell_beneath par.CELLS pc q → leaf_of_cell par.CELLS q i →
            is_set (three_flagged.LEAF i) 1 = true →
            ∃ m, cell.FCLEAF ≤ m ∧ m < cell.FCLEAF + cell.NLEAFS ∧
              (m, par.LEAFS.getD i no_leaf) ∈ st.LEAFS ∧
              T.LEAFS[m]? = some (par.LEAFS.getD i no_leaf)) := by
  obtain ⟨par, c, sz, dots, TB, hpar, hb, hm, _⟩ := four_bodies_tree
  have hclean : ∀ j, j < par.Ns → in_subtree (three_flagged.LEAF j) = true →
      is_set (three_flagged.LEAF j) 1 = true := by
    intro j _ hin
    exfalso
    by_cases hj : j < 3
    · simp only [three_flagged, if_pos hj] at hin
      exact absurd hin (by decide)
    · simp only [three_flagged, if_neg hj] at hin
      exact absurd hin (by decide)
  obtain ⟨T, st, FLG1, hT, t0, t1, t2⟩ :=
    (C16_cells_are_kept_or_collapsed_unless_a_leaf_has_a_stale_flag.1 10 1 10 c sz dots TB
      par three_flagged 1 2 par.Nc hb hm (by decide) (Nat.le_refl _)).2 hclean
  exact ⟨par, T, st, FLG1, hpar, hT, t0, t1, t2⟩

/-- C18 (the code departs from the claim): the root radius is positive and the
root cube encloses every dot if the first body of the source has no NaN in its
position (and the root centre, when it is given, has none).  But the extents
start from the first body whether it is used or not: for the two bodies
`nan_first_bodies`, flag 1 and the origin as root centre, the one dot is at
`(100,0,0)`, `D = 5` and the root radius is 8, so that the dot is not in the
root cube. -/
theorem C18_root_cube_misses_dots_after_an_unused_first_body_with_nan :
    (∀ (BB : bodies) (SP : Nat) (x0 : Option vect) (s : dot_setup) (q : ℚ),
      setup_from_scratch BB SP = Res.ok s → s.D ≠ [] →
      (∀ b0 rest, BB.B = b0 :: rest → isnan b0.POS = false) →
      (∀ x, x0 = some x → isnan x = false) →
      root_D s.XMIN s.XMAX (root_center x0 s.XAVE) = real.val q → 0 < q →
        real.gt (root_radius s.XMIN s.XMAX (root_center x0 s.XAVE)) zero = true ∧
          ∀ d ∈ s.D, contains (root_center x0 s.XAVE)
            (root_radius s.XMIN s.XMAX (root_center x0 s.XAVE)) d.POS = true) ∧
      (∃ s, setup_from_scratch nan_first_bodies 1 = Res.ok s ∧
        s.D = [{ POS := ⟨real.val 100, real.val 0, real.val 0⟩, LINK := 1 }] ∧
        root_D s.XMIN s.XMAX (root_center (some origin) s.XAVE) = real.val 5 ∧
        root_radius s.XMIN s.XMAX (root_center (some origin) s.XAVE) = real.val 8 ∧
        contains (root_center (some origin) s.XAVE) (real.val 8)
          ⟨real.val 100, real.val 0, real.val 0⟩ = false) := by
  refine ⟨fun BB SP x0 s q h hne hb0 hx0 hD hq => root_cube_encloses BB SP x0 s q h hne hb0 hx0 hD hq,
    ?_⟩
  have hD : root_D (⟨real.nan, real.val 0, real.val 0⟩ : vect) ⟨real.nan, real.val 0, real.val 5⟩
      origin = real.val 5 := by decide!
  refine ⟨_, rfl, by decide!, hD, ?_, by decide!⟩
  show root_radius (⟨real.nan, real.val 0, real.val 0⟩ : vect) ⟨real.nan, real.val 0, real.val 5⟩
      origin = real.val 8
  rw [root_radius_eq, hD]
  simp only [pow_two_log, int_one_plus_log2_five]
  norm_num

/-- C19 (the code departs from the claim): for `D > 0`, `root_radius` returns a
power of two `2^k > D` with `2^k <= 2 D` when `D >= 1/2`, and with
`2 D <= 2^k < 4 D` when `D < 1/2`.  This is not always the smallest power of two
that is not smaller than `D`: for `XMIN = (-1,-1,-1)`, `XMAX = (1,1,1)` about
the origin `D = 1` and the radius is `2`, not `1 = 2^0`; for
`XMIN = -(3/10,3/10,3/10)`, `XMAX = (3/10,3/10,3/10)`, `D = 3/10` and the radius
is `1`, not `1/2 = 2^(-1)`. -/
theorem C19_root_radius_is_not_the_smallest_power_of_two :
    (∀ (XMIN XMAX X : vect) (q : ℚ), root_D XMIN XMAX X = real.val q → 0 < q →
      ∃ k : ℤ, root_radius XMIN XMAX X = real.val ((2 : ℚ) ^ k) ∧ q < (2 : ℚ) ^ k ∧
        (1 / 2 ≤ q → (2 : ℚ) ^ k ≤ 2 * q) ∧
        (q < 1 / 2 → 2 * q ≤ (2 : ℚ) ^ k ∧ (2 : ℚ) ^ k < 4 * q)) ∧
      (root_D (corner (-1)) (corner 1) origin = real.val 1 ∧
        root_radius (corner (-1)) (corner 1) origin = real.val ((2 : ℚ) ^ (1 : ℤ)) ∧
        (1 : ℚ) ≤ (2 : ℚ) ^ (0 : ℤ)) ∧
      (root_D (corner (-(3 / 10))) (corner (3 / 10)) origin = real.val (3 / 10) ∧
        root_radius (corner (-(3 / 10))) (corner (3 / 10)) origin = real.val ((2 : ℚ) ^ (0 : ℤ)) ∧
        (3 / 10 : ℚ) ≤ (2 : ℚ) ^ (-1 : ℤ)) := by
  refine ⟨?_, ⟨root_D_corner 1 (by norm_num), ?_, by norm_num⟩,
    ⟨root_D_corner (3 / 10) (by norm_num), ?_, by norm_num⟩⟩
  · intro XMIN XMAX X q hD hq
    rw [root_radius_eq, hD]
    exact pow_two_log_bounds q hq
  · rw [root_radius_eq, root_D_corner 1 (by norm_num)]
    simp only [pow_two_log, int_one_plus_log2_one]
    norm_num
  · rw [root_radius_eq, root_D_corner (3 / 10) (by norm_num)]
    simp only [pow_two_log, int_one_plus_log2_small]
    norm_num

/-- C20 (the code departs from the claim in `XMIN` and `XMAX`): when
`setup_from_scratch(BB,SP)` returns, the dots are the bodies that are used, once
each and in the order of the source (the links are the numbers of these bodies,
in increasing order), `XAVE` is the mean of their positions, and
if the first body of the source is used, `XMIN` and `XMAX` are the
coordinate-wise minimum and maximum of their positions.  But `XMIN` and `XMAX`
start from the position of the first body of the source whether it is used or
not: for the two bodies `flagged_bodies` and flag 1 the only dot is at the
origin and `XMAX[0]` is 100, the coordinate of the body that is not used. -/
theorem C20_extents_start_from_the_first_body_used_or_not :
    (∀ (BB : bodies) (SP : Nat) (s : dot_setup), setup_from_scratch BB SP = Res.ok s →
      s.D = used_dots BB SP 0 BB.B ∧
      s.D.map (fun d => d.POS) = (BB.B.filter (fun b => selected BB SP b)).map (fun b => b.POS) ∧
      s.D.Pairwise (fun d e => d.LINK < e.LINK) ∧
      (∀ d ∈ s.D, ∃ b, BB.B[d.LINK]? = some b ∧ selected BB SP b = true ∧ d.POS = b.POS) ∧
      (∀ (j : Nat) (b : body), BB.B[j]? = some b → selected BB SP b = true →
        { POS := b.POS, LINK := j } ∈ s.D) ∧
      (s.D ≠ [] → ∀ k : Fin 3, ∃ qs : List ℚ, s.D.map (fun d => d.POS.get k) = qs.map real.val ∧
        s.XAVE.get k = real.val (qs.sum / s.D.length)) ∧
      (∀ b0 rest, BB.B = b0 :: rest → selected BB SP b0 = true → ∀ k : Fin 3,
        (∃ d ∈ s.D, s.XMIN.get k = d.POS.get k) ∧
        (∀ d ∈ s.D, real.le (s.XMIN.get k) (d.POS.get k) = true) ∧
        (∃ d ∈ s.D, s.XMAX.get k = d.POS.get k) ∧
        (∀ d ∈ s.D, real.le (d.POS.get k) (s.XMAX.get k) = true))) ∧
      (∃ s, setup_from_scratch flagged_bodies 1 = Res.ok s ∧
        s.D = [{ POS := origin, LINK := 1 }] ∧ s.XMAX.x0 = real.val 100) := by
  refine ⟨?_, ⟨_, rfl, by decide!, by decide!⟩⟩
  intro BB SP s h
  obtain ⟨h1, h2, h3, h4⟩ := setup_from_scratch_ok BB SP s h
  obtain ⟨u1, u2, u3, u4⟩ := used_dots_spec BB SP BB.B 0
  rw [← h1] at u1 u2 u3 u4
  refine ⟨h1, u1, u2, fun d hd => (by simpa using (u3 d hd).2),
    fun j b hj hs => (by simpa using u4 j b hj hs), ?_, ?_⟩
  · intro hne k
    obtain ⟨qs, e1, e2⟩ := pos_sum_get k s.D vect.zero 0 h4 (get_zero k)
    refine ⟨qs, e1, ?_⟩
    rw [h2, vect_div_get, e2]
    have hn : ((s.D.length : ℕ) : ℚ) ≠ 0 := by
      have : s.D.length ≠ 0 := fun e => hne (List.length_eq_zero.1 e)
      exact_mod_cast this
    simp [real_of_nat, real.div, hn]
  · intro b0 rest hB hsel k
    rw [hB] at h3
    simp only at h3
    have hd0 : ({ POS := b0.POS, LINK := 0 } : dot) ∈ s.D := by
      rw [h1, hB]
      simp [used_dots, hsel]
    obtain ⟨a, ha⟩ := isnan_get (h4 _ hd0) k
    obtain ⟨a1, b1, e1, e2, l1, l2, hall, hmin, hmax⟩ :=
      extents_get k s.D (b0.POS, b0.POS) a a h4 ha ha
    rw [← h3] at e1 e2
    simp only at e1 e2
    refine ⟨?_, ?_, ?_, ?_⟩
    · rcases hmin with e | ⟨d, hd, e⟩
      · exact ⟨_, hd0, by rw [e1, e, ha]⟩
      · exact ⟨d, hd, by rw [e1, e]⟩
    · intro d hd
      obtain ⟨q, hq, q1, _⟩ := hall d hd
      rw [e1, hq]
      exact real_le_val _ _ q1
    · rcases hmax with e | ⟨d, hd, e⟩
      · exact ⟨_, hd0, by rw [e2, e, ha]⟩
      · exact ⟨d, hd, by rw [e2, e]⟩
    · intro d hd
      obtain ⟨q, hq, _, q2⟩ := hall d hd
      rw [e2, hq]
      exact real_le_val _ _ q2

/-- Claim C21 (as amended): for every box centre `c` and position `p`,
`octant(c,p)` is the number below 8 whose bit `d` (value 1, 2, 4 for the axes 0,
1, 2) is set exactly when `p[d] > c[d]`; the comparison of two numbers is the
strict order, and it is false when one of them is NaN. -/
theorem C21_octant_bit_is_set_when_the_position_exceeds_the_centre (c p : vect) :
    (octant c p < 8 ∧ (octant c p).testBit 0 = real.gt p.x0 c.x0 ∧
      (octant c p).testBit 1 = real.gt p.x1 c.x1 ∧
      (octant c p).testBit 2 = real.gt p.x2 c.x2) ∧
    (∀ a b : ℚ, real.gt (real.val a) (real.val b) = decide (b < a)) ∧
    (∀ x : real, real.gt x real.nan = false ∧ real.gt real.nan x = false) := by
  refine ⟨octant_bits c p, fun a b => rfl, fun x => ⟨?_, ?_⟩⟩
  · cases x <;> rfl
  · cases x <;> rfl

/-- Claim C21 as stated fails where a coordinate of the position equals that of
the centre: for the position and the centre at the origin `p[d] >= c[d]` on every
axis, and the octant is 0, not 7. -/
theorem C21_octant_bit_is_not_set_at_equal_coordinates :
    real.le origin.x0 origin.x0 = true ∧ real.le origin.x1 origin.x1 = true ∧
      real.le origin.x2 origin.x2 = true ∧ octant origin origin = 0 ∧
      (octant origin origin).testBit 0 = false ∧ (octant origin origin).testBit 1 = false ∧
      (octant origin origin).testBit 2 = false := by
  decide!

/-- Claim C22: when the build of the dots `l1 ++ l2` (with `Ncrit = 1` or
`Ncrit > 1`) returns the tree `TB`, the build has, after the insertion of the
dots `l1`, a tree in which every dot in octant `b` of a box, or beneath the box
in octant `b`, has octant `b` with respect to the centre of the box; and in the
linked tree every leaf beneath a cell kid `K` of a cell `C` has the octant of
`K` with respect to the centre of `C`. -/
theorem C22_dots_are_in_the_octant_of_their_slot (fuel nc dm : Nat) (x0 : vect) (sz : real)
    (l1 l2 : List dot) (TB : box_dot_tree)
    (h : tree_builder.build fuel (box_dot_tree.reset nc dm (l1 ++ l2).length x0 sz) (l1 ++ l2)
      = Res.ok TB) :
    (∃ TB1, tree_builder.build fuel (box_dot_tree.reset nc dm (l1 ++ l2).length x0 sz) l1
        = Res.ok TB1 ∧
      ∀ (p : List (Fin 8)) (L : Nat) (c : vect) (N : Nat) (D : List dot) (O : Fin 8 → node)
        (b : Fin 8), TB1.P0.sub p = node.box L c N D O →
        ∀ d ∈ dots_of (O b), octant c d.POS = b.val) ∧
    (∀ (c : Nat) (cell : BasicCell) (k : Nat) (kc : BasicCell) (i : Nat) (leaf : BasicLeaf),
      (cell_array TB)[c]? = some cell → k ∈ child_range cell →
      (cell_array TB)[k]? = some kc → leaf_of_cell (cell_array TB) k i →
      (leaf_array TB)[i]? = some leaf → octant cell.CENTER leaf.POS = kc.OCTANT) := by
  constructor
  · obtain ⟨TB1, h1⟩ := build_prefix fuel _ l1 l2 TB h
    exact ⟨TB1, h1, fun p L c N D O b hp =>
      build_octants fuel nc dm _ x0 sz l1 TB1 h1 p L c N D O b hp⟩
  · intro c cell k kc i leaf hc hk hkc hi hL
    have hl := is_linked_after_build fuel nc dm x0 sz (l1 ++ l2) TB h
    obtain ⟨L, ctr, N, DOTS, OCT, o, cf, lf, kk, j, hin, hcell, hkk, hin2, hkc2⟩ :=
      linked_kid hl c cell hc k hk
    rw [hkc] at hkc2
    injection hkc2 with hkc2
    obtain ⟨d, hd, hleaf⟩ := linked_leaf_dot fuel nc dm x0 sz (l1 ++ l2) TB h _ _ _ _ _ hin2
      i hi leaf hL
    obtain ⟨⟨_, hP, _, _⟩, _, _⟩ := build_placed fuel nc dm _ x0 sz (l1 ++ l2) TB h
    have hPQ := in_layout_placed hin hP
    have e := (hPQ.2.2 kk).1 d hd
    have hb : (OCT kk).isBox = true := in_layout_isBox hin2
    rw [hcell, hkc2, hleaf, (root_cell_box L ctr N DOTS OCT o cf lf).2.1]
    cases hO : OCT kk with
    | null => rw [hO] at hb; cases hb
    | dot D => rw [hO] at hb; cases hb
    | box L1 c1 N1 D1 O1 =>
      rw [(root_cell_box L1 c1 N1 D1 O1 _ _ _).2.2.1, ← e]
      rfl

/-- The theorem of claim C22 at the build of `crowded_dots` with `Ncrit = 2`,
after the first two dots and at the end. -/
theorem C22_witness :
    ∃ TB TB1,
      tree_builder.build 12
          (box_dot_tree.reset 2 10 (crowded_dots.take 2 ++ crowded_dots.drop 2).length origin
            (real.val 4)) (crowded_dots.take 2 ++ crowded_dots.drop 2) = Res.ok TB ∧
      tree_builder.build 12
          (box_dot_tree.reset 2 10 (crowded_dots.take 2 ++ crowded_dots.drop 2).length origin
            (real.val 4)) (crowded_dots.take 2) = Res.ok TB1 ∧
      (∀ (p : List (Fin 8)) (L : Nat) (c : vect) (N : Nat) (D : List dot) (O : Fin 8 → node)
        (b : Fin 8), TB1.P0.sub p = node.box L c N D O →
        ∀ d ∈ dots_of (O b), octant c d.POS = b.val) ∧
      (∀ (c : Nat) (cell : BasicCell) (k : Nat) (kc : BasicCell) (i : Nat) (leaf : BasicLeaf),
        (cell_array TB)[c]? = some cell → k ∈ child_range cell →
        (cell_array TB)[k]? = some kc → leaf_of_cell (cell_array TB) k i →
        (leaf_array TB)[i]? = some leaf → octant cell.CENTER leaf.POS = kc.OCTANT) := by
  have hok : (tree_builder.build 12
      (box_dot_tree.reset 2 10 (crowded_dots.take 2 ++ crowded_dots.drop 2).length origin
        (real.val 4)) (crowded_dots.take 2 ++ crowded_dots.drop 2)).isOk = true := by
    decide!
  obtain ⟨TB, hTB⟩ := Res.isOk_elim hok
  obtain ⟨⟨TB1, h1, h2⟩, h3⟩ := C22_dots_are_in_the_octant_of_their_slot 12 2 10 origin
    (real.val 4) (crowded_dots.take 2) (crowded_dots.drop 2) TB hTB
  exact ⟨TB, TB1, hTB, h1, h2, h3⟩

/-- Claim C23: when all dots `l1 ++ l2` lie in the root cube (centre `x0`,
radius `sz = RA[0]`) and their build returns, the build has, after the
insertion of the dots `l1`, a tree in which every dot in or beneath a box lies
in the cube of the box, whose centre is the centre of the box and whose radius
is `RA[level]`.  The table `RA` of the builder holds `RA[l] = half * RA[l-1]`,
in exact arithmetic `sz / 2^l`, for the levels `l <= dm`. -/
theorem C23_dots_lie_in_the_cubes_of_their_boxes (fuel nc dm nl : Nat) (x0 : vect) (sz : real)
    (l1 l2 : List dot) (TB : box_dot_tree)
    (h : tree_builder.build fuel (box_dot_tree.reset nc dm nl x0 sz) (l1 ++ l2) = Res.ok TB)
    (hin : ∀ d ∈ l1 ++ l2, contains x0 sz d.POS = true) :
    ∃ TB1, tree_builder.build fuel (box_dot_tree.reset nc dm nl x0 sz) l1 = Res.ok TB1 ∧
      (∀ l, l ≤ dm → TB1.RA.getD l real.nan = (fun r => real.mul half r)^[l] sz ∧
        ∀ q, sz = real.val q → TB1.RA.getD l real.nan = real.val (q / 2 ^ l)) ∧
      ∀ (p : List (Fin 8)) (L : Nat) (c : vect) (N : Nat) (D : List dot) (O : Fin 8 → node),
        TB1.P0.sub p = node.box L c N D O →
        ∀ d ∈ dots_of (node.box L c N D O),
          contains c (TB1.RA.getD L real.nan) d.POS = true := by
  obtain ⟨TB1, h1⟩ := build_prefix fuel _ l1 l2 TB h
  obtain ⟨⟨hW, hP, _, _⟩, _, hRA⟩ := build_placed fuel nc dm nl x0 sz l1 TB1 h1
  obtain ⟨_, _, N0, O0, e0⟩ := build_grown fuel nc dm nl x0 sz l1 TB1 h1
  obtain ⟨_, hd1, _⟩ := build_inv fuel nc dm nl x0 sz l1 TB1 h1
  refine ⟨TB1, h1, ?_, ?_⟩
  · intro l hl
    rw [hRA]
    refine ⟨radius_get sz dm l hl, ?_⟩
    intro q hq
    rw [radius_get sz dm l hl, hq, radius_val]
  · intro p L c N D O hs d hd
    rw [hRA] at hP ⊢
    refine inside_sub nc dm sz p TB1.P0 0 x0 N0 [] O0 e0 hP ?_ L c N D O hs d hd
    intro e he
    rw [radius_get sz dm 0 (Nat.zero_le _)]
    exact hin e (List.mem_append_left _ (hd1.subset he))

/-- The theorem of claim C23 at the build of `crowded_dots` in the cube of
radius 4 about the origin with `Ncrit = 2`, after the first three dots. -/
theorem C23_witness :
    (∀ d ∈ crowded_dots.take 3 ++ crowded_dots.drop 3,
      contains origin (real.val 4) d.POS = true) ∧
    ∃ TB1, tree_builder.build 12 (box_dot_tree.reset 2 10 4 origin (real.val 4))
        (crowded_dots.take 3) = Res.ok TB1 ∧
      ∀ (p : List (Fin 8)) (L : Nat) (c : vect) (N : Nat) (D : List dot) (O : Fin 8 → node),
        TB1.P0.sub p = node.box L c N D O →
        ∀ d ∈ dots_of (node.box L c N D O),
          contains c (TB1.RA.getD L real.nan) d.POS = true := by
  have hc : ∀ d ∈ crowded_dots.take 3 ++ crowded_dots.drop 3,
      contains origin (real.val 4) d.POS = true := by decide!
  have hok : (tree_builder.build 12 (box_dot_tree.reset 2 10 4 origin (real.val 4))
      (crowded_dots.take 3 ++ crowded_dots.drop 3)).isOk = true := by decide!
  obtain ⟨TB, hTB⟩ := Res.isOk_elim hok
  obtain ⟨TB1, h1, _, h3⟩ := C23_dots_lie_in_the_cubes_of_their_boxes 12 2 10 4 origin
    (real.val 4) (crowded_dots.take 3) (crowded_dots.drop 3) TB hTB hc
  exact ⟨hc, TB1, h1, h3⟩

/-- Claim C24 (the code departs from the claim at maximum depth 255): in the
tree `T` that the block common to the entry points makes of the dots with root
centre `x0` and root radius `sz`, the radius table is that of the builder,
`RA[l] = half * RA[l-1]`, in exact arithmetic `sz / 2^l`; the root cell has
level 0 and centre `x0`; and a cell kid `K` of a cell `C` has the centre
`centre(C)[d] + r` where bit `d` of its octant is set and `centre(C)[d] - r`
where not, with `r = RA[level(K)]`, and the level `(level(C) + 1) mod 256`,
which is `level(C) + 1` when the depth bound is at most 254.  With the depth
bound 255 the level wraps: the tree of the bodies `wrap_bodies` with flag 1,
`Ncrit = 1` and the origin as root centre has 257 cells, cell 256 is the cell
kid of cell 255, which has level 255, and cell 256 has level 0, not 256. -/
theorem C24_cell_level_wraps_at_maximum_depth_255 :
    (∀ (fuel nc dm : Nat) (x0 : vect) (sz : real) (dots : List dot) (T0 T : OctTree),
      dots ≠ [] →
      OctTree.grow fuel T0 (box_dot_tree.reset nc dm dots.length x0 sz) dots
        = (T, Res.ok ()) →
      (∃ TB, tree_builder.build fuel (box_dot_tree.reset nc dm dots.length x0 sz) dots
          = Res.ok TB ∧ T.CELLS = cell_array TB ∧ T.RA = TB.RA) ∧
      (∀ l, l ≤ dm → T.RA.getD l real.nan = (fun r => real.mul half r)^[l] sz ∧
        ∀ q, sz = real.val q → T.RA.getD l real.nan = real.val (q / 2 ^ l)) ∧
      (∃ cell0, T.CELLS[0]? = some cell0 ∧ cell0.LEVEL = 0 ∧ cell0.CENTER = x0) ∧
      (∀ (c : Nat) (cell : BasicCell) (k : Nat) (kc : BasicCell),
        T.CELLS[c]? = some cell → k ∈ child_range cell → T.CELLS[k]? = some kc →
        kc.LEVEL = (cell.LEVEL + 1) % 256 ∧ (dm ≤ 254 → kc.LEVEL = cell.LEVEL + 1) ∧
        kc.LEVEL ≤ dm ∧
        kc.CENTER.x0 = (if kc.OCTANT &&& 1 ≠ 0
          then real.add cell.CENTER.x0 (T.RA.getD kc.LEVEL real.nan)
          else real.sub cell.CENTER.x0 (T.RA.getD kc.LEVEL real.nan)) ∧
        kc.CENTER.x1 = (if kc.OCTANT &&& 2 ≠ 0
          then real.add cell.CENTER.x1 (T.RA.getD kc.LEVEL real.nan)
          else real.sub cell.CENTER.x1 (T.RA.getD kc.LEVEL real.nan)) ∧
        kc.CENTER.x2 = (if kc.OCTANT &&& 4 ≠ 0
          then real.add cell.CENTER.x2 (T.RA.getD kc.LEVEL real.nan)
          else real.sub cell.CENTER.x2 (T.RA.getD kc.LEVEL real.nan)))) ∧
    (∃ T cell kc, OctTree.from_bodies 300 wrap_bodies 1 (some origin) 255 1 = Res.ok T ∧
      T.Nc = 257 ∧ T.CELLS[255]? = some cell ∧ T.CELLS[256]? = some kc ∧
      256 ∈ child_range cell ∧ cell.LEVEL = 255 ∧ kc.LEVEL = 0 ∧
      kc.LEVEL ≠ cell.LEVEL + 1) := by
  constructor
  · intro fuel nc dm x0 sz dots T0 T hne h
    obtain ⟨TB, hb, hC, _, hRA, hra⟩ := grow_radii fuel nc dm x0 sz dots T0 T hne h
    have hl := is_linked_after_build fuel nc dm x0 sz dots TB hb
    obtain ⟨_, _, N0, O0, e0⟩ := build_grown fuel nc dm _ x0 sz dots TB hb
    refine ⟨⟨TB, hb, hC, hRA⟩, ?_, ?_, ?_⟩
    · intro l hl
      rw [hRA, hra]
      refine ⟨radius_get sz dm l hl, ?_⟩
      intro q hq
      rw [radius_get sz dm l hl, hq, radius_val]
    · have h0 := is_linked_cell_at hl (in_layout.self TB.P0 0 0 1 0 hl.2.1)
      rw [e0] at h0
      obtain ⟨r1, r2, _⟩ := root_cell_box 0 x0 N0 [] O0 0 1 0
      exact ⟨_, by rw [hC]; exact h0, r1, r2⟩
    · intro c cell k kc hc hk hkc
      rw [hC] at hc hkc
      obtain ⟨hL, _, hs⟩ := linked_levels fuel nc dm x0 sz dots TB hb c cell k kc hc hk hkc
      obtain ⟨s1, s2⟩ := shrink_ok hs
      obtain ⟨c0, c1, c2⟩ := shrink_centre hs
      rw [hRA]
      exact ⟨s1, fun hd => next_level hd hL s1, s2, c0, c1, c2⟩
  · have h : (match OctTree.from_bodies 300 wrap_bodies 1 (some origin) 255 1 with
        | Res.ok T =>
            (match T.CELLS[255]?, T.CELLS[256]? with
             | some cell, some kc =>
                 decide (T.Nc = 257 ∧ 256 ∈ child_range cell ∧ cell.LEVEL = 255 ∧
                   kc.LEVEL = 0 ∧ kc.LEVEL ≠ cell.LEVEL + 1)
             | _, _ => false)
        | _ => false) = true := by decide!
    split at h
    · rename_i T hT
      split at h
      · rename_i cell kc h1 h2
        obtain ⟨a1, a2, a3, a4, a5⟩ := of_decide_eq_true h
        exact ⟨T, cell, kc, hT, a1, h1, h2, a2, a3, a4, a5⟩
      · cases h
    · cases h

/-- The theorem of claim C24 at the tree of `crowded_dots` with `Ncrit = 2`, depth
bound 10 and the root cube of radius 4 about the origin: cell 1 is a cell kid of
the root cell, its level is 1 and its centre is `(2,2,2)`. -/
theorem C24_witness :
    ∃ T cell kc,
      OctTree.grow 12 (OctTree.init sample_bodies 0)
        (box_dot_tree.reset 2 10 crowded_dots.length origin (real.val 4)) crowded_dots
        = (T, Res.ok ()) ∧
      T.CELLS[0]? = some cell ∧ T.CELLS[1]? = some kc ∧ 1 ∈ child_range cell ∧
      kc.LEVEL = cell.LEVEL + 1 ∧ kc.LEVEL = 1 ∧ kc.CENTER = corner 2 := by
  have hv : (match (OctTree.grow 12 (OctTree.init sample_bodies 0)
        (box_dot_tree.reset 2 10 crowded_dots.length origin (real.val 4)) crowded_dots) with
      | (T, Res.ok _) =>
          (match T.CELLS[0]?, T.CELLS[1]? with
           | some cell, some kc =>
               decide (1 ∈ child_range cell ∧ kc.LEVEL = 1 ∧ kc.CENTER = corner 2)
           | _, _ => false)
      | _ => false) = true := by decide!
  split at hv
  · rename_i T u hT
    split at hv
    · rename_i cell kc h0 h1
      obtain ⟨a1, a2, a3⟩ := of_decide_eq_true hv
      have hg : OctTree.grow 12 (OctTree.init sample_bodies 0)
          (box_dot_tree.reset 2 10 crowded_dots.length origin (real.val 4)) crowded_dots
          = (T, Res.ok ()) := hT
      have h := (C24_cell_level_wraps_at_maximum_depth_255.1 12 2 10 origin (real.val 4)
        crowded_dots (OctTree.init sample_bodies 0) T (by decide) hg).2.2.2 0 cell 1 kc h0 a1 h1
      exact ⟨T, cell, kc, hg, h0, h1, a1, h.2.1 (by decide), a2, a3⟩
    · cases hv
  · cases hv

/-- Claim C25: when the build of the dots `l1 ++ l2` returns the tree `TB`, the
build has, after the insertion of the dots `l1`, a tree in which every twig box
holds a dot list of `NUMBER` dots with `1 <= NUMBER <= Ncrit`; every cell of the
linked tree that is linked from a twig box has `nleafs = number <= Ncrit` and no
cell kid; and the linker writes as many leaves as dots were inserted. -/
theorem C25_twig_boxes_hold_at_most_ncrit_dots (fuel nc dm : Nat) (x0 : vect) (sz : real)
    (l1 l2 : List dot) (TB : box_dot_tree)
    (h : tree_builder.build fuel (box_dot_tree.reset nc dm (l1 ++ l2).length x0 sz) (l1 ++ l2)
      = Res.ok TB) :
    (∃ TB1, tree_builder.build fuel (box_dot_tree.reset nc dm (l1 ++ l2).length x0 sz) l1
        = Res.ok TB1 ∧
      ∀ (p : List (Fin 8)) (L : Nat) (c : vect) (N : Nat) (D : List dot) (O : Fin 8 → node),
        TB1.P0.sub p = node.box L c N D O → (node.box L c N D O).is_twig = true →
        D.length = N ∧ 1 ≤ N ∧ N ≤ nc) ∧
    (∀ (Q : node) (o C cf lf : Nat), in_layout TB.P0 0 0 1 0 Q o C cf lf →
      Q.is_twig = true →
      ∃ cell, (cell_array TB)[C]? = some cell ∧ cell.NLEAFS = cell.NUMBER ∧
        1 ≤ cell.NLEAFS ∧ cell.NLEAFS ≤ nc ∧ cell.NCELLS = 0) ∧
    (leaf_array TB).length = (l1 ++ l2).length ∧ TB.link.2.Lf = (l1 ++ l2).length ∧
    TB.link.2.LEAFS.length = (l1 ++ l2).length := by
  refine ⟨?_, ?_, ?_⟩
  · obtain ⟨TB1, h1⟩ := build_prefix fuel _ l1 l2 TB h
    obtain ⟨⟨hW, hP, _, _⟩, _, _⟩ := build_placed fuel nc dm _ x0 sz l1 TB1 h1
    refine ⟨TB1, h1, ?_⟩
    intro p L c N D O hs ht
    have hWs := WF_sub TB1.P0 p hW
    have hPs := placed_sub nc dm TB1.RA TB1.P0 p hP
    rw [hs] at hWs hPs
    exact twig_number nc dm TB1.RA L c N D O hWs hPs ht
  · intro Q o C cf lf hin ht
    have hl := is_linked_after_build fuel nc dm x0 sz (l1 ++ l2) TB h
    obtain ⟨⟨hW, hP, _, _⟩, _, _⟩ := build_placed fuel nc dm _ x0 sz (l1 ++ l2) TB h
    obtain ⟨hWQ, hPQ⟩ := in_layout_WF_placed hin hW hP
    refine ⟨_, is_linked_cell_at hl hin, ?_⟩
    cases Q with
    | null => cases ht
    | dot D => cases ht
    | box L c N D O =>
      obtain ⟨_, t2, t3⟩ := twig_number nc dm TB.RA L c N D O hWQ hPQ ht
      simp only [root_cell, ht, if_true]
      exact ⟨trivial, t2, t3, trivial⟩
  · obtain ⟨e1, e2⟩ := leaf_array_eq fuel nc dm x0 sz (l1 ++ l2) TB h
    have hlink := link_after_build fuel nc dm _ x0 sz (l1 ++ l2) TB h
    refine ⟨by rw [e1, List.length_map, e2.length_eq], ?_, ?_⟩
    · rw [hlink]
      show 0 + (link_order TB.P0).length = (l1 ++ l2).length
      rw [e2.length_eq]; omega
    · rw [hlink]
      show ((leaf_run 0 (link_order TB.P0)).reverse ++ []).length = (l1 ++ l2).length
      rw [List.append_nil, List.length_reverse, ← e2.length_eq]
      have := congrArg List.length (leaf_run_keys 0 (link_order TB.P0))
      simpa using this

/-- The theorem of claim C25 at the build of `crowded_dots` with `Ncrit = 2`:
after the first two dots the box in octant 7 of the root box is a twig box with
two dots. -/
theorem C25_witness :
    ∃ TB TB1 L c N D O,
      tree_builder.build 12
          (box_dot_tree.reset 2 10 (crowded_dots.take 2 ++ crowded_dots.drop 2).length origin
            (real.val 4)) (crowded_dots.take 2 ++ crowded_dots.drop 2) = Res.ok TB ∧
      tree_builder.build 12
          (box_dot_tree.reset 2 10 (crowded_dots.take 2 ++ crowded_dots.drop 2).length origin
            (real.val 4)) (crowded_dots.take 2) = Res.ok TB1 ∧
      TB1.P0.sub [7] = node.box L c N D O ∧ (node.box L c N D O).is_twig = true ∧
      D.length = N ∧ 1 ≤ N ∧ N ≤ 2 ∧ (leaf_array TB).length = 4 := by
  have hok : (tree_builder.build 12
      (box_dot_tree.reset 2 10 (crowded_dots.take 2 ++ crowded_dots.drop 2).length origin
        (real.val 4)) (crowded_dots.take 2 ++ crowded_dots.drop 2)).isOk = true := by
    decide!
  obtain ⟨TB, hTB⟩ := Res.isOk_elim hok
  obtain ⟨⟨TB1, h1, h2⟩, _, h4, _⟩ := C25_twig_boxes_hold_at_most_ncrit_dots 12 2 10 origin
    (real.val 4) (crowded_dots.take 2) (crowded_dots.drop 2) TB hTB
  have hv : (match tree_builder.build 12
      (box_dot_tree.reset 2 10 (crowded_dots.take 2 ++ crowded_dots.drop 2).length origin
        (real.val 4)) (crowded_dots.take 2) with
    | Res.ok T => (T.P0.sub [7]).is_twig
    | _ => false) = true := by decide!
  rw [h1] at hv
  simp only at hv
  cases hs : TB1.P0.sub [7] with
  | null => rw [hs] at hv; cases hv
  | dot E => rw [hs] at hv; cases hv
  | box L c N D O =>
    rw [hs] at hv
    obtain ⟨a1, a2, a3⟩ := h2 [7] L c N D O hs hv
    exact ⟨TB, TB1, L, c, N, D, O, hTB, h1, hs, hv, a1, a2, a3, h4⟩

/-- Claim C26: when the build of the dots `l1 ++ l2` returns the tree `TB`, the
build has, after the insertion of the dots `l1` (at least one), a tree in which
every box is either a twig (it has a dot list, and none of its octants is in
use) or a branch (it has no dot list, and at least one of its octants is in
use); and a box that is a branch then is, in `TB`, a box at the same place, with
the same level and centre, and without dot list. -/
theorem C26_a_box_is_a_twig_or_a_branch_and_a_branch_stays_one (fuel nc dm nl : Nat)
    (x0 : vect) (sz : real) (l1 l2 : List dot) (TB : box_dot_tree) (hne : l1 ≠ [])
    (h : tree_builder.build fuel (box_dot_tree.reset nc dm nl x0 sz) (l1 ++ l2) = Res.ok TB) :
    ∃ TB1, tree_builder.build fuel (box_dot_tree.reset nc dm nl x0 sz) l1 = Res.ok TB1 ∧
      (∀ (p : List (Fin 8)) (L : Nat) (c : vect) (N : Nat) (D : List dot) (O : Fin 8 → node),
        TB1.P0.sub p = node.box L c N D O →
        ((node.box L c N D O).is_twig = true ∧ D ≠ [] ∧ ∀ i, O i = node.null) ∨
        ((node.box L c N D O).is_twig = false ∧ D = [] ∧ ∃ i, O i ≠ node.null)) ∧
      (∀ (p : List (Fin 8)) (L : Nat) (c : vect) (N : Nat) (O : Fin 8 → node),
        TB1.P0.sub p = node.box L c N [] O →
        ∃ N2 O2, TB.P0.sub p = node.box L c N2 [] O2) := by
  obtain ⟨TB1, h1⟩ := build_prefix fuel _ l1 l2 TB h
  refine ⟨TB1, h1, ?_, ?_⟩
  · intro p L c N D O hs
    obtain ⟨⟨hW, _, _, _⟩, hS, _, _, _⟩ := build_grown fuel nc dm nl x0 sz l1 TB1 h1
    obtain ⟨_, hd1, _⟩ := build_inv fuel nc dm nl x0 sz l1 TB1 h1
    have hWs := WF_sub TB1.P0 p hW
    rw [hs] at hWs
    by_cases hD : D = []
    · subst hD
      refine Or.inr ⟨rfl, rfl, branch_occupied L c N O hWs ?_⟩
      cases p with
      | nil =>
        rw [sub_nil] at hs
        have hlen := hd1.length_eq
        rw [hs] at hW hlen
        have h0 := hW.1
        have : 1 ≤ l1.length := List.length_pos.2 hne
        omega
      | cons i p =>
        have := shaped_sub_number nc (i :: p) TB1.P0 hS (List.cons_ne_nil _ _) L c N [] O hs
        omega
    · refine Or.inl ⟨?_, hD, hWs.2.1 hD⟩
      cases D with
      | nil => exact absurd rfl hD
      | cons d ds => rfl
  · intro p L c N O hs
    exact stays_sub p TB1.P0 TB.P0 (build_stays fuel nc dm nl x0 sz l1 l2 TB1 TB h1 h) L c N O hs

/-- The theorem of claim C26 at the build of `crowded_dots` with `Ncrit = 2`,
after the first two dots: the root box is a branch, and the box in its octant 7
is a twig then. -/
theorem C26_witness :
    crowded_dots.take 2 ≠ [] ∧
    ∃ TB TB1,
      tree_builder.build 12 (box_dot_tree.reset 2 10 4 origin (real.val 4))
        (crowded_dots.take 2 ++ crowded_dots.drop 2) = Res.ok TB ∧
      tree_builder.build 12 (box_dot_tree.reset 2 10 4 origin (real.val 4))
        (crowded_dots.take 2) = Res.ok TB1 ∧
      (TB1.P0.sub [7]).is_twig = true ∧ (TB1.P0.sub []).is_twig = false ∧
      (∀ (p : List (Fin 8)) (L : Nat) (c : vect) (N : Nat) (D : List dot) (O : Fin 8 → node),
        TB1.P0.sub p = node.box L c N D O →
        ((node.box L c N D O).is_twig = true ∧ D ≠ [] ∧ ∀ i, O i = node.null) ∨
        ((node.box L c N D O).is_twig = false ∧ D = [] ∧ ∃ i, O i ≠ node.null)) ∧
      (∀ (p : List (Fin 8)) (L : Nat) (c : vect) (N : Nat) (O : Fin 8 → node),
        TB1.P0.sub p = node.box L c N [] O →
        ∃ N2 O2, TB.P0.sub p = node.box L c N2 [] O2) := by
  have hok : (tree_builder.build 12 (box_dot_tree.reset 2 10 4 origin (real.val 4))
      (crowded_dots.take 2 ++ crowded_dots.drop 2)).isOk = true := by decide!
  obtain ⟨TB, hTB⟩ := Res.isOk_elim hok
  have hne : crowded_dots.take 2 ≠ [] := by decide
  obtain ⟨TB1, h1, h2, h3⟩ := C26_a_box_is_a_twig_or_a_branch_and_a_branch_stays_one 12 2 10 4
    origin (real.val 4) (crowded_dots.take 2) (crowded_dots.drop 2) TB hne hTB
  have hv : (match tree_builder.build 12 (box_dot_tree.reset 2 10 4 origin (real.val 4))
      (crowded_dots.take 2) with
    | Res.ok T => (T.P0.sub [7]).is_twig && !(T.P0.sub []).is_twig
    | _ => false) = true := by decide!
  rw [h1] at hv
  simp only [Bool.and_eq_true, Bool.not_eq_true'] at hv
  exact ⟨hne, TB, TB1, hTB, h1, hv.1, hv.2, h2, h3⟩

/-- C27 (the code departs from the claim when the threshold is 1 or less, and
when leaves still carry the sub-tree flag of an earlier extraction): for every
tree `par` that holds the arrays made of a successfully built box-dot tree,
every flag `F` and every threshold `Ncrit > 1`, if no leaf of `par` enters with
the flag `SUBTREE` without carrying `F`, then `mark_for_subtree` returns counts
`Nsubc` and `Nsubs`, the construction as sub-tree returns, and when the
extraction is not empty the cell and leaf arrays of the sub-tree have `Nsubc`
and `Nsubs` entries and the linker stores to the cells `0 .. Nsubc-1` and to the
leaves `0 .. Nsubs-1`, once each.  With a threshold of 1 or less
`mark_for_subtree` takes its second branch, which flags a cell whose leaf kids
do not carry the flag as cell of the sub-tree when one of its cell kids is in
the sub-tree, but does not count it: for the tree of `four_bodies`, flag 1 on
every leaf and threshold 1, `Nsubc = 2`, the cell array has 2 entries, and the
linker stores to the cells 0, 2 and 1.  Neither branch resets the flag `SUBTREE`
of a leaf: for the same tree with threshold 2, when leaf 1 carries `SUBTREE` and
not flag 1, `Nsubs = 3`, the leaf array has 3 entries, and the linker stores to
the leaves 3, 2, 1 and 0. -/
theorem C27_sub_tree_link_writes_outside_the_arrays_with_threshold_one :
    (∀ (fuel0 nc dm : Nat) (x0 : vect) (sz : real) (dots : List dot) (TB : box_dot_tree)
        (par : OctTree) (FLG : tree_flags) (F : Nat) (Ncrit : Int) (fuel : Nat),
      tree_builder.build fuel0 (box_dot_tree.reset nc dm dots.length x0 sz) dots = Res.ok TB →
      par.made_of TB → Ncrit > 1 → par.Nc ≤ fuel →
      (∀ j, j < par.Ns → in_subtree (FLG.LEAF j) = true → is_set (FLG.LEAF j) F = true) →
      ∃ Nsubc Nsubs T st FLG1,
        mark_for_subtree fuel F Ncrit par.CELLS par.Nc FLG = Res.ok (Nsubc, Nsubs, FLG1) ∧
        OctTree.sub_tree fuel par FLG F Ncrit = Res.ok (T, st, FLG1) ∧
        (¬ (Nsubs = 0 ∨ Nsubc = 0) →
          T.CELLS.length = Nsubc ∧ T.LEAFS.length = Nsubs ∧
          List.Perm (st.CELLS.map Prod.fst) (List.range Nsubc) ∧
          List.Perm (st.LEAFS.map Prod.fst) (List.range Nsubs))) ∧
    (∃ par Nsubc Nsubs T st FLG1 FLG2,
      OctTree.from_bodies 10 four_bodies 1 none 10 0 = Res.ok par ∧
      (∀ j, in_subtree (all_flagged.LEAF j) = false) ∧
      mark_for_subtree 10 1 1 par.CELLS par.Nc all_flagged = Res.ok (Nsubc, Nsubs, FLG1) ∧
      OctTree.sub_tree 10 par all_flagged 1 1 = Res.ok (T, st, FLG2) ∧
      Nsubc = 2 ∧ Nsubs = 4 ∧ T.CELLS.length = 2 ∧ T.LEAFS.length = 4 ∧
      st.CELLS.map Prod.fst = [0, 2, 1] ∧ st.LEAFS.map Prod.fst = [3, 2, 1, 0]) ∧
    (∃ par Nsubc Nsubs T st FLG1 FLG2,
      OctTree.from_bodies 10 four_bodies 1 none 10 0 = Res.ok par ∧
      mark_for_subtree 10 1 2 par.CELLS par.Nc stale_flagged = Res.ok (Nsubc, Nsubs, FLG1) ∧
      OctTree.sub_tree 10 par stale_flagged 1 2 = Res.ok (T, st, FLG2) ∧
      Nsubc = 2 ∧ Nsubs = 3 ∧ T.CELLS.length = 2 ∧ T.LEAFS.length = 3 ∧
      st.CELLS.map Prod.fst = [0, 1] ∧ st.LEAFS.map Prod.fst = [3, 2, 1, 0]) := by
  refine ⟨?_, ?_, ?_⟩
  · intro fuel0 nc dm x0 sz dots TB par FLG F Ncrit fuel h hp hN hf hclean
    exact sub_tree_counts fuel0 nc dm x0 sz dots TB par FLG F Ncrit fuel h hp hN hf hclean
  · have h : (match OctTree.from_bodies 10 four_bodies 1 none 10 0 with
        | Res.ok par =>
            (match mark_for_subtree 10 1 1 par.CELLS par.Nc all_flagged,
                OctTree.sub_tree 10 par all_flagged 1 1 with
             | Res.ok (a, b, _), Res.ok (T, st, _) =>
                 decide (a = 2 ∧ b = 4 ∧ T.CELLS.length = 2 ∧ T.LEAFS.length = 4 ∧
                   st.CELLS.map Prod.fst = [0, 2, 1] ∧ st.LEAFS.map Prod.fst = [3, 2, 1, 0])
             | _, _ => false)
        | _ => false) = true := by decide!
    split at h
    · rename_i par hpar
      split at h
      · rename_i a b FLG1 T st FLG2 hm hT
        have h1 := of_decide_eq_true h
        exact ⟨par, a, b, T, st, FLG1, FLG2, hpar,
          fun _ => (show in_subtree 1 = false by decide), hm, hT, h1⟩
      · cases h
    · cases h
  · have h : (match OctTree.from_bodies 10 four_bodies 1 none 10 0 with
        | Res.ok par =>
            (match mark_for_subtree 10 1 2 par.CELLS par.Nc stale_flagged,
                OctTree.sub_tree 10 par stale_flagged 1 2 with
             | Res.ok (a, b, _), Res.ok (T, st, _) =>
                 decide (a = 2 ∧ b = 3 ∧ T.CELLS.length = 2 ∧ T.LEAFS.length = 3 ∧
                   st.CELLS.map Prod.fst = [0, 1] ∧ st.LEAFS.map Prod.fst = [3, 2, 1, 0])
             | _, _ => false)
        | _ => false) = true := by decide!
    split at h
    · rename_i par hpar
      split at h
      · rename_i a b FLG1 T st FLG2 hm hT
        have h1 := of_decide_eq_true h
        exact ⟨par, a, b, T, st, FLG1, FLG2, hpar, hm, hT, h1⟩
      · cases h
    · cases h

/-- C27 with threshold 2 at the tree of `four_bodies` with flag 1 on every leaf
and no leaf flagged for a sub-tree: the extraction is not empty, the arrays of
the sub-tree have 3 cells and 4 leaves, and the linker stores to the cells
0, 1, 2 and to the leaves 0, 1, 2, 3, once each. -/
theorem C27_witness :
    ∃ par T st FLG1, OctTree.from_bodies 10 four_bodies 1 none 10 0 = Res.ok par ∧
      OctTree.sub_tree par.Nc par all_flagged 1 2 = Res.ok (T, st, FLG1) ∧
      T.CELLS.length = 3 ∧ T.LEAFS.length = 4 ∧
      List.Perm (st.CELLS.map Prod.fst) (List.range 3) ∧
      List.Perm (st.LEAFS.map Prod.fst) (List.range 4) := by
  have h : (match OctTree.from_bodies 10 four_bodies 1 none 10 0 with
      | Res.ok par =>
          (match mark_for_subtree par.Nc 1 2 par.CELLS par.Nc all_flagged with
           | Res.ok (a, b, _) => decide (a = 3 ∧ b = 4 ∧ par.Ns = 4)
           | _ => false)
      | _ => false) = true := by decide!
  split at h
  · rename_i par hpar
    split at h
    · rename_i a b FLG0 hm0
      obtain ⟨ha, hb, hNs⟩ := of_decide_eq_true h
      obtain ⟨c, sz, dots, TB, hbuild, hmade⟩ :=
        from_bodies_made_of 10 four_bodies 1 none 10 0 par hpar (by rw [hNs]; decide)
      obtain ⟨Nsubc, Nsubs, T, st, FLG1, hm, hT, hw⟩ :=
        C27_sub_tree_link_writes_outside_the_arrays_with_threshold_one.1 10 1 10 c sz dots TB par
          all_flagged 1 2 par.Nc hbuild hmade (by decide) (Nat.le_refl _)
          (fun _ _ hin => absurd hin (show ¬ in_subtree 1 = true by decide))
      rw [hm0] at hm
      injection hm with hm
      injection hm with e1 hm
      injection hm with e2 _
      rw [← e1, ← e2, ha, hb] at hw
      exact ⟨par, T, st, FLG1, hpar, hT, hw (by decide)⟩
    · cases h
  · cases h

/-- Claim C28: for every box-dot tree `P` without a twig box (no box has a dot
list), `link_cells_1` and `link_cells_N`, started for `P` as octant `o` with
cell `C` and the same arrays and next free cell and leaf, return the same depth
and make the same stores to the cell array and to the leaf array. -/
theorem C28_both_linkers_agree_on_trees_without_twigs (P : node) (h : no_twig P)
    (o C : Nat) (st : link_state) :
    (link_cells_1 P o C st).1 = (link_cells_N P o C st).1 ∧
      (link_cells_1 P o C st).2.CELLS = (link_cells_N P o C st).2.CELLS ∧
      (link_cells_1 P o C st).2.LEAFS = (link_cells_N P o C st).2.LEAFS ∧
      link_cells_1 P o C st = link_cells_N P o C st := by
  have e := link_cells_1_eq_N P h o C st
  rw [e]
  exact ⟨rfl, rfl, rfl, rfl⟩

/-- The theorem of claim C28 at the root box of `scenario_dots`, which holds four
dots in its octants and no dot list. -/
theorem C28_witness :
    no_twig (node.box 0 origin 4 [] scenario_octs) ∧
    link_cells_1 (node.box 0 origin 4 [] scenario_octs) 0 0
        { CELLS := [], LEAFS := [], Cf := 1, Lf := 0 }
      = link_cells_N (node.box 0 origin 4 [] scenario_octs) 0 0
        { CELLS := [], LEAFS := [], Cf := 1, Lf := 0 } ∧
    (link_cells_1 (node.box 0 origin 4 [] scenario_octs) 0 0
        { CELLS := [], LEAFS := [], Cf := 1, Lf := 0 }).1 = 1 :=
  ⟨scenario_no_twig,
    (C28_both_linkers_agree_on_trees_without_twigs _ scenario_no_twig 0 0 _).2.2.2, rfl⟩

/-- Claim C29 (the code departs from the claim for negative means): without a
given root centre the root centre is `Integer(XAVE)`, and `Integer(x)[d]` is
`int(x[d]+half)`.  For `x[d] >= -1/2` this is an integer within `1/2` of `x[d]`,
a nearest one.  But the conversion to `int` drops the fractional part, towards
zero: for the one body `low_body` at `(-7/5,0,0)` the mean is `(-7/5,0,0)` and the
root centre is the origin, although `-1` is the integer nearest to `-7/5`. -/
theorem C29_derived_root_centre_is_not_the_nearest_integer_for_negative_means :
    (∀ XAVE : vect, root_center none XAVE = Integer XAVE ∧
      (Integer XAVE).x0 = real.trunc (real.add XAVE.x0 half) ∧
      (Integer XAVE).x1 = real.trunc (real.add XAVE.x1 half) ∧
      (Integer XAVE).x2 = real.trunc (real.add XAVE.x2 half)) ∧
    (∀ q : ℚ, -(1 / 2) ≤ q →
      ∃ n : ℤ, real.trunc (real.add (real.val q) half) = real.val n ∧ |q - n| ≤ 1 / 2) ∧
    (∃ s, setup_from_scratch low_body 0 = Res.ok s ∧
      s.XAVE = ⟨real.val (-(7 / 5)), real.val 0, real.val 0⟩ ∧
      root_center none s.XAVE = origin ∧
      |(-(7 / 5) : ℚ) - ((-1 : ℤ) : ℚ)| < |(-(7 / 5) : ℚ) - ((0 : ℤ) : ℚ)|) := by
  refine ⟨fun XAVE => ⟨rfl, rfl, rfl, rfl⟩, trunc_nearest, ⟨_, rfl, by decide!, by decide!, ?_⟩⟩
  norm_num [abs_of_neg, abs_of_pos]

/-- Claim C30 (as amended): the set-up of the four bodies `scenario_bodies`
gives the dots `scenario_dots`; the root centre is the origin, whether it is
given or derived from the mean; and for every depth bound, root radius and
budget of at least one pass, the build with `Ncrit = 1` about the origin returns
a tree whose root box has exactly four octants in use, 0, 1, 2 and 7, each of
them holding a dot, and no sub-box, so that the tree is linked to one cell with
four leaf kids and no cell kid. -/
theorem C30_root_box_of_the_four_bodies_has_four_octants_with_a_leaf :
    ∃ s, setup_from_scratch scenario_bodies 0 = Res.ok s ∧ s.D = scenario_dots ∧
      root_center (some origin) s.XAVE = origin ∧ root_center none s.XAVE = origin ∧
      ∀ (fuel dm : Nat) (sz : real),
        ∃ TB, tree_builder.build (fuel + 1)
            (box_dot_tree.reset 1 dm s.D.length origin sz) s.D = Res.ok TB ∧
          occupied TB.P0 = [0, 1, 2, 7] ∧ with_dot TB.P0 = [0, 1, 2, 7] ∧ TB.BM = 1 ∧
          cell_array TB =
            [{ LEVEL := 0, OCTANT := 0, CENTER := origin, NUMBER := 4, FCLEAF := 0, NLEAFS := 4,
               FCCELL := -1, NCELLS := 0 }] := by
  refine ⟨_, rfl, rfl, rfl, by decide!, ?_⟩
  intro fuel dm sz
  exact ⟨_, scenario_build fuel dm 4 sz, scenario_occupied.1, scenario_occupied.2, rfl,
    scenario_cells dm 4 sz⟩

/-- Claim C30 as stated fails: the root box of the tree of the four bodies,
built with `Ncrit = 1` about the origin (root radius 2, depth bound 10), has four
octants in use, not three, and all four hold a dot, not two. -/
theorem C30_root_box_has_four_occupied_octants_not_three :
    ∃ TB, tree_builder.build 10 (box_dot_tree.reset 1 10 4 origin (real.val 2)) scenario_dots
        = Res.ok TB ∧
      (occupied TB.P0).length = 4 ∧ (occupied TB.P0).length ≠ 3 ∧
      (with_dot TB.P0).length = 4 ∧ (with_dot TB.P0).length ≠ 2 :=
  ⟨_, scenario_build 9 10 4 (real.val 2), by rw [scenario_occupied.1]; rfl,
    by rw [scenario_occupied.1]; decide, by rw [scenario_occupied.2]; rfl,
    by rw [scenario_occupied.2]; decide⟩

end falcON
